import Mathlib

/-!
# AVL multiset (`src/multiset.c`): shallow embedding and verification

The C program keeps its tree in heap-allocated `struct node` records linked by
`parent`, `left` and `right` pointers.  The embedding keeps that shape:

* a pointer is an `Option Nat` (`none` is `NULL`, `some a` is the address `a`);
* the memory is a list of cells, cell `a` holding `some n` when a node is allocated at
  address `a` and `none` otherwise (addresses past the end of the list are unallocated);
* every C function becomes a function on the container state returning `Option`: the
  result is `none` when the C function would dereference an unallocated pointer, or when a
  loop does not finish within its bound (the number of cells of the memory, plus one);
* the C `int` fields `count`, `balance` and `size` are integers. The functions named as in
  the source count in mathematical integers; `multiset_put32`, `multiset_remove32` and
  `multiset_remove_all32` are the same functions with every `++`, `--` and `-=` on `count`
  and `size` in 32-bit two's-complement arithmetic, and the two agree as long as no counter
  leaves the range of `int`;
* a key blob (`void *key` and the bytes it points to) is a value of an arbitrary type `K`,
  stored in the node; the comparator is a function `K → K → Int`.
-/

/-- Sequencing of two steps of a computation that may fail: the second step runs on the result
of the first, unless the first failed. -/
@[noinline]
def Option.andThen {α β : Type} (x : Option α) (f : α → Option β) : Option β :=
  match x with
  | none => none
  | some a => f a

namespace Containers

/-! ## Data model -/

/-- The record `struct node` of `multiset.c`; `key` is the key blob itself. -/
structure node (K : Type) where
  count : Int
  parent : Option Nat
  balance : Int
  key : K
  left : Option Nat
  right : Option Nat
deriving DecidableEq

/-- The record `struct internal_multiset` together with the memory its nodes live in.
`repairs` is a ghost field: `multiset_repair` appends the pair (balance of `parent`,
balance of `child`) it was called with; no code reads it. -/
structure internal_multiset (K : Type) where
  key_size : Nat
  comparator : K → K → Int
  size : Int
  root : Option Nat
  mem : List (Option (node K))
  repairs : List (Int × Int)

/-- The value of `errno.h`'s `ENOMEM`. -/
def ENOMEM : Int := 12

/-- Content of the memory cell at address `p` (`none`: nothing allocated there). -/
def rd {K : Type} (h : List (Option (node K))) (p : Nat) : Option (node K) :=
  (h.get? p).join

/-- Memory `h` with cell `p` replaced by `v`. -/
def upd {K : Type} (h : List (Option (node K))) (p : Nat) (v : Option (node K)) :
    List (Option (node K)) :=
  if p < h.length then h.set p v else h ++ List.replicate (p - h.length) none ++ [v]

/-- A write `p->field = ...` through pointer `p`: fails when `p` is not an allocated node. -/
def wr {K : Type} (me : internal_multiset K) (p : Nat) (f : node K → node K) :
    Option (internal_multiset K) :=
  match rd me.mem p with
  | none => none
  | some n => some { me with mem := upd me.mem p (some (f n)) }

/-- A guarded write `if (p) p->field = ...`. -/
def wr_if {K : Type} (me : internal_multiset K) (p : Option Nat) (f : node K → node K) :
    Option (internal_multiset K) :=
  match p with
  | none => some me
  | some g => wr me g f

/-! ## The functions of `multiset.c` -/

/-- The function `multiset_init`; `malloc_ok` tells whether the allocation succeeds. The
comparator argument is `none` for a `NULL` function pointer. -/
def multiset_init {K : Type} (key_size : Nat) (comparator : Option (K → K → Int))
    (malloc_ok : Bool) : Option (internal_multiset K) :=
  match comparator with
  | none => none
  | some cmp =>
    if key_size = 0 then none
    else if malloc_ok then
      some { key_size := key_size, comparator := cmp, size := 0, root := none, mem := [],
             repairs := [] }
    else none

/-- The function `multiset_size`. -/
def multiset_size {K : Type} (me : internal_multiset K) : Int := me.size

/-- The function `multiset_is_empty`. -/
def multiset_is_empty {K : Type} (me : internal_multiset K) : Int :=
  if multiset_size me = 0 then 1 else 0

/-- The function `multiset_reference_parent`. -/
def multiset_reference_parent {K : Type} (me : internal_multiset K) (parent child : Nat) :
    Option (internal_multiset K) :=
  (rd me.mem parent).andThen fun p =>
  (wr me child fun (c : node K) => { c with parent := p.parent }).andThen fun me =>
  (rd me.mem parent).andThen fun p =>
  match p.parent with
  | none => some { me with root := some child }
  | some g =>
    (rd me.mem g).andThen fun gn =>
    if gn.left = some parent then wr me g fun (n : node K) => { n with left := some child }
    else wr me g fun (n : node K) => { n with right := some child }

/-- The function `multiset_rotate_left`. -/
def multiset_rotate_left {K : Type} (me : internal_multiset K) (parent child : Nat) :
    Option (internal_multiset K) :=
  (multiset_reference_parent me parent child).andThen fun me =>
  (rd me.mem child).andThen fun c =>
  let grand_child := c.left
  (wr_if me grand_child fun (n : node K) => { n with parent := some parent }).andThen
  fun me =>
  (wr me parent fun (n : node K) => { n with parent := some child }).andThen fun me =>
  (wr me parent fun (n : node K) => { n with right := grand_child }).andThen fun me =>
  wr me child fun (n : node K) => { n with left := some parent }

/-- The function `multiset_rotate_right`. -/
def multiset_rotate_right {K : Type} (me : internal_multiset K) (parent child : Nat) :
    Option (internal_multiset K) :=
  (multiset_reference_parent me parent child).andThen fun me =>
  (rd me.mem child).andThen fun c =>
  let grand_child := c.right
  (wr_if me grand_child fun (n : node K) => { n with parent := some parent }).andThen
  fun me =>
  (wr me parent fun (n : node K) => { n with parent := some child }).andThen fun me =>
  (wr me parent fun (n : node K) => { n with left := grand_child }).andThen fun me =>
  wr me child fun (n : node K) => { n with right := some parent }

/-- The function `multiset_repair_left`; the result is the returned pointer and the state. -/
def multiset_repair_left {K : Type} (me : internal_multiset K) (parent child : Nat) :
    Option (Nat × internal_multiset K) :=
  (multiset_rotate_left me parent child).andThen fun me =>
  (rd me.mem child).andThen fun c =>
  (if c.balance = 0 then
    (wr me parent fun (n : node K) => { n with balance := 1 }).andThen fun me =>
    wr me child fun (n : node K) => { n with balance := -1 }
   else
    (wr me parent fun (n : node K) => { n with balance := 0 }).andThen fun me =>
    wr me child fun (n : node K) => { n with balance := 0 }).andThen fun me =>
  some (child, me)

/-- The function `multiset_repair_right`. -/
def multiset_repair_right {K : Type} (me : internal_multiset K) (parent child : Nat) :
    Option (Nat × internal_multiset K) :=
  (multiset_rotate_right me parent child).andThen fun me =>
  (rd me.mem child).andThen fun c =>
  (if c.balance = 0 then
    (wr me parent fun (n : node K) => { n with balance := -1 }).andThen fun me =>
    wr me child fun (n : node K) => { n with balance := 1 }
   else
    (wr me parent fun (n : node K) => { n with balance := 0 }).andThen fun me =>
    wr me child fun (n : node K) => { n with balance := 0 }).andThen fun me =>
  some (child, me)

/-- The function `multiset_repair_left_right`. -/
def multiset_repair_left_right {K : Type} (me : internal_multiset K)
    (parent child grand_child : Nat) : Option (Nat × internal_multiset K) :=
  (multiset_rotate_left me child grand_child).andThen fun me =>
  (multiset_rotate_right me parent grand_child).andThen fun me =>
  (rd me.mem grand_child).andThen fun g =>
  (if g.balance = 1 then
    (wr me parent fun (n : node K) => { n with balance := 0 }).andThen fun me =>
    wr me child fun (n : node K) => { n with balance := -1 }
   else if g.balance = 0 then
    (wr me parent fun (n : node K) => { n with balance := 0 }).andThen fun me =>
    wr me child fun (n : node K) => { n with balance := 0 }
   else
    (wr me parent fun (n : node K) => { n with balance := 1 }).andThen fun me =>
    wr me child fun (n : node K) => { n with balance := 0 }).andThen fun me =>
  (wr me grand_child fun (n : node K) => { n with balance := 0 }).andThen fun me =>
  some (grand_child, me)

/-- The function `multiset_repair_right_left`. -/
def multiset_repair_right_left {K : Type} (me : internal_multiset K)
    (parent child grand_child : Nat) : Option (Nat × internal_multiset K) :=
  (multiset_rotate_right me child grand_child).andThen fun me =>
  (multiset_rotate_left me parent grand_child).andThen fun me =>
  (rd me.mem grand_child).andThen fun g =>
  (if g.balance = 1 then
    (wr me parent fun (n : node K) => { n with balance := -1 }).andThen fun me =>
    wr me child fun (n : node K) => { n with balance := 0 }
   else if g.balance = 0 then
    (wr me parent fun (n : node K) => { n with balance := 0 }).andThen fun me =>
    wr me child fun (n : node K) => { n with balance := 0 }
   else
    (wr me parent fun (n : node K) => { n with balance := 0 }).andThen fun me =>
    wr me child fun (n : node K) => { n with balance := 1 }).andThen fun me =>
  (wr me grand_child fun (n : node K) => { n with balance := 0 }).andThen fun me =>
  some (grand_child, me)

/-- The function `multiset_repair`. `grand_child` may be `NULL`; it is dereferenced only by
the two double rotations. The first two lines record the call in the ghost field. -/
def multiset_repair {K : Type} (me : internal_multiset K) (parent child : Nat)
    (grand_child : Option Nat) : Option (Nat × internal_multiset K) :=
  (rd me.mem parent).andThen fun p =>
  (rd me.mem child).andThen fun c =>
  let me := { me with repairs := me.repairs ++ [(p.balance, c.balance)] }
  if p.balance = 2 then
    if c.balance = -1 then
      grand_child.andThen fun g => multiset_repair_right_left me parent child g
    else multiset_repair_left me parent child
  else if c.balance = 1 then
    grand_child.andThen fun g => multiset_repair_left_right me parent child g
  else multiset_repair_right me parent child

/-- The loop of `multiset_insert_balance`, run for at most the given number of rounds. -/
def multiset_insert_balance_loop {K : Type} :
    Nat → internal_multiset K → Option Nat → Nat → Option Nat → Option (internal_multiset K)
  | _, me, _, _, none => some me
  | 0, _, _, _, some _ => none
  | fuel + 1, me, grand_child, child, some parent =>
    (rd me.mem parent).andThen fun p =>
    (if p.left = some child then wr me parent fun (n : node K) => { n with balance := n.balance - 1 }
     else wr me parent fun (n : node K) => { n with balance := n.balance + 1 }).andThen fun me =>
    (rd me.mem parent).andThen fun p =>
    if p.balance = 0 then some me
    else if p.balance > 1 ∨ p.balance < -1 then
      (multiset_repair me parent child grand_child).andThen fun r => some r.2
    else multiset_insert_balance_loop fuel me (some child) parent p.parent

/-- The function `multiset_insert_balance`. -/
def multiset_insert_balance {K : Type} (me : internal_multiset K) (item : Nat) :
    Option (internal_multiset K) :=
  (rd me.mem item).andThen fun it =>
  multiset_insert_balance_loop (me.mem.length + 1) me none item it.parent

/-- The function `multiset_create_node`. `node_ok` and `key_ok` tell whether the
allocation of the node and of its key blob succeed. The node is placed at the first address
past the memory in use. When the key allocation fails the node block is released again, so
the memory holds the same nodes as before. The statement `me->size++` is computed on
mathematical integers, which is the increment of the `int` while `size` is below `INT_MAX`;
`multiset_create_node32` is the function with the increment in 32-bit arithmetic. -/
def multiset_create_node {K : Type} (me : internal_multiset K) (data : K)
    (parent : Option Nat) (node_ok key_ok : Bool) : Option Nat × internal_multiset K :=
  if node_ok then
    if key_ok then
      let insert := me.mem.length
      (some insert,
       { me with
         mem := upd me.mem insert
           (some { count := 1, parent := parent, balance := 0, key := data,
                   left := none, right := none })
         size := me.size + 1 })
    else (none, me)
  else (none, me)

/-- The descent loop of `multiset_put`, run for at most the given number of rounds. The
statements `traverse->count++` and `me->size++` are computed on mathematical integers, which
is the increment of the `int` while the field is below `INT_MAX`; `multiset_put_loop32` is
the loop with both increments in 32-bit arithmetic. -/
def multiset_put_loop {K : Type} (key : K) (node_ok key_ok : Bool) :
    Nat → internal_multiset K → Nat → Option (Int × internal_multiset K)
  | 0, _, _ => none
  | fuel + 1, me, traverse =>
    (rd me.mem traverse).andThen fun t =>
    let compare := me.comparator key t.key
    if compare < 0 then
      match t.left with
      | some l => multiset_put_loop key node_ok key_ok fuel me l
      | none =>
        match multiset_create_node me key (some traverse) node_ok key_ok with
        | (none, me) => some (-ENOMEM, me)
        | (some insert, me) =>
          (wr me traverse fun (n : node K) => { n with left := some insert }).andThen fun me =>
          (multiset_insert_balance me insert).andThen fun me => some (0, me)
    else if compare > 0 then
      match t.right with
      | some r => multiset_put_loop key node_ok key_ok fuel me r
      | none =>
        match multiset_create_node me key (some traverse) node_ok key_ok with
        | (none, me) => some (-ENOMEM, me)
        | (some insert, me) =>
          (wr me traverse fun (n : node K) => { n with right := some insert }).andThen fun me =>
          (multiset_insert_balance me insert).andThen fun me => some (0, me)
    else
      (wr me traverse fun (n : node K) => { n with count := n.count + 1 }).andThen fun me =>
      some (0, { me with size := me.size + 1 })

/-- The function `multiset_put`: the returned `int` and the state after the call, the
counters `count` and `size` being mathematical integers (`multiset_put32` has them in 32-bit
arithmetic). -/
def multiset_put {K : Type} (me : internal_multiset K) (key : K) (node_ok key_ok : Bool) :
    Option (Int × internal_multiset K) :=
  match me.root with
  | none =>
    match multiset_create_node me key none node_ok key_ok with
    | (none, me) => some (-ENOMEM, me)
    | (some insert, me) => some (0, { me with root := some insert })
  | some root => multiset_put_loop key node_ok key_ok (me.mem.length + 1) me root

/-- The loop of `multiset_equal_match`, run for at most the given number of rounds. -/
def multiset_equal_match_loop {K : Type} (me : internal_multiset K) (key : K) :
    Nat → Nat → Option (Option Nat)
  | 0, _ => none
  | fuel + 1, traverse =>
    (rd me.mem traverse).andThen fun t =>
    let compare := me.comparator key t.key
    if compare < 0 then
      match t.left with
      | some l => multiset_equal_match_loop me key fuel l
      | none => some none
    else if compare > 0 then
      match t.right with
      | some r => multiset_equal_match_loop me key fuel r
      | none => some none
    else some (some traverse)

/-- The function `multiset_equal_match`: the returned pointer (`none` is `NULL`). -/
def multiset_equal_match {K : Type} (me : internal_multiset K) (key : K) :
    Option (Option Nat) :=
  match me.root with
  | none => some none
  | some root => multiset_equal_match_loop me key (me.mem.length + 1) root

/-- The function `multiset_count`. -/
def multiset_count {K : Type} (me : internal_multiset K) (key : K) : Option Int :=
  (multiset_equal_match me key).andThen fun item =>
  match item with
  | none => some 0
  | some i => (rd me.mem i).andThen fun n => some n.count

/-- The function `multiset_contains`. -/
def multiset_contains {K : Type} (me : internal_multiset K) (key : K) : Option Int :=
  (multiset_equal_match me key).andThen fun item =>
  match item with
  | none => some 0
  | some _ => some 1

/-- The function `multiset_repair_pivot`. -/
def multiset_repair_pivot {K : Type} (me : internal_multiset K) (item : Nat)
    (is_left_pivot : Bool) : Option (Nat × internal_multiset K) :=
  (rd me.mem item).andThen fun it =>
  (if is_left_pivot then it.right else it.left).andThen fun child =>
  (rd me.mem child).andThen fun c =>
  let grand_child := if c.balance = 1 then c.right else c.left
  multiset_repair me item child grand_child

/-- The loop of `multiset_trace_ancestors`, run for at most the given number of rounds. -/
def multiset_trace_ancestors_loop {K : Type} :
    Nat → internal_multiset K → Nat → Option Nat → Option (internal_multiset K)
  | _, me, _, none => some me
  | 0, _, _, some _ => none
  | fuel + 1, me, child, some parent =>
    (rd me.mem parent).andThen fun p =>
    (if p.left = some child then wr me parent fun (n : node K) => { n with balance := n.balance + 1 }
     else wr me parent fun (n : node K) => { n with balance := n.balance - 1 }).andThen fun me =>
    (rd me.mem parent).andThen fun p =>
    if p.balance = -1 ∨ p.balance = 1 then some me
    else if p.balance > 1 ∨ p.balance < -1 then
      (multiset_repair_pivot me parent (decide (p.left = some child))).andThen fun r =>
      let child := r.1
      let me := r.2
      (rd me.mem child).andThen fun c =>
      let parent := c.parent
      if parent = none ∨ c.balance = -1 ∨ c.balance = 1 then some me
      else multiset_trace_ancestors_loop fuel me child parent
    else multiset_trace_ancestors_loop fuel me parent p.parent

/-- The function `multiset_trace_ancestors`. -/
def multiset_trace_ancestors {K : Type} (me : internal_multiset K) (item : Nat) :
    Option (internal_multiset K) :=
  (rd me.mem item).andThen fun it =>
  multiset_trace_ancestors_loop (me.mem.length + 1) me item it.parent

/-- The function `multiset_delete_balance`. -/
def multiset_delete_balance {K : Type} (me : internal_multiset K) (item : Nat)
    (is_left_deleted : Bool) : Option (internal_multiset K) :=
  (if is_left_deleted then wr me item fun (n : node K) => { n with balance := n.balance + 1 }
   else wr me item fun (n : node K) => { n with balance := n.balance - 1 }).andThen fun me =>
  (rd me.mem item).andThen fun it =>
  if it.balance = -1 ∨ it.balance = 1 then some me
  else if it.balance > 1 ∨ it.balance < -1 then
    (multiset_repair_pivot me item is_left_deleted).andThen fun r =>
    let item := r.1
    let me := r.2
    (rd me.mem item).andThen fun it =>
    if it.parent = none ∨ it.balance = -1 ∨ it.balance = 1 then some me
    else multiset_trace_ancestors me item
  else multiset_trace_ancestors me item

/-- The function `multiset_remove_no_children`. -/
def multiset_remove_no_children {K : Type} (me : internal_multiset K) (traverse : Nat) :
    Option (internal_multiset K) :=
  (rd me.mem traverse).andThen fun t =>
  match t.parent with
  | none => some { me with root := none }
  | some parent =>
    (rd me.mem parent).andThen fun p =>
    if p.left = some traverse then
      (wr me parent fun (n : node K) => { n with left := none }).andThen fun me =>
      multiset_delete_balance me parent true
    else
      (wr me parent fun (n : node K) => { n with right := none }).andThen fun me =>
      multiset_delete_balance me parent false

/-- The function `multiset_remove_one_child`. -/
def multiset_remove_one_child {K : Type} (me : internal_multiset K) (traverse : Nat) :
    Option (internal_multiset K) :=
  (rd me.mem traverse).andThen fun t =>
  match t.parent with
  | none =>
    match t.left with
    | some l =>
      (wr me l fun (n : node K) => { n with parent := none }).andThen fun me =>
      (rd me.mem traverse).andThen fun t => some { me with root := t.left }
    | none =>
      t.right.andThen fun r =>
      (wr me r fun (n : node K) => { n with parent := none }).andThen fun me =>
      (rd me.mem traverse).andThen fun t => some { me with root := t.right }
  | some parent =>
    (rd me.mem parent).andThen fun p =>
    if p.left = some traverse then
      (match t.left with
       | some l =>
         (wr me parent fun (n : node K) => { n with left := some l }).andThen fun me =>
         (rd me.mem traverse).andThen fun t =>
         t.left.andThen fun l => wr me l fun (n : node K) => { n with parent := some parent }
       | none =>
         (wr me parent fun (n : node K) => { n with left := t.right }).andThen fun me =>
         (rd me.mem traverse).andThen fun t =>
         t.right.andThen fun r => wr me r fun (n : node K) => { n with parent := some parent }).andThen
      fun me => multiset_delete_balance me parent true
    else
      (match t.left with
       | some l =>
         (wr me parent fun (n : node K) => { n with right := some l }).andThen fun me =>
         (rd me.mem traverse).andThen fun t =>
         t.left.andThen fun l => wr me l fun (n : node K) => { n with parent := some parent }
       | none =>
         (wr me parent fun (n : node K) => { n with right := t.right }).andThen fun me =>
         (rd me.mem traverse).andThen fun t =>
         t.right.andThen fun r => wr me r fun (n : node K) => { n with parent := some parent }).andThen
      fun me => multiset_delete_balance me parent false

/-- The loop `while (item->left) item = item->left;` of `multiset_remove_two_children`. -/
def multiset_leftmost_loop {K : Type} (me : internal_multiset K) : Nat → Nat → Option Nat
  | 0, _ => none
  | fuel + 1, item =>
    (rd me.mem item).andThen fun it =>
    match it.left with
    | some l => multiset_leftmost_loop me fuel l
    | none => some item

/-- First branch of `multiset_remove_two_children` (`traverse->right` has no left child):
the statements up to the closing brace; the result is `(item, parent, me)`. -/
def multiset_remove_two_children_near {K : Type} (me : internal_multiset K)
    (traverse item : Nat) : Option (Nat × Nat × internal_multiset K) :=
  (rd me.mem traverse).andThen fun t =>
  (wr me item fun (n : node K) => { n with balance := t.balance }).andThen fun me =>
  (rd me.mem traverse).andThen fun t =>
  (wr me item fun (n : node K) => { n with parent := t.parent }).andThen fun me =>
  (rd me.mem traverse).andThen fun t =>
  (wr me item fun (n : node K) => { n with left := t.left }).andThen fun me =>
  (rd me.mem item).andThen fun it =>
  it.left.andThen fun il =>
  (wr me il fun (n : node K) => { n with parent := some item }).andThen fun me =>
  some (item, item, me)

/-- Second branch of `multiset_remove_two_children` (`item` is the leftmost node below
`traverse->right->left`): the statements after the loop up to the closing brace; the result
is `(item, parent, me)`. -/
def multiset_remove_two_children_far {K : Type} (me : internal_multiset K)
    (traverse item : Nat) : Option (Nat × Nat × internal_multiset K) :=
  (rd me.mem item).andThen fun it =>
  it.parent.andThen fun parent =>
  (rd me.mem traverse).andThen fun t =>
  (wr me item fun (n : node K) => { n with balance := t.balance }).andThen fun me =>
  (rd me.mem item).andThen fun it =>
  it.parent.andThen fun ip =>
  (wr me ip fun (n : node K) => { n with left := it.right }).andThen fun me =>
  (rd me.mem item).andThen fun it =>
  (wr_if me it.right fun (n : node K) => { n with parent := it.parent }).andThen fun me =>
  (rd me.mem traverse).andThen fun t =>
  (wr me item fun (n : node K) => { n with left := t.left }).andThen fun me =>
  (rd me.mem item).andThen fun it =>
  it.left.andThen fun il =>
  (wr me il fun (n : node K) => { n with parent := some item }).andThen fun me =>
  (rd me.mem traverse).andThen fun t =>
  (wr me item fun (n : node K) => { n with right := t.right }).andThen fun me =>
  (rd me.mem item).andThen fun it =>
  it.right.andThen fun ir =>
  (wr me ir fun (n : node K) => { n with parent := some item }).andThen fun me =>
  (rd me.mem traverse).andThen fun t =>
  (wr me item fun (n : node K) => { n with parent := t.parent }).andThen fun me =>
  some (item, parent, me)

/-- Last part of `multiset_remove_two_children`: `item` is put into the slot that held
`traverse`. -/
def multiset_remove_two_children_link {K : Type} (me : internal_multiset K)
    (traverse item : Nat) : Option (internal_multiset K) :=
  (rd me.mem traverse).andThen fun t =>
  match t.parent with
  | none => some { me with root := some item }
  | some tp =>
    (rd me.mem tp).andThen fun tpn =>
    (rd me.mem item).andThen fun it =>
    it.parent.andThen fun ip =>
    if tpn.left = some traverse then wr me ip fun (n : node K) => { n with left := some item }
    else wr me ip fun (n : node K) => { n with right := some item }

/-- The function `multiset_remove_two_children`. -/
def multiset_remove_two_children {K : Type} (me : internal_multiset K) (traverse : Nat) :
    Option (internal_multiset K) :=
  (rd me.mem traverse).andThen fun t =>
  t.right.andThen fun tr =>
  (rd me.mem tr).andThen fun trn =>
  match trn.left with
  | none =>
    (multiset_remove_two_children_near me traverse tr).andThen fun r =>
    (multiset_remove_two_children_link r.2.2 traverse r.1).andThen fun me =>
    multiset_delete_balance me r.2.1 false
  | some trl =>
    (multiset_leftmost_loop me (me.mem.length + 1) trl).andThen fun item =>
    (multiset_remove_two_children_far me traverse item).andThen fun r =>
    (multiset_remove_two_children_link r.2.2 traverse r.1).andThen fun me =>
    multiset_delete_balance me r.2.1 true

/-- The statements of `multiset_remove_two_children` before its last one, the call
`multiset_delete_balance(me, parent, is_left_deleted)`: the result is `parent`,
`is_left_deleted` and the container at that point. -/
def multiset_remove_two_children_promote {K : Type} (me : internal_multiset K)
    (traverse : Nat) : Option (Nat × Bool × internal_multiset K) :=
  (rd me.mem traverse).andThen fun t =>
  t.right.andThen fun tr =>
  (rd me.mem tr).andThen fun trn =>
  match trn.left with
  | none =>
    (multiset_remove_two_children_near me traverse tr).andThen fun r =>
    (multiset_remove_two_children_link r.2.2 traverse r.1).andThen fun me =>
    some (r.2.1, false, me)
  | some trl =>
    (multiset_leftmost_loop me (me.mem.length + 1) trl).andThen fun item =>
    (multiset_remove_two_children_far me traverse item).andThen fun r =>
    (multiset_remove_two_children_link r.2.2 traverse r.1).andThen fun me =>
    some (r.2.1, true, me)

/-- The function `multiset_remove_element`; the last step is `free(traverse)`. -/
def multiset_remove_element {K : Type} (me : internal_multiset K) (traverse : Nat) :
    Option (internal_multiset K) :=
  (rd me.mem traverse).andThen fun t =>
  (if t.left = none ∧ t.right = none then multiset_remove_no_children me traverse
   else if t.left = none ∨ t.right = none then multiset_remove_one_child me traverse
   else multiset_remove_two_children me traverse).andThen fun me =>
  (rd me.mem traverse).andThen fun _ =>
  some { me with mem := upd me.mem traverse none }

/-- The function `multiset_remove`: the returned `int` and the state after the call, the
counters `count` and `size` being mathematical integers (`multiset_remove32` has them in
32-bit arithmetic). -/
def multiset_remove {K : Type} (me : internal_multiset K) (key : K) :
    Option (Int × internal_multiset K) :=
  (multiset_equal_match me key).andThen fun traverse =>
  match traverse with
  | none => some (0, me)
  | some tr =>
    (wr me tr fun (n : node K) => { n with count := n.count - 1 }).andThen fun me =>
    (rd me.mem tr).andThen fun t =>
    (if t.count = 0 then multiset_remove_element me tr else some me).andThen fun me =>
    some (1, { me with size := me.size - 1 })

/-- The function `multiset_remove_all`: the returned `int` and the state after the call,
the counter `size` being a mathematical integer (`multiset_remove_all32` has it in 32-bit
arithmetic). -/
def multiset_remove_all {K : Type} (me : internal_multiset K) (key : K) :
    Option (Int × internal_multiset K) :=
  (multiset_equal_match me key).andThen fun traverse =>
  match traverse with
  | none => some (0, me)
  | some tr =>
    (rd me.mem tr).andThen fun t =>
    let me := { me with size := me.size - t.count }
    (multiset_remove_element me tr).andThen fun me => some (1, me)

/-- The loop of `multiset_clear`, run for at most the given number of rounds. -/
def multiset_clear_loop {K : Type} : Nat → internal_multiset K → Option (internal_multiset K)
  | fuel, me =>
    match me.root with
    | none => some me
    | some root =>
      match fuel with
      | 0 => none
      | fuel + 1 => (multiset_remove_element me root).andThen fun me => multiset_clear_loop fuel me

/-- The function `multiset_clear`. -/
def multiset_clear {K : Type} (me : internal_multiset K) : Option (internal_multiset K) :=
  (multiset_clear_loop (me.mem.length + 1) me).andThen fun me => some { me with size := 0 }

/-! ## The tree held in the memory -/

/-- A binary tree of node records: the address of the node, its key, its occurrence count and
its stored balance factor, between its left and right subtree. -/
inductive Tree (K : Type) where
  | nil : Tree K
  | node (l : Tree K) (a : Nat) (k : K) (c : Int) (b : Int) (r : Tree K) : Tree K
deriving DecidableEq

/-- Pointer to the root node of a tree (`NULL` for the empty tree). -/
def Tree.ptr {K : Type} : Tree K → Option Nat
  | .nil => none
  | .node _ a _ _ _ _ => some a

/-- Addresses of the nodes of a tree, in order. -/
def Tree.addrs {K : Type} : Tree K → List Nat
  | .nil => []
  | .node l a _ _ _ r => l.addrs ++ a :: r.addrs

/-- Keys of the nodes of a tree, in order. -/
def Tree.keys {K : Type} : Tree K → List K
  | .nil => []
  | .node l _ k _ _ r => l.keys ++ k :: r.keys

/-- The in-order sequence of (key, count) pairs of a tree. -/
def Tree.inorder {K : Type} : Tree K → List (K × Int)
  | .nil => []
  | .node l _ k c _ r => l.inorder ++ (k, c) :: r.inorder

/-- Number of nodes on the longest path from the root to a leaf. -/
def Tree.height {K : Type} : Tree K → Int
  | .nil => 0
  | .node l _ _ _ _ r => 1 + max l.height r.height

/-- Sum of the occurrence counts of all nodes. -/
def Tree.total {K : Type} : Tree K → Int
  | .nil => 0
  | .node l _ _ c _ r => l.total + c + r.total

/-- The memory `h` holds the tree `t` below a node at `par`: every node of `t` is allocated
at its address with exactly its fields, its `left` and `right` pointers name the roots of its
subtrees, and its `parent` pointer names the node above it (`par` for the root of `t`). -/
def Rep {K : Type} (h : List (Option (node K))) : Option Nat → Tree K → Prop
  | _, .nil => True
  | par, .node l a k c b r =>
    rd h a = some { count := c, parent := par, balance := b, key := k,
                    left := l.ptr, right := r.ptr } ∧
    Rep h (some a) l ∧ Rep h (some a) r

/-- The container `me` holds the tree `t`: `me->root` points to the root of `t`, whose
`parent` is `NULL`, the memory holds `t` with consistent parent pointers, and no node
occurs twice. -/
def Represents {K : Type} (me : internal_multiset K) (t : Tree K) : Prop :=
  me.root = t.ptr ∧ Rep me.mem none t ∧ t.addrs.Nodup

/-- Parent consistency of the nodes of `t` in the memory of `me`: the root node has no
parent, and the left and the right child of every node have that node as their parent. -/
def ParentConsistent {K : Type} (me : internal_multiset K) (t : Tree K) : Prop :=
  (∀ r, me.root = some r → ∃ n, rd me.mem r = some n ∧ n.parent = none) ∧
  ∀ a ∈ t.addrs, ∀ n, rd me.mem a = some n →
    ∀ c, n.left = some c ∨ n.right = some c →
      ∃ cn, rd me.mem c = some cn ∧ cn.parent = some a

/-- AVL invariant: every node's stored balance is height(right) - height(left) and lies in
{-1, 0, 1}. -/
def AVL {K : Type} : Tree K → Prop
  | .nil => True
  | .node l _ _ _ b r => b = r.height - l.height ∧ -1 ≤ b ∧ b ≤ 1 ∧ AVL l ∧ AVL r

/-- BST ordering: at every node, all keys of the left subtree compare less than the node's
key and all keys of the right subtree compare greater. -/
def BST {K : Type} (cmp : K → K → Int) : Tree K → Prop
  | .nil => True
  | .node l _ k _ _ r =>
    (∀ x ∈ l.keys, cmp x k < 0) ∧ (∀ x ∈ r.keys, 0 < cmp x k) ∧ BST cmp l ∧ BST cmp r

/-- The comparator is a three-way comparison of a total order: swapping the arguments swaps
the sign, and "not greater" is transitive. Keys comparing equal (result 0) are the same key
for the container. -/
structure TotalOrder {K : Type} (cmp : K → K → Int) : Prop where
  swap : ∀ a b, cmp a b < 0 ↔ 0 < cmp b a
  trans : ∀ a b c, cmp a b ≤ 0 → cmp b c ≤ 0 → cmp a c ≤ 0

/-! ## Paths: a subtree together with what lies above it -/

/-- One step from a subtree to its parent node: `L` when the subtree is the left child (the
step records the parent's fields and right subtree), `R` when it is the right child. -/
inductive Step (K : Type) where
  | L (a : Nat) (k : K) (c : Int) (b : Int) (r : Tree K) : Step K
  | R (l : Tree K) (a : Nat) (k : K) (c : Int) (b : Int) : Step K

/-- Address of the parent node of a step. -/
def Step.addr {K : Type} : Step K → Nat
  | .L a _ _ _ _ => a
  | .R _ a _ _ _ => a

/-- Stored balance of the parent node of a step. -/
def Step.bal {K : Type} : Step K → Int
  | .L _ _ _ b _ => b
  | .R _ _ _ _ b => b

/-- Addresses of the parent node of a step and of the sibling subtree. -/
def Step.addrs {K : Type} : Step K → List Nat
  | .L a _ _ _ r => a :: r.addrs
  | .R l a _ _ _ => a :: l.addrs

/-- The tree obtained by putting `t` below the steps `fs` (innermost step first). -/
def plug {K : Type} : List (Step K) → Tree K → Tree K
  | [], t => t
  | .L a k c b r :: fs, t => plug fs (.node t a k c b r)
  | .R l a k c b :: fs, t => plug fs (.node l a k c b t)

/-- Pointer to the node directly above the hole of a path (`NULL` at the root). -/
def parptr {K : Type} : List (Step K) → Option Nat
  | [] => none
  | s :: _ => some s.addr

/-- All addresses occurring in a path. -/
def pathAddrs {K : Type} : List (Step K) → List Nat
  | [] => []
  | s :: fs => s.addrs ++ pathAddrs fs

/-- The memory holds the path `fs` around a hole whose slot contains the pointer `p`: the
node of each step is allocated with its fields, its child pointer on the side of the hole is
the pointer found below, its other child is its sibling subtree, and the topmost node is
the root (`root` is `p` itself for the empty path). -/
def RepPath {K : Type} (root : Option Nat) (h : List (Option (node K))) :
    List (Step K) → Option Nat → Prop
  | [], p => root = p
  | .L a k c b r :: fs, p =>
    rd h a = some { count := c, parent := parptr fs, balance := b, key := k,
                    left := p, right := r.ptr } ∧
    Rep h (some a) r ∧ RepPath root h fs (some a)
  | .R l a k c b :: fs, p =>
    rd h a = some { count := c, parent := parptr fs, balance := b, key := k,
                    left := l.ptr, right := p } ∧
    Rep h (some a) l ∧ RepPath root h fs (some a)

/-- Stored balance of the root node (0 for the empty tree). -/
def Tree.bal {K : Type} : Tree K → Int
  | .nil => 0
  | .node _ _ _ _ b _ => b

/-- Left subtree (empty for the empty tree). -/
def Tree.left {K : Type} : Tree K → Tree K
  | .nil => .nil
  | .node l _ _ _ _ _ => l

/-- Right subtree (empty for the empty tree). -/
def Tree.right {K : Type} : Tree K → Tree K
  | .nil => .nil
  | .node _ _ _ _ _ r => r

/-- Number of nodes. -/
def Tree.size {K : Type} : Tree K → Nat
  | .nil => 0
  | .node l _ _ _ _ r => l.size + 1 + r.size

/-- The tree made of one fresh node, as `multiset_create_node` initialises it. -/
def leaf {K : Type} (a : Nat) (k : K) : Tree K := .node .nil a k 1 0 .nil

/-! ## The algorithms of `multiset.c` on trees

These functions follow the C functions step by step but act on `Tree` values instead of the
memory; the result is `none` where the C code would follow a `NULL` child. They are the
link between the memory-level functions above and the invariants. -/

/-- Effect of `multiset_repair_left` on the subtree rooted at `parent`. -/
def repair_left_t {K : Type} : Tree K → Option (Tree K)
  | .node l p kp cp _ (.node rl c kc cc bc rr) =>
    if bc = 0 then some (.node (.node l p kp cp 1 rl) c kc cc (-1) rr)
    else some (.node (.node l p kp cp 0 rl) c kc cc 0 rr)
  | _ => none

/-- Effect of `multiset_repair_right` on the subtree rooted at `parent`. -/
def repair_right_t {K : Type} : Tree K → Option (Tree K)
  | .node (.node ll c kc cc bc lr) p kp cp _ r =>
    if bc = 0 then some (.node ll c kc cc 1 (.node lr p kp cp (-1) r))
    else some (.node ll c kc cc 0 (.node lr p kp cp 0 r))
  | _ => none

/-- Effect of `multiset_repair_left_right` on the subtree rooted at `parent`. -/
def repair_left_right_t {K : Type} : Tree K → Option (Tree K)
  | .node (.node cl c kc cc _ (.node gl g kg cg bg gr)) p kp cp _ r =>
    if bg = 1 then some (.node (.node cl c kc cc (-1) gl) g kg cg 0 (.node gr p kp cp 0 r))
    else if bg = 0 then some (.node (.node cl c kc cc 0 gl) g kg cg 0 (.node gr p kp cp 0 r))
    else some (.node (.node cl c kc cc 0 gl) g kg cg 0 (.node gr p kp cp 1 r))
  | _ => none

/-- Effect of `multiset_repair_right_left` on the subtree rooted at `parent`. -/
def repair_right_left_t {K : Type} : Tree K → Option (Tree K)
  | .node l p kp cp _ (.node (.node gl g kg cg bg gr) c kc cc _ cr) =>
    if bg = 1 then some (.node (.node l p kp cp (-1) gl) g kg cg 0 (.node gr c kc cc 0 cr))
    else if bg = 0 then some (.node (.node l p kp cp 0 gl) g kg cg 0 (.node gr c kc cc 0 cr))
    else some (.node (.node l p kp cp 0 gl) g kg cg 0 (.node gr c kc cc 1 cr))
  | _ => none

/-- Effect of `multiset_repair` on the subtree rooted at `parent`, when `child` is its child
on the heavy side and `grand_child` the child of `child` facing `parent`. -/
def repair_t {K : Type} : Tree K → Option (Tree K)
  | .nil => none
  | .node l p kp cp bp r =>
    if bp = 2 then
      if r.bal = -1 then repair_right_left_t (.node l p kp cp bp r)
      else repair_left_t (.node l p kp cp bp r)
    else if l.bal = 1 then repair_left_right_t (.node l p kp cp bp r)
    else repair_right_t (.node l p kp cp bp r)

/-- Effect of the loop of `multiset_insert_balance`: `t` is the subtree rooted at `child`,
the path leads from it to the root; the result is the whole tree. -/
def ins_bal {K : Type} : List (Step K) → Tree K → Option (Tree K)
  | [], t => some t
  | .L a k c b r :: fs, t =>
    if b - 1 = 0 then some (plug fs (.node t a k c (b - 1) r))
    else if b - 1 > 1 ∨ b - 1 < -1 then
      (repair_t (.node t a k c (b - 1) r)).andThen fun u => some (plug fs u)
    else ins_bal fs (.node t a k c (b - 1) r)
  | .R l a k c b :: fs, t =>
    if b + 1 = 0 then some (plug fs (.node l a k c (b + 1) t))
    else if b + 1 > 1 ∨ b + 1 < -1 then
      (repair_t (.node l a k c (b + 1) t)).andThen fun u => some (plug fs u)
    else ins_bal fs (.node l a k c (b + 1) t)

/-- Effect of `multiset_delete_balance` followed by `multiset_trace_ancestors`: `t` is the
subtree that lost height, the path leads from it to the root; the result is the whole
tree. -/
def del_bal {K : Type} : List (Step K) → Tree K → Option (Tree K)
  | [], t => some t
  | .L a k c b r :: fs, t =>
    if b + 1 = -1 ∨ b + 1 = 1 then some (plug fs (.node t a k c (b + 1) r))
    else if b + 1 > 1 ∨ b + 1 < -1 then
      (repair_t (.node t a k c (b + 1) r)).andThen fun u =>
      if u.bal = -1 ∨ u.bal = 1 then some (plug fs u) else del_bal fs u
    else del_bal fs (.node t a k c (b + 1) r)
  | .R l a k c b :: fs, t =>
    if b - 1 = -1 ∨ b - 1 = 1 then some (plug fs (.node l a k c (b - 1) t))
    else if b - 1 > 1 ∨ b - 1 < -1 then
      (repair_t (.node l a k c (b - 1) t)).andThen fun u =>
      if u.bal = -1 ∨ u.bal = 1 then some (plug fs u) else del_bal fs u
    else del_bal fs (.node l a k c (b - 1) t)

/-- The descent shared by `multiset_put` and `multiset_equal_match`: from the subtree `t`
below the path `fs`, go left while the key compares less and right while it compares greater;
the result is the path and subtree where the descent stops (a node with an equal key, or an
empty slot). -/
def zoom {K : Type} (cmp : K → K → Int) (key : K) :
    List (Step K) → Tree K → List (Step K) × Tree K
  | fs, .nil => (fs, .nil)
  | fs, .node l a k c b r =>
    if cmp key k < 0 then zoom cmp key (.L a k c b r :: fs) l
    else if cmp key k > 0 then zoom cmp key (.R l a k c b :: fs) r
    else (fs, .node l a k c b r)

/-- Effect of the loop of a successful `multiset_put`, started at the subtree `t` below the
path `fs`; `new` is the address of the node that is created when the key is absent. -/
def put_at {K : Type} (cmp : K → K → Int) (key : K) (new : Nat) (fs : List (Step K))
    (t : Tree K) : Option (Tree K) :=
  match zoom cmp key fs t with
  | (fs1, .nil) => ins_bal fs1 (leaf new key)
  | (fs1, .node l a k c b r) => some (plug fs1 (.node l a k (c + 1) b r))

/-- Effect of a successful `multiset_put` on the tree. -/
def put_t {K : Type} (cmp : K → K → Int) (key : K) (new : Nat) (t : Tree K) :
    Option (Tree K) :=
  put_at cmp key new [] t

/-- Steps from the leftmost node of a tree up to the root of that tree. -/
def min_path {K : Type} : Tree K → List (Step K)
  | .nil => []
  | .node .nil _ _ _ _ _ => []
  | .node (.node ll la lk lc lb lr) a k c b r =>
    min_path (.node ll la lk lc lb lr) ++ [.L a k c b r]

/-- The subtree rooted at the leftmost node of a tree. -/
def min_node {K : Type} : Tree K → Tree K
  | .nil => .nil
  | .node .nil a k c b r => .node .nil a k c b r
  | .node (.node ll la lk lc lb lr) _ _ _ _ _ => min_node (.node ll la lk lc lb lr)

/-- Effect of `multiset_remove_element` on the tree: `t` is the subtree rooted at the node
to remove, `fs` the path above it. -/
def remove_element_t {K : Type} (fs : List (Step K)) : Tree K → Option (Tree K)
  | .nil => none
  | .node .nil _ _ _ _ .nil => del_bal fs .nil
  | .node (.node ll la lk lc lb lr) _ _ _ _ .nil => del_bal fs (.node ll la lk lc lb lr)
  | .node .nil _ _ _ _ (.node rl ra rk rc rb rr) => del_bal fs (.node rl ra rk rc rb rr)
  | .node (.node ll la lk lc lb lr) _ _ _ b (.node rl ra rk rc rb rr) =>
    match min_node (.node rl ra rk rc rb rr) with
    | .nil => none
    | .node _ ma mk mc _ mr =>
      del_bal (min_path (.node rl ra rk rc rb rr) ++
        .R (.node ll la lk lc lb lr) ma mk mc b :: fs) mr

/-- Effect of `multiset_remove` on the tree. -/
def remove_t {K : Type} (cmp : K → K → Int) (key : K) (t : Tree K) : Option (Tree K) :=
  match zoom cmp key [] t with
  | (_, .nil) => some t
  | (fs, .node l a k c b r) =>
    if c - 1 = 0 then remove_element_t fs (.node l a k (c - 1) b r)
    else some (plug fs (.node l a k (c - 1) b r))

/-- Effect of `multiset_remove_all` on the tree. -/
def remove_all_t {K : Type} (cmp : K → K → Int) (key : K) (t : Tree K) : Option (Tree K) :=
  match zoom cmp key [] t with
  | (_, .nil) => some t
  | (fs, .node l a k c b r) => remove_element_t fs (.node l a k c b r)

/-! ## The calls of `multiset_repair` made on the way up -/

/-- The calls of `multiset_repair` made by the loop of `multiset_insert_balance`, in the
situation of `ins_bal`: one pair (balance of `parent`, balance of `child`) per call, as read
by `multiset_repair` on entry. -/
def ins_rep {K : Type} : List (Step K) → Tree K → List (Int × Int)
  | [], _ => []
  | .L a k c b r :: fs, t =>
    if b - 1 = 0 then []
    else if b - 1 > 1 ∨ b - 1 < -1 then [(b - 1, if b - 1 = 2 then r.bal else t.bal)]
    else ins_rep fs (.node t a k c (b - 1) r)
  | .R l a k c b :: fs, t =>
    if b + 1 = 0 then []
    else if b + 1 > 1 ∨ b + 1 < -1 then [(b + 1, if b + 1 = 2 then t.bal else l.bal)]
    else ins_rep fs (.node l a k c (b + 1) t)

/-- The calls of `multiset_repair` made by `multiset_delete_balance` and
`multiset_trace_ancestors`, in the situation of `del_bal`: one pair (balance of `parent`,
balance of `child`) per call. -/
def del_rep {K : Type} : List (Step K) → Tree K → List (Int × Int)
  | [], _ => []
  | .L a k c b r :: fs, t =>
    if b + 1 = -1 ∨ b + 1 = 1 then []
    else if b + 1 > 1 ∨ b + 1 < -1 then
      (b + 1, if b + 1 = 2 then r.bal else t.bal) ::
        (match repair_t (.node t a k c (b + 1) r) with
         | none => []
         | some u => if u.bal = -1 ∨ u.bal = 1 then [] else del_rep fs u)
    else del_rep fs (.node t a k c (b + 1) r)
  | .R l a k c b :: fs, t =>
    if b - 1 = -1 ∨ b - 1 = 1 then []
    else if b - 1 > 1 ∨ b - 1 < -1 then
      (b - 1, if b - 1 = 2 then t.bal else l.bal) ::
        (match repair_t (.node l a k c (b - 1) t) with
         | none => []
         | some u => if u.bal = -1 ∨ u.bal = 1 then [] else del_rep fs u)
    else del_rep fs (.node l a k c (b - 1) t)

/-- The calls of `multiset_repair` made by a `multiset_put` whose descent starts at the
subtree `t` below the path `fs`. -/
def put_rep {K : Type} (cmp : K → K → Int) (key : K) (new : Nat) (fs : List (Step K))
    (t : Tree K) : List (Int × Int) :=
  match zoom cmp key fs t with
  | (fs1, .nil) => ins_rep fs1 (leaf new key)
  | (_, .node _ _ _ _ _ _) => []

/-- The calls of `multiset_repair` made by `multiset_remove_element`, in the situation of
`remove_element_t`. -/
def remove_element_rep {K : Type} (fs : List (Step K)) : Tree K → List (Int × Int)
  | .nil => []
  | .node .nil _ _ _ _ .nil => del_rep fs .nil
  | .node (.node ll la lk lc lb lr) _ _ _ _ .nil => del_rep fs (.node ll la lk lc lb lr)
  | .node .nil _ _ _ _ (.node rl ra rk rc rb rr) => del_rep fs (.node rl ra rk rc rb rr)
  | .node (.node ll la lk lc lb lr) _ _ _ b (.node rl ra rk rc rb rr) =>
    match min_node (.node rl ra rk rc rb rr) with
    | .nil => []
    | .node _ ma mk mc _ mr =>
      del_rep (min_path (.node rl ra rk rc rb rr) ++
        .R (.node ll la lk lc lb lr) ma mk mc b :: fs) mr

/-! ## Mirror images -/

/-- A node record with `left` and `right` swapped and the balance factor negated. -/
def mirror_node {K : Type} (n : node K) : node K :=
  { n with left := n.right, right := n.left, balance := -n.balance }

/-- The container in which every node is mirrored. -/
def mirror {K : Type} (me : internal_multiset K) : internal_multiset K :=
  { me with mem := me.mem.map (Option.map mirror_node) }

/-- The mirror image of a tree: left and right swapped at every node, every balance factor
negated. -/
def Tree.mirror {K : Type} : Tree K → Tree K
  | .nil => .nil
  | .node l a k c b r => .node r.mirror a k c (-b) l.mirror

/-- The mirror image of a step of a path. -/
def Step.mirror {K : Type} : Step K → Step K
  | .L a k c b r => .R r.mirror a k c (-b)
  | .R l a k c b => .L a k c (-b) l.mirror

/-- The in-order sequence of (address, key, count) triples of a tree. -/
def Tree.entries {K : Type} : Tree K → List (Nat × K × Int)
  | .nil => []
  | .node l a k c _ r => l.entries ++ (a, k, c) :: r.entries

/-- The entries that lie before the subtree below a path, in order. -/
def pathBefore {K : Type} : List (Step K) → List (Nat × K × Int)
  | [] => []
  | .L _ _ _ _ _ :: fs => pathBefore fs
  | .R l a k c _ :: fs => pathBefore fs ++ (l.entries ++ [(a, k, c)])

/-- The entries that lie after the subtree below a path, in order. -/
def pathAfter {K : Type} : List (Step K) → List (Nat × K × Int)
  | [] => []
  | .L a k c _ r :: fs => ((a, k, c) :: r.entries) ++ pathAfter fs
  | .R _ _ _ _ _ :: fs => pathAfter fs

/-- The keys of a sequence are strictly increasing under the comparator. -/
def Ordered {K : Type} (cmp : K → K → Int) (ks : List K) : Prop :=
  ks.Pairwise (fun x y => cmp x y < 0)

/-- Occurrence count recorded for `key` in a sequence of (key, count) pairs: the count of the
first pair whose key compares equal, 0 when there is none. -/
def lookup {K : Type} (cmp : K → K → Int) (key : K) : List (K × Int) → Int
  | [] => 0
  | e :: es => if cmp key e.1 = 0 then e.2 else lookup cmp key es

/-- Whether some pair of the sequence has a key comparing equal to `key`. -/
def present {K : Type} (cmp : K → K → Int) (key : K) : List (K × Int) → Bool
  | [] => false
  | e :: es => if cmp key e.1 = 0 then true else present cmp key es

/-! ## Sequences of calls and the reference multiset -/

/-- One call of a sequence of mutations, as in the test driver `mutation_order`. -/
inductive Op (K : Type) where
  | put (key : K) : Op K
  | remove (key : K) : Op K

/-- The calls of a sequence made in order on a container, no allocation failing: the values
returned by the calls, and the container after the last call. -/
def run_ops {K : Type} : List (Op K) → internal_multiset K →
    Option (List Int × internal_multiset K)
  | [], me => some ([], me)
  | .put key :: ops, me =>
    (multiset_put me key true true).andThen fun r =>
    (run_ops ops r.2).andThen fun rs => some (r.1 :: rs.1, rs.2)
  | .remove key :: ops, me =>
    (multiset_remove me key).andThen fun r =>
    (run_ops ops r.2).andThen fun rs => some (r.1 :: rs.1, rs.2)

/-- Reference multiset, a map from keys to natural numbers: one more occurrence of `key`
(keys that compare equal are the same key). -/
def reference_put {K : Type} (cmp : K → K → Int) (m : K → Nat) (key : K) : K → Nat :=
  fun j => if cmp j key = 0 then m j + 1 else m j

/-- Reference multiset: one occurrence of `key` less when its count is positive; the first
component tells whether it was (1) or not (0). -/
def reference_remove {K : Type} (cmp : K → K → Int) (m : K → Nat) (key : K) :
    Int × (K → Nat) :=
  if 0 < m key then (1, fun j => if cmp j key = 0 then m j - 1 else m j) else (0, m)

/-- Reference multiset run on a sequence of calls: the value expected from each call (0 from
a put, and from a remove 1 exactly when the count of its key is positive), and the final
map. -/
def reference_run {K : Type} (cmp : K → K → Int) : List (Op K) → (K → Nat) →
    List Int × (K → Nat)
  | [], m => ([], m)
  | .put key :: ops, m =>
    let r := reference_run cmp ops (reference_put cmp m key)
    (0 :: r.1, r.2)
  | .remove key :: ops, m =>
    let s := reference_remove cmp m key
    let r := reference_run cmp ops s.2
    (s.1 :: r.1, r.2)

/-- Number of put calls of a sequence. -/
def count_puts {K : Type} : List (Op K) → Int
  | [] => 0
  | .put _ :: ops => 1 + count_puts ops
  | .remove _ :: ops => count_puts ops

/-- Number of remove calls of a sequence that returned 1, given the returned values. -/
def count_removed {K : Type} : List (Op K) → List Int → Int
  | .put _ :: ops, _ :: rs => count_removed ops rs
  | .remove _ :: ops, r :: rs => (if r = 1 then 1 else 0) + count_removed ops rs
  | _, _ => 0

/-- The step from `me` to `me1` leaves the size, the comparator and the key size alone and
frees no memory cell. -/
def Keeps {K : Type} (me me1 : internal_multiset K) : Prop :=
  me1.size = me.size ∧ me1.comparator = me.comparator ∧ me1.key_size = me.key_size ∧
  ∀ a, rd me.mem a ≠ none → rd me1.mem a ≠ none

/-- The containers obtained from `multiset_init` by `multiset_put` (whatever the outcome of
its allocations), `multiset_remove`, `multiset_remove_all` and `multiset_clear`. -/
inductive Reachable {K : Type} : internal_multiset K → Prop where
  | init (key_size : Nat) (cmp : K → K → Int) (me : internal_multiset K) :
      multiset_init key_size (some cmp) true = some me → Reachable me
  | put (me : internal_multiset K) (key : K) (node_ok key_ok : Bool) (r : Int)
      (me1 : internal_multiset K) :
      Reachable me → multiset_put me key node_ok key_ok = some (r, me1) → Reachable me1
  | remove (me : internal_multiset K) (key : K) (r : Int) (me1 : internal_multiset K) :
      Reachable me → multiset_remove me key = some (r, me1) → Reachable me1
  | remove_all (me : internal_multiset K) (key : K) (r : Int) (me1 : internal_multiset K) :
      Reachable me → multiset_remove_all me key = some (r, me1) → Reachable me1
  | clear (me me1 : internal_multiset K) :
      Reachable me → multiset_clear me = some me1 → Reachable me1

/-! ## Concrete containers used as examples -/

/-- The comparator of the tests, on mathematical integers. -/
def compare_int (a b : Int) : Int := a - b

/-- The container made by `multiset_init(sizeof(int), compare_int)`. -/
def example_empty : internal_multiset Int :=
  { key_size := 4, comparator := compare_int, size := 0, root := none, mem := [],
    repairs := [] }

/-- A container holding the single key 3 once, in a node at address 0. -/
def example_one : internal_multiset Int :=
  { key_size := 4, comparator := compare_int, size := 1, root := some 0,
    mem := [some { count := 1, parent := none, balance := 0, key := 3,
                   left := none, right := none }],
    repairs := [] }

/-- A tree of three nodes: key 3 (twice) at the root, keys 2 and 5 below it. -/
def tree_three : Tree Int := .node (leaf 1 2) 0 3 2 0 (leaf 2 5)

/-- A container holding `tree_three`: the keys 2, 3, 3 and 5. -/
def example_three : internal_multiset Int :=
  { key_size := 4, comparator := compare_int, size := 4, root := some 0,
    mem := [some { count := 2, parent := none, balance := 0, key := 3,
                   left := some 1, right := some 2 },
            some { count := 1, parent := some 0, balance := 0, key := 2,
                   left := none, right := none },
            some { count := 1, parent := some 0, balance := 0, key := 5,
                   left := none, right := none }],
    repairs := [] }

/-- A single node with key 5 whose stored balance, 3, is not its height difference. -/
def tree_skew : Tree Int := .node .nil 0 5 1 3 .nil

/-- A container holding `tree_skew`: parent pointers are consistent, the balance is not. -/
def example_skew : internal_multiset Int :=
  { key_size := 4, comparator := compare_int, size := 1, root := some 0,
    mem := [some { count := 1, parent := none, balance := 3, key := 5,
                   left := none, right := none }],
    repairs := [] }

/-- An AVL tree of twelve nodes with as few nodes as its height allows on the right. -/
def tree_fib : Tree Int :=
  .node (.node (leaf 2 10) 1 20 1 1 (.node .nil 3 30 1 1 (leaf 4 40))) 0 50 1 1
    (.node (.node .nil 6 60 1 1 (leaf 7 70)) 5 80 1 1
      (.node (leaf 9 90) 8 100 1 1 (.node .nil 10 110 1 1 (leaf 11 120))))

/-- A container holding `tree_fib`, every key once. -/
def example_fib : internal_multiset Int :=
  { key_size := 4, comparator := compare_int, size := 12, root := some 0,
    mem := [some { count := 1, parent := none, balance := 1, key := 50,
                   left := some 1, right := some 5 },
            some { count := 1, parent := some 0, balance := 1, key := 20,
                   left := some 2, right := some 3 },
            some { count := 1, parent := some 1, balance := 0, key := 10,
                   left := none, right := none },
            some { count := 1, parent := some 1, balance := 1, key := 30,
                   left := none, right := some 4 },
            some { count := 1, parent := some 3, balance := 0, key := 40,
                   left := none, right := none },
            some { count := 1, parent := some 0, balance := 1, key := 80,
                   left := some 6, right := some 8 },
            some { count := 1, parent := some 5, balance := 1, key := 60,
                   left := none, right := some 7 },
            some { count := 1, parent := some 6, balance := 0, key := 70,
                   left := none, right := none },
            some { count := 1, parent := some 5, balance := 1, key := 100,
                   left := some 9, right := some 10 },
            some { count := 1, parent := some 8, balance := 0, key := 90,
                   left := none, right := none },
            some { count := 1, parent := some 8, balance := 1, key := 110,
                   left := none, right := some 11 },
            some { count := 1, parent := some 10, balance := 0, key := 120,
                   left := none, right := none }],
    repairs := [] }

/-- The tree made of the keys 20, 40 and 30 put in that order, at the point where
`multiset_insert_balance` calls `multiset_repair`: the balance of the root has reached 2 and
that of its right child is -1. -/
def tree_zigzag : Tree Int := .node .nil 0 20 1 2 (.node (leaf 2 30) 1 40 1 (-1) .nil)

/-- A container holding `tree_zigzag`. -/
def example_zigzag : internal_multiset Int :=
  { key_size := 4, comparator := compare_int, size := 3, root := some 0,
    mem := [some { count := 1, parent := none, balance := 2, key := 20,
                   left := none, right := some 1 },
            some { count := 1, parent := some 0, balance := -1, key := 40,
                   left := some 2, right := none },
            some { count := 1, parent := some 1, balance := 0, key := 30,
                   left := none, right := none }],
    repairs := [] }

/-! ## The comparator of the tests in machine arithmetic -/

/-- The value of `limits.h`'s `INT_MIN` for a 32-bit `int`. -/
def INT_MIN : Int := -2147483648

/-- The value of `limits.h`'s `INT_MAX` for a 32-bit `int`. -/
def INT_MAX : Int := 2147483647

/-- The `int` that 32-bit two's-complement arithmetic yields for an operation whose
mathematical result is `x`. -/
def wrap_int (x : Int) : Int := (x + 2147483648) % 4294967296 - 2147483648

/-- The function `compare_int` of the tests on two `int` values, its `return a - b;` computed
in 32-bit two's-complement arithmetic. It is `compare_int` when the difference fits. -/
def compare_int32 (a b : Int) : Int := wrap_int (a - b)

/-- The container made by `multiset_init(sizeof(int), compare_int)`, its comparator being the
function in 32-bit arithmetic. -/
def example_wrapping : internal_multiset Int :=
  { key_size := 4, comparator := compare_int32, size := 0, root := none, mem := [],
    repairs := [] }

/-! ## The counters in machine arithmetic

The fields `count` and `size` have type `int`. The functions `multiset_create_node`,
`multiset_put`, `multiset_remove` and `multiset_remove_all` above count in mathematical
integers, which is what the code does as long as no counter leaves the range of `int`. The
functions of this section are the same statements with every `++`, `--` and `-=` on these
fields computed in 32-bit two's-complement arithmetic. -/

/-- The function `multiset_create_node`, its `me->size++` in 32-bit arithmetic. -/
def multiset_create_node32 {K : Type} (me : internal_multiset K) (data : K)
    (parent : Option Nat) (node_ok key_ok : Bool) : Option Nat × internal_multiset K :=
  if node_ok then
    if key_ok then
      let insert := me.mem.length
      (some insert,
       { me with
         mem := upd me.mem insert
           (some { count := 1, parent := parent, balance := 0, key := data,
                   left := none, right := none })
         size := wrap_int (me.size + 1) })
    else (none, me)
  else (none, me)

/-- The descent loop of `multiset_put`, its `traverse->count++` and `me->size++` in 32-bit
arithmetic, run for at most the given number of rounds. -/
def multiset_put_loop32 {K : Type} (key : K) (node_ok key_ok : Bool) :
    Nat → internal_multiset K → Nat → Option (Int × internal_multiset K)
  | 0, _, _ => none
  | fuel + 1, me, traverse =>
    (rd me.mem traverse).andThen fun t =>
    let compare := me.comparator key t.key
    if compare < 0 then
      match t.left with
      | some l => multiset_put_loop32 key node_ok key_ok fuel me l
      | none =>
        match multiset_create_node32 me key (some traverse) node_ok key_ok with
        | (none, me) => some (-ENOMEM, me)
        | (some insert, me) =>
          (wr me traverse fun (n : node K) => { n with left := some insert }).andThen fun me =>
          (multiset_insert_balance me insert).andThen fun me => some (0, me)
    else if compare > 0 then
      match t.right with
      | some r => multiset_put_loop32 key node_ok key_ok fuel me r
      | none =>
        match multiset_create_node32 me key (some traverse) node_ok key_ok with
        | (none, me) => some (-ENOMEM, me)
        | (some insert, me) =>
          (wr me traverse fun (n : node K) => { n with right := some insert }).andThen fun me =>
          (multiset_insert_balance me insert).andThen fun me => some (0, me)
    else
      (wr me traverse fun (n : node K) => { n with count := wrap_int (n.count + 1) }).andThen
      fun me => some (0, { me with size := wrap_int (me.size + 1) })

/-- The function `multiset_put` in 32-bit arithmetic: the returned `int` and the state after
the call. -/
def multiset_put32 {K : Type} (me : internal_multiset K) (key : K) (node_ok key_ok : Bool) :
    Option (Int × internal_multiset K) :=
  match me.root with
  | none =>
    match multiset_create_node32 me key none node_ok key_ok with
    | (none, me) => some (-ENOMEM, me)
    | (some insert, me) => some (0, { me with root := some insert })
  | some root => multiset_put_loop32 key node_ok key_ok (me.mem.length + 1) me root

/-- The function `multiset_remove`, its `traverse->count--` and `me->size--` in 32-bit
arithmetic. -/
def multiset_remove32 {K : Type} (me : internal_multiset K) (key : K) :
    Option (Int × internal_multiset K) :=
  (multiset_equal_match me key).andThen fun traverse =>
  match traverse with
  | none => some (0, me)
  | some tr =>
    (wr me tr fun (n : node K) => { n with count := wrap_int (n.count - 1) }).andThen fun me =>
    (rd me.mem tr).andThen fun t =>
    (if t.count = 0 then multiset_remove_element me tr else some me).andThen fun me =>
    some (1, { me with size := wrap_int (me.size - 1) })

/-- The function `multiset_remove_all`, its `me->size -= traverse->count` in 32-bit
arithmetic. -/
def multiset_remove_all32 {K : Type} (me : internal_multiset K) (key : K) :
    Option (Int × internal_multiset K) :=
  (multiset_equal_match me key).andThen fun traverse =>
  match traverse with
  | none => some (0, me)
  | some tr =>
    (rd me.mem tr).andThen fun t =>
    let me := { me with size := wrap_int (me.size - t.count) }
    (multiset_remove_element me tr).andThen fun me => some (1, me)

/-- The containers obtained in machine arithmetic from `multiset_init` by a sequence of
calls of `multiset_put` (whatever the outcome of its allocations), `multiset_remove`,
`multiset_remove_all` and `multiset_clear`; the number counts the calls of `multiset_put`
in the sequence. -/
inductive Reachable32 {K : Type} : Nat → internal_multiset K → Prop where
  | init (key_size : Nat) (cmp : K → K → Int) (me : internal_multiset K) :
      multiset_init key_size (some cmp) true = some me → Reachable32 0 me
  | put (n : Nat) (me : internal_multiset K) (key : K) (node_ok key_ok : Bool) (r : Int)
      (me1 : internal_multiset K) :
      Reachable32 n me → multiset_put32 me key node_ok key_ok = some (r, me1) →
      Reachable32 (n + 1) me1
  | remove (n : Nat) (me : internal_multiset K) (key : K) (r : Int)
      (me1 : internal_multiset K) :
      Reachable32 n me → multiset_remove32 me key = some (r, me1) → Reachable32 n me1
  | remove_all (n : Nat) (me : internal_multiset K) (key : K) (r : Int)
      (me1 : internal_multiset K) :
      Reachable32 n me → multiset_remove_all32 me key = some (r, me1) → Reachable32 n me1
  | clear (n : Nat) (me me1 : internal_multiset K) :
      Reachable32 n me → multiset_clear me = some me1 → Reachable32 n me1

/-- The calls of a sequence made in order on a container in machine arithmetic, no allocation
failing: the values returned by the calls, and the container after the last call. -/
def run_ops32 {K : Type} : List (Op K) → internal_multiset K →
    Option (List Int × internal_multiset K)
  | [], me => some ([], me)
  | .put key :: ops, me =>
    (multiset_put32 me key true true).andThen fun r =>
    (run_ops32 ops r.2).andThen fun rs => some (r.1 :: rs.1, rs.2)
  | .remove key :: ops, me =>
    (multiset_remove32 me key).andThen fun r =>
    (run_ops32 ops r.2).andThen fun rs => some (r.1 :: rs.1, rs.2)

/-- A container holding the key 3 in one node at address 0 with the count `n`, its size
being `n` as well: the result of `n` calls of `multiset_put` with key 3 on the empty
container. -/
def example_counting (n : Int) : internal_multiset Int :=
  { key_size := 4, comparator := compare_int, size := n, root := some 0,
    mem := [some { count := n, parent := none, balance := 0, key := 3,
                   left := none, right := none }],
    repairs := [] }

/-- The tree held by `example_counting n`: one node with key 3 and count `n`. -/
def tree_counting (n : Int) : Tree Int := .node .nil 0 3 n 0 .nil

/-- The tree with the key 3 `INT_MAX` times at the root and the key 5 once to its right. -/
def tree_overflowed : Tree Int := .node .nil 0 3 2147483647 1 (leaf 1 5)

/-- The container that `multiset_put` with key 5 makes in 32-bit arithmetic of
`example_counting INT_MAX`: it holds `tree_overflowed`, and its size, `INT_MAX + 1` in 32-bit
arithmetic, is `INT_MIN`. -/
def example_overflowed : internal_multiset Int :=
  { key_size := 4, comparator := compare_int, size := -2147483648, root := some 0,
    mem := [some { count := 2147483647, parent := none, balance := 1, key := 3,
                   left := none, right := some 1 },
            some { count := 1, parent := some 0, balance := 0, key := 5,
                   left := none, right := none }],
    repairs := [] }

/-! ## Sequencing -/

@[simp] theorem andThen_some {α β : Type} (a : α) (f : α → Option β) :
    (some a).andThen f = f a := rfl

@[simp] theorem andThen_none {α β : Type} (f : α → Option β) :
    (none : Option α).andThen f = none := rfl

theorem andThen_eq_some {α β : Type} (x : Option α) (f : α → Option β) (b : β) :
    x.andThen f = some b ↔ ∃ a, x = some a ∧ f a = some b := by
  cases x <;> simp

/-! ## Memory -/

theorem rd_eq_none_of_length_le {K : Type} (h : List (Option (node K))) (p : Nat)
    (hp : h.length ≤ p) : rd h p = none := by
  simp [rd, List.getElem?_eq_none hp]

theorem lt_length_of_rd {K : Type} (h : List (Option (node K))) (p : Nat) (n : node K)
    (hp : rd h p = some n) : p < h.length := by
  by_contra hlt
  rw [rd_eq_none_of_length_le h p (by omega)] at hp
  cases hp

@[simp] theorem rd_upd {K : Type} (h : List (Option (node K))) (p q : Nat)
    (v : Option (node K)) : rd (upd h p v) q = if q = p then v else rd h q := by
  unfold rd upd
  by_cases hp : p < h.length
  · simp only [hp, if_true, List.get?_eq_getElem?, List.getElem?_set]
    by_cases hq : q = p
    · subst hq; simp [hp]
    · have : ¬ p = q := fun e => hq e.symm
      simp [hq, this]
  · simp only [hp, if_false, List.get?_eq_getElem?, List.append_assoc]
    by_cases hq : q = p
    · subst hq
      have : (h ++ (List.replicate (q - h.length) none ++ [v]))[q]? = some v := by
        rw [List.getElem?_append_right (by omega),
          List.getElem?_append_right (by simp)]
        simp
      simp [this]
    · simp only [hq, if_false]
      by_cases hq2 : q < h.length
      · rw [List.getElem?_append_left hq2]
      · rw [List.getElem?_eq_none (by omega : h.length ≤ q)]
        by_cases hq3 : q < p
        · rw [List.getElem?_append_right (by omega),
            List.getElem?_append_left (by simp; omega)]
          simp [List.getElem?_replicate]
        · rw [List.getElem?_eq_none (by simp; omega)]

theorem length_le_upd {K : Type} (h : List (Option (node K))) (p : Nat)
    (v : Option (node K)) : h.length ≤ (upd h p v).length := by
  unfold upd
  split <;> simp

theorem wr_some {K : Type} (me : internal_multiset K) (p : Nat) (f : node K → node K)
    (n : node K) (hp : rd me.mem p = some n) :
    wr me p f = some { me with mem := upd me.mem p (some (f n)) } := by
  simp [wr, hp]

/-! ## Trees in memory -/

@[simp] theorem ptr_nil {K : Type} : (Tree.nil : Tree K).ptr = none := rfl

@[simp] theorem ptr_node {K : Type} (l r : Tree K) (a : Nat) (k : K) (c b : Int) :
    (Tree.node l a k c b r).ptr = some a := rfl

@[simp] theorem addrs_nil {K : Type} : (Tree.nil : Tree K).addrs = [] := rfl

@[simp] theorem addrs_node {K : Type} (l r : Tree K) (a : Nat) (k : K) (c b : Int) :
    (Tree.node l a k c b r).addrs = l.addrs ++ a :: r.addrs := rfl

@[simp] theorem parptr_nil {K : Type} : parptr ([] : List (Step K)) = none := rfl

@[simp] theorem parptr_cons {K : Type} (s : Step K) (fs : List (Step K)) :
    parptr (s :: fs) = some s.addr := rfl

@[simp] theorem addr_L {K : Type} (a : Nat) (k : K) (c b : Int) (r : Tree K) :
    (Step.L a k c b r).addr = a := rfl

@[simp] theorem addr_R {K : Type} (a : Nat) (k : K) (c b : Int) (l : Tree K) :
    (Step.R l a k c b).addr = a := rfl

@[simp] theorem pathAddrs_nil {K : Type} : pathAddrs ([] : List (Step K)) = [] := rfl

@[simp] theorem pathAddrs_L {K : Type} (a : Nat) (k : K) (c b : Int) (r : Tree K)
    (fs : List (Step K)) :
    pathAddrs (Step.L a k c b r :: fs) = a :: (r.addrs ++ pathAddrs fs) := rfl

@[simp] theorem pathAddrs_R {K : Type} (a : Nat) (k : K) (c b : Int) (l : Tree K)
    (fs : List (Step K)) :
    pathAddrs (Step.R l a k c b :: fs) = a :: (l.addrs ++ pathAddrs fs) := rfl

@[simp] theorem plug_nil {K : Type} (t : Tree K) : plug [] t = t := rfl

@[simp] theorem plug_L {K : Type} (a : Nat) (k : K) (c b : Int) (r : Tree K)
    (fs : List (Step K)) (t : Tree K) :
    plug (Step.L a k c b r :: fs) t = plug fs (.node t a k c b r) := rfl

@[simp] theorem plug_R {K : Type} (a : Nat) (k : K) (c b : Int) (l : Tree K)
    (fs : List (Step K)) (t : Tree K) :
    plug (Step.R l a k c b :: fs) t = plug fs (.node l a k c b t) := rfl

theorem ptr_eq_some_mem {K : Type} (t : Tree K) (a : Nat) (h : some a = t.ptr) :
    a ∈ t.addrs := by
  cases t with
  | nil => simp at h
  | node l x k c b r => simp at h; simp [h]

@[simp] theorem Rep_nil {K : Type} (h : List (Option (node K))) (par : Option Nat) :
    Rep h par .nil = True := rfl

theorem Rep_node {K : Type} (h : List (Option (node K))) (par : Option Nat)
    (l r : Tree K) (a : Nat) (k : K) (c b : Int) :
    Rep h par (.node l a k c b r) =
      (rd h a = some { count := c, parent := par, balance := b, key := k,
                       left := l.ptr, right := r.ptr } ∧
       Rep h (some a) l ∧ Rep h (some a) r) := rfl

theorem Rep_frame {K : Type} (h h1 : List (Option (node K))) (t : Tree K) :
    ∀ par, (∀ a ∈ t.addrs, rd h1 a = rd h a) → Rep h par t → Rep h1 par t := by
  induction t with
  | nil => intro _ _ _; trivial
  | node l a k c b r ihl ihr =>
    intro par hag hrep
    rw [Rep_node] at hrep ⊢
    refine ⟨?_, ihl _ ?_ hrep.2.1, ihr _ ?_ hrep.2.2⟩
    · rw [hag a (by simp [Tree.addrs])]; exact hrep.1
    · intro x hx; exact hag x (by simp [Tree.addrs, hx])
    · intro x hx; exact hag x (by simp [Tree.addrs, hx])

theorem Rep_allocated {K : Type} (h : List (Option (node K))) (t : Tree K) :
    ∀ par, Rep h par t → ∀ a ∈ t.addrs, ∃ n, rd h a = some n := by
  induction t with
  | nil => intro _ _ a ha; simp [Tree.addrs] at ha
  | node l a k c b r ihl ihr =>
    intro par hrep x hx
    rw [Rep_node] at hrep
    simp only [Tree.addrs, List.mem_append, List.mem_cons] at hx
    rcases hx with hx | hx | hx
    · exact ihl _ hrep.2.1 x hx
    · subst hx; exact ⟨_, hrep.1⟩
    · exact ihr _ hrep.2.2 x hx

theorem ptr_mem_addrs {K : Type} (t : Tree K) (a : Nat) (h : t.ptr = some a) :
    a ∈ t.addrs := ptr_eq_some_mem t a h.symm

/-- Re-pointing the `parent` field of the root of a subtree. -/
theorem Rep_reparent {K : Type} (h : List (Option (node K))) (t : Tree K)
    (par par1 : Option Nat) (hrep : Rep h par t) (hnd : t.addrs.Nodup) :
    ∀ h1 : List (Option (node K)),
      (∀ a ∈ t.addrs, some a ≠ t.ptr → rd h1 a = rd h a) →
      (∀ a n, t.ptr = some a → rd h a = some n → rd h1 a = some { n with parent := par1 }) →
      Rep h1 par1 t := by
  intro h1 hag hroot
  cases t with
  | nil => trivial
  | node l a k c b r =>
    rw [Rep_node] at hrep ⊢
    simp only [Tree.addrs, List.nodup_append, List.nodup_cons, List.mem_cons,
      List.mem_append] at hnd
    refine ⟨?_, ?_, ?_⟩
    · rw [hroot a _ rfl hrep.1]
    · refine Rep_frame h h1 l _ ?_ hrep.2.1
      intro x hx
      refine hag x (by simp [Tree.addrs, hx]) ?_
      simp only [Tree.ptr, ne_eq, Option.some.injEq]
      rintro rfl
      exact hnd.2.2 hx (List.mem_cons_self _ _)
    · refine Rep_frame h h1 r _ ?_ hrep.2.2
      intro x hx
      refine hag x (by simp [Tree.addrs, hx]) ?_
      simp only [Tree.ptr, ne_eq, Option.some.injEq]
      rintro rfl
      exact hnd.2.1.1 hx

/-! ## Paths in memory -/

theorem RepPath_frame {K : Type} (root : Option Nat) (h h1 : List (Option (node K)))
    (fs : List (Step K)) :
    ∀ p, (∀ a ∈ pathAddrs fs, rd h1 a = rd h a) → RepPath root h fs p →
      RepPath root h1 fs p := by
  induction fs with
  | nil => intro p _ hp; exact hp
  | cons s fs ih =>
    intro p hag hp
    cases s with
    | L a k c b r =>
      simp only [RepPath] at hp ⊢
      refine ⟨?_, Rep_frame h h1 r _ ?_ hp.2.1, ih _ ?_ hp.2.2⟩
      · rw [hag a (by simp [pathAddrs, Step.addrs])]; exact hp.1
      · intro x hx; exact hag x (by simp [pathAddrs, Step.addrs, hx])
      · intro x hx; exact hag x (by simp [pathAddrs, hx])
    | R l a k c b =>
      simp only [RepPath] at hp ⊢
      refine ⟨?_, Rep_frame h h1 l _ ?_ hp.2.1, ih _ ?_ hp.2.2⟩
      · rw [hag a (by simp [pathAddrs, Step.addrs])]; exact hp.1
      · intro x hx; exact hag x (by simp [pathAddrs, Step.addrs, hx])
      · intro x hx; exact hag x (by simp [pathAddrs, hx])

theorem plug_addrs_perm {K : Type} (fs : List (Step K)) :
    ∀ t : Tree K, (plug fs t).addrs.Perm (t.addrs ++ pathAddrs fs) := by
  induction fs with
  | nil => intro t; simp [plug, pathAddrs]
  | cons s fs ih =>
    intro t
    cases s with
    | L a k c b r =>
      rw [plug]
      refine (ih _).trans ?_
      simp only [Tree.addrs, pathAddrs, Step.addrs, List.append_assoc, List.cons_append]
      exact List.Perm.refl _
    | R l a k c b =>
      rw [plug]
      refine (ih _).trans ?_
      simp only [Tree.addrs, pathAddrs, Step.addrs, List.append_assoc, List.cons_append]
      refine List.perm_iff_count.mpr fun x => ?_
      simp only [List.count_append, List.count_cons]
      omega

theorem rep_plug {K : Type} (root : Option Nat) (h : List (Option (node K)))
    (fs : List (Step K)) :
    ∀ t : Tree K, (root = (plug fs t).ptr ∧ Rep h none (plug fs t)) ↔
      (RepPath root h fs t.ptr ∧ Rep h (parptr fs) t) := by
  induction fs with
  | nil => intro t; simp [plug, RepPath, parptr]
  | cons s fs ih =>
    intro t
    cases s with
    | L a k c b r =>
      rw [plug, ih]
      simp only [RepPath, parptr, Step.addr, Rep_node, Tree.ptr]
      tauto
    | R l a k c b =>
      rw [plug, ih]
      simp only [RepPath, parptr, Step.addr, Rep_node, Tree.ptr]
      tauto

theorem represents_plug {K : Type} (me : internal_multiset K) (fs : List (Step K))
    (t : Tree K) :
    Represents me (plug fs t) ↔
      (RepPath me.root me.mem fs t.ptr ∧ Rep me.mem (parptr fs) t ∧
        (t.addrs ++ pathAddrs fs).Nodup) := by
  unfold Represents
  rw [← and_assoc, rep_plug, (plug_addrs_perm fs t).nodup_iff, and_assoc]

theorem Keeps.refl {K : Type} (me : internal_multiset K) : Keeps me me :=
  ⟨rfl, rfl, rfl, fun _ h => h⟩

theorem Keeps.trans {K : Type} {me me1 me2 : internal_multiset K}
    (h1 : Keeps me me1) (h2 : Keeps me1 me2) : Keeps me me2 :=
  ⟨h2.1.trans h1.1, h2.2.1.trans h1.2.1, h2.2.2.1.trans h1.2.2.1,
    fun a ha => h2.2.2.2 a (h1.2.2.2 a ha)⟩

theorem Keeps.wr {K : Type} {me me1 : internal_multiset K} {p : Nat} {f : node K → node K}
    (h : wr me p f = some me1) : Keeps me me1 := by
  unfold Containers.wr at h
  split at h
  · cases h
  · cases h
    refine ⟨rfl, rfl, rfl, ?_⟩
    intro a ha
    simp only [rd_upd]
    split
    · simp
    · exact ha

theorem mem_plug_addrs {K : Type} (fs : List (Step K)) (t : Tree K) (a : Nat) :
    a ∈ (plug fs t).addrs ↔ a ∈ t.addrs ∨ a ∈ pathAddrs fs := by
  rw [(plug_addrs_perm fs t).mem_iff, List.mem_append]

/-- Effect of `multiset_reference_parent` when `parent` is the root of the subtree below the
path `fs`: the slot that held `parent` now holds `child`. -/
theorem reference_parent_spec {K : Type} (me : internal_multiset K) (fs : List (Step K))
    (p c : Nat) (pn cn : node K)
    (hpath : RepPath me.root me.mem fs (some p))
    (hp : rd me.mem p = some pn) (hpp : pn.parent = parptr fs)
    (hc : rd me.mem c = some cn) (hcp : c ≠ p)
    (hpn : p ∉ pathAddrs fs) (hcn : c ∉ pathAddrs fs) (hnd : (pathAddrs fs).Nodup) :
    ∃ me1, multiset_reference_parent me p c = some me1 ∧
      RepPath me1.root me1.mem fs (some c) ∧
      rd me1.mem c = some { cn with parent := parptr fs } ∧
      (∀ a, a ≠ c → parptr fs ≠ some a → rd me1.mem a = rd me.mem a) ∧
      me1.repairs = me.repairs := by
  have hpc : p ≠ c := fun e => hcp e.symm
  cases fs with
  | nil =>
    simp only [parptr] at hpp
    simp [multiset_reference_parent, hp, hc, wr, hpc, hpp, RepPath, parptr]
    intro a ha
    simp [ha]
  | cons s fs =>
    cases s with
    | L a k c0 b r =>
      simp only [RepPath] at hpath
      simp only [parptr, Step.addr] at hpp
      simp only [pathAddrs, Step.addrs, List.cons_append, List.mem_cons, List.mem_append,
        not_or, List.nodup_cons, List.nodup_append] at hpn hcn hnd
      have hac : a ≠ c := fun e => hcn.1 e.symm
      have hap : a ≠ p := fun e => hpn.1 e.symm
      simp [multiset_reference_parent, hp, hc, wr, hpc, hpp, hpath.1, hac, hcn.1, RepPath]
      refine ⟨⟨?_, ?_⟩, ?_⟩
      · refine Rep_frame _ _ r _ ?_ hpath.2.1
        intro x hx
        have h1 : x ≠ a := by rintro rfl; exact hnd.1.1 hx
        have h2 : x ≠ c := by rintro rfl; exact hcn.2.1 hx
        simp [h1, h2]
      · refine RepPath_frame _ _ _ fs _ ?_ hpath.2.2
        intro x hx
        have h1 : x ≠ a := by rintro rfl; exact hnd.1.2 hx
        have h2 : x ≠ c := by rintro rfl; exact hcn.2.2 hx
        simp [h1, h2]
      · intro x hx hx2
        have : x ≠ a := fun e => hx2 e.symm
        simp [hx, this]
    | R l a k c0 b =>
      simp only [RepPath] at hpath
      simp only [parptr, Step.addr] at hpp
      simp only [pathAddrs, Step.addrs, List.cons_append, List.mem_cons, List.mem_append,
        not_or, List.nodup_cons, List.nodup_append] at hpn hcn hnd
      have hac : a ≠ c := fun e => hcn.1 e.symm
      have hap : a ≠ p := fun e => hpn.1 e.symm
      have hlp : ¬ l.ptr = some p := fun e => hpn.2.1 (ptr_mem_addrs l p e)
      simp [multiset_reference_parent, hp, hc, wr, hpc, hpp, hpath.1, hac, hcn.1, RepPath,
        hlp]
      refine ⟨⟨?_, ?_⟩, ?_⟩
      · refine Rep_frame _ _ l _ ?_ hpath.2.1
        intro x hx
        have h1 : x ≠ a := by rintro rfl; exact hnd.1.1 hx
        have h2 : x ≠ c := by rintro rfl; exact hcn.2.1 hx
        simp [h1, h2]
      · refine RepPath_frame _ _ _ fs _ ?_ hpath.2.2
        intro x hx
        have h1 : x ≠ a := by rintro rfl; exact hnd.1.2 hx
        have h2 : x ≠ c := by rintro rfl; exact hcn.2.2 hx
        simp [h1, h2]
      · intro x hx hx2
        have : x ≠ a := fun e => hx2 e.symm
        simp [hx, this]

theorem parptr_mem {K : Type} (fs : List (Step K)) (a : Nat) (h : parptr fs = some a) :
    a ∈ pathAddrs fs := by
  cases fs with
  | nil => simp [parptr] at h
  | cons s fs =>
    simp only [parptr, Option.some.injEq] at h
    subst h
    cases s <;> simp [pathAddrs, Step.addrs, Step.addr]

/-- Effect of `if (g) g->parent = par1` on a subtree rooted at `g`. -/
theorem reparent_spec {K : Type} (me : internal_multiset K) (t : Tree K)
    (par par1 : Option Nat) (hrep : Rep me.mem par t) (hnd : t.addrs.Nodup) :
    ∃ me1, wr_if me t.ptr (fun (n : node K) => { n with parent := par1 }) = some me1 ∧
      Rep me1.mem par1 t ∧ (∀ a, some a ≠ t.ptr → rd me1.mem a = rd me.mem a) ∧
      me1.root = me.root ∧ me1.repairs = me.repairs := by
  cases t with
  | nil => exact ⟨me, rfl, trivial, fun _ _ => rfl, rfl, rfl⟩
  | node l a k c b r =>
    have h1 := hrep
    rw [Rep_node] at h1
    simp only [ptr_node, wr_if, wr, h1.1, Option.some.injEq, exists_eq_left', and_true]
    refine ⟨?_, ?_⟩
    · refine Rep_reparent me.mem _ par par1 hrep hnd _ ?_ ?_
      · intro x _ hx
        have : x ≠ a := fun e => hx (by simp [e])
        simp [this]
      · intro x n hx hn
        simp at hx
        subst hx
        simp [h1.1] at hn
        subst hn
        simp
    · intro x hx
      have : x ≠ a := fun e => hx (by simp [e])
      simp [this]

theorem rotate_left_spec {K : Type} (me : internal_multiset K) (fs : List (Step K))
    (l rl rr : Tree K) (p c : Nat) (kp kc : K) (cp bp cc bc : Int)
    (hrep : Represents me (plug fs (.node l p kp cp bp (.node rl c kc cc bc rr)))) :
    ∃ me1, multiset_rotate_left me p c = some me1 ∧
      Represents me1 (plug fs (.node (.node l p kp cp bp rl) c kc cc bc rr)) ∧
      me1.repairs = me.repairs := by
  rw [represents_plug] at hrep
  obtain ⟨hpath, hsub, hnd0⟩ := hrep
  simp only [Rep_node] at hsub
  obtain ⟨hp, hl, hc, hrl, hrr⟩ := hsub
  have hnd := hnd0
  simp only [addrs_node, List.nodup_append, List.nodup_cons, List.mem_append, List.mem_cons,
    List.append_assoc, List.cons_append, not_or, List.disjoint_append_left,
    List.disjoint_append_right, List.disjoint_cons_left, List.disjoint_cons_right] at hnd
  obtain ⟨me1, h1, hpath1, hc1, hfr1, hrp1⟩ :=
    reference_parent_spec me fs p c _ _ hpath hp rfl hc (by tauto) (by tauto) (by tauto)
      (by tauto)
  have hpf : parptr fs ≠ some p := fun e => absurd (parptr_mem fs p e) (by tauto)
  have hp1 : rd me1.mem p = rd me.mem p := hfr1 p (by tauto) hpf
  have hrl1 : Rep me1.mem (some c) rl := by
    refine Rep_frame _ _ rl _ ?_ hrl
    intro x hx
    refine hfr1 x ?_ ?_
    · rintro rfl; tauto
    · intro e; have := parptr_mem fs x e; exact hnd.2.1.2.2.2.2.2 hx this
  obtain ⟨me2, h2, hrl2, hfr2, hr2, hrp2⟩ :=
    reparent_spec me1 rl (some c) (some p) hrl1 (by tauto)
  have hpg : some p ≠ rl.ptr := fun e => absurd (ptr_eq_some_mem rl p e) (by tauto)
  have hcg : some c ≠ rl.ptr := fun e => absurd (ptr_eq_some_mem rl c e) (by tauto)
  have hp2 : rd me2.mem p = rd me.mem p := (hfr2 p hpg).trans hp1
  have hc2 : rd me2.mem c = _ := (hfr2 c hcg).trans hc1
  have hcp : c ≠ p := by tauto
  simp only [ptr_node] at hp hc1 hc2
  simp [multiset_rotate_left, h1, hc1, h2, wr, hp2, hp, hc2, hcp, hrp2, hrp1]
  have hpc : p ≠ c := fun e => hcp e.symm
  · rw [represents_plug]
    refine ⟨?_, ?_, ?_⟩
    · simp only [ptr_node, hr2]
      refine RepPath_frame _ _ _ fs _ ?_ hpath1
      intro x hx
      have e1 : x ≠ p := by rintro rfl; tauto
      have e2 : x ≠ c := by rintro rfl; tauto
      have e3 : some x ≠ rl.ptr := fun e => hnd.2.1.2.2.2.2.2 (ptr_eq_some_mem rl x e) hx
      simp [e1, e2, hfr2 x e3]
    · simp only [Rep_node, ptr_node, rd_upd, hpc, hcp, if_true, if_false, true_and]
      refine ⟨⟨?_, ?_⟩, ?_⟩
      · refine Rep_frame _ _ l _ ?_ hl
        intro x hx
        have e1 : x ≠ p := by rintro rfl; tauto
        have e2 : x ≠ c := by rintro rfl; tauto
        have e3 : some x ≠ rl.ptr := fun e => hnd.2.2.2.1 hx (ptr_eq_some_mem rl x e)
        have e4 : parptr fs ≠ some x := fun e => hnd.2.2.2.2.2.2 hx (parptr_mem fs x e)
        simp [e1, e2, hfr2 x e3, hfr1 x e2 e4]
      · refine Rep_frame _ _ rl _ ?_ hrl2
        intro x hx
        have e1 : x ≠ p := by rintro rfl; tauto
        have e2 : x ≠ c := by rintro rfl; tauto
        simp [e1, e2]
      · refine Rep_frame _ _ rr _ ?_ hrr
        intro x hx
        have e1 : x ≠ p := by rintro rfl; tauto
        have e2 : x ≠ c := by rintro rfl; tauto
        have e3 : some x ≠ rl.ptr := fun e => hnd.2.1.2.2.2.2.1 (ptr_eq_some_mem rl x e) hx
        have e4 : parptr fs ≠ some x := fun e => hnd.2.1.2.2.1.2.2.2 hx (parptr_mem fs x e)
        simp [e1, e2, hfr2 x e3, hfr1 x e2 e4]
    · simpa [List.append_assoc] using hnd0

theorem rotate_right_spec {K : Type} (me : internal_multiset K) (fs : List (Step K))
    (ll lr r : Tree K) (p c : Nat) (kp kc : K) (cp bp cc bc : Int)
    (hrep : Represents me (plug fs (.node (.node ll c kc cc bc lr) p kp cp bp r))) :
    ∃ me1, multiset_rotate_right me p c = some me1 ∧
      Represents me1 (plug fs (.node ll c kc cc bc (.node lr p kp cp bp r))) ∧
      me1.repairs = me.repairs := by
  rw [represents_plug] at hrep
  obtain ⟨hpath, hsub, hnd0⟩ := hrep
  simp only [Rep_node] at hsub
  obtain ⟨hp, ⟨hc, hll, hlr⟩, hr⟩ := hsub
  have hnd := hnd0
  simp only [addrs_node, List.nodup_append, List.nodup_cons, List.mem_append, List.mem_cons,
    List.append_assoc, List.cons_append, not_or, List.disjoint_append_left,
    List.disjoint_append_right, List.disjoint_cons_left, List.disjoint_cons_right] at hnd
  obtain ⟨-, ⟨-, -, ⟨-, -, -, r_fs⟩, -, lr_r, lr_fs⟩, -, ll_lr, -, ll_r, ll_fs⟩ := id hnd
  obtain ⟨me1, h1, hpath1, hc1, hfr1, hrp1⟩ :=
    reference_parent_spec me fs p c _ _ hpath hp rfl hc (by tauto) (by tauto) (by tauto)
      (by tauto)
  have hpf : parptr fs ≠ some p := fun e => absurd (parptr_mem fs p e) (by tauto)
  have hcp : c ≠ p := by tauto
  have hpc : p ≠ c := fun e => hcp e.symm
  have hp1 : rd me1.mem p = rd me.mem p := hfr1 p hpc hpf
  have hlr1 : Rep me1.mem (some c) lr := by
    refine Rep_frame _ _ lr _ ?_ hlr
    intro x hx
    refine hfr1 x ?_ ?_
    · rintro rfl; tauto
    · intro e; exact lr_fs hx (parptr_mem fs x e)
  obtain ⟨me2, h2, hlr2, hfr2, hr2, hrp2⟩ :=
    reparent_spec me1 lr (some c) (some p) hlr1 (by tauto)
  have hpg : some p ≠ lr.ptr := fun e => absurd (ptr_eq_some_mem lr p e) (by tauto)
  have hcg : some c ≠ lr.ptr := fun e => absurd (ptr_eq_some_mem lr c e) (by tauto)
  have hp2 : rd me2.mem p = rd me.mem p := (hfr2 p hpg).trans hp1
  have hc2 : rd me2.mem c = _ := (hfr2 c hcg).trans hc1
  simp only [ptr_node] at hp hc1 hc2
  simp [multiset_rotate_right, h1, hc1, h2, wr, hp2, hp, hc2, hcp, hrp2, hrp1]
  · rw [represents_plug]
    refine ⟨?_, ?_, ?_⟩
    · simp only [ptr_node, hr2]
      refine RepPath_frame _ _ _ fs _ ?_ hpath1
      intro x hx
      have e1 : x ≠ p := by rintro rfl; tauto
      have e2 : x ≠ c := by rintro rfl; tauto
      have e3 : some x ≠ lr.ptr := fun e => lr_fs (ptr_eq_some_mem lr x e) hx
      simp [e1, e2, hfr2 x e3]
    · simp only [Rep_node, ptr_node, rd_upd, hpc, hcp, if_true, if_false, true_and]
      refine ⟨?_, ?_, ?_⟩
      · refine Rep_frame _ _ ll _ ?_ hll
        intro x hx
        have e1 : x ≠ p := by rintro rfl; tauto
        have e2 : x ≠ c := by rintro rfl; tauto
        have e3 : some x ≠ lr.ptr := fun e => ll_lr hx (ptr_eq_some_mem lr x e)
        have e4 : parptr fs ≠ some x := fun e => ll_fs hx (parptr_mem fs x e)
        simp [e1, e2, hfr2 x e3, hfr1 x e2 e4]
      · refine Rep_frame _ _ lr _ ?_ hlr2
        intro x hx
        have e1 : x ≠ p := by rintro rfl; tauto
        have e2 : x ≠ c := by rintro rfl; tauto
        simp [e1, e2]
      · refine Rep_frame _ _ r _ ?_ hr
        intro x hx
        have e1 : x ≠ p := by rintro rfl; tauto
        have e2 : x ≠ c := by rintro rfl; tauto
        have e3 : some x ≠ lr.ptr := fun e => lr_r (ptr_eq_some_mem lr x e) hx
        have e4 : parptr fs ≠ some x := fun e => r_fs hx (parptr_mem fs x e)
        simp [e1, e2, hfr2 x e3, hfr1 x e2 e4]
    · simpa [List.append_assoc] using hnd0

theorem rd_focus {K : Type} (me : internal_multiset K) (fs : List (Step K)) (l r : Tree K)
    (a : Nat) (k : K) (c b : Int) (hrep : Represents me (plug fs (.node l a k c b r))) :
    rd me.mem a = some { count := c, parent := parptr fs, balance := b, key := k,
                         left := l.ptr, right := r.ptr } := by
  rw [represents_plug] at hrep
  exact hrep.2.1.1

theorem Represents_congr {K : Type} (me me1 : internal_multiset K) (t : Tree K)
    (hroot : me1.root = me.root) (hmem : me1.mem = me.mem) (h : Represents me t) :
    Represents me1 t := by
  unfold Represents at *
  rw [hroot, hmem]
  exact h

/-- A write to the root node of the subtree below a path that leaves its pointers alone. -/
theorem wr_focus {K : Type} (me : internal_multiset K) (fs : List (Step K)) (l r : Tree K)
    (a : Nat) (k : K) (c b : Int) (f : node K → node K) (c1 b1 : Int)
    (hrep : Represents me (plug fs (.node l a k c b r)))
    (hf : f { count := c, parent := parptr fs, balance := b, key := k,
              left := l.ptr, right := r.ptr } =
          { count := c1, parent := parptr fs, balance := b1, key := k,
            left := l.ptr, right := r.ptr }) :
    ∃ me1, wr me a f = some me1 ∧ Represents me1 (plug fs (.node l a k c1 b1 r)) ∧
      me1.repairs = me.repairs := by
  have hrd := rd_focus me fs l r a k c b hrep
  rw [represents_plug] at hrep
  obtain ⟨hpath, hsub, hnd0⟩ := hrep
  have hnd := hnd0
  simp only [addrs_node, List.nodup_append, List.nodup_cons, List.mem_append, List.mem_cons,
    List.append_assoc, List.cons_append, not_or, List.disjoint_append_left,
    List.disjoint_append_right, List.disjoint_cons_left, List.disjoint_cons_right] at hnd
  simp only [Rep_node] at hsub
  simp only [wr, hrd, hf, Option.some.injEq, exists_eq_left', and_true]
  rw [represents_plug]
  refine ⟨?_, ?_, ?_⟩
  · simp only [ptr_node] at hpath ⊢
    refine RepPath_frame _ _ _ fs _ ?_ hpath
    intro x hx
    have e1 : x ≠ a := by rintro rfl; tauto
    simp [e1]
  · simp only [Rep_node, rd_upd, if_true, true_and]
    refine ⟨?_, ?_⟩
    · refine Rep_frame _ _ l _ ?_ hsub.2.1
      intro x hx
      have e1 : x ≠ a := by rintro rfl; tauto
      simp [e1]
    · refine Rep_frame _ _ r _ ?_ hsub.2.2
      intro x hx
      have e1 : x ≠ a := by rintro rfl; tauto
      simp [e1]
  · simpa using hnd0

theorem repair_left_spec {K : Type} (me : internal_multiset K) (fs : List (Step K))
    (l rl rr : Tree K) (p c : Nat) (kp kc : K) (cp bp cc bc : Int) (u : Tree K)
    (hrep : Represents me (plug fs (.node l p kp cp bp (.node rl c kc cc bc rr))))
    (hu : repair_left_t (.node l p kp cp bp (.node rl c kc cc bc rr)) = some u) :
    ∃ me1, multiset_repair_left me p c = some (c, me1) ∧ Represents me1 (plug fs u) ∧
      u.ptr = some c ∧ me1.repairs = me.repairs := by
  obtain ⟨me1, h1, r1, g1⟩ := rotate_left_spec me fs l rl rr p c kp kc cp bp cc bc hrep
  have hc1 := rd_focus me1 fs _ _ c kc cc bc r1
  by_cases hbc : bc = 0
  · simp only [repair_left_t, hbc, if_true, Option.some.injEq] at hu
    subst hu
    obtain ⟨me2, h2, r2, g2⟩ := wr_focus me1 (.L c kc cc bc rr :: fs) l rl p kp cp bp
      (fun (n : node K) => { n with balance := 1 }) cp 1 r1 rfl
    obtain ⟨me3, h3, r3, g3⟩ := wr_focus me2 fs (.node l p kp cp 1 rl) rr c kc cc bc
      (fun (n : node K) => { n with balance := -1 }) cc (-1) r2 rfl
    exact ⟨me3, by simp [multiset_repair_left, h1, hc1, hbc, h2, h3], r3, rfl,
      by rw [g3, g2, g1]⟩
  · simp only [repair_left_t, hbc, if_false, Option.some.injEq] at hu
    subst hu
    obtain ⟨me2, h2, r2, g2⟩ := wr_focus me1 (.L c kc cc bc rr :: fs) l rl p kp cp bp
      (fun (n : node K) => { n with balance := 0 }) cp 0 r1 rfl
    obtain ⟨me3, h3, r3, g3⟩ := wr_focus me2 fs (.node l p kp cp 0 rl) rr c kc cc bc
      (fun (n : node K) => { n with balance := 0 }) cc 0 r2 rfl
    exact ⟨me3, by simp [multiset_repair_left, h1, hc1, hbc, h2, h3], r3, rfl,
      by rw [g3, g2, g1]⟩

theorem repair_right_spec {K : Type} (me : internal_multiset K) (fs : List (Step K))
    (ll lr r : Tree K) (p c : Nat) (kp kc : K) (cp bp cc bc : Int) (u : Tree K)
    (hrep : Represents me (plug fs (.node (.node ll c kc cc bc lr) p kp cp bp r)))
    (hu : repair_right_t (.node (.node ll c kc cc bc lr) p kp cp bp r) = some u) :
    ∃ me1, multiset_repair_right me p c = some (c, me1) ∧ Represents me1 (plug fs u) ∧
      u.ptr = some c ∧ me1.repairs = me.repairs := by
  obtain ⟨me1, h1, r1, g1⟩ := rotate_right_spec me fs ll lr r p c kp kc cp bp cc bc hrep
  have hc1 := rd_focus me1 fs _ _ c kc cc bc r1
  by_cases hbc : bc = 0
  · simp only [repair_right_t, hbc, if_true, Option.some.injEq] at hu
    subst hu
    obtain ⟨me2, h2, r2, g2⟩ := wr_focus me1 (.R ll c kc cc bc :: fs) lr r p kp cp bp
      (fun (n : node K) => { n with balance := -1 }) cp (-1) r1 rfl
    obtain ⟨me3, h3, r3, g3⟩ := wr_focus me2 fs ll (.node lr p kp cp (-1) r) c kc cc bc
      (fun (n : node K) => { n with balance := 1 }) cc 1 r2 rfl
    exact ⟨me3, by simp [multiset_repair_right, h1, hc1, hbc, h2, h3], r3, rfl,
      by rw [g3, g2, g1]⟩
  · simp only [repair_right_t, hbc, if_false, Option.some.injEq] at hu
    subst hu
    obtain ⟨me2, h2, r2, g2⟩ := wr_focus me1 (.R ll c kc cc bc :: fs) lr r p kp cp bp
      (fun (n : node K) => { n with balance := 0 }) cp 0 r1 rfl
    obtain ⟨me3, h3, r3, g3⟩ := wr_focus me2 fs ll (.node lr p kp cp 0 r) c kc cc bc
      (fun (n : node K) => { n with balance := 0 }) cc 0 r2 rfl
    exact ⟨me3, by simp [multiset_repair_right, h1, hc1, hbc, h2, h3], r3, rfl,
      by rw [g3, g2, g1]⟩

theorem repair_left_right_spec {K : Type} (me : internal_multiset K) (fs : List (Step K))
    (cl gl gr r : Tree K) (p c g : Nat) (kp kc kg : K) (cp bp cc bc cg bg : Int)
    (u : Tree K)
    (hrep : Represents me
      (plug fs (.node (.node cl c kc cc bc (.node gl g kg cg bg gr)) p kp cp bp r)))
    (hu : repair_left_right_t
      (.node (.node cl c kc cc bc (.node gl g kg cg bg gr)) p kp cp bp r) = some u) :
    ∃ me1, multiset_repair_left_right me p c g = some (g, me1) ∧
      Represents me1 (plug fs u) ∧ u.ptr = some g ∧ me1.repairs = me.repairs := by
  obtain ⟨me1, h1, r1, g1⟩ := rotate_left_spec me (.L p kp cp bp r :: fs) cl gl gr c g kc kg
    cc bc cg bg hrep
  obtain ⟨me2, h2, r2, g2⟩ := rotate_right_spec me1 fs (.node cl c kc cc bc gl) gr r p g kp kg
    cp bp cg bg r1
  have hg2 := rd_focus me2 fs _ _ g kg cg bg r2
  by_cases hb1 : bg = 1
  · simp only [repair_left_right_t, hb1, if_true, Option.some.injEq] at hu
    subst hu
    obtain ⟨me3, h3, r3, g3⟩ := wr_focus me2
      (.R (.node cl c kc cc bc gl) g kg cg bg :: fs) gr r p kp cp bp
      (fun (n : node K) => { n with balance := 0 }) cp 0 r2 rfl
    obtain ⟨me4, h4, r4, g4⟩ := wr_focus me3
      (.L g kg cg bg (.node gr p kp cp 0 r) :: fs) cl gl c kc cc bc
      (fun (n : node K) => { n with balance := -1 }) cc (-1) r3 rfl
    obtain ⟨me5, h5, r5, g5⟩ := wr_focus me4 fs (.node cl c kc cc (-1) gl)
      (.node gr p kp cp 0 r) g kg cg bg
      (fun (n : node K) => { n with balance := 0 }) cg 0 r4 rfl
    exact ⟨me5, by simp [multiset_repair_left_right, h1, h2, hg2, hb1, h3, h4, h5], r5, rfl,
      by rw [g5, g4, g3, g2, g1]⟩
  · by_cases hb0 : bg = 0
    · simp only [repair_left_right_t, hb1, hb0, if_true, if_false, Option.some.injEq] at hu
      simp only [show (0:Int) = 1 ↔ False by decide, if_false, Option.some.injEq] at hu
      subst hu
      obtain ⟨me3, h3, r3, g3⟩ := wr_focus me2
        (.R (.node cl c kc cc bc gl) g kg cg bg :: fs) gr r p kp cp bp
        (fun (n : node K) => { n with balance := 0 }) cp 0 r2 rfl
      obtain ⟨me4, h4, r4, g4⟩ := wr_focus me3
        (.L g kg cg bg (.node gr p kp cp 0 r) :: fs) cl gl c kc cc bc
        (fun (n : node K) => { n with balance := 0 }) cc 0 r3 rfl
      obtain ⟨me5, h5, r5, g5⟩ := wr_focus me4 fs (.node cl c kc cc 0 gl)
        (.node gr p kp cp 0 r) g kg cg bg
        (fun (n : node K) => { n with balance := 0 }) cg 0 r4 rfl
      exact ⟨me5, by simp [multiset_repair_left_right, h1, h2, hg2, hb0, h3, h4, h5], r5,
        rfl, by rw [g5, g4, g3, g2, g1]⟩
    · simp only [repair_left_right_t, hb1, hb0, if_false, Option.some.injEq] at hu
      subst hu
      obtain ⟨me3, h3, r3, g3⟩ := wr_focus me2
        (.R (.node cl c kc cc bc gl) g kg cg bg :: fs) gr r p kp cp bp
        (fun (n : node K) => { n with balance := 1 }) cp 1 r2 rfl
      obtain ⟨me4, h4, r4, g4⟩ := wr_focus me3
        (.L g kg cg bg (.node gr p kp cp 1 r) :: fs) cl gl c kc cc bc
        (fun (n : node K) => { n with balance := 0 }) cc 0 r3 rfl
      obtain ⟨me5, h5, r5, g5⟩ := wr_focus me4 fs (.node cl c kc cc 0 gl)
        (.node gr p kp cp 1 r) g kg cg bg
        (fun (n : node K) => { n with balance := 0 }) cg 0 r4 rfl
      exact ⟨me5, by simp [multiset_repair_left_right, h1, h2, hg2, hb1, hb0, h3, h4, h5],
        r5, rfl, by rw [g5, g4, g3, g2, g1]⟩

theorem repair_right_left_spec {K : Type} (me : internal_multiset K) (fs : List (Step K))
    (l gl gr cr : Tree K) (p c g : Nat) (kp kc kg : K) (cp bp cc bc cg bg : Int)
    (u : Tree K)
    (hrep : Represents me
      (plug fs (.node l p kp cp bp (.node (.node gl g kg cg bg gr) c kc cc bc cr))))
    (hu : repair_right_left_t
      (.node l p kp cp bp (.node (.node gl g kg cg bg gr) c kc cc bc cr)) = some u) :
    ∃ me1, multiset_repair_right_left me p c g = some (g, me1) ∧
      Represents me1 (plug fs u) ∧ u.ptr = some g ∧ me1.repairs = me.repairs := by
  obtain ⟨me1, h1, r1, g1⟩ := rotate_right_spec me (.R l p kp cp bp :: fs) gl gr cr c g kc kg
    cc bc cg bg hrep
  obtain ⟨me2, h2, r2, g2⟩ := rotate_left_spec me1 fs l gl (.node gr c kc cc bc cr) p g kp kg
    cp bp cg bg r1
  have hg2 := rd_focus me2 fs _ _ g kg cg bg r2
  by_cases hb1 : bg = 1
  · simp only [repair_right_left_t, hb1, if_true, Option.some.injEq] at hu
    subst hu
    obtain ⟨me3, h3, r3, g3⟩ := wr_focus me2
      (.L g kg cg bg (.node gr c kc cc bc cr) :: fs) l gl p kp cp bp
      (fun (n : node K) => { n with balance := -1 }) cp (-1) r2 rfl
    obtain ⟨me4, h4, r4, g4⟩ := wr_focus me3
      (.R (.node l p kp cp (-1) gl) g kg cg bg :: fs) gr cr c kc cc bc
      (fun (n : node K) => { n with balance := 0 }) cc 0 r3 rfl
    obtain ⟨me5, h5, r5, g5⟩ := wr_focus me4 fs (.node l p kp cp (-1) gl)
      (.node gr c kc cc 0 cr) g kg cg bg
      (fun (n : node K) => { n with balance := 0 }) cg 0 r4 rfl
    exact ⟨me5, by simp [multiset_repair_right_left, h1, h2, hg2, hb1, h3, h4, h5], r5, rfl,
      by rw [g5, g4, g3, g2, g1]⟩
  · by_cases hb0 : bg = 0
    · simp only [repair_right_left_t, hb1, hb0, if_true, if_false, Option.some.injEq] at hu
      simp only [show (0:Int) = 1 ↔ False by decide, if_false, Option.some.injEq] at hu
      subst hu
      obtain ⟨me3, h3, r3, g3⟩ := wr_focus me2
        (.L g kg cg bg (.node gr c kc cc bc cr) :: fs) l gl p kp cp bp
        (fun (n : node K) => { n with balance := 0 }) cp 0 r2 rfl
      obtain ⟨me4, h4, r4, g4⟩ := wr_focus me3
        (.R (.node l p kp cp 0 gl) g kg cg bg :: fs) gr cr c kc cc bc
        (fun (n : node K) => { n with balance := 0 }) cc 0 r3 rfl
      obtain ⟨me5, h5, r5, g5⟩ := wr_focus me4 fs (.node l p kp cp 0 gl)
        (.node gr c kc cc 0 cr) g kg cg bg
        (fun (n : node K) => { n with balance := 0 }) cg 0 r4 rfl
      exact ⟨me5, by simp [multiset_repair_right_left, h1, h2, hg2, hb0, h3, h4, h5], r5,
        rfl, by rw [g5, g4, g3, g2, g1]⟩
    · simp only [repair_right_left_t, hb1, hb0, if_false, Option.some.injEq] at hu
      subst hu
      obtain ⟨me3, h3, r3, g3⟩ := wr_focus me2
        (.L g kg cg bg (.node gr c kc cc bc cr) :: fs) l gl p kp cp bp
        (fun (n : node K) => { n with balance := 0 }) cp 0 r2 rfl
      obtain ⟨me4, h4, r4, g4⟩ := wr_focus me3
        (.R (.node l p kp cp 0 gl) g kg cg bg :: fs) gr cr c kc cc bc
        (fun (n : node K) => { n with balance := 1 }) cc 1 r3 rfl
      obtain ⟨me5, h5, r5, g5⟩ := wr_focus me4 fs (.node l p kp cp 0 gl)
        (.node gr c kc cc 1 cr) g kg cg bg
        (fun (n : node K) => { n with balance := 0 }) cg 0 r4 rfl
      exact ⟨me5, by simp [multiset_repair_right_left, h1, h2, hg2, hb1, hb0, h3, h4, h5],
        r5, rfl, by rw [g5, g4, g3, g2, g1]⟩

@[simp] theorem bal_nil {K : Type} : (Tree.nil : Tree K).bal = 0 := rfl

@[simp] theorem bal_node {K : Type} (l r : Tree K) (a : Nat) (k : K) (c b : Int) :
    (Tree.node l a k c b r).bal = b := rfl

@[simp] theorem left_node {K : Type} (l r : Tree K) (a : Nat) (k : K) (c b : Int) :
    (Tree.node l a k c b r).left = l := rfl

@[simp] theorem right_node {K : Type} (l r : Tree K) (a : Nat) (k : K) (c b : Int) :
    (Tree.node l a k c b r).right = r := rfl

@[simp] theorem left_nil {K : Type} : (Tree.nil : Tree K).left = .nil := rfl

@[simp] theorem right_nil {K : Type} : (Tree.nil : Tree K).right = .nil := rfl

/-- Effect of `multiset_repair` on the subtree rooted at `parent`, below the path `fs`. -/
theorem repair_spec {K : Type} (me : internal_multiset K) (fs : List (Step K))
    (l r : Tree K) (p : Nat) (kp : K) (cp bp : Int) (child : Nat) (gc : Option Nat)
    (u : Tree K)
    (hrep : Represents me (plug fs (.node l p kp cp bp r)))
    (hu : repair_t (.node l p kp cp bp r) = some u)
    (hchild : if bp = 2 then r.ptr = some child ∧ (r.bal = -1 → gc = r.left.ptr)
      else l.ptr = some child ∧ (l.bal = 1 → gc = l.right.ptr)) :
    ∃ a me1, multiset_repair me p child gc = some (a, me1) ∧ Represents me1 (plug fs u) ∧
      u.ptr = some a ∧
      me1.repairs = me.repairs ++ [(bp, if bp = 2 then r.bal else l.bal)] := by
  have hp := rd_focus me fs l r p kp cp bp hrep
  by_cases hbp : bp = 2
  · subst hbp
    simp only [if_true] at hchild
    simp only [repair_t, if_true] at hu
    cases r with
    | nil => simp at hchild
    | node rl c kc cc bc rr =>
      simp only [ptr_node, Option.some.injEq, bal_node, left_node] at hchild hu
      obtain ⟨rfl, hgc⟩ := hchild
      have hc := rd_focus me (.R l p kp cp 2 :: fs) rl rr c kc cc bc hrep
      by_cases hbc : bc = -1
      · simp only [hbc, if_true] at hu
        cases rl with
        | nil => simp [repair_right_left_t] at hu
        | node gl g kg cg bg gr =>
          have hrep1 : Represents { me with repairs := me.repairs ++ [(2, bc)] }
              (plug fs (.node l p kp cp 2 (.node (.node gl g kg cg bg gr) c kc cc bc rr))) :=
            Represents_congr me _ _ rfl rfl hrep
          subst hbc
          obtain ⟨me1, h1, r1, e1, g1⟩ := repair_right_left_spec _ fs l gl gr rr p c g kp kc kg
            cp 2 cc (-1) cg bg u hrep1 hu
          refine ⟨g, me1, ?_, r1, e1, ?_⟩
          · simp [multiset_repair, hp, hc, hgc rfl, h1]
          · simp [g1]
      · simp only [hbc, if_false] at hu
        have hrep1 : Represents { me with repairs := me.repairs ++ [(2, bc)] }
            (plug fs (.node l p kp cp 2 (.node rl c kc cc bc rr))) :=
          Represents_congr me _ _ rfl rfl hrep
        obtain ⟨me1, h1, r1, e1, g1⟩ := repair_left_spec _ fs l rl rr p c kp kc
          cp 2 cc bc u hrep1 hu
        refine ⟨c, me1, ?_, r1, e1, ?_⟩
        · simp [multiset_repair, hp, hc, hbc, h1]
        · simp [g1]
  · simp only [hbp, if_false] at hchild
    simp only [repair_t, hbp, if_false] at hu
    cases l with
    | nil => simp at hchild
    | node ll c kc cc bc lr =>
      simp only [ptr_node, Option.some.injEq, bal_node, right_node] at hchild hu
      obtain ⟨rfl, hgc⟩ := hchild
      have hc := rd_focus me (.L p kp cp bp r :: fs) ll lr c kc cc bc hrep
      by_cases hbc : bc = 1
      · simp only [hbc, if_true] at hu
        cases lr with
        | nil => simp [repair_left_right_t] at hu
        | node gl g kg cg bg gr =>
          have hrep1 : Represents { me with repairs := me.repairs ++ [(bp, bc)] }
              (plug fs (.node (.node ll c kc cc bc (.node gl g kg cg bg gr)) p kp cp bp r)) :=
            Represents_congr me _ _ rfl rfl hrep
          subst hbc
          obtain ⟨me1, h1, r1, e1, g1⟩ := repair_left_right_spec _ fs ll gl gr r p c g kp kc kg
            cp bp cc 1 cg bg u hrep1 hu
          refine ⟨g, me1, ?_, r1, e1, ?_⟩
          · simp [multiset_repair, hp, hc, hbp, hgc rfl, h1]
          · simp [g1, hbp]
      · simp only [hbc, if_false] at hu
        have hrep1 : Represents { me with repairs := me.repairs ++ [(bp, bc)] }
            (plug fs (.node (.node ll c kc cc bc lr) p kp cp bp r)) :=
          Represents_congr me _ _ rfl rfl hrep
        obtain ⟨me1, h1, r1, e1, g1⟩ := repair_right_spec _ fs ll lr r p c kp kc
          cp bp cc bc u hrep1 hu
        refine ⟨c, me1, ?_, r1, e1, ?_⟩
        · simp [multiset_repair, hp, hc, hbp, hbc, h1]
        · simp [g1, hbp]

theorem sibling_ptr_ne {K : Type} (me : internal_multiset K) (fs : List (Step K))
    (l t : Tree K) (a : Nat) (k : K) (c b : Int) (child : Nat)
    (hrep : Represents me (plug (.R l a k c b :: fs) t)) (ht : t.ptr = some child) :
    ¬ l.ptr = some child := by
  intro hl
  have h1 := ptr_mem_addrs t child ht
  have h2 := ptr_mem_addrs l child hl
  rw [represents_plug] at hrep
  have hnd := hrep.2.2
  simp only [pathAddrs_R, List.nodup_append, List.nodup_cons, List.mem_append, List.mem_cons,
    not_or, List.disjoint_append_right, List.disjoint_cons_right] at hnd
  tauto

/-- The loop of `multiset_insert_balance` computes `ins_bal`, and its calls of
`multiset_repair` are those of `ins_rep`. -/
theorem insert_balance_loop_log {K : Type} (fs : List (Step K)) :
    ∀ (me : internal_multiset K) (t T : Tree K) (child : Nat) (gc : Option Nat) (fuel : Nat),
      Represents me (plug fs t) → t.ptr = some child →
      (t.bal = -1 → gc = t.left.ptr) → (t.bal = 1 → gc = t.right.ptr) →
      (∀ s ∈ fs, -1 ≤ s.bal ∧ s.bal ≤ 1) → ins_bal fs t = some T → fs.length ≤ fuel →
      ∃ me1, multiset_insert_balance_loop fuel me gc child (parptr fs) = some me1 ∧
        Represents me1 T ∧ me1.repairs = me.repairs ++ ins_rep fs t := by
  induction fs with
  | nil =>
    intro me t T child gc fuel hrep _ _ _ _ hT _
    simp only [ins_bal, Option.some.injEq] at hT
    subst hT
    refine ⟨me, ?_, hrep, by simp [ins_rep]⟩
    cases fuel <;> simp [multiset_insert_balance_loop]
  | cons s fs ih =>
    intro me t T child gc fuel hrep ht hg1 hg2 hbal hT hfuel
    cases fuel with
    | zero => simp at hfuel
    | succ fuel =>
      have hfuel1 : fs.length ≤ fuel := by simpa using hfuel
      have hb := hbal s (List.mem_cons_self _ _)
      have hbal1 : ∀ s ∈ fs, -1 ≤ s.bal ∧ s.bal ≤ 1 :=
        fun s hs => hbal s (List.mem_cons_of_mem _ hs)
      cases s with
      | L a k c b r =>
        simp only [Step.bal] at hb
        have hp := rd_focus me fs t r a k c b hrep
        obtain ⟨me2, h2, r2, g2⟩ := wr_focus me fs t r a k c b
          (fun (n : node K) => { n with balance := n.balance - 1 }) c (b - 1) hrep rfl
        have hp2 := rd_focus me2 fs t r a k c (b - 1) r2
        simp only [parptr_cons, addr_L, multiset_insert_balance_loop, hp, andThen_some, ht,
          if_true, h2, hp2]
        simp only [ins_bal] at hT
        by_cases h0 : b - 1 = 0
        · simp only [h0, if_true, Option.some.injEq] at hT ⊢
          subst hT
          rw [h0] at r2
          exact ⟨me2, rfl, r2, by simp [ins_rep, h0, g2]⟩
        · simp only [h0, if_false] at hT ⊢
          by_cases hrp : b - 1 > 1 ∨ b - 1 < -1
          · simp only [hrp, if_true, andThen_eq_some] at hT ⊢
            obtain ⟨u, hu, hT⟩ := hT
            simp only [Option.some.injEq] at hT
            subst hT
            have hne : ¬ b - 1 = 2 := by omega
            obtain ⟨x, me3, h3, r3, -, g3⟩ := repair_spec me2 fs t r a k c (b - 1) child gc u r2 hu
              (by simp only [hne, if_false]; exact ⟨ht, hg2⟩)
            exact ⟨me3, ⟨(x, me3), h3, rfl⟩, r3, by rw [g3, g2]; simp only [ins_rep, h0, hrp, if_true, if_false]⟩
          · simp only [hrp, if_false] at hT ⊢
            obtain ⟨me3, h3, r3, g3⟩ := ih me2 (.node t a k c (b - 1) r) T a (some child) fuel r2
              rfl (by intro _; simp [ht]) (by intro h; simp only [bal_node] at h; omega) hbal1 hT
              hfuel1
            exact ⟨me3, h3, r3, by rw [g3, g2]; simp only [ins_rep, h0, hrp, if_true, if_false]⟩
      | R l a k c b =>
        simp only [Step.bal] at hb
        have hp := rd_focus me fs l t a k c b hrep
        have hlc := sibling_ptr_ne me fs l t a k c b child hrep ht
        obtain ⟨me2, h2, r2, g2⟩ := wr_focus me fs l t a k c b
          (fun (n : node K) => { n with balance := n.balance + 1 }) c (b + 1) hrep rfl
        have hp2 := rd_focus me2 fs l t a k c (b + 1) r2
        simp only [parptr_cons, addr_R, multiset_insert_balance_loop, hp, andThen_some, hlc,
          if_false, h2, hp2]
        simp only [ins_bal] at hT
        by_cases h0 : b + 1 = 0
        · simp only [h0, if_true, Option.some.injEq] at hT ⊢
          subst hT
          rw [h0] at r2
          exact ⟨me2, rfl, r2, by simp [ins_rep, h0, g2]⟩
        · simp only [h0, if_false] at hT ⊢
          by_cases hrp : b + 1 > 1 ∨ b + 1 < -1
          · simp only [hrp, if_true, andThen_eq_some] at hT ⊢
            obtain ⟨u, hu, hT⟩ := hT
            simp only [Option.some.injEq] at hT
            subst hT
            have he : b + 1 = 2 := by omega
            obtain ⟨x, me3, h3, r3, -, g3⟩ := repair_spec me2 fs l t a k c (b + 1) child gc u r2 hu
              (by simp only [he, if_true]; exact ⟨ht, hg1⟩)
            exact ⟨me3, ⟨(x, me3), h3, rfl⟩, r3, by rw [g3, g2]; simp only [ins_rep, h0, hrp, if_true, if_false]⟩
          · simp only [hrp, if_false] at hT ⊢
            obtain ⟨me3, h3, r3, g3⟩ := ih me2 (.node l a k c (b + 1) t) T a (some child) fuel r2
              rfl (by intro h; simp only [bal_node] at h; omega) (by intro _; simp [ht]) hbal1 hT
              hfuel1
            exact ⟨me3, h3, r3, by rw [g3, g2]; simp only [ins_rep, h0, hrp, if_true, if_false]⟩

/-- The loop of `multiset_insert_balance` computes `ins_bal`. -/
theorem insert_balance_loop_spec {K : Type} (fs : List (Step K)) :
    ∀ (me : internal_multiset K) (t T : Tree K) (child : Nat) (gc : Option Nat) (fuel : Nat),
      Represents me (plug fs t) → t.ptr = some child →
      (t.bal = -1 → gc = t.left.ptr) → (t.bal = 1 → gc = t.right.ptr) →
      (∀ s ∈ fs, -1 ≤ s.bal ∧ s.bal ≤ 1) → ins_bal fs t = some T → fs.length ≤ fuel →
      ∃ me1, multiset_insert_balance_loop fuel me gc child (parptr fs) = some me1 ∧
        Represents me1 T := by
  intro me t T child gc fuel hrep ht hg1 hg2 hbal hT hfuel
  obtain ⟨me1, h1, r1, -⟩ := insert_balance_loop_log fs me t T child gc fuel hrep ht hg1 hg2
    hbal hT hfuel
  exact ⟨me1, h1, r1⟩

theorem RepPath_allocated {K : Type} (root : Option Nat) (h : List (Option (node K)))
    (fs : List (Step K)) :
    ∀ p, RepPath root h fs p → ∀ a ∈ pathAddrs fs, ∃ n, rd h a = some n := by
  induction fs with
  | nil => intro _ _ a ha; simp at ha
  | cons s fs ih =>
    intro p hp x hx
    cases s with
    | L a k c b r =>
      simp only [RepPath] at hp
      simp only [pathAddrs_L, List.mem_cons, List.mem_append] at hx
      rcases hx with hx | hx | hx
      · subst hx; exact ⟨_, hp.1⟩
      · exact Rep_allocated h r _ hp.2.1 x hx
      · exact ih _ hp.2.2 x hx
    | R l a k c b =>
      simp only [RepPath] at hp
      simp only [pathAddrs_R, List.mem_cons, List.mem_append] at hx
      rcases hx with hx | hx | hx
      · subst hx; exact ⟨_, hp.1⟩
      · exact Rep_allocated h l _ hp.2.1 x hx
      · exact ih _ hp.2.2 x hx

theorem represents_allocated {K : Type} (me : internal_multiset K) (t : Tree K)
    (hrep : Represents me t) : ∀ a ∈ t.addrs, ∃ n, rd me.mem a = some n :=
  Rep_allocated me.mem t none hrep.2.1

theorem fresh_not_mem {K : Type} (me : internal_multiset K) (t : Tree K)
    (hrep : Represents me t) : me.mem.length ∉ t.addrs := by
  intro h
  obtain ⟨n, hn⟩ := represents_allocated me t hrep _ h
  rw [rd_eq_none_of_length_le me.mem _ (Nat.le_refl _)] at hn
  cases hn

theorem nodup_length_le (l : List Nat) (n : Nat) (hnd : l.Nodup) (hlt : ∀ x ∈ l, x < n) :
    l.length ≤ n := by
  have h1 : l.toFinset ⊆ Finset.range n := by
    intro x hx
    rw [List.mem_toFinset] at hx
    exact Finset.mem_range.mpr (hlt x hx)
  have h2 := Finset.card_le_card h1
  rw [List.toFinset_card_of_nodup hnd, Finset.card_range] at h2
  exact h2

theorem addrs_length {K : Type} (t : Tree K) : t.addrs.length = t.size := by
  induction t with
  | nil => rfl
  | node l a k c b r ihl ihr => simp [Tree.size, ihl, ihr]; omega

theorem represents_size_le {K : Type} (me : internal_multiset K) (t : Tree K)
    (hrep : Represents me t) : t.size ≤ me.mem.length := by
  rw [← addrs_length]
  refine nodup_length_le _ _ hrep.2.2 ?_
  intro x hx
  obtain ⟨n, hn⟩ := represents_allocated me t hrep x hx
  exact lt_length_of_rd _ _ _ hn

theorem length_le_pathAddrs {K : Type} (fs : List (Step K)) :
    fs.length ≤ (pathAddrs fs).length := by
  induction fs with
  | nil => simp
  | cons s fs ih => cases s <;> simp <;> omega

theorem plug_size {K : Type} (fs : List (Step K)) (t : Tree K) :
    t.size + fs.length ≤ (plug fs t).size := by
  rw [← addrs_length, ← addrs_length, (plug_addrs_perm fs t).length_eq, List.length_append]
  have := length_le_pathAddrs fs
  omega

theorem link_left_spec {K : Type} (me : internal_multiset K) (fs : List (Step K)) (r : Tree K)
    (a : Nat) (k : K) (c b : Int) (key : K)
    (hrep : Represents me (plug fs (.node .nil a k c b r))) :
    ∃ me2, wr { me with
          mem := upd me.mem me.mem.length
            (some { count := 1, parent := some a, balance := 0, key := key,
                    left := none, right := none })
          size := me.size + 1 } a
        (fun (n : node K) => { n with left := some me.mem.length }) = some me2 ∧
      Represents me2 (plug fs (.node (leaf me.mem.length key) a k c b r)) ∧
      me2.size = me.size + 1 ∧ me2.comparator = me.comparator ∧
      me2.key_size = me.key_size ∧ me2.repairs = me.repairs := by
  have hfresh := fresh_not_mem me _ hrep
  have hrd := rd_focus me fs _ _ a k c b hrep
  rw [mem_plug_addrs] at hfresh
  simp only [addrs_node, addrs_nil, List.nil_append, List.mem_cons, not_or] at hfresh
  rw [represents_plug] at hrep
  obtain ⟨hpath, hsub, hnd0⟩ := hrep
  have hnd := hnd0
  simp only [addrs_node, addrs_nil, List.nil_append, List.nodup_append, List.nodup_cons,
    List.mem_append, List.mem_cons, List.cons_append, not_or,
    List.disjoint_cons_left] at hnd
  simp only [Rep_node] at hsub
  have han : a ≠ me.mem.length := fun e => hfresh.1.1 e.symm
  simp only [wr, rd_upd, han, if_false, hrd, Option.some.injEq, exists_eq_left', and_true]
  rw [represents_plug]
  refine ⟨?_, ?_, ?_⟩
  · simp only [ptr_node] at hpath ⊢
    refine RepPath_frame _ _ _ fs _ ?_ hpath
    intro x hx
    have e1 : x ≠ a := by rintro rfl; tauto
    have e2 : x ≠ me.mem.length := by rintro rfl; tauto
    simp [e1, e2]
  · simp only [leaf, Rep_node, rd_upd, if_true, true_and, ptr_node, ptr_nil, Rep_nil, and_true]
    refine ⟨?_, ?_⟩
    · simp [Ne.symm han]
    · refine Rep_frame _ _ r _ ?_ hsub.2.2
      intro x hx
      have e1 : x ≠ a := by rintro rfl; tauto
      have e2 : x ≠ me.mem.length := by rintro rfl; tauto
      simp [e1, e2]
  · simp only [leaf, addrs_node, addrs_nil, List.nil_append, List.nodup_append,
      List.nodup_cons, List.mem_append, List.mem_cons, List.cons_append, not_or,
      List.disjoint_cons_left, List.append_assoc]
    tauto

theorem link_right_spec {K : Type} (me : internal_multiset K) (fs : List (Step K))
    (l : Tree K) (a : Nat) (k : K) (c b : Int) (key : K)
    (hrep : Represents me (plug fs (.node l a k c b .nil))) :
    ∃ me2, wr { me with
          mem := upd me.mem me.mem.length
            (some { count := 1, parent := some a, balance := 0, key := key,
                    left := none, right := none })
          size := me.size + 1 } a
        (fun (n : node K) => { n with right := some me.mem.length }) = some me2 ∧
      Represents me2 (plug fs (.node l a k c b (leaf me.mem.length key))) ∧
      me2.size = me.size + 1 ∧ me2.comparator = me.comparator ∧
      me2.key_size = me.key_size ∧ me2.repairs = me.repairs := by
  have hfresh := fresh_not_mem me _ hrep
  have hrd := rd_focus me fs _ _ a k c b hrep
  rw [mem_plug_addrs] at hfresh
  simp only [addrs_node, addrs_nil, List.mem_append, List.mem_cons, not_or,
    List.not_mem_nil, or_false] at hfresh
  rw [represents_plug] at hrep
  obtain ⟨hpath, hsub, hnd0⟩ := hrep
  have hnd := hnd0
  simp only [addrs_node, addrs_nil, List.nodup_append, List.nodup_cons,
    List.mem_append, List.mem_cons, List.cons_append, not_or, List.append_assoc,
    List.disjoint_cons_right, List.nil_append] at hnd
  simp only [Rep_node] at hsub
  have han : a ≠ me.mem.length := fun e => hfresh.1.2 e.symm
  simp only [wr, rd_upd, han, if_false, hrd, Option.some.injEq, exists_eq_left', and_true]
  rw [represents_plug]
  refine ⟨?_, ?_, ?_⟩
  · simp only [ptr_node] at hpath ⊢
    refine RepPath_frame _ _ _ fs _ ?_ hpath
    intro x hx
    have e1 : x ≠ a := by rintro rfl; tauto
    have e2 : x ≠ me.mem.length := by rintro rfl; tauto
    simp [e1, e2]
  · simp only [leaf, Rep_node, rd_upd, if_true, true_and, ptr_node, ptr_nil, Rep_nil, and_true]
    refine ⟨?_, ?_⟩
    · refine Rep_frame _ _ l _ ?_ hsub.2.1
      intro x hx
      have e1 : x ≠ a := by rintro rfl; tauto
      have e2 : x ≠ me.mem.length := by rintro rfl; tauto
      simp [e1, e2]
    · simp [Ne.symm han]
  · simp only [leaf, addrs_node, addrs_nil, List.nil_append, List.nodup_append,
      List.nodup_cons, List.mem_append, List.mem_cons, List.cons_append, not_or,
      List.disjoint_cons_right, List.append_assoc, List.disjoint_cons_left]
    tauto

theorem Keeps.of_eq {K : Type} {me me1 : internal_multiset K}
    (h1 : me1.size = me.size) (h2 : me1.comparator = me.comparator)
    (h3 : me1.key_size = me.key_size) (h4 : me1.mem = me.mem) : Keeps me me1 :=
  ⟨h1, h2, h3, fun a ha => by rw [h4]; exact ha⟩

theorem Keeps.wr_if {K : Type} {me me1 : internal_multiset K} {p : Option Nat}
    {f : node K → node K} (h : wr_if me p f = some me1) : Keeps me me1 := by
  cases p with
  | none => simp only [Containers.wr_if, Option.some.injEq] at h; subst h; exact Keeps.refl me
  | some g => exact Keeps.wr h

theorem keeps_reference_parent {K : Type} {me me1 : internal_multiset K} {p c : Nat}
    (h : multiset_reference_parent me p c = some me1) : Keeps me me1 := by
  simp only [multiset_reference_parent, andThen_eq_some] at h
  obtain ⟨pn, -, me2, h2, pn2, -, h3⟩ := h
  have k2 := Keeps.wr h2
  split at h3
  · simp only [Option.some.injEq] at h3
    subst h3
    exact k2.trans (Keeps.of_eq rfl rfl rfl rfl)
  · simp only [andThen_eq_some] at h3
    obtain ⟨gn, -, h3⟩ := h3
    split at h3
    · exact k2.trans (Keeps.wr h3)
    · exact k2.trans (Keeps.wr h3)

theorem keeps_rotate_left {K : Type} {me me1 : internal_multiset K} {p c : Nat}
    (h : multiset_rotate_left me p c = some me1) : Keeps me me1 := by
  simp only [multiset_rotate_left, andThen_eq_some] at h
  obtain ⟨m1, h1, cn, -, m2, h2, m3, h3, m4, h4, h5⟩ := h
  exact (keeps_reference_parent h1).trans ((Keeps.wr_if h2).trans
    ((Keeps.wr h3).trans ((Keeps.wr h4).trans (Keeps.wr h5))))

theorem keeps_rotate_right {K : Type} {me me1 : internal_multiset K} {p c : Nat}
    (h : multiset_rotate_right me p c = some me1) : Keeps me me1 := by
  simp only [multiset_rotate_right, andThen_eq_some] at h
  obtain ⟨m1, h1, cn, -, m2, h2, m3, h3, m4, h4, h5⟩ := h
  exact (keeps_reference_parent h1).trans ((Keeps.wr_if h2).trans
    ((Keeps.wr h3).trans ((Keeps.wr h4).trans (Keeps.wr h5))))

theorem keeps_repair_left {K : Type} {me : internal_multiset K} {p c : Nat}
    {r : Nat × internal_multiset K} (h : multiset_repair_left me p c = some r) :
    Keeps me r.2 := by
  simp only [multiset_repair_left, andThen_eq_some] at h
  obtain ⟨m1, h1, cn, -, m2, h2, h3⟩ := h
  simp only [Option.some.injEq] at h3
  subst h3
  refine (keeps_rotate_left h1).trans ?_
  split at h2
  · simp only [andThen_eq_some] at h2
    obtain ⟨m3, h3, h4⟩ := h2
    exact (Keeps.wr h3).trans (Keeps.wr h4)
  · simp only [andThen_eq_some] at h2
    obtain ⟨m3, h3, h4⟩ := h2
    exact (Keeps.wr h3).trans (Keeps.wr h4)

theorem keeps_repair_right {K : Type} {me : internal_multiset K} {p c : Nat}
    {r : Nat × internal_multiset K} (h : multiset_repair_right me p c = some r) :
    Keeps me r.2 := by
  simp only [multiset_repair_right, andThen_eq_some] at h
  obtain ⟨m1, h1, cn, -, m2, h2, h3⟩ := h
  simp only [Option.some.injEq] at h3
  subst h3
  refine (keeps_rotate_right h1).trans ?_
  split at h2
  · simp only [andThen_eq_some] at h2
    obtain ⟨m3, h3, h4⟩ := h2
    exact (Keeps.wr h3).trans (Keeps.wr h4)
  · simp only [andThen_eq_some] at h2
    obtain ⟨m3, h3, h4⟩ := h2
    exact (Keeps.wr h3).trans (Keeps.wr h4)

theorem keeps_repair_left_right {K : Type} {me : internal_multiset K} {p c g : Nat}
    {r : Nat × internal_multiset K} (h : multiset_repair_left_right me p c g = some r) :
    Keeps me r.2 := by
  simp only [multiset_repair_left_right, andThen_eq_some] at h
  obtain ⟨m1, h1, m2, h2, gn, -, m3, h3, m4, h4, h5⟩ := h
  simp only [Option.some.injEq] at h5
  subst h5
  refine (keeps_rotate_left h1).trans ((keeps_rotate_right h2).trans ?_)
  refine Keeps.trans ?_ (Keeps.wr h4)
  split at h3
  · simp only [andThen_eq_some] at h3
    obtain ⟨m5, h5, h6⟩ := h3
    exact (Keeps.wr h5).trans (Keeps.wr h6)
  · split at h3
    · simp only [andThen_eq_some] at h3
      obtain ⟨m5, h5, h6⟩ := h3
      exact (Keeps.wr h5).trans (Keeps.wr h6)
    · simp only [andThen_eq_some] at h3
      obtain ⟨m5, h5, h6⟩ := h3
      exact (Keeps.wr h5).trans (Keeps.wr h6)

theorem keeps_repair_right_left {K : Type} {me : internal_multiset K} {p c g : Nat}
    {r : Nat × internal_multiset K} (h : multiset_repair_right_left me p c g = some r) :
    Keeps me r.2 := by
  simp only [multiset_repair_right_left, andThen_eq_some] at h
  obtain ⟨m1, h1, m2, h2, gn, -, m3, h3, m4, h4, h5⟩ := h
  simp only [Option.some.injEq] at h5
  subst h5
  refine (keeps_rotate_right h1).trans ((keeps_rotate_left h2).trans ?_)
  refine Keeps.trans ?_ (Keeps.wr h4)
  split at h3
  · simp only [andThen_eq_some] at h3
    obtain ⟨m5, h5, h6⟩ := h3
    exact (Keeps.wr h5).trans (Keeps.wr h6)
  · split at h3
    · simp only [andThen_eq_some] at h3
      obtain ⟨m5, h5, h6⟩ := h3
      exact (Keeps.wr h5).trans (Keeps.wr h6)
    · simp only [andThen_eq_some] at h3
      obtain ⟨m5, h5, h6⟩ := h3
      exact (Keeps.wr h5).trans (Keeps.wr h6)

theorem keeps_repair {K : Type} {me : internal_multiset K} {p c : Nat} {g : Option Nat}
    {r : Nat × internal_multiset K} (h : multiset_repair me p c g = some r) :
    Keeps me r.2 := by
  simp only [multiset_repair, andThen_eq_some] at h
  obtain ⟨pn, -, cn, -, h⟩ := h
  have k0 : Keeps me { me with repairs := me.repairs ++ [(pn.balance, cn.balance)] } :=
    Keeps.of_eq rfl rfl rfl rfl
  split at h
  · split at h
    · simp only [andThen_eq_some] at h
      obtain ⟨g1, -, h⟩ := h
      exact k0.trans (keeps_repair_right_left h)
    · exact k0.trans (keeps_repair_left h)
  · split at h
    · simp only [andThen_eq_some] at h
      obtain ⟨g1, -, h⟩ := h
      exact k0.trans (keeps_repair_left_right h)
    · exact k0.trans (keeps_repair_right h)

theorem keeps_insert_balance_loop {K : Type} (fuel : Nat) :
    ∀ (me me1 : internal_multiset K) (gc : Option Nat) (child : Nat) (parent : Option Nat),
      multiset_insert_balance_loop fuel me gc child parent = some me1 → Keeps me me1 := by
  induction fuel with
  | zero =>
    intro me me1 gc child parent h
    cases parent with
    | none =>
      simp only [multiset_insert_balance_loop, Option.some.injEq] at h
      subst h; exact Keeps.refl me
    | some p => simp [multiset_insert_balance_loop] at h
  | succ fuel ih =>
    intro me me1 gc child parent h
    cases parent with
    | none =>
      simp only [multiset_insert_balance_loop, Option.some.injEq] at h
      subst h; exact Keeps.refl me
    | some p =>
      simp only [multiset_insert_balance_loop, andThen_eq_some] at h
      obtain ⟨pn, -, m1, h1, pn1, -, h2⟩ := h
      have k1 : Keeps me m1 := by
        split at h1
        · exact Keeps.wr h1
        · exact Keeps.wr h1
      split at h2
      · simp only [Option.some.injEq] at h2
        subst h2; exact k1
      · split at h2
        · simp only [andThen_eq_some, Option.some.injEq] at h2
          obtain ⟨r, hr, h2⟩ := h2
          subst h2
          exact k1.trans (keeps_repair hr)
        · exact k1.trans (ih _ _ _ _ _ h2)

@[simp] theorem zoom_nil {K : Type} (cmp : K → K → Int) (key : K) (fs : List (Step K)) :
    zoom cmp key fs .nil = (fs, .nil) := rfl

theorem zoom_lt {K : Type} (cmp : K → K → Int) (key : K) (fs : List (Step K))
    (l r : Tree K) (a : Nat) (k : K) (c b : Int) (h : cmp key k < 0) :
    zoom cmp key fs (.node l a k c b r) = zoom cmp key (.L a k c b r :: fs) l := by
  simp [zoom, h]

theorem zoom_gt {K : Type} (cmp : K → K → Int) (key : K) (fs : List (Step K))
    (l r : Tree K) (a : Nat) (k : K) (c b : Int) (h1 : ¬ cmp key k < 0) (h : cmp key k > 0) :
    zoom cmp key fs (.node l a k c b r) = zoom cmp key (.R l a k c b :: fs) r := by
  simp [zoom, h1, h]

theorem zoom_eq {K : Type} (cmp : K → K → Int) (key : K) (fs : List (Step K))
    (l r : Tree K) (a : Nat) (k : K) (c b : Int) (h1 : ¬ cmp key k < 0)
    (h : ¬ cmp key k > 0) :
    zoom cmp key fs (.node l a k c b r) = (fs, .node l a k c b r) := by
  simp [zoom, h1, h]

theorem put_at_nil {K : Type} (cmp : K → K → Int) (key : K) (new : Nat)
    (fs : List (Step K)) : put_at cmp key new fs .nil = ins_bal fs (leaf new key) := rfl

theorem put_at_lt {K : Type} (cmp : K → K → Int) (key : K) (new : Nat) (fs : List (Step K))
    (l r : Tree K) (a : Nat) (k : K) (c b : Int) (h : cmp key k < 0) :
    put_at cmp key new fs (.node l a k c b r) = put_at cmp key new (.L a k c b r :: fs) l := by
  simp only [put_at, zoom_lt cmp key fs l r a k c b h]

theorem put_at_gt {K : Type} (cmp : K → K → Int) (key : K) (new : Nat) (fs : List (Step K))
    (l r : Tree K) (a : Nat) (k : K) (c b : Int) (h1 : ¬ cmp key k < 0) (h : cmp key k > 0) :
    put_at cmp key new fs (.node l a k c b r) = put_at cmp key new (.R l a k c b :: fs) r := by
  simp only [put_at, zoom_gt cmp key fs l r a k c b h1 h]

theorem put_at_eq {K : Type} (cmp : K → K → Int) (key : K) (new : Nat) (fs : List (Step K))
    (l r : Tree K) (a : Nat) (k : K) (c b : Int) (h1 : ¬ cmp key k < 0)
    (h : ¬ cmp key k > 0) :
    put_at cmp key new fs (.node l a k c b r) = some (plug fs (.node l a k (c + 1) b r)) := by
  simp only [put_at, zoom_eq cmp key fs l r a k c b h1 h]

theorem put_rep_nil {K : Type} (cmp : K → K → Int) (key : K) (new : Nat)
    (fs : List (Step K)) : put_rep cmp key new fs .nil = ins_rep fs (leaf new key) := rfl

theorem put_rep_lt {K : Type} (cmp : K → K → Int) (key : K) (new : Nat) (fs : List (Step K))
    (l r : Tree K) (a : Nat) (k : K) (c b : Int) (h : cmp key k < 0) :
    put_rep cmp key new fs (.node l a k c b r) =
      put_rep cmp key new (.L a k c b r :: fs) l := by
  simp only [put_rep, zoom_lt cmp key fs l r a k c b h]

theorem put_rep_gt {K : Type} (cmp : K → K → Int) (key : K) (new : Nat) (fs : List (Step K))
    (l r : Tree K) (a : Nat) (k : K) (c b : Int) (h1 : ¬ cmp key k < 0) (h : cmp key k > 0) :
    put_rep cmp key new fs (.node l a k c b r) =
      put_rep cmp key new (.R l a k c b :: fs) r := by
  simp only [put_rep, zoom_gt cmp key fs l r a k c b h1 h]

theorem put_rep_eq {K : Type} (cmp : K → K → Int) (key : K) (new : Nat) (fs : List (Step K))
    (l r : Tree K) (a : Nat) (k : K) (c b : Int) (h1 : ¬ cmp key k < 0)
    (h : ¬ cmp key k > 0) :
    put_rep cmp key new fs (.node l a k c b r) = [] := by
  simp only [put_rep, zoom_eq cmp key fs l r a k c b h1 h]

theorem size_node_pos {K : Type} (l r : Tree K) (a : Nat) (k : K) (c b : Int) :
    (Tree.node l a k c b r).size = l.size + 1 + r.size := rfl

/-- The descent loop of `multiset_put` (allocations succeeding) computes `put_at`, and its
calls of `multiset_repair` are those of `put_rep`. -/
theorem put_loop_log {K : Type} (key : K) (t : Tree K) :
    ∀ (me : internal_multiset K) (fs : List (Step K)) (traverse fuel : Nat) (T : Tree K),
      Represents me (plug fs t) → t.ptr = some traverse → t.size ≤ fuel →
      (∀ s ∈ (zoom me.comparator key fs t).1, -1 ≤ s.bal ∧ s.bal ≤ 1) →
      put_at me.comparator key me.mem.length fs t = some T →
      ∃ me1, multiset_put_loop key true true fuel me traverse = some (0, me1) ∧
        Represents me1 T ∧ me1.size = me.size + 1 ∧ me1.comparator = me.comparator ∧
        me1.key_size = me.key_size ∧
        me1.repairs = me.repairs ++ put_rep me.comparator key me.mem.length fs t := by
  induction t with
  | nil => intro me fs traverse fuel T _ ht; simp at ht
  | node l a k c b r ihl ihr =>
    intro me fs traverse fuel T hrep ht hfuel hbal hT
    simp only [ptr_node, Option.some.injEq] at ht
    subst ht
    rw [size_node_pos] at hfuel
    cases fuel with
    | zero => omega
    | succ fuel =>
      have hp := rd_focus me fs l r a k c b hrep
      simp only [multiset_put_loop, hp, andThen_some]
      by_cases hlt : me.comparator key k < 0
      · simp only [hlt, if_true]
        rw [put_at_lt _ _ _ _ _ _ _ _ _ _ hlt] at hT
        rw [zoom_lt _ _ _ _ _ _ _ _ _ hlt] at hbal
        cases l with
        | nil =>
          rw [put_at_nil] at hT
          simp only [zoom_nil] at hbal
          obtain ⟨me2, h2, r2, s2, c2, k2, g2⟩ := link_left_spec me fs r a k c b key hrep
          have hrd := rd_focus me2 (.L a k c b r :: fs) .nil .nil me.mem.length key 1 0 r2
          have hsz := represents_size_le me2 _ r2
          have hps := plug_size (.L a k c b r :: fs) (leaf me.mem.length key)
          rw [plug_L] at hps
          obtain ⟨me3, h3, r3, g3⟩ := insert_balance_loop_log (.L a k c b r :: fs) me2
            (leaf me.mem.length key) T me.mem.length none (me2.mem.length + 1) r2 rfl
            (by simp [leaf]) (by simp [leaf]) hbal hT (by omega)
          have k3 := keeps_insert_balance_loop _ _ _ _ _ _ h3
          refine ⟨me3, ?_, r3, by rw [k3.1, s2], by rw [k3.2.1, c2], by rw [k3.2.2.1, k2],
            by rw [g3, g2, put_rep_lt _ _ _ _ _ _ _ _ _ _ hlt, put_rep_nil]⟩
          simp only [ptr_nil, multiset_create_node, if_true, h2, andThen_some,
            multiset_insert_balance, hrd]
          simp only [parptr_cons, addr_L] at h3
          simp [h3]
        | node ll la lk lc lb lr =>
          simp only [ptr_node]
          rw [size_node_pos] at hfuel
          rw [put_rep_lt _ _ _ _ _ _ _ _ _ _ hlt]
          exact ihl me (.L a k c b r :: fs) la fuel T hrep rfl
            (by rw [size_node_pos]; omega) hbal hT
      · simp only [hlt, if_false]
        by_cases hgt : me.comparator key k > 0
        · simp only [hgt, if_true]
          rw [put_at_gt _ _ _ _ _ _ _ _ _ _ hlt hgt] at hT
          rw [zoom_gt _ _ _ _ _ _ _ _ _ hlt hgt] at hbal
          cases r with
          | nil =>
            rw [put_at_nil] at hT
            simp only [zoom_nil] at hbal
            obtain ⟨me2, h2, r2, s2, c2, k2, g2⟩ := link_right_spec me fs l a k c b key hrep
            have hrd := rd_focus me2 (.R l a k c b :: fs) .nil .nil me.mem.length key 1 0 r2
            have hsz := represents_size_le me2 _ r2
            have hps := plug_size (.R l a k c b :: fs) (leaf me.mem.length key)
            rw [plug_R] at hps
            obtain ⟨me3, h3, r3, g3⟩ := insert_balance_loop_log (.R l a k c b :: fs) me2
              (leaf me.mem.length key) T me.mem.length none (me2.mem.length + 1) r2 rfl
              (by simp [leaf]) (by simp [leaf]) hbal hT (by omega)
            have k3 := keeps_insert_balance_loop _ _ _ _ _ _ h3
            refine ⟨me3, ?_, r3, by rw [k3.1, s2], by rw [k3.2.1, c2], by rw [k3.2.2.1, k2],
              by rw [g3, g2, put_rep_gt _ _ _ _ _ _ _ _ _ _ hlt hgt, put_rep_nil]⟩
            simp only [ptr_nil, multiset_create_node, if_true, h2, andThen_some,
              multiset_insert_balance, hrd]
            simp only [parptr_cons, addr_R] at h3
            simp [h3]
          | node rl ra rk rc rb rr =>
            simp only [ptr_node]
            rw [size_node_pos] at hfuel
            rw [put_rep_gt _ _ _ _ _ _ _ _ _ _ hlt hgt]
            exact ihr me (.R l a k c b :: fs) ra fuel T hrep rfl
              (by rw [size_node_pos]; omega) hbal hT
        · simp only [hgt, if_false]
          rw [put_at_eq _ _ _ _ _ _ _ _ _ _ hlt hgt] at hT
          simp only [Option.some.injEq] at hT
          subst hT
          obtain ⟨me2, h2, r2, g2⟩ := wr_focus me fs l r a k c b
            (fun (n : node K) => { n with count := n.count + 1 }) (c + 1) b hrep rfl
          have k2 := Keeps.wr h2
          refine ⟨{ me2 with size := me2.size + 1 }, ?_, ?_, ?_, ?_, ?_, ?_⟩
          · simp [h2]
          · exact Represents_congr me2 _ _ rfl rfl r2
          · simp [k2.1]
          · simp [k2.2.1]
          · simp [k2.2.2.1]
          · rw [put_rep_eq _ _ _ _ _ _ _ _ _ _ hlt hgt]
            simp [g2]

/-- The descent loop of `multiset_put` (allocations succeeding) computes `put_at`. -/
theorem put_loop_spec {K : Type} (key : K) (t : Tree K) :
    ∀ (me : internal_multiset K) (fs : List (Step K)) (traverse fuel : Nat) (T : Tree K),
      Represents me (plug fs t) → t.ptr = some traverse → t.size ≤ fuel →
      (∀ s ∈ (zoom me.comparator key fs t).1, -1 ≤ s.bal ∧ s.bal ≤ 1) →
      put_at me.comparator key me.mem.length fs t = some T →
      ∃ me1, multiset_put_loop key true true fuel me traverse = some (0, me1) ∧
        Represents me1 T ∧ me1.size = me.size + 1 ∧ me1.comparator = me.comparator ∧
        me1.key_size = me.key_size := by
  intro me fs traverse fuel T hrep ht hfuel hbal hT
  obtain ⟨me1, h1, r1, s1, c1, k1, -⟩ := put_loop_log key t me fs traverse fuel T hrep ht hfuel
    hbal hT
  exact ⟨me1, h1, r1, s1, c1, k1⟩

/-- A successful `multiset_put` computes `put_t`, and its calls of `multiset_repair` are
those of `put_rep`. -/
theorem put_log {K : Type} (me : internal_multiset K) (key : K) (t T : Tree K)
    (hrep : Represents me t)
    (hbal : ∀ s ∈ (zoom me.comparator key [] t).1, -1 ≤ s.bal ∧ s.bal ≤ 1)
    (hT : put_t me.comparator key me.mem.length t = some T) :
    ∃ me1, multiset_put me key true true = some (0, me1) ∧ Represents me1 T ∧
      me1.size = me.size + 1 ∧ me1.comparator = me.comparator ∧
      me1.key_size = me.key_size ∧
      me1.repairs = me.repairs ++ put_rep me.comparator key me.mem.length [] t := by
  cases t with
  | nil =>
    have hroot : me.root = none := hrep.1
    simp only [put_t, put_at_nil, ins_bal, Option.some.injEq] at hT
    subst hT
    simp only [multiset_put, hroot, multiset_create_node, if_true, Option.some.injEq,
      Prod.mk.injEq, true_and, exists_eq_left', and_true]
    refine ⟨⟨rfl, ?_, ?_⟩, ?_⟩
    · simp [leaf, Rep_node]
    · simp [leaf]
    · simp [put_rep_nil, ins_rep]
  | node l a k c b r =>
    have hroot : me.root = some a := hrep.1
    have hsz := represents_size_le me _ hrep
    simp only [multiset_put, hroot]
    exact put_loop_log key _ me [] a (me.mem.length + 1) T hrep rfl (by omega) hbal hT

/-- A successful `multiset_put` computes `put_t`. -/
theorem put_spec {K : Type} (me : internal_multiset K) (key : K) (t T : Tree K)
    (hrep : Represents me t)
    (hbal : ∀ s ∈ (zoom me.comparator key [] t).1, -1 ≤ s.bal ∧ s.bal ≤ 1)
    (hT : put_t me.comparator key me.mem.length t = some T) :
    ∃ me1, multiset_put me key true true = some (0, me1) ∧ Represents me1 T ∧
      me1.size = me.size + 1 ∧ me1.comparator = me.comparator ∧
      me1.key_size = me.key_size := by
  obtain ⟨me1, h1, r1, s1, c1, k1, -⟩ := put_log me key t T hrep hbal hT
  exact ⟨me1, h1, r1, s1, c1, k1⟩

/-! ## Heights and the AVL invariant on trees -/

@[simp] theorem height_nil {K : Type} : (Tree.nil : Tree K).height = 0 := rfl

@[simp] theorem height_node {K : Type} (l r : Tree K) (a : Nat) (k : K) (c b : Int) :
    (Tree.node l a k c b r).height = 1 + max l.height r.height := rfl

theorem height_nonneg {K : Type} (t : Tree K) : 0 ≤ t.height := by
  induction t with
  | nil => simp
  | node l a k c b r ihl ihr => simp only [height_node]; omega

@[simp] theorem AVL_nil {K : Type} : AVL (Tree.nil : Tree K) = True := rfl

theorem AVL_node {K : Type} (l r : Tree K) (a : Nat) (k : K) (c b : Int) :
    AVL (Tree.node l a k c b r) =
      (b = r.height - l.height ∧ -1 ≤ b ∧ b ≤ 1 ∧ AVL l ∧ AVL r) := rfl

theorem AVL_plug_sub {K : Type} (fs : List (Step K)) :
    ∀ t : Tree K, AVL (plug fs t) → AVL t := by
  induction fs with
  | nil => intro t h; exact h
  | cons s fs ih =>
    intro t h
    cases s with
    | L a k c b r => have := ih _ h; rw [AVL_node] at this; exact this.2.2.2.1
    | R l a k c b => have := ih _ h; rw [AVL_node] at this; exact this.2.2.2.2

theorem AVL_plug_replace {K : Type} (fs : List (Step K)) :
    ∀ t u : Tree K, AVL (plug fs t) → AVL u → u.height = t.height → AVL (plug fs u) := by
  induction fs with
  | nil => intro t u _ hu _; exact hu
  | cons s fs ih =>
    intro t u h hu hh
    cases s with
    | L a k c b r =>
      have hn := AVL_plug_sub fs _ h
      rw [AVL_node] at hn
      refine ih _ _ h ?_ ?_
      · rw [AVL_node]; exact ⟨by rw [hh]; exact hn.1, hn.2.1, hn.2.2.1, hu, hn.2.2.2.2⟩
      · simp only [height_node, hh]
    | R l a k c b =>
      have hn := AVL_plug_sub fs _ h
      rw [AVL_node] at hn
      refine ih _ _ h ?_ ?_
      · rw [AVL_node]; exact ⟨by rw [hh]; exact hn.1, hn.2.1, hn.2.2.1, hn.2.2.2.1, hu⟩
      · simp only [height_node, hh]

theorem AVL_path_bal {K : Type} (fs : List (Step K)) :
    ∀ t : Tree K, AVL (plug fs t) → ∀ s ∈ fs, -1 ≤ s.bal ∧ s.bal ≤ 1 := by
  induction fs with
  | nil => intro t _ s hs; simp at hs
  | cons s fs ih =>
    intro t h s1 hs1
    rcases List.mem_cons.mp hs1 with e | hm
    · subst e
      cases s1 with
      | L a k c b r =>
        have hn := AVL_plug_sub fs _ h
        rw [AVL_node] at hn
        exact ⟨hn.2.1, hn.2.2.1⟩
      | R l a k c b =>
        have hn := AVL_plug_sub fs _ h
        rw [AVL_node] at hn
        exact ⟨hn.2.1, hn.2.2.1⟩
    · cases s with
      | L a k c b r => exact ih _ h s1 hm
      | R l a k c b => exact ih _ h s1 hm

theorem zoom_plug {K : Type} (cmp : K → K → Int) (key : K) (t : Tree K) :
    ∀ fs, plug (zoom cmp key fs t).1 (zoom cmp key fs t).2 = plug fs t := by
  induction t with
  | nil => intro fs; rfl
  | node l a k c b r ihl ihr =>
    intro fs
    by_cases hlt : cmp key k < 0
    · rw [zoom_lt _ _ _ _ _ _ _ _ _ hlt, ihl]; rfl
    · by_cases hgt : cmp key k > 0
      · rw [zoom_gt _ _ _ _ _ _ _ _ _ hlt hgt, ihr]; rfl
      · rw [zoom_eq _ _ _ _ _ _ _ _ _ hlt hgt]

/-- The repair of a node whose balance is +2 or -2 yields an AVL subtree; its height is that
of the unrepaired subtree when the heavy child was balanced, and one less otherwise. -/
theorem repair_avl {K : Type} (l r : Tree K) (p : Nat) (kp : K) (cp bp : Int)
    (hb : bp = r.height - l.height) (h2 : bp = 2 ∨ bp = -2) (hl : AVL l) (hr : AVL r) :
    ∃ u, repair_t (.node l p kp cp bp r) = some u ∧ AVL u ∧
      (((if bp = 2 then r.bal else l.bal) = 0 ∧
          u.height = (Tree.node l p kp cp bp r).height ∧ (u.bal = 1 ∨ u.bal = -1)) ∨
       ((if bp = 2 then r.bal else l.bal) ≠ 0 ∧
          u.height = (Tree.node l p kp cp bp r).height - 1 ∧ u.bal = 0)) := by
  have hl0 := height_nonneg l
  have hr0 := height_nonneg r
  rcases h2 with h2 | h2
  · subst h2
    cases r with
    | nil => simp only [height_nil] at hb; omega
    | node rl c kc cc bc rr =>
      rw [AVL_node] at hr
      obtain ⟨hbc, hc1, hc2, hrl, hrr⟩ := hr
      have hrl0 := height_nonneg rl
      have hrr0 := height_nonneg rr
      simp only [height_node] at hb
      by_cases hbc1 : bc = -1
      · subst hbc1
        cases rl with
        | nil => simp only [height_nil] at hbc; omega
        | node gl g kg cg bg gr =>
          rw [AVL_node] at hrl
          obtain ⟨hbg, hg1, hg2, hgl, hgr⟩ := hrl
          have hgl0 := height_nonneg gl
          have hgr0 := height_nonneg gr
          simp only [height_node] at hb hbc
          by_cases e1 : bg = 1
          · subst e1
            refine ⟨_, by simp [repair_t, repair_right_left_t]; rfl, ?_, ?_⟩
            · simp only [AVL_node, height_node]
              refine ⟨by omega, by omega, by omega, ⟨by omega, by omega, by omega, hl, hgl⟩,
                by omega, by omega, by omega, hgr, hrr⟩
            · right; simp only [if_true, bal_node, height_node]
              refine ⟨by omega, by omega, trivial⟩
          · by_cases e0 : bg = 0
            · subst e0
              refine ⟨_, by simp [repair_t, repair_right_left_t]; rfl, ?_, ?_⟩
              · simp only [AVL_node, height_node]
                refine ⟨by omega, by omega, by omega, ⟨by omega, by omega, by omega, hl, hgl⟩,
                  by omega, by omega, by omega, hgr, hrr⟩
              · right; simp only [if_true, bal_node, height_node]
                refine ⟨by omega, by omega, trivial⟩
            · refine ⟨_, by simp [repair_t, repair_right_left_t, e1, e0]; rfl, ?_, ?_⟩
              · simp only [AVL_node, height_node]
                refine ⟨by omega, by omega, by omega, ⟨by omega, by omega, by omega, hl, hgl⟩,
                  by omega, by omega, by omega, hgr, hrr⟩
              · right; simp only [if_true, bal_node, height_node]
                refine ⟨by omega, by omega, trivial⟩
      · by_cases hbc0 : bc = 0
        · subst hbc0
          refine ⟨_, by simp [repair_t, repair_left_t]; rfl, ?_, ?_⟩
          · simp only [AVL_node, height_node]
            refine ⟨by omega, by omega, by omega, ⟨by omega, by omega, by omega, hl, hrl⟩, hrr⟩
          · left; simp only [if_true, bal_node, height_node]
            refine ⟨trivial, by omega, Or.inr trivial⟩
        · refine ⟨_, by simp [repair_t, repair_left_t, hbc1, hbc0]; rfl, ?_, ?_⟩
          · simp only [AVL_node, height_node]
            refine ⟨by omega, by omega, by omega, ⟨by omega, by omega, by omega, hl, hrl⟩, hrr⟩
          · right; simp only [if_true, bal_node, height_node]
            refine ⟨hbc0, by omega, trivial⟩
  · subst h2
    cases l with
    | nil => simp only [height_nil] at hb; omega
    | node ll c kc cc bc lr =>
      rw [AVL_node] at hl
      obtain ⟨hbc, hc1, hc2, hll, hlr⟩ := hl
      have hll0 := height_nonneg ll
      have hlr0 := height_nonneg lr
      simp only [height_node] at hb
      by_cases hbc1 : bc = 1
      · subst hbc1
        cases lr with
        | nil => simp only [height_nil] at hbc; omega
        | node gl g kg cg bg gr =>
          rw [AVL_node] at hlr
          obtain ⟨hbg, hg1, hg2, hgl, hgr⟩ := hlr
          have hgl0 := height_nonneg gl
          have hgr0 := height_nonneg gr
          simp only [height_node] at hb hbc
          by_cases e1 : bg = 1
          · subst e1
            refine ⟨_, by simp [repair_t, repair_left_right_t]; rfl, ?_, ?_⟩
            · simp only [AVL_node, height_node]
              refine ⟨by omega, by omega, by omega, ⟨by omega, by omega, by omega, hll, hgl⟩,
                by omega, by omega, by omega, hgr, hr⟩
            · right; simp only [bal_node, height_node]
              refine ⟨by simp, by omega, trivial⟩
          · by_cases e0 : bg = 0
            · subst e0
              refine ⟨_, by simp [repair_t, repair_left_right_t]; rfl, ?_, ?_⟩
              · simp only [AVL_node, height_node]
                refine ⟨by omega, by omega, by omega, ⟨by omega, by omega, by omega, hll, hgl⟩,
                  by omega, by omega, by omega, hgr, hr⟩
              · right; simp only [bal_node, height_node]
                refine ⟨by simp, by omega, trivial⟩
            · refine ⟨_, by simp [repair_t, repair_left_right_t, e1, e0]; rfl, ?_, ?_⟩
              · simp only [AVL_node, height_node]
                refine ⟨by omega, by omega, by omega, ⟨by omega, by omega, by omega, hll, hgl⟩,
                  by omega, by omega, by omega, hgr, hr⟩
              · right; simp only [bal_node, height_node]
                refine ⟨by simp, by omega, trivial⟩
      · by_cases hbc0 : bc = 0
        · subst hbc0
          refine ⟨_, by simp [repair_t, repair_right_t]; rfl, ?_, ?_⟩
          · simp only [AVL_node, height_node]
            refine ⟨by omega, by omega, by omega, hll, by omega, by omega, by omega, hlr, hr⟩
          · left; simp only [bal_node, height_node]
            refine ⟨by simp, by omega, Or.inl trivial⟩
        · refine ⟨_, by simp [repair_t, repair_right_t, hbc1, hbc0]; rfl, ?_, ?_⟩
          · simp only [AVL_node, height_node]
            refine ⟨by omega, by omega, by omega, hll, by omega, by omega, by omega, hlr, hr⟩
          · right; simp only [bal_node, height_node]
            refine ⟨by simpa using hbc0, by omega, trivial⟩

/-- The walk of `multiset_insert_balance` restores the AVL invariant: `t` replaces a
subtree `t0` of an AVL tree, is itself AVL and one higher than `t0`, and its root is
unbalanced unless `t0` was empty. -/
theorem ins_bal_avl {K : Type} (fs : List (Step K)) :
    ∀ t t0 : Tree K, AVL (plug fs t0) → AVL t → t.height = t0.height + 1 →
      (t.bal = 0 → t0.height = 0) → ∃ T, ins_bal fs t = some T ∧ AVL T := by
  induction fs with
  | nil => intro t t0 _ ht _ _; exact ⟨t, rfl, ht⟩
  | cons s fs ih =>
    intro t t0 h0 ht hh hbal
    have ht0 := height_nonneg t0
    cases s with
    | L a k c b r =>
      have hn := AVL_plug_sub fs _ h0
      rw [AVL_node] at hn
      obtain ⟨hb, hb1, hb2, -, hr⟩ := hn
      have hr0 := height_nonneg r
      simp only [ins_bal]
      by_cases e0 : b - 1 = 0
      · simp only [e0, if_true, Option.some.injEq, exists_eq_left']
        refine AVL_plug_replace fs _ _ h0 ?_ ?_
        · rw [AVL_node]; exact ⟨by omega, by omega, by omega, ht, hr⟩
        · simp only [height_node]; omega
      · simp only [e0, if_false]
        by_cases e2 : b - 1 > 1 ∨ b - 1 < -1
        · simp only [e2, if_true]
          have hb' : b - 1 = -2 := by omega
          obtain ⟨u, hu, hua, huh⟩ := repair_avl t r a k c (b - 1) (by omega) (Or.inr hb') ht hr
          rw [hu]
          simp only [andThen_some, Option.some.injEq, exists_eq_left']
          refine AVL_plug_replace fs _ _ h0 hua ?_
          have hne : ¬ (b - 1 = 2) := by omega
          simp only [hne, if_false, height_node] at huh
          rcases huh with ⟨hz, -, -⟩ | ⟨-, hh2, -⟩
          · have := hbal hz; omega
          · simp only [height_node]; omega
        · simp only [e2, if_false]
          refine ih _ (.node t0 a k c b r) h0 ?_ ?_ ?_
          · rw [AVL_node]; exact ⟨by omega, by omega, by omega, ht, hr⟩
          · simp only [height_node]; omega
          · intro h; simp only [bal_node] at h; omega
    | R l a k c b =>
      have hn := AVL_plug_sub fs _ h0
      rw [AVL_node] at hn
      obtain ⟨hb, hb1, hb2, hl, -⟩ := hn
      have hl0 := height_nonneg l
      simp only [ins_bal]
      by_cases e0 : b + 1 = 0
      · simp only [e0, if_true, Option.some.injEq, exists_eq_left']
        refine AVL_plug_replace fs _ _ h0 ?_ ?_
        · rw [AVL_node]; exact ⟨by omega, by omega, by omega, hl, ht⟩
        · simp only [height_node]; omega
      · simp only [e0, if_false]
        by_cases e2 : b + 1 > 1 ∨ b + 1 < -1
        · simp only [e2, if_true]
          have hb' : b + 1 = 2 := by omega
          obtain ⟨u, hu, hua, huh⟩ := repair_avl l t a k c (b + 1) (by omega) (Or.inl hb') hl ht
          rw [hu]
          simp only [andThen_some, Option.some.injEq, exists_eq_left']
          refine AVL_plug_replace fs _ _ h0 hua ?_
          simp only [hb', if_true, height_node] at huh
          rcases huh with ⟨hz, -, -⟩ | ⟨-, hh2, -⟩
          · have := hbal hz; omega
          · simp only [height_node]; omega
        · simp only [e2, if_false]
          refine ih _ (.node l a k c b t0) h0 ?_ ?_ ?_
          · rw [AVL_node]; exact ⟨by omega, by omega, by omega, hl, ht⟩
          · simp only [height_node]; omega
          · intro h; simp only [bal_node] at h; omega

theorem put_at_avl {K : Type} (cmp : K → K → Int) (key : K) (new : Nat) (t : Tree K) :
    ∀ fs, AVL (plug fs t) → ∃ T, put_at cmp key new fs t = some T ∧ AVL T := by
  induction t with
  | nil =>
    intro fs h
    rw [put_at_nil]
    exact ins_bal_avl fs (leaf new key) .nil h (by simp [leaf, AVL_node]) (by simp [leaf])
      (fun _ => rfl)
  | node l a k c b r ihl ihr =>
    intro fs h
    by_cases hlt : cmp key k < 0
    · rw [put_at_lt _ _ _ _ _ _ _ _ _ _ hlt]; exact ihl _ h
    · by_cases hgt : cmp key k > 0
      · rw [put_at_gt _ _ _ _ _ _ _ _ _ _ hlt hgt]; exact ihr _ h
      · rw [put_at_eq _ _ _ _ _ _ _ _ _ _ hlt hgt]
        refine ⟨_, rfl, AVL_plug_replace fs _ _ h ?_ rfl⟩
        have := AVL_plug_sub fs _ h
        rw [AVL_node] at this ⊢
        exact this

theorem zoom_path_bal {K : Type} (cmp : K → K → Int) (key : K) (t : Tree K)
    (fs : List (Step K)) (h : AVL (plug fs t)) :
    ∀ s ∈ (zoom cmp key fs t).1, -1 ≤ s.bal ∧ s.bal ≤ 1 := by
  refine AVL_path_bal _ (zoom cmp key fs t).2 ?_
  rw [zoom_plug]
  exact h

/-- Totality and AVL preservation of a successful `multiset_put`. -/
theorem put_avl {K : Type} (me : internal_multiset K) (key : K) (t : Tree K)
    (hrep : Represents me t) (havl : AVL t) :
    ∃ me1 T, multiset_put me key true true = some (0, me1) ∧ Represents me1 T ∧ AVL T ∧
      put_t me.comparator key me.mem.length t = some T ∧
      me1.size = me.size + 1 ∧ me1.comparator = me.comparator ∧
      me1.key_size = me.key_size := by
  obtain ⟨T, hT, hTa⟩ := put_at_avl me.comparator key me.mem.length t [] havl
  obtain ⟨me1, h1, r1, s1, c1, k1⟩ := put_spec me key t T hrep
    (zoom_path_bal me.comparator key t [] havl) hT
  exact ⟨me1, T, h1, r1, hTa, hT, s1, c1, k1⟩

theorem repair_t_left_ne_nil {K : Type} (l r : Tree K) (p : Nat) (kp : K) (cp bp : Int)
    (u : Tree K) (hu : repair_t (.node l p kp cp bp r) = some u) (hbp : ¬ bp = 2) :
    ∃ ll c kc cc bc lr, l = .node ll c kc cc bc lr := by
  cases l with
  | nil => simp [repair_t, hbp, repair_left_right_t, repair_right_t] at hu
  | node ll c kc cc bc lr => exact ⟨ll, c, kc, cc, bc, lr, rfl⟩

theorem repair_t_right_ne_nil {K : Type} (l r : Tree K) (p : Nat) (kp : K) (cp : Int)
    (u : Tree K) (hu : repair_t (.node l p kp cp 2 r) = some u) :
    ∃ rl c kc cc bc rr, r = .node rl c kc cc bc rr := by
  cases r with
  | nil => simp [repair_t, repair_right_left_t, repair_left_t] at hu
  | node rl c kc cc bc rr => exact ⟨rl, c, kc, cc, bc, rr, rfl⟩

/-- Effect of `multiset_repair_pivot` on the subtree rooted at `item`, with the call of
`multiset_repair` that it records. -/
theorem repair_pivot_log {K : Type} (me : internal_multiset K) (fs : List (Step K))
    (l r : Tree K) (p : Nat) (kp : K) (cp bp : Int) (flag : Bool) (u : Tree K)
    (hrep : Represents me (plug fs (.node l p kp cp bp r)))
    (hu : repair_t (.node l p kp cp bp r) = some u)
    (hflag : flag = true ↔ bp = 2) :
    ∃ a me1, multiset_repair_pivot me p flag = some (a, me1) ∧ Represents me1 (plug fs u) ∧
      u.ptr = some a ∧
      me1.repairs = me.repairs ++ [(bp, if bp = 2 then r.bal else l.bal)] := by
  have hp := rd_focus me fs l r p kp cp bp hrep
  by_cases hbp : bp = 2
  · subst hbp
    have hf : flag = true := hflag.mpr rfl
    obtain ⟨rl, c, kc, cc, bc, rr, rfl⟩ := repair_t_right_ne_nil l r p kp cp u hu
    have hc := rd_focus me (.R l p kp cp 2 :: fs) rl rr c kc cc bc hrep
    obtain ⟨x, me1, h1, r1, e1, g1⟩ := repair_spec me fs l (.node rl c kc cc bc rr) p kp cp 2 c
      (if bc = 1 then rr.ptr else rl.ptr) u hrep hu (by
        simp only [if_true, ptr_node, bal_node, left_node, true_and]
        intro h; subst h; simp)
    exact ⟨x, me1, by simp [multiset_repair_pivot, hp, hf, hc, h1], r1, e1, g1⟩
  · have hf : flag = false := by
      cases flag with
      | false => rfl
      | true => exact absurd (hflag.mp rfl) hbp
    obtain ⟨ll, c, kc, cc, bc, lr, rfl⟩ := repair_t_left_ne_nil l r p kp cp bp u hu hbp
    have hc := rd_focus me (.L p kp cp bp r :: fs) ll lr c kc cc bc hrep
    obtain ⟨x, me1, h1, r1, e1, g1⟩ := repair_spec me fs (.node ll c kc cc bc lr) r p kp cp bp c
      (if bc = 1 then lr.ptr else ll.ptr) u hrep hu (by
        simp only [hbp, if_false, ptr_node, bal_node, right_node, true_and]
        intro h; subst h; simp)
    exact ⟨x, me1, by simp [multiset_repair_pivot, hp, hf, hc, h1], r1, e1, g1⟩

/-- Effect of `multiset_repair_pivot` on the subtree rooted at `item`. -/
theorem repair_pivot_spec {K : Type} (me : internal_multiset K) (fs : List (Step K))
    (l r : Tree K) (p : Nat) (kp : K) (cp bp : Int) (flag : Bool) (u : Tree K)
    (hrep : Represents me (plug fs (.node l p kp cp bp r)))
    (hu : repair_t (.node l p kp cp bp r) = some u)
    (hflag : flag = true ↔ bp = 2) :
    ∃ a me1, multiset_repair_pivot me p flag = some (a, me1) ∧ Represents me1 (plug fs u) ∧
      u.ptr = some a := by
  obtain ⟨a, me1, h1, r1, e1, -⟩ := repair_pivot_log me fs l r p kp cp bp flag u hrep hu hflag
  exact ⟨a, me1, h1, r1, e1⟩

theorem trace_loop_none {K : Type} (fuel : Nat) (me : internal_multiset K) (child : Nat) :
    multiset_trace_ancestors_loop fuel me child none = some me := by
  cases fuel <;> simp [multiset_trace_ancestors_loop]

/-- What follows a repair in `multiset_trace_ancestors` and `multiset_delete_balance`:
stop when the repaired subtree has no parent or a balance of -1 or +1, else go on upwards. -/
theorem after_repair_spec {K : Type} (fs : List (Step K)) (me3 : internal_multiset K)
    (u T : Tree K) (ua : Nat) (fuel : Nat)
    (ih : ∀ (me : internal_multiset K) (t T : Tree K) (child : Nat) (fuel : Nat),
      Represents me (plug fs t) → t.ptr = some child →
      (∀ s ∈ fs, -1 ≤ s.bal ∧ s.bal ≤ 1) → del_bal fs t = some T → fs.length ≤ fuel →
      ∃ me1, multiset_trace_ancestors_loop fuel me child (parptr fs) = some me1 ∧
        Represents me1 T)
    (r3 : Represents me3 (plug fs u)) (e3 : u.ptr = some ua)
    (hbal : ∀ s ∈ fs, -1 ≤ s.bal ∧ s.bal ≤ 1)
    (hT : (if u.bal = -1 ∨ u.bal = 1 then some (plug fs u) else del_bal fs u) = some T)
    (hfuel : fs.length ≤ fuel) :
    ∃ me1, ((rd me3.mem ua).andThen fun c =>
        if c.parent = none ∨ c.balance = -1 ∨ c.balance = 1 then some me3
        else multiset_trace_ancestors_loop fuel me3 ua c.parent) = some me1 ∧
      Represents me1 T := by
  cases u with
  | nil => simp at e3
  | node ul x uk uc ub ur =>
    simp only [ptr_node, Option.some.injEq] at e3
    subst e3
    have hx := rd_focus me3 fs ul ur x uk uc ub r3
    simp only [bal_node] at hT
    simp only [hx, andThen_some]
    by_cases hstop : ub = -1 ∨ ub = 1
    · simp only [hstop, if_true, Option.some.injEq] at hT
      subst hT
      exact ⟨me3, by simp [hstop], r3⟩
    · simp only [hstop, if_false] at hT
      obtain ⟨me4, h4, r4⟩ := ih me3 _ T x fuel r3 rfl hbal hT hfuel
      by_cases hn : parptr fs = none
      · rw [hn, trace_loop_none] at h4
        simp only [Option.some.injEq] at h4
        subst h4
        exact ⟨me3, by simp [hn], r4⟩
      · refine ⟨me4, ?_, r4⟩
        simp only [hn, hstop, or_self, if_false]
        exact h4

/-- What follows a repair in `multiset_trace_ancestors` and `multiset_delete_balance`, with
the calls of `multiset_repair` made from there on. -/
theorem after_repair_log {K : Type} (fs : List (Step K)) (me3 : internal_multiset K)
    (u T : Tree K) (ua : Nat) (fuel : Nat)
    (ih : ∀ (me : internal_multiset K) (t T : Tree K) (child : Nat) (fuel : Nat),
      Represents me (plug fs t) → t.ptr = some child →
      (∀ s ∈ fs, -1 ≤ s.bal ∧ s.bal ≤ 1) → del_bal fs t = some T → fs.length ≤ fuel →
      ∃ me1, multiset_trace_ancestors_loop fuel me child (parptr fs) = some me1 ∧
        Represents me1 T ∧ me1.repairs = me.repairs ++ del_rep fs t)
    (r3 : Represents me3 (plug fs u)) (e3 : u.ptr = some ua)
    (hbal : ∀ s ∈ fs, -1 ≤ s.bal ∧ s.bal ≤ 1)
    (hT : (if u.bal = -1 ∨ u.bal = 1 then some (plug fs u) else del_bal fs u) = some T)
    (hfuel : fs.length ≤ fuel) :
    ∃ me1, ((rd me3.mem ua).andThen fun c =>
        if c.parent = none ∨ c.balance = -1 ∨ c.balance = 1 then some me3
        else multiset_trace_ancestors_loop fuel me3 ua c.parent) = some me1 ∧
      Represents me1 T ∧
      me1.repairs = me3.repairs ++ (if u.bal = -1 ∨ u.bal = 1 then [] else del_rep fs u) := by
  cases u with
  | nil => simp at e3
  | node ul x uk uc ub ur =>
    simp only [ptr_node, Option.some.injEq] at e3
    subst e3
    have hx := rd_focus me3 fs ul ur x uk uc ub r3
    simp only [bal_node] at hT
    simp only [hx, andThen_some]
    by_cases hstop : ub = -1 ∨ ub = 1
    · simp only [hstop, if_true, Option.some.injEq] at hT
      subst hT
      exact ⟨me3, by simp [hstop], r3, by simp [hstop]⟩
    · simp only [hstop, if_false] at hT
      obtain ⟨me4, h4, r4, g4⟩ := ih me3 _ T x fuel r3 rfl hbal hT hfuel
      by_cases hn : parptr fs = none
      · rw [hn, trace_loop_none] at h4
        simp only [Option.some.injEq] at h4
        subst h4
        exact ⟨me3, by simp [hn], r4, by simpa only [bal_node, hstop, if_false] using g4⟩
      · refine ⟨me4, ?_, r4, by rw [g4]; simp only [bal_node, hstop, if_false]⟩
        simp only [hn, hstop, or_self, if_false]
        exact h4

/-- The loop of `multiset_trace_ancestors` computes `del_bal`, and its calls of
`multiset_repair` are those of `del_rep`. -/
theorem trace_ancestors_loop_log {K : Type} (fs : List (Step K)) :
    ∀ (me : internal_multiset K) (t T : Tree K) (child : Nat) (fuel : Nat),
      Represents me (plug fs t) → t.ptr = some child →
      (∀ s ∈ fs, -1 ≤ s.bal ∧ s.bal ≤ 1) → del_bal fs t = some T → fs.length ≤ fuel →
      ∃ me1, multiset_trace_ancestors_loop fuel me child (parptr fs) = some me1 ∧
        Represents me1 T ∧ me1.repairs = me.repairs ++ del_rep fs t := by
  induction fs with
  | nil =>
    intro me t T child fuel hrep _ _ hT _
    simp only [del_bal, Option.some.injEq] at hT
    subst hT
    exact ⟨me, trace_loop_none _ _ _, hrep, by simp [del_rep]⟩
  | cons s fs ih =>
    intro me t T child fuel hrep ht hbal hT hfuel
    cases fuel with
    | zero => simp at hfuel
    | succ fuel =>
      have hfuel1 : fs.length ≤ fuel := by simpa using hfuel
      have hb := hbal s (List.mem_cons_self _ _)
      have hbal1 : ∀ s ∈ fs, -1 ≤ s.bal ∧ s.bal ≤ 1 :=
        fun s hs => hbal s (List.mem_cons_of_mem _ hs)
      cases s with
      | L a k c b r =>
        simp only [Step.bal] at hb
        have hp := rd_focus me fs t r a k c b hrep
        obtain ⟨me2, h2, r2, g2⟩ := wr_focus me fs t r a k c b
          (fun (n : node K) => { n with balance := n.balance + 1 }) c (b + 1) hrep rfl
        have hp2 := rd_focus me2 fs t r a k c (b + 1) r2
        simp only [parptr_cons, addr_L, multiset_trace_ancestors_loop, hp, andThen_some, ht,
          if_true, h2, hp2]
        simp only [del_bal] at hT
        by_cases h0 : b + 1 = -1 ∨ b + 1 = 1
        · simp only [h0, if_true, Option.some.injEq] at hT ⊢
          subst hT
          exact ⟨me2, rfl, r2, by rw [g2]; simp only [del_rep, h0, if_true, List.append_nil]⟩
        · simp only [h0, if_false] at hT ⊢
          by_cases hrp : b + 1 > 1 ∨ b + 1 < -1
          · simp only [hrp, if_true, andThen_eq_some] at hT ⊢
            obtain ⟨u, hu, hT⟩ := hT
            have he : b + 1 = 2 := by omega
            obtain ⟨x, me3, h3, r3, e3, g3⟩ := repair_pivot_log me2 fs t r a k c (b + 1) true u r2
              hu (by simp [he])
            obtain ⟨me4, h4, r4, g4⟩ := after_repair_log fs me3 u T x fuel ih r3 e3 hbal1 hT
              hfuel1
            exact ⟨me4, ⟨(x, me3), by simpa using h3, (andThen_eq_some _ _ _).mp h4⟩, r4,
              by rw [g4, g3, g2]
                 simp only [del_rep, h0, hrp, if_true, if_false, hu, List.append_assoc,
                   List.singleton_append]⟩
          · simp only [hrp, if_false] at hT ⊢
            obtain ⟨me3, h3, r3, g3⟩ := ih me2 (.node t a k c (b + 1) r) T a fuel r2 rfl hbal1 hT
              hfuel1
            exact ⟨me3, h3, r3, by rw [g3, g2]; simp only [del_rep, h0, hrp, if_false]⟩
      | R l a k c b =>
        simp only [Step.bal] at hb
        have hp := rd_focus me fs l t a k c b hrep
        have hlc := sibling_ptr_ne me fs l t a k c b child hrep ht
        obtain ⟨me2, h2, r2, g2⟩ := wr_focus me fs l t a k c b
          (fun (n : node K) => { n with balance := n.balance - 1 }) c (b - 1) hrep rfl
        have hp2 := rd_focus me2 fs l t a k c (b - 1) r2
        simp only [parptr_cons, addr_R, multiset_trace_ancestors_loop, hp, andThen_some, hlc,
          if_false, h2, hp2]
        simp only [del_bal] at hT
        by_cases h0 : b - 1 = -1 ∨ b - 1 = 1
        · simp only [h0, if_true, Option.some.injEq] at hT ⊢
          subst hT
          exact ⟨me2, rfl, r2, by rw [g2]; simp only [del_rep, h0, if_true, List.append_nil]⟩
        · simp only [h0, if_false] at hT ⊢
          by_cases hrp : b - 1 > 1 ∨ b - 1 < -1
          · simp only [hrp, if_true, andThen_eq_some] at hT ⊢
            obtain ⟨u, hu, hT⟩ := hT
            have he : ¬ b - 1 = 2 := by omega
            obtain ⟨x, me3, h3, r3, e3, g3⟩ := repair_pivot_log me2 fs l t a k c (b - 1) false u r2
              hu (by simp [he])
            obtain ⟨me4, h4, r4, g4⟩ := after_repair_log fs me3 u T x fuel ih r3 e3 hbal1 hT
              hfuel1
            exact ⟨me4, ⟨(x, me3), by simpa using h3, (andThen_eq_some _ _ _).mp h4⟩, r4,
              by rw [g4, g3, g2]
                 simp only [del_rep, h0, hrp, if_true, if_false, hu, List.append_assoc,
                   List.singleton_append]⟩
          · simp only [hrp, if_false] at hT ⊢
            obtain ⟨me3, h3, r3, g3⟩ := ih me2 (.node l a k c (b - 1) t) T a fuel r2 rfl hbal1 hT
              hfuel1
            exact ⟨me3, h3, r3, by rw [g3, g2]; simp only [del_rep, h0, hrp, if_false]⟩

/-- The loop of `multiset_trace_ancestors` computes `del_bal`. -/
theorem trace_ancestors_loop_spec {K : Type} (fs : List (Step K)) :
    ∀ (me : internal_multiset K) (t T : Tree K) (child : Nat) (fuel : Nat),
      Represents me (plug fs t) → t.ptr = some child →
      (∀ s ∈ fs, -1 ≤ s.bal ∧ s.bal ≤ 1) → del_bal fs t = some T → fs.length ≤ fuel →
      ∃ me1, multiset_trace_ancestors_loop fuel me child (parptr fs) = some me1 ∧
        Represents me1 T := by
  intro me t T child fuel hrep ht hbal hT hfuel
  obtain ⟨me1, h1, r1, -⟩ := trace_ancestors_loop_log fs me t T child fuel hrep ht hbal hT hfuel
  exact ⟨me1, h1, r1⟩

theorem path_length_le {K : Type} (me : internal_multiset K) (fs : List (Step K))
    (t : Tree K) (hrep : Represents me (plug fs t)) : fs.length ≤ me.mem.length := by
  have h1 := represents_size_le me _ hrep
  have h2 := plug_size fs t
  omega

/-- The function `multiset_trace_ancestors` computes `del_bal`, and its calls of
`multiset_repair` are those of `del_rep`. -/
theorem trace_ancestors_log {K : Type} (me : internal_multiset K) (fs : List (Step K))
    (t T : Tree K) (item : Nat) (hrep : Represents me (plug fs t)) (ht : t.ptr = some item)
    (hbal : ∀ s ∈ fs, -1 ≤ s.bal ∧ s.bal ≤ 1) (hT : del_bal fs t = some T) :
    ∃ me1, multiset_trace_ancestors me item = some me1 ∧ Represents me1 T ∧
      me1.repairs = me.repairs ++ del_rep fs t := by
  cases t with
  | nil => simp at ht
  | node l a k c b r =>
    simp only [ptr_node, Option.some.injEq] at ht
    subst ht
    have hp := rd_focus me fs l r a k c b hrep
    have hlen := path_length_le me fs _ hrep
    obtain ⟨me1, h1, r1, g1⟩ := trace_ancestors_loop_log fs me _ T a (me.mem.length + 1) hrep
      rfl hbal hT (by omega)
    exact ⟨me1, by simp [multiset_trace_ancestors, hp, h1], r1, g1⟩

/-- The function `multiset_trace_ancestors` computes `del_bal`. -/
theorem trace_ancestors_spec {K : Type} (me : internal_multiset K) (fs : List (Step K))
    (t T : Tree K) (item : Nat) (hrep : Represents me (plug fs t)) (ht : t.ptr = some item)
    (hbal : ∀ s ∈ fs, -1 ≤ s.bal ∧ s.bal ≤ 1) (hT : del_bal fs t = some T) :
    ∃ me1, multiset_trace_ancestors me item = some me1 ∧ Represents me1 T := by
  obtain ⟨me1, h1, r1, -⟩ := trace_ancestors_log me fs t T item hrep ht hbal hT
  exact ⟨me1, h1, r1⟩

/-- What follows a repair in `multiset_delete_balance`. -/
theorem after_repair_delete_log {K : Type} (fs : List (Step K)) (me3 : internal_multiset K)
    (u T : Tree K) (ua : Nat)
    (r3 : Represents me3 (plug fs u)) (e3 : u.ptr = some ua)
    (hbal : ∀ s ∈ fs, -1 ≤ s.bal ∧ s.bal ≤ 1)
    (hT : (if u.bal = -1 ∨ u.bal = 1 then some (plug fs u) else del_bal fs u) = some T) :
    ∃ me1, ((rd me3.mem ua).andThen fun it =>
        if it.parent = none ∨ it.balance = -1 ∨ it.balance = 1 then some me3
        else multiset_trace_ancestors me3 ua) = some me1 ∧
      Represents me1 T ∧
      me1.repairs = me3.repairs ++ (if u.bal = -1 ∨ u.bal = 1 then [] else del_rep fs u) := by
  cases u with
  | nil => simp at e3
  | node ul x uk uc ub ur =>
    simp only [ptr_node, Option.some.injEq] at e3
    subst e3
    have hx := rd_focus me3 fs ul ur x uk uc ub r3
    simp only [bal_node] at hT
    simp only [hx, andThen_some]
    by_cases hstop : ub = -1 ∨ ub = 1
    · simp only [hstop, if_true, Option.some.injEq] at hT
      subst hT
      exact ⟨me3, by simp [hstop], r3, by simp [hstop]⟩
    · simp only [hstop, if_false] at hT
      by_cases hn : parptr fs = none
      · cases fs with
        | nil =>
          simp only [del_bal, Option.some.injEq] at hT
          subst hT
          exact ⟨me3, by simp [hn], r3, by simp [hstop, del_rep]⟩
        | cons s fs => simp at hn
      · obtain ⟨me4, h4, r4, g4⟩ := trace_ancestors_log me3 fs _ T x r3 rfl hbal hT
        refine ⟨me4, ?_, r4, by rw [g4]; simp only [bal_node, hstop, if_false]⟩
        simp only [hn, hstop, or_self, if_false]
        exact h4

/-- The function `multiset_delete_balance`, called on the parent of a left subtree that
lost height, computes `del_bal`. -/
theorem delete_balance_left_log {K : Type} (me : internal_multiset K) (fs : List (Step K))
    (t r T : Tree K) (a : Nat) (k : K) (c b : Int)
    (hrep : Represents me (plug (.L a k c b r :: fs) t))
    (hbal : ∀ s ∈ (Step.L a k c b r :: fs), -1 ≤ s.bal ∧ s.bal ≤ 1)
    (hT : del_bal (.L a k c b r :: fs) t = some T) :
    ∃ me1, multiset_delete_balance me a true = some me1 ∧ Represents me1 T ∧
      me1.repairs = me.repairs ++ del_rep (.L a k c b r :: fs) t := by
  have hb := hbal _ (List.mem_cons_self _ _)
  have hbal1 : ∀ s ∈ fs, -1 ≤ s.bal ∧ s.bal ≤ 1 :=
    fun s hs => hbal s (List.mem_cons_of_mem _ hs)
  simp only [Step.bal] at hb
  obtain ⟨me2, h2, r2, g2⟩ := wr_focus me fs t r a k c b
    (fun (n : node K) => { n with balance := n.balance + 1 }) c (b + 1) hrep rfl
  have hp2 := rd_focus me2 fs t r a k c (b + 1) r2
  simp only [multiset_delete_balance, if_true, h2, andThen_some, hp2]
  simp only [del_bal] at hT
  by_cases h0 : b + 1 = -1 ∨ b + 1 = 1
  · simp only [h0, if_true, Option.some.injEq] at hT ⊢
    subst hT
    exact ⟨me2, rfl, r2, by rw [g2]; simp only [del_rep, h0, if_true, List.append_nil]⟩
  · simp only [h0, if_false] at hT ⊢
    by_cases hrp : b + 1 > 1 ∨ b + 1 < -1
    · simp only [hrp, if_true] at hT ⊢
      obtain ⟨u, hu, hT⟩ := (andThen_eq_some _ _ _).mp hT
      have he : b + 1 = 2 := by omega
      obtain ⟨x, me3, h3, r3, e3, g3⟩ := repair_pivot_log me2 fs t r a k c (b + 1) true u r2 hu
        (by simp [he])
      obtain ⟨me4, h4, r4, g4⟩ := after_repair_delete_log fs me3 u T x r3 e3 hbal1 hT
      refine ⟨me4, ?_, r4, by
        rw [g4, g3, g2]
        simp only [del_rep, h0, hrp, if_true, if_false, hu, List.append_assoc,
          List.singleton_append]⟩
      rw [h3]
      exact h4
    · simp only [hrp, if_false] at hT ⊢
      obtain ⟨me3, h3, r3, g3⟩ := trace_ancestors_log me2 fs _ T a r2 rfl hbal1 hT
      exact ⟨me3, h3, r3, by rw [g3, g2]; simp only [del_rep, h0, hrp, if_false]⟩

/-- The function `multiset_delete_balance`, called on the parent of a right subtree that
lost height, computes `del_bal`. -/
theorem delete_balance_right_log {K : Type} (me : internal_multiset K) (fs : List (Step K))
    (t l T : Tree K) (a : Nat) (k : K) (c b : Int)
    (hrep : Represents me (plug (.R l a k c b :: fs) t))
    (hbal : ∀ s ∈ (Step.R l a k c b :: fs), -1 ≤ s.bal ∧ s.bal ≤ 1)
    (hT : del_bal (.R l a k c b :: fs) t = some T) :
    ∃ me1, multiset_delete_balance me a false = some me1 ∧ Represents me1 T ∧
      me1.repairs = me.repairs ++ del_rep (.R l a k c b :: fs) t := by
  have hb := hbal _ (List.mem_cons_self _ _)
  have hbal1 : ∀ s ∈ fs, -1 ≤ s.bal ∧ s.bal ≤ 1 :=
    fun s hs => hbal s (List.mem_cons_of_mem _ hs)
  simp only [Step.bal] at hb
  obtain ⟨me2, h2, r2, g2⟩ := wr_focus me fs l t a k c b
    (fun (n : node K) => { n with balance := n.balance - 1 }) c (b - 1) hrep rfl
  have hp2 := rd_focus me2 fs l t a k c (b - 1) r2
  simp only [multiset_delete_balance, Bool.false_eq_true, if_false, h2, andThen_some, hp2]
  simp only [del_bal] at hT
  by_cases h0 : b - 1 = -1 ∨ b - 1 = 1
  · simp only [h0, if_true, Option.some.injEq] at hT ⊢
    subst hT
    exact ⟨me2, rfl, r2, by rw [g2]; simp only [del_rep, h0, if_true, List.append_nil]⟩
  · simp only [h0, if_false] at hT ⊢
    by_cases hrp : b - 1 > 1 ∨ b - 1 < -1
    · simp only [hrp, if_true] at hT ⊢
      obtain ⟨u, hu, hT⟩ := (andThen_eq_some _ _ _).mp hT
      have he : ¬ b - 1 = 2 := by omega
      obtain ⟨x, me3, h3, r3, e3, g3⟩ := repair_pivot_log me2 fs l t a k c (b - 1) false u r2 hu
        (by simp [he])
      obtain ⟨me4, h4, r4, g4⟩ := after_repair_delete_log fs me3 u T x r3 e3 hbal1 hT
      refine ⟨me4, ?_, r4, by
        rw [g4, g3, g2]
        simp only [del_rep, h0, hrp, if_true, if_false, hu, List.append_assoc,
          List.singleton_append]⟩
      rw [h3]
      exact h4
    · simp only [hrp, if_false] at hT ⊢
      obtain ⟨me3, h3, r3, g3⟩ := trace_ancestors_log me2 fs _ T a r2 rfl hbal1 hT
      exact ⟨me3, h3, r3, by rw [g3, g2]; simp only [del_rep, h0, hrp, if_false]⟩

/-- The function `multiset_delete_balance`, called on the parent of a left subtree that
lost height, computes `del_bal`. -/
theorem delete_balance_left_spec {K : Type} (me : internal_multiset K) (fs : List (Step K))
    (t r T : Tree K) (a : Nat) (k : K) (c b : Int)
    (hrep : Represents me (plug (.L a k c b r :: fs) t))
    (hbal : ∀ s ∈ (Step.L a k c b r :: fs), -1 ≤ s.bal ∧ s.bal ≤ 1)
    (hT : del_bal (.L a k c b r :: fs) t = some T) :
    ∃ me1, multiset_delete_balance me a true = some me1 ∧ Represents me1 T := by
  obtain ⟨me1, h1, r1, -⟩ := delete_balance_left_log me fs t r T a k c b hrep hbal hT
  exact ⟨me1, h1, r1⟩

/-- The function `multiset_delete_balance`, called on the parent of a right subtree that
lost height, computes `del_bal`. -/
theorem delete_balance_right_spec {K : Type} (me : internal_multiset K) (fs : List (Step K))
    (t l T : Tree K) (a : Nat) (k : K) (c b : Int)
    (hrep : Represents me (plug (.R l a k c b :: fs) t))
    (hbal : ∀ s ∈ (Step.R l a k c b :: fs), -1 ≤ s.bal ∧ s.bal ≤ 1)
    (hT : del_bal (.R l a k c b :: fs) t = some T) :
    ∃ me1, multiset_delete_balance me a false = some me1 ∧ Represents me1 T := by
  obtain ⟨me1, h1, r1, -⟩ := delete_balance_right_log me fs t l T a k c b hrep hbal hT
  exact ⟨me1, h1, r1⟩

/-- Replacing the subtree below an `L` step by one of its own subtrees: the memory `M1` has
the new child pointer in the parent node and the new parent pointer in the root of the
subtree, and agrees with the old memory on the rest of the tree. -/
theorem splice_left_rep {K : Type} (me M1 : internal_multiset K) (fs : List (Step K))
    (t u r : Tree K) (a : Nat) (k : K) (c b : Int) (par : Option Nat)
    (hrep : Represents me (plug (.L a k c b r :: fs) t))
    (hsub : Rep me.mem par u) (hin : ∀ x ∈ u.addrs, x ∈ t.addrs) (hndu : u.addrs.Nodup)
    (hroot : M1.root = me.root)
    (hs : rd M1.mem a = some { count := c, parent := parptr fs, balance := b, key := k,
                                left := u.ptr, right := r.ptr })
    (ht : ∀ x n, u.ptr = some x → rd me.mem x = some n →
      rd M1.mem x = some { n with parent := some a })
    (hrest : ∀ x, x ∈ u.addrs ∨ x ∈ r.addrs ∨ x ∈ pathAddrs fs → x ≠ a → some x ≠ u.ptr →
      rd M1.mem x = rd me.mem x) :
    Represents M1 (plug (.L a k c b r :: fs) u) := by
  rw [plug_L, represents_plug] at hrep ⊢
  obtain ⟨hpath, hnode, hnd0⟩ := hrep
  have hnd := hnd0
  simp only [addrs_node, List.nodup_append, List.nodup_cons, List.mem_append, List.mem_cons,
    List.append_assoc, List.cons_append, not_or, List.disjoint_append_left,
    List.disjoint_append_right, List.disjoint_cons_left, List.disjoint_cons_right] at hnd
  obtain ⟨-, ⟨⟨a_r, a_fs⟩, -, -, r_fs⟩, a_t, t_r, t_fs⟩ := id hnd
  rw [Rep_node] at hnode
  have hau : a ∉ u.addrs := fun h => a_t (hin a h)
  refine ⟨?_, ?_, ?_⟩
  · rw [hroot]
    simp only [ptr_node] at hpath ⊢
    refine RepPath_frame _ _ _ fs _ ?_ hpath
    intro x hx
    refine hrest x (Or.inr (Or.inr hx)) ?_ ?_
    · rintro rfl; exact a_fs hx
    · intro e; exact t_fs (hin x (ptr_eq_some_mem u x e)) hx
  · rw [Rep_node]
    refine ⟨hs, ?_, ?_⟩
    · refine Rep_reparent me.mem u par (some a) hsub hndu _ ?_ ht
      intro x hx hne
      exact hrest x (Or.inl hx) (by rintro rfl; exact hau hx) hne
    · refine Rep_frame _ _ r _ ?_ hnode.2.2
      intro x hx
      refine hrest x (Or.inr (Or.inl hx)) ?_ ?_
      · rintro rfl; exact a_r hx
      · intro e; exact t_r (hin x (ptr_eq_some_mem u x e)) hx
  · simp only [addrs_node, List.nodup_append, List.nodup_cons, List.mem_append, List.mem_cons,
      List.append_assoc, List.cons_append, not_or, List.disjoint_append_left,
      List.disjoint_append_right, List.disjoint_cons_left, List.disjoint_cons_right]
    refine ⟨hndu, ⟨⟨a_r, a_fs⟩, by tauto, by tauto, r_fs⟩, hau, ?_, ?_⟩
    · intro x hx; exact t_r (hin x hx)
    · intro x hx; exact t_fs (hin x hx)

/-- Replacing the subtree below an `R` step by one of its own subtrees. -/
theorem splice_right_rep {K : Type} (me M1 : internal_multiset K) (fs : List (Step K))
    (t u l : Tree K) (a : Nat) (k : K) (c b : Int) (par : Option Nat)
    (hrep : Represents me (plug (.R l a k c b :: fs) t))
    (hsub : Rep me.mem par u) (hin : ∀ x ∈ u.addrs, x ∈ t.addrs) (hndu : u.addrs.Nodup)
    (hroot : M1.root = me.root)
    (hs : rd M1.mem a = some { count := c, parent := parptr fs, balance := b, key := k,
                                left := l.ptr, right := u.ptr })
    (ht : ∀ x n, u.ptr = some x → rd me.mem x = some n →
      rd M1.mem x = some { n with parent := some a })
    (hrest : ∀ x, x ∈ u.addrs ∨ x ∈ l.addrs ∨ x ∈ pathAddrs fs → x ≠ a → some x ≠ u.ptr →
      rd M1.mem x = rd me.mem x) :
    Represents M1 (plug (.R l a k c b :: fs) u) := by
  rw [plug_R, represents_plug] at hrep ⊢
  obtain ⟨hpath, hnode, hnd0⟩ := hrep
  have hnd := hnd0
  simp only [addrs_node, List.nodup_append, List.nodup_cons, List.mem_append, List.mem_cons,
    List.append_assoc, List.cons_append, not_or, List.disjoint_append_left,
    List.disjoint_append_right, List.disjoint_cons_left, List.disjoint_cons_right] at hnd
  obtain ⟨-, ⟨⟨a_t, a_fs⟩, -, -, t_fs⟩, a_l, l_t, l_fs⟩ := id hnd
  rw [Rep_node] at hnode
  have hau : a ∉ u.addrs := fun h => a_t (hin a h)
  refine ⟨?_, ?_, ?_⟩
  · rw [hroot]
    simp only [ptr_node] at hpath ⊢
    refine RepPath_frame _ _ _ fs _ ?_ hpath
    intro x hx
    refine hrest x (Or.inr (Or.inr hx)) ?_ ?_
    · rintro rfl; exact a_fs hx
    · intro e; exact t_fs (hin x (ptr_eq_some_mem u x e)) hx
  · rw [Rep_node]
    refine ⟨hs, ?_, ?_⟩
    · refine Rep_frame _ _ l _ ?_ hnode.2.1
      intro x hx
      refine hrest x (Or.inr (Or.inl hx)) ?_ ?_
      · rintro rfl; exact a_l hx
      · intro e; exact l_t hx (hin x (ptr_eq_some_mem u x e))
    · refine Rep_reparent me.mem u par (some a) hsub hndu _ ?_ ht
      intro x hx hne
      exact hrest x (Or.inl hx) (by rintro rfl; exact hau hx) hne
  · simp only [addrs_node, List.nodup_append, List.nodup_cons, List.mem_append, List.mem_cons,
      List.append_assoc, List.cons_append, not_or, List.disjoint_append_left,
      List.disjoint_append_right, List.disjoint_cons_left, List.disjoint_cons_right]
    refine ⟨by tauto, ⟨⟨hau, a_fs⟩, hndu, by tauto, ?_⟩, a_l, ?_, l_fs⟩
    · intro x hx; exact t_fs (hin x hx)
    · intro x hx hx2; exact l_t hx (hin x hx2)

/-- A subtree of the tree becomes the whole tree. -/
theorem splice_root_rep {K : Type} (me M1 : internal_multiset K)
    (u : Tree K) (par : Option Nat)
    (hsub : Rep me.mem par u) (hndu : u.addrs.Nodup)
    (hroot : M1.root = u.ptr)
    (ht : ∀ x n, u.ptr = some x → rd me.mem x = some n →
      rd M1.mem x = some { n with parent := none })
    (hrest : ∀ x, x ∈ u.addrs → some x ≠ u.ptr → rd M1.mem x = rd me.mem x) :
    Represents M1 u :=
  ⟨hroot, Rep_reparent me.mem u par none hsub hndu _ (fun x hx hne => hrest x hx hne) ht, hndu⟩

theorem nodup_sub_left {K : Type} (me : internal_multiset K) (fs : List (Step K))
    (l r : Tree K) (a : Nat) (k : K) (c b : Int)
    (hrep : Represents me (plug fs (.node l a k c b r))) : l.addrs.Nodup ∧ r.addrs.Nodup := by
  rw [represents_plug] at hrep
  have hnd := hrep.2.2
  simp only [addrs_node, List.nodup_append, List.nodup_cons] at hnd
  tauto

/-- The function `multiset_remove_no_children` computes `del_bal` on the emptied slot, and
its calls of `multiset_repair` are those of `del_rep`. -/
theorem remove_no_children_log {K : Type} (me : internal_multiset K) (fs : List (Step K))
    (a : Nat) (k : K) (c b : Int) (T : Tree K)
    (hrep : Represents me (plug fs (.node .nil a k c b .nil)))
    (hbal : ∀ s ∈ fs, -1 ≤ s.bal ∧ s.bal ≤ 1) (hT : del_bal fs .nil = some T) :
    ∃ me1, multiset_remove_no_children me a = some me1 ∧ Represents me1 T ∧
      me1.repairs = me.repairs ++ del_rep fs .nil := by
  have hp := rd_focus me fs .nil .nil a k c b hrep
  cases fs with
  | nil =>
    simp only [del_bal, Option.some.injEq] at hT
    subst hT
    refine ⟨{ me with root := none }, by simp [multiset_remove_no_children, hp], ?_,
      by simp [del_rep]⟩
    exact ⟨rfl, trivial, List.nodup_nil⟩
  | cons s fs =>
    cases s with
    | L pa pk pc pb pr =>
      have hpp := rd_focus me fs _ pr pa pk pc pb hrep
      simp only [ptr_node] at hpp
      have hM : Represents
          { me with
            mem := upd me.mem pa
              (some { count := pc, parent := parptr fs, balance := pb, key := pk,
                      left := none, right := pr.ptr }) }
          (plug (.L pa pk pc pb pr :: fs) .nil) := by
        refine splice_left_rep me _ fs _ .nil pr pa pk pc pb none hrep trivial ?_
          List.nodup_nil rfl ?_ ?_ ?_
        · intro x hx; simp at hx
        · simp
        · intro x n hx; simp at hx
        · intro x _ hx _; simp [hx]
      obtain ⟨me1, h1, r1, g1⟩ := delete_balance_left_log _ fs .nil pr T pa pk pc pb hM hbal hT
      exact ⟨me1, by simp [multiset_remove_no_children, hp, hpp, wr, h1], r1, g1⟩
    | R pl pa pk pc pb =>
      have hpp := rd_focus me fs pl _ pa pk pc pb hrep
      simp only [ptr_node] at hpp
      have hne := sibling_ptr_ne me fs pl _ pa pk pc pb a hrep rfl
      have hM : Represents
          { me with
            mem := upd me.mem pa
              (some { count := pc, parent := parptr fs, balance := pb, key := pk,
                      left := pl.ptr, right := none }) }
          (plug (.R pl pa pk pc pb :: fs) .nil) := by
        refine splice_right_rep me _ fs _ .nil pl pa pk pc pb none hrep trivial ?_
          List.nodup_nil rfl ?_ ?_ ?_
        · intro x hx; simp at hx
        · simp
        · intro x n hx; simp at hx
        · intro x _ hx _; simp [hx]
      obtain ⟨me1, h1, r1, g1⟩ := delete_balance_right_log _ fs .nil pl T pa pk pc pb hM hbal hT
      exact ⟨me1, by simp [multiset_remove_no_children, hp, hpp, wr, hne, h1], r1, g1⟩

/-- The function `multiset_remove_no_children` computes `del_bal` on the emptied slot. -/
theorem remove_no_children_spec {K : Type} (me : internal_multiset K) (fs : List (Step K))
    (a : Nat) (k : K) (c b : Int) (T : Tree K)
    (hrep : Represents me (plug fs (.node .nil a k c b .nil)))
    (hbal : ∀ s ∈ fs, -1 ≤ s.bal ∧ s.bal ≤ 1) (hT : del_bal fs .nil = some T) :
    ∃ me1, multiset_remove_no_children me a = some me1 ∧ Represents me1 T := by
  obtain ⟨me1, h1, r1, -⟩ := remove_no_children_log me fs a k c b T hrep hbal hT
  exact ⟨me1, h1, r1⟩

theorem focus_facts {K : Type} (me : internal_multiset K) (fs : List (Step K))
    (l r : Tree K) (a : Nat) (k : K) (c b : Int)
    (hrep : Represents me (plug fs (.node l a k c b r))) :
    Rep me.mem (some a) l ∧ Rep me.mem (some a) r ∧ l.addrs.Nodup ∧ r.addrs.Nodup ∧
      a ∉ l.addrs ∧ a ∉ r.addrs ∧ a ∉ pathAddrs fs ∧
      (∀ x ∈ l.addrs, x ∉ r.addrs) ∧ (∀ x ∈ l.addrs, x ∉ pathAddrs fs) ∧
      (∀ x ∈ r.addrs, x ∉ pathAddrs fs) := by
  rw [represents_plug] at hrep
  obtain ⟨-, hnode, hnd⟩ := hrep
  rw [Rep_node] at hnode
  simp only [addrs_node, List.nodup_append, List.nodup_cons, List.mem_append, List.mem_cons,
    List.append_assoc, List.cons_append, not_or, List.disjoint_append_left,
    List.disjoint_append_right, List.disjoint_cons_left, List.disjoint_cons_right] at hnd
  obtain ⟨ndl, ⟨⟨a_r, a_fs⟩, ndr, -, r_fs⟩, a_l, l_r, l_fs⟩ := hnd
  exact ⟨hnode.2.1, hnode.2.2, ndl, ndr, a_l, a_r, a_fs, fun x h1 h2 => l_r h1 h2,
    fun x h1 h2 => l_fs h1 h2, fun x h1 h2 => r_fs h1 h2⟩

/-- The function `multiset_remove_one_child`, when the only child is the left one, with its
calls of `multiset_repair`. -/
theorem remove_one_child_left_log {K : Type} (me : internal_multiset K)
    (fs : List (Step K)) (ul ur : Tree K) (a x : Nat) (k uk : K) (c b uc ub : Int) (T : Tree K)
    (hrep : Represents me (plug fs (.node (.node ul x uk uc ub ur) a k c b .nil)))
    (hbal : ∀ s ∈ fs, -1 ≤ s.bal ∧ s.bal ≤ 1)
    (hT : del_bal fs (.node ul x uk uc ub ur) = some T) :
    ∃ me1, multiset_remove_one_child me a = some me1 ∧ Represents me1 T ∧
      me1.repairs = me.repairs ++ del_rep fs (.node ul x uk uc ub ur) := by
  have hp := rd_focus me fs _ .nil a k c b hrep
  have hx := rd_focus me (.L a k c b .nil :: fs) ul ur x uk uc ub hrep
  obtain ⟨hsub, -, hndu, -, a_u, -, a_fs, -, u_fs, -⟩ := focus_facts me fs _ _ a k c b hrep
  have hxa : x ≠ a := by rintro rfl; exact a_u (by simp)
  have hax : a ≠ x := fun e => hxa e.symm
  simp only [ptr_node, ptr_nil, parptr_cons, addr_L] at hp hx
  cases fs with
  | nil =>
    simp only [del_bal, Option.some.injEq] at hT
    subst hT
    simp only [parptr_nil] at hp
    refine ⟨_, by simp [multiset_remove_one_child, hp, hx, wr, hax]; rfl, ?_,
      by simp [del_rep]⟩
    refine splice_root_rep me _ _ (some a) hsub hndu rfl ?_ ?_
    · intro y n hy hn
      simp only [ptr_node, Option.some.injEq] at hy
      subst hy
      rw [hx] at hn
      simp only [Option.some.injEq] at hn
      subst hn
      simp
    · intro y _ hy
      have : y ≠ x := fun e => hy (by simp [e])
      simp [this]
  | cons s fs =>
    simp only [parptr_cons] at hp
    cases s with
    | L pa pk pc pb pr =>
      have hpp := rd_focus me fs _ pr pa pk pc pb hrep
      simp only [ptr_node, addr_L] at hpp hp
      have hpa : pa ≠ a := by rintro rfl; exact a_fs (by simp)
      have hpx : pa ≠ x := by rintro rfl; exact u_fs pa (by simp) (by simp)
      have hM : Represents
          { me with
            mem := upd (upd me.mem pa
              (some { count := pc, parent := parptr fs, balance := pb, key := pk,
                      left := some x, right := pr.ptr })) x
              (some { count := uc, parent := some pa, balance := ub, key := uk,
                      left := ul.ptr, right := ur.ptr }) }
          (plug (.L pa pk pc pb pr :: fs) (.node ul x uk uc ub ur)) := by
        refine splice_left_rep me _ fs _ _ pr pa pk pc pb (some a) hrep hsub ?_ hndu rfl ?_ ?_ ?_
        · intro y hy; simp only [addrs_node, List.mem_append, List.mem_cons] at hy ⊢; tauto
        · simp [hpx]
        · intro y n hy hn
          simp only [ptr_node, Option.some.injEq] at hy
          subst hy
          rw [hx] at hn
          simp only [Option.some.injEq] at hn
          subst hn
          simp
        · intro y _ hy1 hy2
          have : y ≠ x := fun e => hy2 (by simp [e])
          simp [this, hy1]
      obtain ⟨me1, h1, r1, g1⟩ := delete_balance_left_log _ fs _ pr T pa pk pc pb hM hbal hT
      exact ⟨me1, by simp [multiset_remove_one_child, hp, hpp, hx, wr, hpa.symm, hpx.symm,
        hpx, hxa, h1], r1, g1⟩
    | R pl pa pk pc pb =>
      have hpp := rd_focus me fs pl _ pa pk pc pb hrep
      simp only [ptr_node, addr_R] at hpp hp
      have hne := sibling_ptr_ne me fs pl _ pa pk pc pb a hrep rfl
      have hpa : pa ≠ a := by rintro rfl; exact a_fs (by simp)
      have hpx : pa ≠ x := by rintro rfl; exact u_fs pa (by simp) (by simp)
      have hM : Represents
          { me with
            mem := upd (upd me.mem pa
              (some { count := pc, parent := parptr fs, balance := pb, key := pk,
                      left := pl.ptr, right := some x })) x
              (some { count := uc, parent := some pa, balance := ub, key := uk,
                      left := ul.ptr, right := ur.ptr }) }
          (plug (.R pl pa pk pc pb :: fs) (.node ul x uk uc ub ur)) := by
        refine splice_right_rep me _ fs _ _ pl pa pk pc pb (some a) hrep hsub ?_ hndu rfl ?_ ?_ ?_
        · intro y hy; simp only [addrs_node, List.mem_append, List.mem_cons] at hy ⊢; tauto
        · simp [hpx]
        · intro y n hy hn
          simp only [ptr_node, Option.some.injEq] at hy
          subst hy
          rw [hx] at hn
          simp only [Option.some.injEq] at hn
          subst hn
          simp
        · intro y _ hy1 hy2
          have : y ≠ x := fun e => hy2 (by simp [e])
          simp [this, hy1]
      obtain ⟨me1, h1, r1, g1⟩ := delete_balance_right_log _ fs _ pl T pa pk pc pb hM hbal hT
      exact ⟨me1, by simp [multiset_remove_one_child, hp, hpp, hx, wr, hpa.symm, hpx.symm,
        hpx, hxa, hne, h1], r1, g1⟩

/-- The function `multiset_remove_one_child`, when the only child is the right one, with its
calls of `multiset_repair`. -/
theorem remove_one_child_right_log {K : Type} (me : internal_multiset K)
    (fs : List (Step K)) (ul ur : Tree K) (a x : Nat) (k uk : K) (c b uc ub : Int) (T : Tree K)
    (hrep : Represents me (plug fs (.node .nil a k c b (.node ul x uk uc ub ur))))
    (hbal : ∀ s ∈ fs, -1 ≤ s.bal ∧ s.bal ≤ 1)
    (hT : del_bal fs (.node ul x uk uc ub ur) = some T) :
    ∃ me1, multiset_remove_one_child me a = some me1 ∧ Represents me1 T ∧
      me1.repairs = me.repairs ++ del_rep fs (.node ul x uk uc ub ur) := by
  have hp := rd_focus me fs .nil _ a k c b hrep
  have hx := rd_focus me (.R .nil a k c b :: fs) ul ur x uk uc ub hrep
  obtain ⟨-, hsub, -, hndu, -, a_u, a_fs, -, -, u_fs⟩ := focus_facts me fs _ _ a k c b hrep
  have hxa : x ≠ a := by rintro rfl; exact a_u (by simp)
  have hax : a ≠ x := fun e => hxa e.symm
  simp only [ptr_node, ptr_nil, parptr_cons, addr_R] at hp hx
  cases fs with
  | nil =>
    simp only [del_bal, Option.some.injEq] at hT
    subst hT
    simp only [parptr_nil] at hp
    refine ⟨_, by simp [multiset_remove_one_child, hp, hx, wr, hax]; rfl, ?_,
      by simp [del_rep]⟩
    refine splice_root_rep me _ _ (some a) hsub hndu rfl ?_ ?_
    · intro y n hy hn
      simp only [ptr_node, Option.some.injEq] at hy
      subst hy
      rw [hx] at hn
      simp only [Option.some.injEq] at hn
      subst hn
      simp
    · intro y _ hy
      have : y ≠ x := fun e => hy (by simp [e])
      simp [this]
  | cons s fs =>
    simp only [parptr_cons] at hp
    cases s with
    | L pa pk pc pb pr =>
      have hpp := rd_focus me fs _ pr pa pk pc pb hrep
      simp only [ptr_node, addr_L] at hpp hp
      have hpa : pa ≠ a := by rintro rfl; exact a_fs (by simp)
      have hpx : pa ≠ x := by rintro rfl; exact u_fs pa (by simp) (by simp)
      have hM : Represents
          { me with
            mem := upd (upd me.mem pa
              (some { count := pc, parent := parptr fs, balance := pb, key := pk,
                      left := some x, right := pr.ptr })) x
              (some { count := uc, parent := some pa, balance := ub, key := uk,
                      left := ul.ptr, right := ur.ptr }) }
          (plug (.L pa pk pc pb pr :: fs) (.node ul x uk uc ub ur)) := by
        refine splice_left_rep me _ fs _ _ pr pa pk pc pb (some a) hrep hsub ?_ hndu rfl ?_ ?_ ?_
        · intro y hy; simp only [addrs_node, List.mem_append, List.mem_cons] at hy ⊢; tauto
        · simp [hpx]
        · intro y n hy hn
          simp only [ptr_node, Option.some.injEq] at hy
          subst hy
          rw [hx] at hn
          simp only [Option.some.injEq] at hn
          subst hn
          simp
        · intro y _ hy1 hy2
          have : y ≠ x := fun e => hy2 (by simp [e])
          simp [this, hy1]
      obtain ⟨me1, h1, r1, g1⟩ := delete_balance_left_log _ fs _ pr T pa pk pc pb hM hbal hT
      exact ⟨me1, by simp [multiset_remove_one_child, hp, hpp, hx, wr, hpa.symm, hpx.symm,
        hpx, hxa, h1], r1, g1⟩
    | R pl pa pk pc pb =>
      have hpp := rd_focus me fs pl _ pa pk pc pb hrep
      simp only [ptr_node, addr_R] at hpp hp
      have hne := sibling_ptr_ne me fs pl _ pa pk pc pb a hrep rfl
      have hpa : pa ≠ a := by rintro rfl; exact a_fs (by simp)
      have hpx : pa ≠ x := by rintro rfl; exact u_fs pa (by simp) (by simp)
      have hM : Represents
          { me with
            mem := upd (upd me.mem pa
              (some { count := pc, parent := parptr fs, balance := pb, key := pk,
                      left := pl.ptr, right := some x })) x
              (some { count := uc, parent := some pa, balance := ub, key := uk,
                      left := ul.ptr, right := ur.ptr }) }
          (plug (.R pl pa pk pc pb :: fs) (.node ul x uk uc ub ur)) := by
        refine splice_right_rep me _ fs _ _ pl pa pk pc pb (some a) hrep hsub ?_ hndu rfl ?_ ?_ ?_
        · intro y hy; simp only [addrs_node, List.mem_append, List.mem_cons] at hy ⊢; tauto
        · simp [hpx]
        · intro y n hy hn
          simp only [ptr_node, Option.some.injEq] at hy
          subst hy
          rw [hx] at hn
          simp only [Option.some.injEq] at hn
          subst hn
          simp
        · intro y _ hy1 hy2
          have : y ≠ x := fun e => hy2 (by simp [e])
          simp [this, hy1]
      obtain ⟨me1, h1, r1, g1⟩ := delete_balance_right_log _ fs _ pl T pa pk pc pb hM hbal hT
      exact ⟨me1, by simp [multiset_remove_one_child, hp, hpp, hx, wr, hpa.symm, hpx.symm,
        hpx, hxa, hne, h1], r1, g1⟩

/-- The function `multiset_remove_one_child`, when the only child is the left one. -/
theorem remove_one_child_left_spec {K : Type} (me : internal_multiset K)
    (fs : List (Step K)) (ul ur : Tree K) (a x : Nat) (k uk : K) (c b uc ub : Int) (T : Tree K)
    (hrep : Represents me (plug fs (.node (.node ul x uk uc ub ur) a k c b .nil)))
    (hbal : ∀ s ∈ fs, -1 ≤ s.bal ∧ s.bal ≤ 1)
    (hT : del_bal fs (.node ul x uk uc ub ur) = some T) :
    ∃ me1, multiset_remove_one_child me a = some me1 ∧ Represents me1 T := by
  obtain ⟨me1, h1, r1, -⟩ :=
    remove_one_child_left_log me fs ul ur a x k uk c b uc ub T hrep hbal hT
  exact ⟨me1, h1, r1⟩

/-- The function `multiset_remove_one_child`, when the only child is the right one. -/
theorem remove_one_child_right_spec {K : Type} (me : internal_multiset K)
    (fs : List (Step K)) (ul ur : Tree K) (a x : Nat) (k uk : K) (c b uc ub : Int) (T : Tree K)
    (hrep : Represents me (plug fs (.node .nil a k c b (.node ul x uk uc ub ur))))
    (hbal : ∀ s ∈ fs, -1 ≤ s.bal ∧ s.bal ≤ 1)
    (hT : del_bal fs (.node ul x uk uc ub ur) = some T) :
    ∃ me1, multiset_remove_one_child me a = some me1 ∧ Represents me1 T := by
  obtain ⟨me1, h1, r1, -⟩ :=
    remove_one_child_right_log me fs ul ur a x k uk c b uc ub T hrep hbal hT
  exact ⟨me1, h1, r1⟩

theorem plug_append {K : Type} (ps : List (Step K)) :
    ∀ (qs : List (Step K)) (t : Tree K), plug (ps ++ qs) t = plug qs (plug ps t) := by
  induction ps with
  | nil => intro qs t; rfl
  | cons s ps ih =>
    intro qs t
    cases s with
    | L a k c b r => simp only [List.cons_append, plug_L, ih]
    | R l a k c b => simp only [List.cons_append, plug_R, ih]

theorem pathAddrs_append {K : Type} (ps qs : List (Step K)) :
    pathAddrs (ps ++ qs) = pathAddrs ps ++ pathAddrs qs := by
  induction ps with
  | nil => rfl
  | cons s ps ih =>
    show s.addrs ++ pathAddrs (ps ++ qs) = (s.addrs ++ pathAddrs ps) ++ pathAddrs qs
    rw [ih, List.append_assoc]

theorem plug_ptr_cons {K : Type} (ps : List (Step K)) :
    ∀ (s : Step K) (t u : Tree K), (plug (s :: ps) t).ptr = (plug (s :: ps) u).ptr := by
  induction ps with
  | nil => intro s t u; cases s <;> rfl
  | cons s1 ps ih =>
    intro s t u
    cases s with
    | L a k c b r => rw [plug_L, plug_L]; exact ih _ _ _
    | R l a k c b => rw [plug_R, plug_R]; exact ih _ _ _

theorem plug_min {K : Type} (t : Tree K) : plug (min_path t) (min_node t) = t := by
  induction t with
  | nil => rfl
  | node l a k c b r ihl _ =>
    cases l with
    | nil => rfl
    | node ll la lk lc lb lr =>
      simp only [min_path, min_node, plug_append, ihl]
      rfl

theorem min_node_node {K : Type} (l r : Tree K) (a : Nat) (k : K) (c b : Int) :
    ∃ ma mk mc mb mr, min_node (.node l a k c b r) = .node .nil ma mk mc mb mr := by
  induction l generalizing a k c b r with
  | nil => exact ⟨a, k, c, b, r, rfl⟩
  | node ll la lk lc lb lr ihl _ =>
    simp only [min_node]
    exact ihl lr la lk lc lb

theorem min_path_cons {K : Type} (ll lr r : Tree K) (la a : Nat) (lk k : K)
    (lc lb c b : Int) :
    ∃ q qk qc qb qr ps,
      min_path (.node (.node ll la lk lc lb lr) a k c b r) = Step.L q qk qc qb qr :: ps := by
  induction ll generalizing la lk lc lb lr a k c b r with
  | nil => exact ⟨a, k, c, b, r, [], by simp [min_path]⟩
  | node l2 a2 k2 c2 b2 r2 ih _ =>
    obtain ⟨q, qk, qc, qb, qr, ps, h⟩ := ih r2 lr a2 la k2 lk c2 b2 lc lb
    refine ⟨q, qk, qc, qb, qr, ps ++ [Step.L a k c b r], ?_⟩
    rw [min_path, h]
    rfl

/-- The loop `while (item->left) item = item->left;` stops at the leftmost node. -/
theorem leftmost_loop_spec {K : Type} (t : Tree K) :
    ∀ (me : internal_multiset K) (fs : List (Step K)) (x fuel : Nat),
      Represents me (plug fs t) → t.ptr = some x → t.size ≤ fuel →
      multiset_leftmost_loop me fuel x = (min_node t).ptr := by
  induction t with
  | nil => intro me fs x fuel _ h; simp at h
  | node l a k c b r ihl _ =>
    intro me fs x fuel hrep hx hfuel
    simp only [ptr_node, Option.some.injEq] at hx
    subst hx
    rw [size_node_pos] at hfuel
    cases fuel with
    | zero => omega
    | succ fuel =>
      have hp := rd_focus me fs l r a k c b hrep
      cases l with
      | nil => simp [multiset_leftmost_loop, hp, min_node]
      | node ll la lk lc lb lr =>
        simp only [multiset_leftmost_loop, hp, andThen_some, ptr_node, min_node]
        exact ihl me (.L a k c b r :: fs) la fuel hrep rfl (by omega)

/-- Last part of `multiset_remove_two_children`: the slot that held `traverse` gets
`item`. -/
theorem two_children_link_spec {K : Type} (me : internal_multiset K) (fs : List (Step K))
    (a ma : Nat) (an mn : node K)
    (hpath : RepPath me.root me.mem fs (some a))
    (ha : rd me.mem a = some an) (hap : an.parent = parptr fs)
    (hm : rd me.mem ma = some mn) (hmp : mn.parent = parptr fs)
    (han : a ∉ pathAddrs fs) (hmn : ma ∉ pathAddrs fs) (hnd : (pathAddrs fs).Nodup) :
    ∃ me1, multiset_remove_two_children_link me a ma = some me1 ∧
      RepPath me1.root me1.mem fs (some ma) ∧
      (∀ x, parptr fs ≠ some x → rd me1.mem x = rd me.mem x) := by
  cases fs with
  | nil =>
    simp only [parptr_nil] at hap
    simp [multiset_remove_two_children_link, ha, hap, RepPath]
  | cons s fs =>
    cases s with
    | L pa pk pc pb pr =>
      simp only [RepPath] at hpath
      simp only [parptr_cons, addr_L] at hap hmp
      simp only [pathAddrs_L, List.mem_cons, List.mem_append, not_or, List.nodup_cons,
        List.nodup_append] at han hmn hnd
      simp [multiset_remove_two_children_link, ha, hap, hm, hmp, hpath.1, wr, RepPath]
      refine ⟨⟨?_, ?_⟩, ?_⟩
      · refine Rep_frame _ _ pr _ ?_ hpath.2.1
        intro x hx
        have h1 : x ≠ pa := by rintro rfl; exact hnd.1.1 hx
        simp [h1]
      · refine RepPath_frame _ _ _ fs _ ?_ hpath.2.2
        intro x hx
        have h1 : x ≠ pa := by rintro rfl; exact hnd.1.2 hx
        simp [h1]
      · intro x hx
        have : x ≠ pa := fun e => hx e.symm
        simp [this]
    | R pl pa pk pc pb =>
      simp only [RepPath] at hpath
      simp only [parptr_cons, addr_R] at hap hmp
      simp only [pathAddrs_R, List.mem_cons, List.mem_append, not_or, List.nodup_cons,
        List.nodup_append] at han hmn hnd
      have hlp : ¬ pl.ptr = some a := fun e => han.2.1 (ptr_mem_addrs pl a e)
      simp [multiset_remove_two_children_link, ha, hap, hm, hmp, hpath.1, wr, RepPath, hlp]
      refine ⟨⟨?_, ?_⟩, ?_⟩
      · refine Rep_frame _ _ pl _ ?_ hpath.2.1
        intro x hx
        have h1 : x ≠ pa := by rintro rfl; exact hnd.1.1 hx
        simp [h1]
      · refine RepPath_frame _ _ _ fs _ ?_ hpath.2.2
        intro x hx
        have h1 : x ≠ pa := by rintro rfl; exact hnd.1.2 hx
        simp [h1]
      · intro x hx
        have : x ≠ pa := fun e => hx e.symm
        simp [this]

/-- A node at `ma` takes the place of the root of the subtree below the path `fs`, with the
subtrees `l` and `r` as its children. -/
theorem promote_rep {K : Type} (M M2 : internal_multiset K) (fs : List (Step K))
    (l r : Tree K) (ma : Nat) (mk : K) (mc b : Int) (pl pr : Option Nat)
    (hpath : RepPath M2.root M2.mem fs (some ma))
    (hl : Rep M.mem pl l) (hr : Rep M.mem pr r)
    (hnd : ((Tree.node l ma mk mc b r).addrs ++ pathAddrs fs).Nodup)
    (hma : rd M2.mem ma = some { count := mc, parent := parptr fs, balance := b, key := mk,
                                 left := l.ptr, right := r.ptr })
    (hlroot : ∀ x n, l.ptr = some x → rd M.mem x = some n →
      rd M2.mem x = some { n with parent := some ma })
    (hrroot : ∀ x n, r.ptr = some x → rd M.mem x = some n →
      rd M2.mem x = some { n with parent := some ma })
    (hrest : ∀ x, x ∈ l.addrs ∨ x ∈ r.addrs → some x ≠ l.ptr → some x ≠ r.ptr →
      rd M2.mem x = rd M.mem x) :
    Represents M2 (plug fs (.node l ma mk mc b r)) := by
  rw [represents_plug]
  refine ⟨hpath, ?_, hnd⟩
  simp only [addrs_node, List.nodup_append, List.nodup_cons, List.mem_append, List.mem_cons,
    List.append_assoc, List.cons_append, not_or, List.disjoint_append_left,
    List.disjoint_append_right, List.disjoint_cons_left, List.disjoint_cons_right] at hnd
  obtain ⟨ndl, ⟨-, ndr, -, -⟩, -, l_r, -⟩ := hnd
  rw [Rep_node]
  refine ⟨hma, ?_, ?_⟩
  · refine Rep_reparent M.mem l pl (some ma) hl ndl _ ?_ hlroot
    intro x hx hne
    refine hrest x (Or.inl hx) hne ?_
    intro e; exact l_r hx (ptr_eq_some_mem r x e)
  · refine Rep_reparent M.mem r pr (some ma) hr ndr _ ?_ hrroot
    intro x hx hne
    refine hrest x (Or.inr hx) ?_ hne
    intro e; exact l_r (ptr_eq_some_mem l x e) hx

/-- First branch of `multiset_remove_two_children`: what the memory holds afterwards. -/
theorem two_children_near_run {K : Type} (me : internal_multiset K) (a ra la : Nat)
    (an rn ln : node K)
    (ha : rd me.mem a = some an) (hr : rd me.mem ra = some rn) (hl : rd me.mem la = some ln)
    (hal : an.left = some la) (h1 : a ≠ ra) (h3 : ra ≠ la) :
    ∃ S, multiset_remove_two_children_near me a ra = some (ra, ra, S) ∧ S.root = me.root ∧
      rd S.mem ra = some { rn with balance := an.balance, parent := an.parent,
                                   left := an.left } ∧
      rd S.mem la = some { ln with parent := some ra } ∧
      (∀ x, x ≠ ra → x ≠ la → rd S.mem x = rd me.mem x) := by
  have h3' : la ≠ ra := fun e => h3 e.symm
  simp [multiset_remove_two_children_near, ha, hr, hl, wr, h1, h3, h3', hal]
  intro x hx1 hx2
  simp [hx1, hx2]

theorem path_nodup {K : Type} (me : internal_multiset K) (fs : List (Step K)) (t : Tree K)
    (hrep : Represents me (plug fs t)) :
    (pathAddrs fs).Nodup ∧ RepPath me.root me.mem fs t.ptr ∧
      (t.addrs ++ pathAddrs fs).Nodup := by
  rw [represents_plug] at hrep
  have hnd := hrep.2.2
  rw [List.nodup_append] at hnd
  exact ⟨hnd.2.1, hrep.1, hrep.2.2⟩

theorem andThen_assoc {α β γ : Type} (x : Option α) (f : α → Option β) (g : β → Option γ) :
    (x.andThen f).andThen g = x.andThen fun a => (f a).andThen g := by
  cases x <;> simp

/-- The function `multiset_remove_two_children` is its first part followed by the call of
`multiset_delete_balance`. -/
theorem remove_two_children_eq {K : Type} (me : internal_multiset K) (a : Nat) :
    multiset_remove_two_children me a =
      (multiset_remove_two_children_promote me a).andThen fun r =>
        multiset_delete_balance r.2.2 r.1 r.2.1 := by
  simp only [multiset_remove_two_children, multiset_remove_two_children_promote]
  cases rd me.mem a with
  | none => simp
  | some t =>
    simp only [andThen_some]
    cases t.right with
    | none => simp [Option.andThen]
    | some tr =>
      simp only [andThen_some]
      cases rd me.mem tr with
      | none => simp
      | some trn =>
        simp only [andThen_some]
        cases trn.left with
        | none => simp only [andThen_assoc, andThen_some]
        | some trl => simp only [andThen_assoc, andThen_some]

/-- The first part of `multiset_remove_two_children` when the right child of the removed
node has no left child: the right child takes the place of the removed node, with the
balance of the removed node. -/
theorem two_children_near_promote {K : Type} (me : internal_multiset K)
    (fs : List (Step K)) (ll lr rr : Tree K) (a la ra : Nat) (k lk rk : K)
    (c b lc lb rc rb : Int)
    (hrep : Represents me (plug fs
      (.node (.node ll la lk lc lb lr) a k c b (.node .nil ra rk rc rb rr)))) :
    ∃ S2, multiset_remove_two_children_promote me a = some (ra, false, S2) ∧
      Represents S2 (plug fs (.node (.node ll la lk lc lb lr) ra rk rc b rr)) := by
  have ha := rd_focus me fs _ _ a k c b hrep
  have hr := rd_focus me (.R (.node ll la lk lc lb lr) a k c b :: fs) .nil rr ra rk rc rb hrep
  have hl := rd_focus me (.L a k c b (.node .nil ra rk rc rb rr) :: fs) ll lr la lk lc lb hrep
  simp only [ptr_node, ptr_nil, parptr_cons, addr_L, addr_R] at ha hr hl
  obtain ⟨hndp, hpath, hnd0⟩ := path_nodup me fs _ hrep
  obtain ⟨hsl, hsr, ndl, ndr, a_l, a_r, a_fs, l_r, l_fs, r_fs⟩ :=
    focus_facts me fs _ _ a k c b hrep
  have h1 : a ≠ ra := by rintro rfl; exact a_r (by simp)
  have h2 : a ≠ la := by rintro rfl; exact a_l (by simp)
  have h3 : ra ≠ la := by rintro rfl; exact l_r ra (by simp) (by simp)
  obtain ⟨S, hS, hSroot, hSr, hSl, hSrest⟩ :=
    two_children_near_run me a ra la _ _ _ ha hr hl rfl h1 h3
  have hra_fs : ra ∉ pathAddrs fs := r_fs ra (by simp)
  have hla_fs : la ∉ pathAddrs fs := l_fs la (by simp)
  have hSa : rd S.mem a = rd me.mem a := hSrest a h1 h2
  have hpathS : RepPath S.root S.mem fs (some a) := by
    rw [hSroot]
    simp only [ptr_node] at hpath
    refine RepPath_frame _ _ _ fs _ ?_ hpath
    intro x hx
    exact hSrest x (by rintro rfl; exact hra_fs hx) (by rintro rfl; exact hla_fs hx)
  obtain ⟨S2, hS2, hpath2, hrest2⟩ := two_children_link_spec S fs a ra _ _ hpathS
    (hSa.trans ha) rfl hSr rfl a_fs hra_fs hndp
  rw [Rep_node] at hsr
  have hnp : ∀ x, x ∉ pathAddrs fs → parptr fs ≠ some x :=
    fun x hx e => hx (parptr_mem fs x e)
  have hfinal : Represents S2 (plug fs (.node (.node ll la lk lc lb lr) ra rk rc b rr)) := by
    refine promote_rep me S2 fs _ rr ra rk rc b (some a) (some ra) hpath2 hsl hsr.2.2 ?_ ?_
      ?_ ?_ ?_
    · simp only [addrs_node, addrs_nil, List.nil_append, List.append_assoc, List.cons_append,
        List.nodup_append, List.nodup_cons, List.mem_append, List.mem_cons, not_or,
        List.disjoint_append_left, List.disjoint_append_right, List.disjoint_cons_left,
        List.disjoint_cons_right] at hnd0 ⊢
      tauto
    · rw [hrest2 ra (hnp ra hra_fs), hSr]
      simp
    · intro x n hx hn
      simp only [ptr_node, Option.some.injEq] at hx
      subst hx
      rw [hrest2 _ (hnp _ hla_fs), hSl]
      rw [hl] at hn
      simp only [Option.some.injEq] at hn
      subst hn
      rfl
    · intro x n hx hn
      have hxr : x ∈ rr.addrs := ptr_mem_addrs rr x hx
      have hxa : x ∈ (Tree.node .nil ra rk rc rb rr).addrs := by simp [hxr]
      have e1 : x ≠ ra := by
        rintro rfl
        simp only [addrs_node, addrs_nil, List.nil_append, List.nodup_cons] at ndr
        exact ndr.1 hxr
      have e2 : x ≠ la := by rintro rfl; exact l_r x (by simp) hxa
      rw [hrest2 x (hnp x (r_fs x hxa)), hSrest x e1 e2, hn]
      cases rr with
      | nil => simp at hx
      | node r1 x1 k1 c1 b1 r2 =>
        simp only [ptr_node, Option.some.injEq] at hx
        subst hx
        have := hsr.2.2
        rw [Rep_node] at this
        rw [this.1] at hn
        simp only [Option.some.injEq] at hn
        subst hn
        rfl
    · intro x hx hx1 hx2
      have e2 : x ≠ la := fun e => hx1 (by simp [e])
      rcases hx with hx | hx
      · have e1 : x ≠ ra := by rintro rfl; exact l_r x hx (by simp)
        rw [hrest2 x (hnp x (l_fs x hx)), hSrest x e1 e2]
      · have hxa : x ∈ (Tree.node .nil ra rk rc rb rr).addrs := by simp [hx]
        have e1 : x ≠ ra := by
          rintro rfl
          simp only [addrs_node, addrs_nil, List.nil_append, List.nodup_cons] at ndr
          exact ndr.1 hx
        rw [hrest2 x (hnp x (r_fs x hxa)), hSrest x e1 e2]
  exact ⟨S2, by simp [multiset_remove_two_children_promote, ha, hr, hS, hS2], hfinal⟩

/-- The function `multiset_remove_two_children` when the right child of the removed node
has no left child: the right child takes the place of the removed node. -/
theorem remove_two_children_near_spec {K : Type} (me : internal_multiset K)
    (fs : List (Step K)) (ll lr rr : Tree K) (a la ra : Nat) (k lk rk : K)
    (c b lc lb rc rb : Int) (T : Tree K)
    (hrep : Represents me (plug fs
      (.node (.node ll la lk lc lb lr) a k c b (.node .nil ra rk rc rb rr))))
    (hbal : ∀ s ∈ (Step.R (.node ll la lk lc lb lr) ra rk rc b :: fs), -1 ≤ s.bal ∧ s.bal ≤ 1)
    (hT : del_bal (.R (.node ll la lk lc lb lr) ra rk rc b :: fs) rr = some T) :
    ∃ me1, multiset_remove_two_children me a = some me1 ∧ Represents me1 T := by
  obtain ⟨S2, hp, hfinal⟩ := two_children_near_promote me fs ll lr rr a la ra k lk rk c b lc lb
    rc rb hrep
  obtain ⟨me1, h4, r4⟩ := delete_balance_right_spec S2 fs rr _ T ra rk rc b hfinal hbal hT
  exact ⟨me1, by rw [remove_two_children_eq, hp]; exact h4, r4⟩

/-- A write through an allocated pointer, described cell by cell. -/
theorem wr_run {K : Type} (me : internal_multiset K) (p : Nat) (f : node K → node K)
    (n : node K) (hp : rd me.mem p = some n) :
    ∃ s, wr me p f = some s ∧ s.root = me.root ∧
      (∀ x, rd s.mem x = if x = p then some (f n) else rd me.mem x) :=
  ⟨_, wr_some me p f n hp, rfl, fun _ => rd_upd _ _ _ _⟩

/-- Second branch of `multiset_remove_two_children`: what the memory holds after the
successor `ma` has been detached from its parent `q` (state `S3`) and at the end (state
`S8`). -/
theorem two_children_far_run {K : Type} (me : internal_multiset K) (a ma q la ra : Nat)
    (mr : Tree K) (an mn qn ln : node K)
    (ha : rd me.mem a = some an) (hm : rd me.mem ma = some mn) (hq : rd me.mem q = some qn)
    (hl : rd me.mem la = some ln) (hr : ∃ rn, rd me.mem ra = some rn)
    (hmp : mn.parent = some q) (hmr : mn.right = mr.ptr)
    (hal : an.left = some la) (har : an.right = some ra)
    (hrepmr : Rep me.mem (some ma) mr) (ndmr : mr.addrs.Nodup)
    (hma : ma ≠ a) (hqa : q ≠ a) (hqm : q ≠ ma) (hla : la ≠ a) (hlm : la ≠ ma)
    (hlq : la ≠ q) (hra : ra ≠ a) (hrm : ra ≠ ma) (hrl : ra ≠ la)
    (hmra : a ∉ mr.addrs) (hmrm : ma ∉ mr.addrs) (hmrq : q ∉ mr.addrs)
    (hmrl : la ∉ mr.addrs) (hmrr : ra ∉ mr.addrs) :
    ∃ S3 S8 : internal_multiset K,
      multiset_remove_two_children_far me a ma = some (ma, q, S8) ∧
      S3.root = me.root ∧ Rep S3.mem (some q) mr ∧
      rd S3.mem q = some { qn with left := mr.ptr } ∧
      (∀ x, x ≠ ma → x ≠ q → some x ≠ mr.ptr → rd S3.mem x = rd me.mem x) ∧
      S8.root = me.root ∧
      rd S8.mem ma = some { count := mn.count, parent := an.parent, balance := an.balance,
                            key := mn.key, left := some la, right := some ra } ∧
      (∀ n, rd S3.mem la = some n → rd S8.mem la = some { n with parent := some ma }) ∧
      (∀ n, rd S3.mem ra = some n → rd S8.mem ra = some { n with parent := some ma }) ∧
      (∀ x, x ≠ ma → x ≠ la → x ≠ ra → rd S8.mem x = rd S3.mem x) := by
  -- item->balance = traverse->balance
  obtain ⟨s1, h1, hr1, hs1⟩ := wr_run me ma
    (fun (n : node K) => { n with balance := an.balance }) mn hm
  have hm1 : rd s1.mem ma = some { mn with balance := an.balance } := by rw [hs1]; simp
  have hq1 : rd s1.mem q = some qn := by rw [hs1]; simp [hqm, hq]
  -- item->parent->left = item->right
  obtain ⟨s2, h2, hr2, hs2⟩ := wr_run s1 q
    (fun (n : node K) => { n with left := mr.ptr }) qn hq1
  have hm2 : rd s2.mem ma = some { mn with balance := an.balance } := by
    rw [hs2]; simp [Ne.symm hqm, hm1]
  -- if (item->right) item->right->parent = item->parent
  have hrep2 : Rep s2.mem (some ma) mr := by
    refine Rep_frame _ _ mr _ ?_ hrepmr
    intro x hx
    have e1 : x ≠ q := by rintro rfl; exact hmrq hx
    have e2 : x ≠ ma := by rintro rfl; exact hmrm hx
    rw [hs2, hs1]; simp [e1, e2]
  obtain ⟨s3, h3, hrep3, hs3, hr3, -⟩ := reparent_spec s2 mr (some ma) (some q) hrep2 ndmr
  have hpm : some ma ≠ mr.ptr := fun e => hmrm (ptr_eq_some_mem mr ma e)
  have hpa : some a ≠ mr.ptr := fun e => hmra (ptr_eq_some_mem mr a e)
  have hpq : some q ≠ mr.ptr := fun e => hmrq (ptr_eq_some_mem mr q e)
  have hpl : some la ≠ mr.ptr := fun e => hmrl (ptr_eq_some_mem mr la e)
  have hpr : some ra ≠ mr.ptr := fun e => hmrr (ptr_eq_some_mem mr ra e)
  have hm3 : rd s3.mem ma = some { mn with balance := an.balance } := by
    rw [hs3 ma hpm, hm2]
  have ha3 : rd s3.mem a = some an := by
    rw [hs3 a hpa, hs2, hs1]; simp [Ne.symm hqa, Ne.symm hma, ha]
  have hq3 : rd s3.mem q = some { qn with left := mr.ptr } := by
    rw [hs3 q hpq, hs2]; simp
  obtain ⟨ln3, hl3⟩ : ∃ n, rd s3.mem la = some n :=
    ⟨ln, by rw [hs3 la hpl, hs2, hs1]; simp [hlq, hlm, hl]⟩
  obtain ⟨rn3, hr3'⟩ : ∃ n, rd s3.mem ra = some n := by
    by_cases e : ra = q
    · exact ⟨_, by rw [e]; exact hq3⟩
    · obtain ⟨rn, hrn⟩ := hr
      exact ⟨rn, by rw [hs3 ra hpr, hs2, hs1]; simp [e, hrm, hrn]⟩
  -- item->left = traverse->left
  obtain ⟨s4, h4, hr4, hs4⟩ := wr_run s3 ma
    (fun (n : node K) => { n with left := some la }) _ hm3
  have hm4 : rd s4.mem ma = some { mn with balance := an.balance, left := some la } := by
    rw [hs4]; simp
  have hl4 : rd s4.mem la = some ln3 := by rw [hs4]; simp [hlm, hl3]
  -- item->left->parent = item
  obtain ⟨s5, h5, hr5, hs5⟩ := wr_run s4 la
    (fun (n : node K) => { n with parent := some ma }) _ hl4
  have ha5 : rd s5.mem a = some an := by
    rw [hs5, hs4]; simp [Ne.symm hla, Ne.symm hma, ha3]
  have hm5 : rd s5.mem ma = some { mn with balance := an.balance, left := some la } := by
    rw [hs5]; simp [Ne.symm hlm, hm4]
  -- item->right = traverse->right
  obtain ⟨s6, h6, hr6, hs6⟩ := wr_run s5 ma
    (fun (n : node K) => { n with right := some ra }) _ hm5
  have hm6 : rd s6.mem ma =
      some { mn with balance := an.balance, left := some la, right := some ra } := by
    rw [hs6]; simp
  have hr6' : rd s6.mem ra = some rn3 := by
    rw [hs6, hs5, hs4]; simp [hrm, hrl, hr3']
  -- item->right->parent = item
  obtain ⟨s7, h7, hr7, hs7⟩ := wr_run s6 ra
    (fun (n : node K) => { n with parent := some ma }) _ hr6'
  have ha7 : rd s7.mem a = some an := by
    rw [hs7, hs6]; simp [Ne.symm hra, Ne.symm hma, ha5]
  have hm7 : rd s7.mem ma =
      some { mn with balance := an.balance, left := some la, right := some ra } := by
    rw [hs7]; simp [Ne.symm hrm, hm6]
  -- item->parent = traverse->parent
  obtain ⟨s8, h8, hr8, hs8⟩ := wr_run s7 ma
    (fun (n : node K) => { n with parent := an.parent }) _ hm7
  refine ⟨s3, s8, ?_, ?_, hrep3, hq3, ?_, ?_, ?_, ?_, ?_, ?_⟩
  · simp only [multiset_remove_two_children_far, hm, andThen_some, hmp, ha, h1, hm1, h2, hm2,
      hmr] at h3 ⊢
    simp only [h3, andThen_some, ha3, hm3, h4, hm4, hal, h5, ha5, h6, hm6, har, h7, ha7, h8]
  · rw [hr3, hr2, hr1]
  · intro x e1 e2 e3
    rw [hs3 x e3, hs2, hs1]; simp [e1, e2]
  · rw [hr8, hr7, hr6, hr5, hr4, hr3, hr2, hr1]
  · rw [hs8]; simp
  · intro n hn
    rw [hl3] at hn
    simp only [Option.some.injEq] at hn
    subst hn
    rw [hs8, hs7, hs6, hs5]; simp [hlm, Ne.symm hrl]
  · intro n hn
    rw [hr3'] at hn
    simp only [Option.some.injEq] at hn
    subst hn
    rw [hs8, hs7]; simp [hrm]
  · intro x e1 e2 e3
    rw [hs8, hs7, hs6, hs5, hs4]; simp [e1, e2, e3]

theorem plug_ptr_mem_path {K : Type} (ps : List (Step K)) :
    ∀ (s : Step K) (t : Tree K) (x : Nat), (plug (s :: ps) t).ptr = some x →
      x ∈ pathAddrs (s :: ps) := by
  induction ps with
  | nil =>
    intro s t x h
    cases s with
    | L a k c b r => simp at h; simp [h]
    | R l a k c b => simp at h; simp [h]
  | cons s1 ps ih =>
    intro s t x h
    have : x ∈ pathAddrs (s1 :: ps) := by
      cases s with
      | L a k c b r => exact ih s1 _ x h
      | R l a k c b => exact ih s1 _ x h
    show x ∈ s.addrs ++ pathAddrs (s1 :: ps)
    exact List.mem_append_right _ this

/-- The first part of `multiset_remove_two_children` when the right child of the removed
node has a left child: the leftmost node below the right child takes the place of the
removed node, with the balance of the removed node; its own right subtree takes its old
place. -/
theorem two_children_far_promote {K : Type} (me : internal_multiset K)
    (fs ps : List (Step K)) (ll lr r1 r2 rr qr mr : Tree K) (a la ra ta q ma : Nat)
    (k lk rk tk qk mk : K) (c b lc lb rc rb tc tb qc qb mc mb : Int)
    (hrep : Represents me (plug fs (.node (.node ll la lk lc lb lr) a k c b
      (.node (.node r1 ta tk tc tb r2) ra rk rc rb rr))))
    (hmin : min_node (.node (.node r1 ta tk tc tb r2) ra rk rc rb rr) =
      .node .nil ma mk mc mb mr)
    (hps : min_path (.node (.node r1 ta tk tc tb r2) ra rk rc rb rr) =
      Step.L q qk qc qb qr :: ps) :
    ∃ S9, multiset_remove_two_children_promote me a = some (q, true, S9) ∧
      Represents S9 (plug fs (.node (.node ll la lk lc lb lr) ma mk mc b
        (plug (Step.L q qk qc qb qr :: ps) mr))) := by
  have hplug := plug_min (.node (.node r1 ta tk tc tb r2) ra rk rc rb rr)
  rw [hmin, hps] at hplug
  -- the tree seen from the successor
  have hrep' : Represents me (plug (Step.L q qk qc qb qr :: (ps ++
      Step.R (.node ll la lk lc lb lr) a k c b :: fs)) (.node .nil ma mk mc mb mr)) := by
    rw [← List.cons_append, plug_append, hplug]; exact hrep
  have ha := rd_focus me fs _ _ a k c b hrep
  have hr := rd_focus me (.R (.node ll la lk lc lb lr) a k c b :: fs) _ rr ra rk rc rb hrep
  have hl := rd_focus me (.L a k c b (.node (.node r1 ta tk tc tb r2) ra rk rc rb rr) :: fs)
    ll lr la lk lc lb hrep
  have hm := rd_focus me _ .nil mr ma mk mc mb hrep'
  have hq := rd_focus me (ps ++ Step.R (.node ll la lk lc lb lr) a k c b :: fs) _ qr q qk qc
    qb hrep'
  simp only [ptr_node, ptr_nil, parptr_cons, addr_L, addr_R] at ha hr hl hm hq
  obtain ⟨hsl, hsr, ndl, ndr, a_l, a_r, a_fs, l_r, l_fs, r_fs⟩ :=
    focus_facts me fs _ _ a k c b hrep
  obtain ⟨-, hsmr, -, ndmr, -, ma_mr, ma_P, -, -, mr_P⟩ :=
    focus_facts me _ .nil mr ma mk mc mb hrep'
  -- where the addresses lie
  have hraP : ra ∈ pathAddrs (Step.L q qk qc qb qr :: ps) :=
    plug_ptr_mem_path ps _ (.node .nil ma mk mc mb mr) ra (by rw [hplug]; rfl)
  have hrmem : ∀ x, x ∈ (Tree.node (.node r1 ta tk tc tb r2) ra rk rc rb rr).addrs ↔
      x ∈ (Tree.node .nil ma mk mc mb mr).addrs ∨
        x ∈ pathAddrs (Step.L q qk qc qb qr :: ps) := by
    intro x; rw [← hplug, mem_plug_addrs]
  have hPmem : ∀ x, x ∈ pathAddrs (Step.L q qk qc qb qr :: (ps ++
      Step.R (.node ll la lk lc lb lr) a k c b :: fs)) ↔
      x ∈ pathAddrs (Step.L q qk qc qb qr :: ps) ∨ x = a ∨
        x ∈ (Tree.node ll la lk lc lb lr).addrs ∨ x ∈ pathAddrs fs := by
    intro x
    rw [← List.cons_append, pathAddrs_append, List.mem_append, pathAddrs_R, List.mem_cons,
      List.mem_append]
  have hqP : q ∈ pathAddrs (Step.L q qk qc qb qr :: ps) := by simp
  have hma_r : ma ∈ (Tree.node (.node r1 ta tk tc tb r2) ra rk rc rb rr).addrs :=
    (hrmem ma).mpr (Or.inl (by simp))
  have hq_r : q ∈ (Tree.node (.node r1 ta tk tc tb r2) ra rk rc rb rr).addrs :=
    (hrmem q).mpr (Or.inr hqP)
  have hra_r : ra ∈ (Tree.node (.node r1 ta tk tc tb r2) ra rk rc rb rr).addrs := by simp
  have hla_l : la ∈ (Tree.node ll la lk lc lb lr).addrs := by simp
  have hmr_r : ∀ x ∈ mr.addrs, x ∈ (Tree.node (.node r1 ta tk tc tb r2) ra rk rc rb rr).addrs :=
    fun x hx => (hrmem x).mpr (Or.inl (by simp [hx]))
  have hma : ma ≠ a := by rintro rfl; exact a_r hma_r
  have hqa : q ≠ a := by rintro rfl; exact a_r hq_r
  have hqm : q ≠ ma := by rintro rfl; exact ma_P ((hPmem _).mpr (Or.inl hqP))
  have hla : la ≠ a := by rintro rfl; exact a_l hla_l
  have hlm : la ≠ ma := by rintro rfl; exact l_r _ hla_l hma_r
  have hlq : la ≠ q := by rintro rfl; exact l_r _ hla_l hq_r
  have hra : ra ≠ a := by rintro rfl; exact a_r hra_r
  have hrm : ra ≠ ma := by rintro rfl; exact ma_P ((hPmem _).mpr (Or.inl hraP))
  have hrl : ra ≠ la := by rintro rfl; exact l_r _ hla_l hra_r
  have hmra : a ∉ mr.addrs := fun h => a_r (hmr_r a h)
  have hmrq : q ∉ mr.addrs := fun h => mr_P q h ((hPmem _).mpr (Or.inl hqP))
  have hmrl : la ∉ mr.addrs := fun h => l_r _ hla_l (hmr_r la h)
  have hmrr : ra ∉ mr.addrs := fun h => mr_P ra h ((hPmem _).mpr (Or.inl hraP))
  have ma_fs : ma ∉ pathAddrs fs := r_fs ma hma_r
  have la_fs : la ∉ pathAddrs fs := l_fs la hla_l
  have ra_fs : ra ∉ pathAddrs fs := r_fs ra hra_r
  -- run the branch
  obtain ⟨S3, S8, hrun, hr3, hrep3mr, hq3, hrest3, hr8, hm8, hl8, hra8, hrest8⟩ :=
    two_children_far_run me a ma q la ra mr _ _ _ _ ha hm hq hl ⟨_, hr⟩ rfl rfl rfl rfl hsmr
      ndmr hma hqa hqm hla hlm hlq hra hrm hrl hmra ma_mr hmrq hmrl hmrr
  -- after the successor is detached
  have hS3 : Represents S3 (plug (Step.L q qk qc qb qr :: (ps ++
      Step.R (.node ll la lk lc lb lr) a k c b :: fs)) mr) := by
    refine splice_left_rep me S3 _ _ mr qr q qk qc qb (some ma) hrep' hsmr ?_ ndmr hr3 ?_ ?_ ?_
    · intro x hx; simp [hx]
    · rw [hq3]
    · intro x n hx hn
      cases mr with
      | nil => simp at hx
      | node m1 x1 k1 c1 b1 m2 =>
        simp only [ptr_node, Option.some.injEq] at hx
        subst hx
        rw [Rep_node] at hrep3mr hsmr
        rw [hsmr.1] at hn
        simp only [Option.some.injEq] at hn
        subst hn
        rw [hrep3mr.1]
    · intro x hx e1 e2
      refine hrest3 x ?_ e1 e2
      rintro rfl
      rcases hx with hx | hx | hx
      · exact ma_mr hx
      · exact ma_P (by simp [hx])
      · exact ma_P (by simp [hx])
  have hS3' : Represents S3 (plug fs (.node (.node ll la lk lc lb lr) a k c b
      (plug (Step.L q qk qc qb qr :: ps) mr))) := by
    rw [← List.cons_append, plug_append] at hS3; exact hS3
  have hrptr : (plug (Step.L q qk qc qb qr :: ps) mr).ptr = some ra := by
    rw [plug_ptr_cons ps _ mr (.node .nil ma mk mc mb mr), hplug]; rfl
  have ha3 := rd_focus S3 fs _ _ a k c b hS3'
  simp only [ptr_node, hrptr] at ha3
  obtain ⟨hndp, hpath3, hnd3⟩ := path_nodup S3 fs _ hS3'
  obtain ⟨hsl3, hsr3, -, -, -, -, -, l_r3, -, -⟩ := focus_facts S3 fs _ _ a k c b hS3'
  have hr'mem : ∀ x, x ∈ (plug (Step.L q qk qc qb qr :: ps) mr).addrs →
      x ∈ (Tree.node (.node r1 ta tk tc tb r2) ra rk rc rb rr).addrs := by
    intro x hx
    rw [mem_plug_addrs] at hx
    rcases hx with hx | hx
    · exact hmr_r x hx
    · exact (hrmem x).mpr (Or.inr hx)
  have ma_r' : ma ∉ (plug (Step.L q qk qc qb qr :: ps) mr).addrs := by
    intro hx
    rw [mem_plug_addrs] at hx
    rcases hx with hx | hx
    · exact ma_mr hx
    · exact ma_P ((hPmem _).mpr (Or.inl hx))
  -- the slot of the removed node
  have ha8 : rd S8.mem a = _ := (hrest8 a (Ne.symm hma) (Ne.symm hla) (Ne.symm hra)).trans ha3
  have hpath8 : RepPath S8.root S8.mem fs (some a) := by
    rw [hr8, ← hr3]
    simp only [ptr_node] at hpath3
    refine RepPath_frame _ _ _ fs _ ?_ hpath3
    intro x hx
    exact hrest8 x (by rintro rfl; exact ma_fs hx) (by rintro rfl; exact la_fs hx)
      (by rintro rfl; exact ra_fs hx)
  obtain ⟨S9, hlink, hpath9, hrest9⟩ := two_children_link_spec S8 fs a ma _ _ hpath8 ha8 rfl
    hm8 rfl a_fs ma_fs hndp
  have hnp : ∀ x, x ∉ pathAddrs fs → parptr fs ≠ some x :=
    fun x hx e => hx (parptr_mem fs x e)
  have hfinal : Represents S9 (plug fs (.node (.node ll la lk lc lb lr) ma mk mc b
      (plug (Step.L q qk qc qb qr :: ps) mr))) := by
    refine promote_rep S3 S9 fs _ _ ma mk mc b (some a) (some a) hpath9 hsl3 hsr3 ?_ ?_ ?_ ?_ ?_
    · simp only [addrs_node, List.append_assoc, List.cons_append,
        List.nodup_append, List.nodup_cons, List.mem_append, List.mem_cons, not_or,
        List.disjoint_append_left, List.disjoint_append_right, List.disjoint_cons_left,
        List.disjoint_cons_right] at hnd3 ⊢
      simp only [addrs_node, List.mem_append, List.mem_cons, not_or] at a_l
      have m1 : ma ∉ ll.addrs := fun h => l_r ma (by simp [h]) hma_r
      have m2 : ma ∉ lr.addrs := fun h => l_r ma (by simp [h]) hma_r
      tauto
    · rw [hrest9 ma (hnp ma ma_fs), hm8, hrptr]; rfl
    · intro x n hx hn
      simp only [ptr_node, Option.some.injEq] at hx
      subst hx
      rw [hrest9 _ (hnp _ la_fs)]
      exact hl8 n hn
    · intro x n hx hn
      rw [hrptr] at hx
      simp only [Option.some.injEq] at hx
      subst hx
      rw [hrest9 _ (hnp _ ra_fs)]
      exact hra8 n hn
    · intro x hx hx1 hx2
      have e2 : x ≠ la := fun e => hx1 (by simp [e])
      have e3 : x ≠ ra := fun e => hx2 (by rw [hrptr, e])
      rcases hx with hx | hx
      · have e1 : x ≠ ma := by rintro rfl; exact l_r x hx hma_r
        rw [hrest9 x (hnp x (l_fs x hx)), hrest8 x e1 e2 e3]
      · have e1 : x ≠ ma := by rintro rfl; exact ma_r' hx
        rw [hrest9 x (hnp x (r_fs x (hr'mem x hx))), hrest8 x e1 e2 e3]
  -- the loop finds the successor
  have hloop := leftmost_loop_spec (.node r1 ta tk tc tb r2) me
    (.L ra rk rc rb rr :: .R (.node ll la lk lc lb lr) a k c b :: fs) ta (me.mem.length + 1)
    hrep rfl (by
      have h1 := represents_size_le me _ hrep
      have h2 := plug_size (.L ra rk rc rb rr :: .R (.node ll la lk lc lb lr) a k c b :: fs)
        (.node r1 ta tk tc tb r2)
      simp only [plug_L, plug_R] at h2
      omega)
  have hmin' : min_node (.node r1 ta tk tc tb r2) = .node .nil ma mk mc mb mr := by
    rw [← hmin]; rfl
  rw [hmin'] at hloop
  exact ⟨S9, by simp [multiset_remove_two_children_promote, ha, hr, hloop, hrun, hlink],
    hfinal⟩

/-- The function `multiset_remove_two_children` when the right child of the removed node
has a left child: the leftmost node below the right child takes the place of the removed
node. -/
theorem remove_two_children_far_spec {K : Type} (me : internal_multiset K)
    (fs ps : List (Step K)) (ll lr r1 r2 rr qr mr : Tree K) (a la ra ta q ma : Nat)
    (k lk rk tk qk mk : K) (c b lc lb rc rb tc tb qc qb mc mb : Int) (T : Tree K)
    (hrep : Represents me (plug fs (.node (.node ll la lk lc lb lr) a k c b
      (.node (.node r1 ta tk tc tb r2) ra rk rc rb rr))))
    (hmin : min_node (.node (.node r1 ta tk tc tb r2) ra rk rc rb rr) =
      .node .nil ma mk mc mb mr)
    (hps : min_path (.node (.node r1 ta tk tc tb r2) ra rk rc rb rr) =
      Step.L q qk qc qb qr :: ps)
    (hbal : ∀ s ∈ (Step.L q qk qc qb qr :: ps ++
      Step.R (.node ll la lk lc lb lr) ma mk mc b :: fs), -1 ≤ s.bal ∧ s.bal ≤ 1)
    (hT : del_bal (Step.L q qk qc qb qr :: ps ++
      Step.R (.node ll la lk lc lb lr) ma mk mc b :: fs) mr = some T) :
    ∃ me1, multiset_remove_two_children me a = some me1 ∧ Represents me1 T := by
  rw [List.cons_append] at hbal hT
  obtain ⟨S9, hp, hfinal⟩ := two_children_far_promote me fs ps ll lr r1 r2 rr qr mr a la ra ta
    q ma k lk rk tk qk mk c b lc lb rc rb tc tb qc qb mc mb hrep hmin hps
  have hfinal' : Represents S9 (plug (Step.L q qk qc qb qr :: (ps ++
      Step.R (.node ll la lk lc lb lr) ma mk mc b :: fs)) mr) := by
    rw [← List.cons_append, plug_append]; exact hfinal
  obtain ⟨me1, h4, r4⟩ := delete_balance_left_spec S9 _ mr qr T q qk qc qb hfinal' hbal hT
  exact ⟨me1, by rw [remove_two_children_eq, hp]; exact h4, r4⟩

theorem keeps_repair_pivot {K : Type} {me : internal_multiset K} {item : Nat} {flag : Bool}
    {r : Nat × internal_multiset K} (h : multiset_repair_pivot me item flag = some r) :
    Keeps me r.2 := by
  simp only [multiset_repair_pivot, andThen_eq_some] at h
  obtain ⟨it, -, child, -, c, -, h⟩ := h
  exact keeps_repair h

theorem keeps_trace_ancestors_loop {K : Type} (fuel : Nat) :
    ∀ (me me1 : internal_multiset K) (child : Nat) (parent : Option Nat),
      multiset_trace_ancestors_loop fuel me child parent = some me1 → Keeps me me1 := by
  induction fuel with
  | zero =>
    intro me me1 child parent h
    cases parent with
    | none =>
      simp only [multiset_trace_ancestors_loop, Option.some.injEq] at h
      subst h; exact Keeps.refl me
    | some p => simp [multiset_trace_ancestors_loop] at h
  | succ fuel ih =>
    intro me me1 child parent h
    cases parent with
    | none =>
      simp only [multiset_trace_ancestors_loop, Option.some.injEq] at h
      subst h; exact Keeps.refl me
    | some p =>
      simp only [multiset_trace_ancestors_loop, andThen_eq_some] at h
      obtain ⟨pn, -, m1, h1, pn1, -, h2⟩ := h
      have k1 : Keeps me m1 := by
        split at h1
        · exact Keeps.wr h1
        · exact Keeps.wr h1
      split at h2
      · simp only [Option.some.injEq] at h2
        subst h2; exact k1
      · split at h2
        · simp only [andThen_eq_some] at h2
          obtain ⟨r, hr, c, -, h2⟩ := h2
          have k2 := k1.trans (keeps_repair_pivot hr)
          split at h2
          · simp only [Option.some.injEq] at h2
            subst h2; exact k2
          · exact k2.trans (ih _ _ _ _ h2)
        · exact k1.trans (ih _ _ _ _ h2)

theorem keeps_trace_ancestors {K : Type} {me me1 : internal_multiset K} {item : Nat}
    (h : multiset_trace_ancestors me item = some me1) : Keeps me me1 := by
  simp only [multiset_trace_ancestors, andThen_eq_some] at h
  obtain ⟨it, -, h⟩ := h
  exact keeps_trace_ancestors_loop _ _ _ _ _ h

theorem keeps_delete_balance {K : Type} {me me1 : internal_multiset K} {item : Nat}
    {flag : Bool} (h : multiset_delete_balance me item flag = some me1) : Keeps me me1 := by
  simp only [multiset_delete_balance, andThen_eq_some] at h
  obtain ⟨m1, h1, it, -, h2⟩ := h
  have k1 : Keeps me m1 := by
    split at h1
    · exact Keeps.wr h1
    · exact Keeps.wr h1
  split at h2
  · simp only [Option.some.injEq] at h2
    subst h2; exact k1
  · split at h2
    · simp only [andThen_eq_some] at h2
      obtain ⟨r, hr, c, -, h2⟩ := h2
      have k2 := k1.trans (keeps_repair_pivot hr)
      split at h2
      · simp only [Option.some.injEq] at h2
        subst h2; exact k2
      · exact k2.trans (keeps_trace_ancestors h2)
    · exact k1.trans (keeps_trace_ancestors h2)

theorem keeps_remove_no_children {K : Type} {me me1 : internal_multiset K} {traverse : Nat}
    (h : multiset_remove_no_children me traverse = some me1) : Keeps me me1 := by
  simp only [multiset_remove_no_children, andThen_eq_some] at h
  obtain ⟨t, -, h⟩ := h
  split at h
  · simp only [Option.some.injEq] at h
    subst h; exact Keeps.of_eq rfl rfl rfl rfl
  · simp only [andThen_eq_some] at h
    obtain ⟨p, -, h⟩ := h
    split at h
    · simp only [andThen_eq_some] at h
      obtain ⟨m1, h1, h2⟩ := h
      exact (Keeps.wr h1).trans (keeps_delete_balance h2)
    · simp only [andThen_eq_some] at h
      obtain ⟨m1, h1, h2⟩ := h
      exact (Keeps.wr h1).trans (keeps_delete_balance h2)

theorem keeps_relink {K : Type} {me me1 : internal_multiset K} {parent traverse : Nat}
    {f : node K → node K} {sel : node K → Option Nat}
    (h : ((wr me parent f).andThen fun me =>
      (rd me.mem traverse).andThen fun t =>
      (sel t).andThen fun l =>
        wr me l fun (n : node K) => { n with parent := some parent }) = some me1) :
    Keeps me me1 := by
  simp only [andThen_eq_some] at h
  obtain ⟨m1, h1, t, -, l, -, h2⟩ := h
  exact (Keeps.wr h1).trans (Keeps.wr h2)

theorem keeps_remove_one_child {K : Type} {me me1 : internal_multiset K} {traverse : Nat}
    (h : multiset_remove_one_child me traverse = some me1) : Keeps me me1 := by
  simp only [multiset_remove_one_child, andThen_eq_some] at h
  obtain ⟨t, -, h⟩ := h
  split at h
  · split at h
    · simp only [andThen_eq_some, Option.some.injEq] at h
      obtain ⟨m1, h1, t1, -, h2⟩ := h
      subst h2
      exact (Keeps.wr h1).trans (Keeps.of_eq rfl rfl rfl rfl)
    · simp only [andThen_eq_some, Option.some.injEq] at h
      obtain ⟨r, -, m1, h1, t1, -, h2⟩ := h
      subst h2
      exact (Keeps.wr h1).trans (Keeps.of_eq rfl rfl rfl rfl)
  · simp only [andThen_eq_some] at h
    obtain ⟨p, -, h⟩ := h
    split at h
    · rw [andThen_eq_some] at h
      obtain ⟨m1, h1, h2⟩ := h
      refine Keeps.trans ?_ (keeps_delete_balance h2)
      split at h1
      · exact keeps_relink h1
      · exact keeps_relink h1
    · rw [andThen_eq_some] at h
      obtain ⟨m1, h1, h2⟩ := h
      refine Keeps.trans ?_ (keeps_delete_balance h2)
      split at h1
      · exact keeps_relink h1
      · exact keeps_relink h1

theorem keeps_remove_two_children_near {K : Type} {me : internal_multiset K}
    {traverse item : Nat} {r : Nat × Nat × internal_multiset K}
    (h : multiset_remove_two_children_near me traverse item = some r) : Keeps me r.2.2 := by
  simp only [multiset_remove_two_children_near, andThen_eq_some, Option.some.injEq] at h
  obtain ⟨t, -, m1, h1, t1, -, m2, h2, t2, -, m3, h3, it, -, il, -, m4, h4, h5⟩ := h
  subst h5
  exact (Keeps.wr h1).trans ((Keeps.wr h2).trans ((Keeps.wr h3).trans (Keeps.wr h4)))

theorem keeps_remove_two_children_far {K : Type} {me : internal_multiset K}
    {traverse item : Nat} {r : Nat × Nat × internal_multiset K}
    (h : multiset_remove_two_children_far me traverse item = some r) : Keeps me r.2.2 := by
  simp only [multiset_remove_two_children_far, andThen_eq_some, Option.some.injEq] at h
  obtain ⟨it, -, parent, -, t, -, m1, h1, it1, -, ip, -, m2, h2, it2, -, m3, h3, t3, -,
    m4, h4, it4, -, il, -, m5, h5, t5, -, m6, h6, it6, -, ir, -, m7, h7, t7, -, m8, h8, h9⟩ := h
  subst h9
  exact (Keeps.wr h1).trans ((Keeps.wr h2).trans ((Keeps.wr_if h3).trans ((Keeps.wr h4).trans
    ((Keeps.wr h5).trans ((Keeps.wr h6).trans ((Keeps.wr h7).trans (Keeps.wr h8)))))))

theorem keeps_remove_two_children_link {K : Type} {me me1 : internal_multiset K}
    {traverse item : Nat}
    (h : multiset_remove_two_children_link me traverse item = some me1) : Keeps me me1 := by
  simp only [multiset_remove_two_children_link, andThen_eq_some] at h
  obtain ⟨t, -, h⟩ := h
  split at h
  · simp only [Option.some.injEq] at h
    subst h; exact Keeps.of_eq rfl rfl rfl rfl
  · simp only [andThen_eq_some] at h
    obtain ⟨tpn, -, it, -, ip, -, h⟩ := h
    split at h
    · exact Keeps.wr h
    · exact Keeps.wr h

theorem keeps_remove_two_children {K : Type} {me me1 : internal_multiset K} {traverse : Nat}
    (h : multiset_remove_two_children me traverse = some me1) : Keeps me me1 := by
  simp only [multiset_remove_two_children, andThen_eq_some] at h
  obtain ⟨t, -, tr, -, trn, -, h⟩ := h
  split at h
  · simp only [andThen_eq_some] at h
    obtain ⟨r, h1, m2, h2, h3⟩ := h
    exact (keeps_remove_two_children_near h1).trans
      ((keeps_remove_two_children_link h2).trans (keeps_delete_balance h3))
  · simp only [andThen_eq_some] at h
    obtain ⟨item, -, r, h1, m2, h2, h3⟩ := h
    exact (keeps_remove_two_children_far h1).trans
      ((keeps_remove_two_children_link h2).trans (keeps_delete_balance h3))

/-! ## The record of the calls of `multiset_repair` in the relinking of a removal -/

theorem log_wr {K : Type} {me me1 : internal_multiset K} {p : Nat} {f : node K → node K}
    (h : wr me p f = some me1) : me1.repairs = me.repairs := by
  unfold Containers.wr at h
  split at h
  · cases h
  · cases h; rfl

theorem log_wr_if {K : Type} {me me1 : internal_multiset K} {p : Option Nat}
    {f : node K → node K} (h : wr_if me p f = some me1) : me1.repairs = me.repairs := by
  cases p with
  | none => simp only [Containers.wr_if, Option.some.injEq] at h; subst h; rfl
  | some g => exact log_wr h

theorem log_remove_two_children_near {K : Type} {me : internal_multiset K}
    {traverse item : Nat} {r : Nat × Nat × internal_multiset K}
    (h : multiset_remove_two_children_near me traverse item = some r) :
    r.2.2.repairs = me.repairs := by
  simp only [multiset_remove_two_children_near, andThen_eq_some, Option.some.injEq] at h
  obtain ⟨t, -, m1, h1, t1, -, m2, h2, t2, -, m3, h3, it, -, il, -, m4, h4, h5⟩ := h
  subst h5
  exact (log_wr h4).trans ((log_wr h3).trans ((log_wr h2).trans (log_wr h1)))

theorem log_remove_two_children_far {K : Type} {me : internal_multiset K}
    {traverse item : Nat} {r : Nat × Nat × internal_multiset K}
    (h : multiset_remove_two_children_far me traverse item = some r) :
    r.2.2.repairs = me.repairs := by
  simp only [multiset_remove_two_children_far, andThen_eq_some, Option.some.injEq] at h
  obtain ⟨it, -, parent, -, t, -, m1, h1, it1, -, ip, -, m2, h2, it2, -, m3, h3, t3, -,
    m4, h4, it4, -, il, -, m5, h5, t5, -, m6, h6, it6, -, ir, -, m7, h7, t7, -, m8, h8, h9⟩ := h
  subst h9
  exact (log_wr h8).trans ((log_wr h7).trans ((log_wr h6).trans ((log_wr h5).trans
    ((log_wr h4).trans ((log_wr_if h3).trans ((log_wr h2).trans (log_wr h1)))))))

theorem log_remove_two_children_link {K : Type} {me me1 : internal_multiset K}
    {traverse item : Nat}
    (h : multiset_remove_two_children_link me traverse item = some me1) :
    me1.repairs = me.repairs := by
  simp only [multiset_remove_two_children_link, andThen_eq_some] at h
  obtain ⟨t, -, h⟩ := h
  split at h
  · simp only [Option.some.injEq] at h
    subst h; rfl
  · simp only [andThen_eq_some] at h
    obtain ⟨tpn, -, it, -, ip, -, h⟩ := h
    split at h
    · exact log_wr h
    · exact log_wr h

/-- The statements of `multiset_remove_two_children` before the call of
`multiset_delete_balance` do not call `multiset_repair`. -/
theorem log_remove_two_children_promote {K : Type} {me : internal_multiset K}
    {traverse : Nat} {r : Nat × Bool × internal_multiset K}
    (h : multiset_remove_two_children_promote me traverse = some r) :
    r.2.2.repairs = me.repairs := by
  simp only [multiset_remove_two_children_promote, andThen_eq_some] at h
  obtain ⟨t, -, tr, -, trn, -, h⟩ := h
  split at h
  · simp only [andThen_eq_some, Option.some.injEq] at h
    obtain ⟨r1, h1, m2, h2, h3⟩ := h
    subst h3
    exact (log_remove_two_children_link h2).trans (log_remove_two_children_near h1)
  · simp only [andThen_eq_some, Option.some.injEq] at h
    obtain ⟨item, -, r1, h1, m2, h2, h3⟩ := h
    subst h3
    exact (log_remove_two_children_link h2).trans (log_remove_two_children_far h1)

/-- The function `multiset_remove_two_children` when the right child of the removed node
has no left child, with its calls of `multiset_repair`. -/
theorem remove_two_children_near_log {K : Type} (me : internal_multiset K)
    (fs : List (Step K)) (ll lr rr : Tree K) (a la ra : Nat) (k lk rk : K)
    (c b lc lb rc rb : Int) (T : Tree K)
    (hrep : Represents me (plug fs
      (.node (.node ll la lk lc lb lr) a k c b (.node .nil ra rk rc rb rr))))
    (hbal : ∀ s ∈ (Step.R (.node ll la lk lc lb lr) ra rk rc b :: fs), -1 ≤ s.bal ∧ s.bal ≤ 1)
    (hT : del_bal (.R (.node ll la lk lc lb lr) ra rk rc b :: fs) rr = some T) :
    ∃ me1, multiset_remove_two_children me a = some me1 ∧ Represents me1 T ∧
      me1.repairs = me.repairs ++ del_rep (.R (.node ll la lk lc lb lr) ra rk rc b :: fs) rr := by
  obtain ⟨S2, hp, hfinal⟩ := two_children_near_promote me fs ll lr rr a la ra k lk rk c b lc lb
    rc rb hrep
  have g := log_remove_two_children_promote hp
  obtain ⟨me1, h4, r4, g4⟩ := delete_balance_right_log S2 fs rr _ T ra rk rc b hfinal hbal hT
  exact ⟨me1, by rw [remove_two_children_eq, hp]; exact h4, r4, by rw [g4, ← g]⟩

/-- The function `multiset_remove_two_children` when the in-order successor of the removed
node is further down, with its calls of `multiset_repair`. -/
theorem remove_two_children_far_log {K : Type} (me : internal_multiset K)
    (fs ps : List (Step K)) (ll lr r1 r2 rr qr mr : Tree K) (a la ra ta q ma : Nat)
    (k lk rk tk qk mk : K) (c b lc lb rc rb tc tb qc qb mc mb : Int) (T : Tree K)
    (hrep : Represents me (plug fs (.node (.node ll la lk lc lb lr) a k c b
      (.node (.node r1 ta tk tc tb r2) ra rk rc rb rr))))
    (hmin : min_node (.node (.node r1 ta tk tc tb r2) ra rk rc rb rr) =
      .node .nil ma mk mc mb mr)
    (hps : min_path (.node (.node r1 ta tk tc tb r2) ra rk rc rb rr) =
      Step.L q qk qc qb qr :: ps)
    (hbal : ∀ s ∈ (Step.L q qk qc qb qr :: ps ++
      Step.R (.node ll la lk lc lb lr) ma mk mc b :: fs), -1 ≤ s.bal ∧ s.bal ≤ 1)
    (hT : del_bal (Step.L q qk qc qb qr :: ps ++
      Step.R (.node ll la lk lc lb lr) ma mk mc b :: fs) mr = some T) :
    ∃ me1, multiset_remove_two_children me a = some me1 ∧ Represents me1 T ∧
      me1.repairs = me.repairs ++ del_rep (Step.L q qk qc qb qr :: ps ++
        Step.R (.node ll la lk lc lb lr) ma mk mc b :: fs) mr := by
  rw [List.cons_append] at hbal hT ⊢
  obtain ⟨S9, hp, hfinal⟩ := two_children_far_promote me fs ps ll lr r1 r2 rr qr mr a la ra ta
    q ma k lk rk tk qk mk c b lc lb rc rb tc tb qc qb mc mb hrep hmin hps
  have g := log_remove_two_children_promote hp
  have hfinal' : Represents S9 (plug (Step.L q qk qc qb qr :: (ps ++
      Step.R (.node ll la lk lc lb lr) ma mk mc b :: fs)) mr) := by
    rw [← List.cons_append, plug_append]; exact hfinal
  obtain ⟨me1, h4, r4, g4⟩ := delete_balance_left_log S9 _ mr qr T q qk qc qb hfinal' hbal hT
  exact ⟨me1, by rw [remove_two_children_eq, hp]; exact h4, r4, by rw [g4, ← g]⟩

/-! ## The in-order sequence of entries -/

@[simp] theorem entries_nil {K : Type} : (Tree.nil : Tree K).entries = [] := rfl

@[simp] theorem entries_node {K : Type} (l r : Tree K) (a : Nat) (k : K) (c b : Int) :
    (Tree.node l a k c b r).entries = l.entries ++ (a, k, c) :: r.entries := rfl

theorem addrs_eq_entries {K : Type} (t : Tree K) : t.addrs = t.entries.map (fun e => e.1) := by
  induction t with
  | nil => rfl
  | node l a k c b r ihl ihr => simp [ihl, ihr]

theorem keys_eq_entries {K : Type} (t : Tree K) : t.keys = t.entries.map (fun e => e.2.1) := by
  induction t with
  | nil => rfl
  | node l a k c b r ihl ihr => simp [Tree.keys, ihl, ihr]

theorem inorder_eq_entries {K : Type} (t : Tree K) :
    t.inorder = t.entries.map (fun e => e.2) := by
  induction t with
  | nil => rfl
  | node l a k c b r ihl ihr => simp [Tree.inorder, ihl, ihr]

theorem total_eq_entries {K : Type} (t : Tree K) :
    t.total = (t.entries.map (fun e => e.2.2)).sum := by
  induction t with
  | nil => rfl
  | node l a k c b r ihl ihr => simp [Tree.total, ihl, ihr]; omega

theorem size_eq_entries {K : Type} (t : Tree K) : t.size = t.entries.length := by
  induction t with
  | nil => rfl
  | node l a k c b r ihl ihr => simp [Tree.size, ihl, ihr]; omega

theorem entries_plug {K : Type} (fs : List (Step K)) :
    ∀ t : Tree K, (plug fs t).entries = pathBefore fs ++ t.entries ++ pathAfter fs := by
  induction fs with
  | nil => intro t; simp [pathBefore, pathAfter]
  | cons s fs ih =>
    intro t
    cases s with
    | L a k c b r => rw [plug_L, ih]; simp [pathBefore, pathAfter]
    | R l a k c b => rw [plug_R, ih]; simp [pathBefore, pathAfter]

theorem pathBefore_append {K : Type} (ps qs : List (Step K)) :
    pathBefore (ps ++ qs) = pathBefore qs ++ pathBefore ps := by
  induction ps with
  | nil => simp [pathBefore]
  | cons s ps ih =>
    cases s with
    | L a k c b r => exact ih
    | R l a k c b =>
      show pathBefore (ps ++ qs) ++ (l.entries ++ [(a, k, c)]) =
        pathBefore qs ++ (pathBefore ps ++ (l.entries ++ [(a, k, c)]))
      rw [ih, List.append_assoc]

theorem pathAfter_append {K : Type} (ps qs : List (Step K)) :
    pathAfter (ps ++ qs) = pathAfter ps ++ pathAfter qs := by
  induction ps with
  | nil => simp [pathAfter]
  | cons s ps ih =>
    cases s with
    | L a k c b r =>
      show ((a, k, c) :: r.entries) ++ pathAfter (ps ++ qs) =
        (((a, k, c) :: r.entries) ++ pathAfter ps) ++ pathAfter qs
      rw [ih, List.append_assoc]
    | R l a k c b => exact ih

theorem repair_t_entries {K : Type} (u v : Tree K) (h : repair_t u = some v) :
    v.entries = u.entries := by
  cases u with
  | nil => simp [repair_t] at h
  | node l p kp cp bp r =>
    simp only [repair_t] at h
    split at h
    · split at h
      · cases r with
        | nil => simp [repair_right_left_t] at h
        | node rl c kc cc bc rr =>
          cases rl with
          | nil => simp [repair_right_left_t] at h
          | node gl g kg cg bg gr =>
            simp only [repair_right_left_t] at h
            split at h
            · cases h; simp
            · split at h
              · cases h; simp
              · cases h; simp
      · cases r with
        | nil => simp [repair_left_t] at h
        | node rl c kc cc bc rr =>
          simp only [repair_left_t] at h
          split at h
          · cases h; simp
          · cases h; simp
    · split at h
      · cases l with
        | nil => simp [repair_left_right_t] at h
        | node ll c kc cc bc lr =>
          cases lr with
          | nil => simp [repair_left_right_t] at h
          | node gl g kg cg bg gr =>
            simp only [repair_left_right_t] at h
            split at h
            · cases h; simp
            · split at h
              · cases h; simp
              · cases h; simp
      · cases l with
        | nil => simp [repair_right_t] at h
        | node ll c kc cc bc lr =>
          simp only [repair_right_t] at h
          split at h
          · cases h; simp
          · cases h; simp

theorem ins_bal_entries {K : Type} (fs : List (Step K)) :
    ∀ t T : Tree K, ins_bal fs t = some T → T.entries = (plug fs t).entries := by
  induction fs with
  | nil => intro t T h; simp only [ins_bal, Option.some.injEq] at h; subst h; rfl
  | cons s fs ih =>
    intro t T h
    cases s with
    | L a k c b r =>
      simp only [ins_bal] at h
      rw [plug_L, entries_plug]
      split at h
      · cases h; rw [entries_plug]; rfl
      · split at h
        · simp only [andThen_eq_some, Option.some.injEq] at h
          obtain ⟨u, hu, h⟩ := h
          subst h
          rw [entries_plug, repair_t_entries _ _ hu]; rfl
        · rw [ih _ _ h, entries_plug]; rfl
    | R l a k c b =>
      simp only [ins_bal] at h
      rw [plug_R, entries_plug]
      split at h
      · cases h; rw [entries_plug]; rfl
      · split at h
        · simp only [andThen_eq_some, Option.some.injEq] at h
          obtain ⟨u, hu, h⟩ := h
          subst h
          rw [entries_plug, repair_t_entries _ _ hu]; rfl
        · rw [ih _ _ h, entries_plug]; rfl

theorem del_bal_entries {K : Type} (fs : List (Step K)) :
    ∀ t T : Tree K, del_bal fs t = some T → T.entries = (plug fs t).entries := by
  induction fs with
  | nil => intro t T h; simp only [del_bal, Option.some.injEq] at h; subst h; rfl
  | cons s fs ih =>
    intro t T h
    cases s with
    | L a k c b r =>
      simp only [del_bal] at h
      rw [plug_L, entries_plug]
      split at h
      · cases h; rw [entries_plug]; rfl
      · split at h
        · simp only [andThen_eq_some] at h
          obtain ⟨u, hu, h⟩ := h
          split at h
          · cases h; rw [entries_plug, repair_t_entries _ _ hu]; rfl
          · rw [ih _ _ h, entries_plug, repair_t_entries _ _ hu]; rfl
        · rw [ih _ _ h, entries_plug]; rfl
    | R l a k c b =>
      simp only [del_bal] at h
      rw [plug_R, entries_plug]
      split at h
      · cases h; rw [entries_plug]; rfl
      · split at h
        · simp only [andThen_eq_some] at h
          obtain ⟨u, hu, h⟩ := h
          split at h
          · cases h; rw [entries_plug, repair_t_entries _ _ hu]; rfl
          · rw [ih _ _ h, entries_plug, repair_t_entries _ _ hu]; rfl
        · rw [ih _ _ h, entries_plug]; rfl

theorem min_path_before {K : Type} (t : Tree K) : pathBefore (min_path t) = [] := by
  induction t with
  | nil => rfl
  | node l a k c b r ihl _ =>
    cases l with
    | nil => rfl
    | node ll la lk lc lb lr =>
      simp only [min_path, pathBefore_append, ihl]
      rfl

/-- The entries of a tree start with its leftmost node. -/
theorem min_entries {K : Type} (t mr : Tree K) (ma : Nat) (mk : K) (mc mb : Int)
    (h : min_node t = .node .nil ma mk mc mb mr) :
    t.entries = (ma, mk, mc) :: (plug (min_path t) mr).entries := by
  have h1 := congrArg Tree.entries (plug_min t)
  rw [h, entries_plug, min_path_before] at h1
  rw [entries_plug, min_path_before, ← h1]
  simp

/-- Removing a node removes its entry and keeps all others in order. -/
theorem remove_element_t_entries {K : Type} (fs : List (Step K)) (l r : Tree K) (a : Nat)
    (k : K) (c b : Int) (T : Tree K)
    (h : remove_element_t fs (.node l a k c b r) = some T) :
    T.entries = pathBefore fs ++ (l.entries ++ r.entries) ++ pathAfter fs := by
  cases l with
  | nil =>
    cases r with
    | nil =>
      simp only [remove_element_t] at h
      rw [del_bal_entries _ _ _ h, entries_plug]; simp
    | node rl ra rk rc rb rr =>
      simp only [remove_element_t] at h
      rw [del_bal_entries _ _ _ h, entries_plug]; simp
  | node ll la lk lc lb lr =>
    cases r with
    | nil =>
      simp only [remove_element_t] at h
      rw [del_bal_entries _ _ _ h, entries_plug]; simp
    | node rl ra rk rc rb rr =>
      obtain ⟨ma, mk, mc, mb, mr, hm⟩ := min_node_node rl rr ra rk rc rb
      simp only [remove_element_t, hm] at h
      rw [del_bal_entries _ _ _ h, plug_append, plug_R, entries_plug,
        min_entries _ _ _ _ _ _ hm]
      simp

/-! ## Rebalancing after a deletion keeps the AVL invariant -/

theorem del_bal_avl {K : Type} (fs : List (Step K)) :
    ∀ t t0 : Tree K, AVL (plug fs t0) → AVL t → t.height = t0.height - 1 →
      ∃ T, del_bal fs t = some T ∧ AVL T := by
  induction fs with
  | nil => intro t t0 _ ht _; exact ⟨t, rfl, ht⟩
  | cons s fs ih =>
    intro t t0 h0 ht hh
    have ht0 := height_nonneg t
    cases s with
    | L a k c b r =>
      have hn := AVL_plug_sub fs _ h0
      rw [AVL_node] at hn
      obtain ⟨hb, hb1, hb2, -, hr⟩ := hn
      have hr0 := height_nonneg r
      simp only [del_bal]
      by_cases e0 : b + 1 = -1 ∨ b + 1 = 1
      · simp only [e0, if_true, Option.some.injEq, exists_eq_left']
        refine AVL_plug_replace fs _ _ h0 ?_ ?_
        · rw [AVL_node]; exact ⟨by omega, by omega, by omega, ht, hr⟩
        · simp only [height_node]; omega
      · simp only [e0, if_false]
        by_cases e2 : b + 1 > 1 ∨ b + 1 < -1
        · simp only [e2, if_true]
          have hb' : b + 1 = 2 := by omega
          obtain ⟨u, hu, hua, huh⟩ := repair_avl t r a k c (b + 1) (by omega) (Or.inl hb') ht hr
          rw [hu]
          simp only [andThen_some]
          simp only [hb', if_true, height_node] at huh
          rcases huh with ⟨-, hh2, hub⟩ | ⟨-, hh2, hub⟩
          · have e3 : u.bal = -1 ∨ u.bal = 1 := by omega
            simp only [e3, if_true, Option.some.injEq, exists_eq_left']
            refine AVL_plug_replace fs _ _ h0 hua ?_
            simp only [height_node]; omega
          · have e3 : ¬ (u.bal = -1 ∨ u.bal = 1) := by omega
            simp only [e3, if_false]
            refine ih _ (.node t0 a k c b r) h0 hua ?_
            simp only [height_node]; omega
        · simp only [e2, if_false]
          refine ih _ (.node t0 a k c b r) h0 ?_ ?_
          · rw [AVL_node]; exact ⟨by omega, by omega, by omega, ht, hr⟩
          · simp only [height_node]; omega
    | R l a k c b =>
      have hn := AVL_plug_sub fs _ h0
      rw [AVL_node] at hn
      obtain ⟨hb, hb1, hb2, hl, -⟩ := hn
      have hl0 := height_nonneg l
      simp only [del_bal]
      by_cases e0 : b - 1 = -1 ∨ b - 1 = 1
      · simp only [e0, if_true, Option.some.injEq, exists_eq_left']
        refine AVL_plug_replace fs _ _ h0 ?_ ?_
        · rw [AVL_node]; exact ⟨by omega, by omega, by omega, hl, ht⟩
        · simp only [height_node]; omega
      · simp only [e0, if_false]
        by_cases e2 : b - 1 > 1 ∨ b - 1 < -1
        · simp only [e2, if_true]
          have hb' : b - 1 = -2 := by omega
          obtain ⟨u, hu, hua, huh⟩ := repair_avl l t a k c (b - 1) (by omega) (Or.inr hb') hl ht
          rw [hu]
          simp only [andThen_some]
          have hne : ¬ (b - 1 = 2) := by omega
          simp only [hne, if_false, height_node] at huh
          rcases huh with ⟨-, hh2, hub⟩ | ⟨-, hh2, hub⟩
          · have e3 : u.bal = -1 ∨ u.bal = 1 := by omega
            simp only [e3, if_true, Option.some.injEq, exists_eq_left']
            refine AVL_plug_replace fs _ _ h0 hua ?_
            simp only [height_node]; omega
          · have e3 : ¬ (u.bal = -1 ∨ u.bal = 1) := by omega
            simp only [e3, if_false]
            refine ih _ (.node l a k c b t0) h0 hua ?_
            simp only [height_node]; omega
        · simp only [e2, if_false]
          refine ih _ (.node l a k c b t0) h0 ?_ ?_
          · rw [AVL_node]; exact ⟨by omega, by omega, by omega, hl, ht⟩
          · simp only [height_node]; omega

/-- Removing a node from an AVL tree yields an AVL tree. -/
theorem remove_element_t_avl {K : Type} (fs : List (Step K)) (l r : Tree K) (a : Nat)
    (k : K) (c b : Int) (h : AVL (plug fs (.node l a k c b r))) :
    ∃ T, remove_element_t fs (.node l a k c b r) = some T ∧ AVL T := by
  have hn := AVL_plug_sub fs _ h
  rw [AVL_node] at hn
  obtain ⟨hb, hb1, hb2, hl, hr⟩ := hn
  cases l with
  | nil =>
    cases r with
    | nil =>
      simp only [remove_element_t]
      exact del_bal_avl fs .nil _ h (by simp) (by simp)
    | node rl ra rk rc rb rr =>
      simp only [remove_element_t]
      refine del_bal_avl fs _ _ h hr ?_
      have := height_nonneg (.node rl ra rk rc rb rr)
      simp only [height_nil] at hb
      rw [height_node (l := .nil)]
      simp only [height_nil]
      omega
  | node ll la lk lc lb lr =>
    cases r with
    | nil =>
      simp only [remove_element_t]
      refine del_bal_avl fs _ _ h hl ?_
      have := height_nonneg (.node ll la lk lc lb lr)
      simp only [height_nil] at hb
      rw [height_node (r := .nil)]
      simp only [height_nil]
      omega
    | node rl ra rk rc rb rr =>
      obtain ⟨ma, mk, mc, mb, mr, hm⟩ := min_node_node rl rr ra rk rc rb
      simp only [remove_element_t, hm]
      have hpm := plug_min (.node rl ra rk rc rb rr)
      rw [hm] at hpm
      have hmavl : AVL (.node .nil ma mk mc mb mr) := by
        refine AVL_plug_sub (min_path (.node rl ra rk rc rb rr)) _ ?_
        rw [hpm]; exact hr
      have h1 : AVL (plug (min_path (.node rl ra rk rc rb rr) ++
          Step.R (.node ll la lk lc lb lr) ma mk mc b :: fs) (.node .nil ma mk mc mb mr)) := by
        rw [plug_append, hpm, plug_R]
        refine AVL_plug_replace fs _ _ h ?_ ?_
        · rw [AVL_node]; exact ⟨hb, hb1, hb2, hl, hr⟩
        · simp only [height_node]
      rw [AVL_node] at hmavl
      refine del_bal_avl _ mr _ h1 hmavl.2.2.2.2 ?_
      have := height_nonneg mr
      simp only [height_node, height_nil]
      omega

/-- The structural part of `multiset_remove_element`, before the node is freed. -/
theorem remove_dispatch_log {K : Type} (me : internal_multiset K) (fs : List (Step K))
    (l r : Tree K) (a : Nat) (k : K) (c b : Int) (T : Tree K)
    (hrep : Represents me (plug fs (.node l a k c b r)))
    (havl : AVL (plug fs (.node l a k c b r)))
    (hT : remove_element_t fs (.node l a k c b r) = some T) :
    ∃ m1, (if l.ptr = none ∧ r.ptr = none then multiset_remove_no_children me a
        else if l.ptr = none ∨ r.ptr = none then multiset_remove_one_child me a
        else multiset_remove_two_children me a) = some m1 ∧ Represents m1 T ∧ Keeps me m1 ∧
      m1.repairs = me.repairs ++ remove_element_rep fs (.node l a k c b r) := by
  have hbal := AVL_path_bal fs _ havl
  have hn := AVL_plug_sub fs _ havl
  rw [AVL_node] at hn
  obtain ⟨-, hb1, hb2, -, hr⟩ := hn
  cases l with
  | nil =>
    cases r with
    | nil =>
      simp only [remove_element_t] at hT
      obtain ⟨m1, h1, r1, g1⟩ := remove_no_children_log me fs a k c b T hrep hbal hT
      exact ⟨m1, by simp [h1], r1, keeps_remove_no_children h1, g1⟩
    | node rl ra rk rc rb rr =>
      simp only [remove_element_t] at hT
      obtain ⟨m1, h1, r1, g1⟩ := remove_one_child_right_log me fs rl rr a ra k rk c b rc rb T
        hrep hbal hT
      exact ⟨m1, by simp [h1], r1, keeps_remove_one_child h1, g1⟩
  | node ll la lk lc lb lr =>
    cases r with
    | nil =>
      simp only [remove_element_t] at hT
      obtain ⟨m1, h1, r1, g1⟩ := remove_one_child_left_log me fs ll lr a la k lk c b lc lb T
        hrep hbal hT
      exact ⟨m1, by simp [h1], r1, keeps_remove_one_child h1, g1⟩
    | node rl ra rk rc rb rr =>
      cases rl with
      | nil =>
        simp only [remove_element_t, min_node, min_path, List.nil_append] at hT
        obtain ⟨m1, h1, r1, g1⟩ := remove_two_children_near_log me fs ll lr rr a la ra k lk rk
          c b lc lb rc rb T hrep (by
            intro s hs
            rcases List.mem_cons.mp hs with e | hs
            · subst e; exact ⟨hb1, hb2⟩
            · exact hbal s hs) hT
        exact ⟨m1, by simp [h1], r1, keeps_remove_two_children h1, by
          rw [g1]; simp only [remove_element_rep, min_node, min_path, List.nil_append]⟩
      | node r1 ta tk tc tb r2 =>
        obtain ⟨ma, mk, mc, mb, mr, hm⟩ :=
          min_node_node (.node r1 ta tk tc tb r2) rr ra rk rc rb
        obtain ⟨q, qk, qc, qb, qr, ps, hps⟩ := min_path_cons r1 r2 rr ta ra tk rk tc tb rc rb
        have hpb : ∀ s ∈ Step.L q qk qc qb qr :: ps, -1 ≤ s.bal ∧ s.bal ≤ 1 := by
          rw [← hps]
          refine AVL_path_bal _ (min_node (.node (.node r1 ta tk tc tb r2) ra rk rc rb rr)) ?_
          rw [plug_min]; exact hr
        simp only [remove_element_t, hm, hps] at hT
        obtain ⟨m1, h1, r1, g1⟩ := remove_two_children_far_log me fs ps ll lr r1 r2 rr qr mr a la
          ra ta q ma k lk rk tk qk mk c b lc lb rc rb tc tb qc qb mc mb T hrep hm hps (by
            intro s hs
            rcases List.mem_append.mp hs with hs | hs
            · exact hpb s hs
            · rcases List.mem_cons.mp hs with e | hs
              · subst e; exact ⟨hb1, hb2⟩
              · exact hbal s hs) hT
        exact ⟨m1, by simp [h1], r1, keeps_remove_two_children h1, by
          rw [g1]; simp only [remove_element_rep, hm, hps]⟩

/-- The structural part of `multiset_remove_element`, before the node is freed. -/
theorem remove_dispatch_spec {K : Type} (me : internal_multiset K) (fs : List (Step K))
    (l r : Tree K) (a : Nat) (k : K) (c b : Int) (T : Tree K)
    (hrep : Represents me (plug fs (.node l a k c b r)))
    (havl : AVL (plug fs (.node l a k c b r)))
    (hT : remove_element_t fs (.node l a k c b r) = some T) :
    ∃ m1, (if l.ptr = none ∧ r.ptr = none then multiset_remove_no_children me a
        else if l.ptr = none ∨ r.ptr = none then multiset_remove_one_child me a
        else multiset_remove_two_children me a) = some m1 ∧ Represents m1 T ∧ Keeps me m1 := by
  obtain ⟨m1, h1, r1, k1, -⟩ := remove_dispatch_log me fs l r a k c b T hrep havl hT
  exact ⟨m1, h1, r1, k1⟩

/-- The function `multiset_remove_element` removes the node at the focus: it returns, the
result holds the tree computed by `remove_element_t`, that tree is AVL, and the calls of
`multiset_repair` are those of `remove_element_rep`. -/
theorem remove_element_log {K : Type} (me : internal_multiset K) (fs : List (Step K))
    (l r : Tree K) (a : Nat) (k : K) (c b : Int)
    (hrep : Represents me (plug fs (.node l a k c b r)))
    (havl : AVL (plug fs (.node l a k c b r))) :
    ∃ me1 T, multiset_remove_element me a = some me1 ∧ Represents me1 T ∧ AVL T ∧
      remove_element_t fs (.node l a k c b r) = some T ∧
      me1.size = me.size ∧ me1.comparator = me.comparator ∧ me1.key_size = me.key_size ∧
      me1.repairs = me.repairs ++ remove_element_rep fs (.node l a k c b r) := by
  obtain ⟨T, hT, hTa⟩ := remove_element_t_avl fs l r a k c b havl
  obtain ⟨m1, h1, r1, k1, g1⟩ := remove_dispatch_log me fs l r a k c b T hrep havl hT
  have ha := rd_focus me fs l r a k c b hrep
  have hal : rd m1.mem a ≠ none := k1.2.2.2 a (by rw [ha]; simp)
  obtain ⟨n, hn⟩ := Option.ne_none_iff_exists'.mp hal
  have hnot : a ∉ T.addrs := by
    have hnd := hrep.2.2
    rw [addrs_eq_entries, entries_plug] at hnd
    rw [addrs_eq_entries, remove_element_t_entries fs l r a k c b T hT]
    simp only [entries_node, List.map_append, List.map_cons, List.nodup_append,
      List.nodup_cons, List.mem_append, List.mem_cons, List.mem_map, not_or,
      List.disjoint_append_left, List.disjoint_append_right, List.disjoint_cons_left,
      List.disjoint_cons_right] at hnd ⊢
    tauto
  refine ⟨{ m1 with mem := upd m1.mem a none }, T, ?_, ?_, hTa, hT, k1.1, k1.2.1, k1.2.2.1,
    g1⟩
  · simp only [multiset_remove_element, ha, andThen_some, h1, hn]
  · refine ⟨r1.1, Rep_frame m1.mem _ T none ?_ r1.2.1, r1.2.2⟩
    intro x hx
    rw [rd_upd, if_neg]
    rintro rfl
    exact hnot hx

/-- The function `multiset_remove_element` removes the node at the focus: it returns, the
result holds the tree computed by `remove_element_t`, and that tree is AVL. -/
theorem remove_element_spec {K : Type} (me : internal_multiset K) (fs : List (Step K))
    (l r : Tree K) (a : Nat) (k : K) (c b : Int)
    (hrep : Represents me (plug fs (.node l a k c b r)))
    (havl : AVL (plug fs (.node l a k c b r))) :
    ∃ me1 T, multiset_remove_element me a = some me1 ∧ Represents me1 T ∧ AVL T ∧
      remove_element_t fs (.node l a k c b r) = some T ∧
      me1.size = me.size ∧ me1.comparator = me.comparator ∧ me1.key_size = me.key_size := by
  obtain ⟨me1, T, h1, r1, a1, t1, s1, c1, k1, -⟩ := remove_element_log me fs l r a k c b hrep havl
  exact ⟨me1, T, h1, r1, a1, t1, s1, c1, k1⟩

/-! ## Lookup -/

/-- The loop of `multiset_equal_match` stops where `zoom` stops. -/
theorem equal_match_loop_spec {K : Type} (key : K) (t : Tree K) :
    ∀ (me : internal_multiset K) (fs : List (Step K)) (x fuel : Nat),
      Represents me (plug fs t) → t.ptr = some x → t.size ≤ fuel →
      multiset_equal_match_loop me key fuel x = some (zoom me.comparator key fs t).2.ptr := by
  induction t with
  | nil => intro me fs x fuel _ ht; simp at ht
  | node l a k c b r ihl ihr =>
    intro me fs x fuel hrep ht hfuel
    simp only [ptr_node, Option.some.injEq] at ht
    subst ht
    rw [size_node_pos] at hfuel
    cases fuel with
    | zero => omega
    | succ fuel =>
      have hp := rd_focus me fs l r a k c b hrep
      simp only [multiset_equal_match_loop, hp, andThen_some]
      by_cases hlt : me.comparator key k < 0
      · simp only [hlt, if_true]
        rw [zoom_lt _ _ _ _ _ _ _ _ _ hlt]
        cases l with
        | nil => simp
        | node ll la lk lc lb lr =>
          simp only [ptr_node]
          rw [size_node_pos] at hfuel
          exact ihl me (.L a k c b r :: fs) la fuel hrep rfl (by rw [size_node_pos]; omega)
      · simp only [hlt, if_false]
        by_cases hgt : me.comparator key k > 0
        · simp only [hgt, if_true]
          rw [zoom_gt _ _ _ _ _ _ _ _ _ hlt hgt]
          cases r with
          | nil => simp
          | node rl ra rk rc rb rr =>
            simp only [ptr_node]
            rw [size_node_pos] at hfuel
            exact ihr me (.R l a k c b :: fs) ra fuel hrep rfl (by rw [size_node_pos]; omega)
        · simp only [hgt, if_false]
          rw [zoom_eq _ _ _ _ _ _ _ _ _ hlt hgt]
          rfl

theorem equal_match_spec {K : Type} (me : internal_multiset K) (key : K) (t : Tree K)
    (hrep : Represents me t) :
    multiset_equal_match me key = some (zoom me.comparator key [] t).2.ptr := by
  cases t with
  | nil =>
    have hroot : me.root = none := hrep.1
    simp [multiset_equal_match, hroot]
  | node l a k c b r =>
    have hroot : me.root = some a := hrep.1
    have hsz := represents_size_le me _ hrep
    simp only [multiset_equal_match, hroot]
    exact equal_match_loop_spec key _ me [] a (me.mem.length + 1) hrep rfl (by omega)

/-- The container holds the tree seen from the place where the descent stops. -/
theorem represents_zoom {K : Type} (me : internal_multiset K) (key : K) (t : Tree K)
    (fs : List (Step K)) (u : Tree K) (hrep : Represents me t)
    (hz : zoom me.comparator key [] t = (fs, u)) : Represents me (plug fs u) := by
  have h := zoom_plug me.comparator key t []
  rw [hz] at h
  simp only [plug_nil] at h
  rw [h]
  exact hrep

theorem lookup_absent_spec {K : Type} (me : internal_multiset K) (key : K) (t : Tree K)
    (fs : List (Step K)) (hrep : Represents me t)
    (hz : zoom me.comparator key [] t = (fs, .nil)) :
    multiset_equal_match me key = some none ∧ multiset_count me key = some 0 ∧
      multiset_contains me key = some 0 := by
  have h := equal_match_spec me key t hrep
  rw [hz] at h
  simp only [ptr_nil] at h
  simp [multiset_count, multiset_contains, h]

theorem lookup_present_spec {K : Type} (me : internal_multiset K) (key : K) (t : Tree K)
    (fs : List (Step K)) (l r : Tree K) (a : Nat) (k : K) (c b : Int) (hrep : Represents me t)
    (hz : zoom me.comparator key [] t = (fs, .node l a k c b r)) :
    multiset_equal_match me key = some (some a) ∧ multiset_count me key = some c ∧
      multiset_contains me key = some 1 := by
  have h := equal_match_spec me key t hrep
  rw [hz] at h
  simp only [ptr_node] at h
  have hp := rd_focus me fs l r a k c b (represents_zoom me key t fs _ hrep hz)
  simp [multiset_count, multiset_contains, h, hp]

/-! ## `multiset_put` when an allocation fails -/

theorem put_loop_absent_fail {K : Type} (key : K) (t : Tree K) :
    ∀ (me : internal_multiset K) (fs : List (Step K)) (x fuel : Nat) (node_ok key_ok : Bool),
      Represents me (plug fs t) → t.ptr = some x → t.size ≤ fuel →
      (zoom me.comparator key fs t).2 = .nil → (node_ok && key_ok) = false →
      multiset_put_loop key node_ok key_ok fuel me x = some (-ENOMEM, me) := by
  induction t with
  | nil => intro me fs x fuel _ _ _ ht; simp at ht
  | node l a k c b r ihl ihr =>
    intro me fs x fuel node_ok key_ok hrep ht hfuel hz hfl
    simp only [ptr_node, Option.some.injEq] at ht
    subst ht
    rw [size_node_pos] at hfuel
    have hcr : ∀ par, multiset_create_node me key par node_ok key_ok = (none, me) := by
      intro par
      cases node_ok <;> cases key_ok <;> simp [multiset_create_node] at hfl ⊢
    cases fuel with
    | zero => omega
    | succ fuel =>
      have hp := rd_focus me fs l r a k c b hrep
      simp only [multiset_put_loop, hp, andThen_some]
      by_cases hlt : me.comparator key k < 0
      · simp only [hlt, if_true]
        rw [zoom_lt _ _ _ _ _ _ _ _ _ hlt] at hz
        cases l with
        | nil => simp only [ptr_nil, hcr]
        | node ll la lk lc lb lr =>
          simp only [ptr_node]
          rw [size_node_pos] at hfuel
          exact ihl me (.L a k c b r :: fs) la fuel _ _ hrep rfl
            (by rw [size_node_pos]; omega) hz hfl
      · simp only [hlt, if_false]
        by_cases hgt : me.comparator key k > 0
        · simp only [hgt, if_true]
          rw [zoom_gt _ _ _ _ _ _ _ _ _ hlt hgt] at hz
          cases r with
          | nil => simp only [ptr_nil, hcr]
          | node rl ra rk rc rb rr =>
            simp only [ptr_node]
            rw [size_node_pos] at hfuel
            exact ihr me (.R l a k c b :: fs) ra fuel _ _ hrep rfl
              (by rw [size_node_pos]; omega) hz hfl
        · rw [zoom_eq _ _ _ _ _ _ _ _ _ hlt hgt] at hz
          simp at hz

theorem put_loop_present {K : Type} (key : K) (t : Tree K) :
    ∀ (me : internal_multiset K) (fs : List (Step K)) (x fuel : Nat) (node_ok key_ok : Bool),
      Represents me (plug fs t) → t.ptr = some x → t.size ≤ fuel →
      (zoom me.comparator key fs t).2 ≠ .nil →
      multiset_put_loop key node_ok key_ok fuel me x =
        multiset_put_loop key true true fuel me x := by
  induction t with
  | nil => intro me fs x fuel _ _ _ ht; simp at ht
  | node l a k c b r ihl ihr =>
    intro me fs x fuel node_ok key_ok hrep ht hfuel hz
    simp only [ptr_node, Option.some.injEq] at ht
    subst ht
    rw [size_node_pos] at hfuel
    cases fuel with
    | zero => omega
    | succ fuel =>
      have hp := rd_focus me fs l r a k c b hrep
      simp only [multiset_put_loop, hp, andThen_some]
      by_cases hlt : me.comparator key k < 0
      · simp only [hlt, if_true]
        rw [zoom_lt _ _ _ _ _ _ _ _ _ hlt] at hz
        cases l with
        | nil => simp at hz
        | node ll la lk lc lb lr =>
          simp only [ptr_node]
          rw [size_node_pos] at hfuel
          exact ihl me (.L a k c b r :: fs) la fuel _ _ hrep rfl
            (by rw [size_node_pos]; omega) hz
      · simp only [hlt, if_false]
        by_cases hgt : me.comparator key k > 0
        · simp only [hgt, if_true]
          rw [zoom_gt _ _ _ _ _ _ _ _ _ hlt hgt] at hz
          cases r with
          | nil => simp at hz
          | node rl ra rk rc rb rr =>
            simp only [ptr_node]
            rw [size_node_pos] at hfuel
            exact ihr me (.R l a k c b :: fs) ra fuel _ _ hrep rfl
              (by rw [size_node_pos]; omega) hz
        · simp only [hgt, if_false]

/-- When the key is absent and an allocation fails, `multiset_put` reports `-ENOMEM` and
leaves the container as it was. -/
theorem put_absent_fail {K : Type} (me : internal_multiset K) (key : K) (t : Tree K)
    (node_ok key_ok : Bool) (hrep : Represents me t)
    (hz : (zoom me.comparator key [] t).2 = .nil) (hfl : (node_ok && key_ok) = false) :
    multiset_put me key node_ok key_ok = some (-ENOMEM, me) := by
  cases t with
  | nil =>
    have hroot : me.root = none := hrep.1
    cases node_ok <;> cases key_ok <;> simp [multiset_put, multiset_create_node, hroot] at hfl ⊢
  | node l a k c b r =>
    have hroot : me.root = some a := hrep.1
    have hsz := represents_size_le me _ hrep
    simp only [multiset_put, hroot]
    exact put_loop_absent_fail key _ me [] a (me.mem.length + 1) _ _ hrep rfl (by omega) hz hfl

/-- When the key is present no allocation is made, so their outcome does not matter. -/
theorem put_present {K : Type} (me : internal_multiset K) (key : K) (t : Tree K)
    (node_ok key_ok : Bool) (hrep : Represents me t)
    (hz : (zoom me.comparator key [] t).2 ≠ .nil) :
    multiset_put me key node_ok key_ok = multiset_put me key true true := by
  cases t with
  | nil => simp at hz
  | node l a k c b r =>
    have hroot : me.root = some a := hrep.1
    have hsz := represents_size_le me _ hrep
    simp only [multiset_put, hroot]
    exact put_loop_present key _ me [] a (me.mem.length + 1) _ _ hrep rfl (by omega) hz

/-! ## `multiset_remove`, `multiset_remove_all`, `multiset_clear` -/

theorem avl_zoom {K : Type} (cmp : K → K → Int) (key : K) (t : Tree K)
    (fs : List (Step K)) (u : Tree K) (havl : AVL t) (hz : zoom cmp key [] t = (fs, u)) :
    AVL (plug fs u) := by
  have h := zoom_plug cmp key t []
  rw [hz] at h
  simp only [plug_nil] at h
  rw [h]
  exact havl

theorem avl_recount {K : Type} (fs : List (Step K)) (l r : Tree K) (a : Nat) (k : K)
    (c c1 b : Int) (h : AVL (plug fs (.node l a k c b r))) :
    AVL (plug fs (.node l a k c1 b r)) := by
  refine AVL_plug_replace fs _ _ h ?_ ?_
  · have := AVL_plug_sub fs _ h
    rw [AVL_node] at this ⊢
    exact this
  · simp only [height_node]

theorem remove_absent_spec {K : Type} (me : internal_multiset K) (key : K)
    (h : multiset_equal_match me key = some none) :
    multiset_remove me key = some (0, me) ∧ multiset_remove_all me key = some (0, me) := by
  simp [multiset_remove, multiset_remove_all, h]

/-- The function `multiset_remove` on a key that is present, with its calls of
`multiset_repair`. -/
theorem remove_present_log {K : Type} (me : internal_multiset K) (key : K) (t : Tree K)
    (fs : List (Step K)) (l r : Tree K) (a : Nat) (k : K) (c b : Int)
    (hrep : Represents me t) (havl : AVL t)
    (hz : zoom me.comparator key [] t = (fs, .node l a k c b r)) :
    ∃ me1 T, multiset_remove me key = some (1, me1) ∧ Represents me1 T ∧ AVL T ∧
      remove_t me.comparator key t = some T ∧
      me1.size = me.size - 1 ∧ me1.comparator = me.comparator ∧
      me1.key_size = me.key_size ∧
      me1.repairs = me.repairs ++
        (if c - 1 = 0 then remove_element_rep fs (.node l a k (c - 1) b r) else []) := by
  obtain ⟨hm, -, -⟩ := lookup_present_spec me key t fs l r a k c b hrep hz
  have hrep' := represents_zoom me key t fs _ hrep hz
  have havl' := avl_recount fs l r a k c (c - 1) b (avl_zoom me.comparator key t fs _ havl hz)
  obtain ⟨me2, h2, r2, g2⟩ := wr_focus me fs l r a k c b
    (fun (n : node K) => { n with count := n.count - 1 }) (c - 1) b hrep' rfl
  have k2 := Keeps.wr h2
  have hp2 := rd_focus me2 fs l r a k (c - 1) b r2
  by_cases hc : c - 1 = 0
  · obtain ⟨me3, T, h3, r3, a3, t3, s3, c3, ks3, g3⟩ :=
      remove_element_log me2 fs l r a k (c - 1) b r2 havl'
    refine ⟨{ me3 with size := me3.size - 1 }, T, ?_, Represents_congr me3 _ _ rfl rfl r3, a3,
      ?_, ?_, ?_, ?_, ?_⟩
    · simp [multiset_remove, hm, h2, hp2, hc, h3]
    · simp only [remove_t, hz, hc, if_true]; rw [← hc]; exact t3
    · simp [s3, k2.1]
    · simp [c3, k2.2.1]
    · simp [ks3, k2.2.2.1]
    · show me3.repairs = _
      rw [g3, g2, if_pos hc]
  · refine ⟨{ me2 with size := me2.size - 1 }, _, ?_, Represents_congr me2 _ _ rfl rfl r2,
      havl', ?_, ?_, ?_, ?_, ?_⟩
    · simp [multiset_remove, hm, h2, hp2, hc]
    · simp only [remove_t, hz, hc, if_false]
    · simp [k2.1]
    · simp [k2.2.1]
    · simp [k2.2.2.1]
    · show me2.repairs = _
      rw [g2, if_neg hc, List.append_nil]

/-- The function `multiset_remove` on a key that is present. -/
theorem remove_present_spec {K : Type} (me : internal_multiset K) (key : K) (t : Tree K)
    (fs : List (Step K)) (l r : Tree K) (a : Nat) (k : K) (c b : Int)
    (hrep : Represents me t) (havl : AVL t)
    (hz : zoom me.comparator key [] t = (fs, .node l a k c b r)) :
    ∃ me1 T, multiset_remove me key = some (1, me1) ∧ Represents me1 T ∧ AVL T ∧
      remove_t me.comparator key t = some T ∧
      me1.size = me.size - 1 ∧ me1.comparator = me.comparator ∧
      me1.key_size = me.key_size := by
  obtain ⟨me1, T, h1, r1, a1, t1, s1, c1, k1, -⟩ :=
    remove_present_log me key t fs l r a k c b hrep havl hz
  exact ⟨me1, T, h1, r1, a1, t1, s1, c1, k1⟩

/-- The function `multiset_remove_all` on a key that is present, with its calls of
`multiset_repair`. -/
theorem remove_all_present_log {K : Type} (me : internal_multiset K) (key : K) (t : Tree K)
    (fs : List (Step K)) (l r : Tree K) (a : Nat) (k : K) (c b : Int)
    (hrep : Represents me t) (havl : AVL t)
    (hz : zoom me.comparator key [] t = (fs, .node l a k c b r)) :
    ∃ me1 T, multiset_remove_all me key = some (1, me1) ∧ Represents me1 T ∧ AVL T ∧
      remove_all_t me.comparator key t = some T ∧
      me1.size = me.size - c ∧ me1.comparator = me.comparator ∧
      me1.key_size = me.key_size ∧
      me1.repairs = me.repairs ++ remove_element_rep fs (.node l a k c b r) := by
  obtain ⟨hm, -, -⟩ := lookup_present_spec me key t fs l r a k c b hrep hz
  have hrep' := represents_zoom me key t fs _ hrep hz
  have havl' := avl_zoom me.comparator key t fs _ havl hz
  have hp := rd_focus me fs l r a k c b hrep'
  have r2 : Represents { me with size := me.size - c } (plug fs (.node l a k c b r)) :=
    Represents_congr me _ _ rfl rfl hrep'
  obtain ⟨me3, T, h3, r3, a3, t3, s3, c3, ks3, g3⟩ :=
    remove_element_log { me with size := me.size - c } fs l r a k c b r2 havl'
  refine ⟨me3, T, ?_, r3, a3, ?_, s3, c3, ks3, g3⟩
  · simp [multiset_remove_all, hm, hp, h3]
  · simp only [remove_all_t, hz]; exact t3

/-- The function `multiset_remove_all` on a key that is present. -/
theorem remove_all_present_spec {K : Type} (me : internal_multiset K) (key : K) (t : Tree K)
    (fs : List (Step K)) (l r : Tree K) (a : Nat) (k : K) (c b : Int)
    (hrep : Represents me t) (havl : AVL t)
    (hz : zoom me.comparator key [] t = (fs, .node l a k c b r)) :
    ∃ me1 T, multiset_remove_all me key = some (1, me1) ∧ Represents me1 T ∧ AVL T ∧
      remove_all_t me.comparator key t = some T ∧
      me1.size = me.size - c ∧ me1.comparator = me.comparator ∧
      me1.key_size = me.key_size := by
  obtain ⟨me1, T, h1, r1, a1, t1, s1, c1, k1, -⟩ :=
    remove_all_present_log me key t fs l r a k c b hrep havl hz
  exact ⟨me1, T, h1, r1, a1, t1, s1, c1, k1⟩

theorem remove_element_t_size {K : Type} (fs : List (Step K)) (l r : Tree K) (a : Nat)
    (k : K) (c b : Int) (T : Tree K)
    (h : remove_element_t fs (.node l a k c b r) = some T) :
    T.size + 1 = (plug fs (.node l a k c b r)).size := by
  rw [size_eq_entries, size_eq_entries, remove_element_t_entries fs l r a k c b T h,
    entries_plug]
  simp only [entries_node, List.length_append, List.length_cons]
  omega

/-- The loop of `multiset_clear` empties the tree. -/
theorem clear_loop_spec {K : Type} (fuel : Nat) :
    ∀ (me : internal_multiset K) (t : Tree K), Represents me t → AVL t → t.size ≤ fuel →
      ∃ me1, multiset_clear_loop fuel me = some me1 ∧ Represents me1 .nil ∧
        me1.size = me.size ∧ me1.comparator = me.comparator ∧
        me1.key_size = me.key_size := by
  induction fuel with
  | zero =>
    intro me t hrep _ hsz
    cases t with
    | nil =>
      have hroot : me.root = none := hrep.1
      exact ⟨me, by rw [multiset_clear_loop]; simp [hroot], hrep, rfl, rfl, rfl⟩
    | node l a k c b r => rw [size_node_pos] at hsz; omega
  | succ fuel ih =>
    intro me t hrep havl hsz
    cases t with
    | nil =>
      have hroot : me.root = none := hrep.1
      exact ⟨me, by rw [multiset_clear_loop]; simp [hroot], hrep, rfl, rfl, rfl⟩
    | node l a k c b r =>
      have hroot : me.root = some a := hrep.1
      obtain ⟨me3, T, h3, r3, a3, t3, s3, c3, ks3⟩ :=
        remove_element_spec me [] l r a k c b hrep havl
      have hs := remove_element_t_size [] l r a k c b T t3
      simp only [plug_nil] at hs
      obtain ⟨me4, h4, r4, s4, c4, ks4⟩ := ih me3 T r3 a3 (by omega)
      refine ⟨me4, ?_, r4, by rw [s4, s3], by rw [c4, c3], by rw [ks4, ks3]⟩
      rw [multiset_clear_loop]
      simp [hroot, h3, h4]

/-- The function `multiset_clear` returns, with an empty tree and size 0. -/
theorem clear_spec {K : Type} (me : internal_multiset K) (t : Tree K)
    (hrep : Represents me t) (havl : AVL t) :
    ∃ me1, multiset_clear me = some me1 ∧ Represents me1 .nil ∧ me1.size = 0 ∧
      me1.comparator = me.comparator ∧ me1.key_size = me.key_size := by
  have hsz := represents_size_le me _ hrep
  obtain ⟨me4, h4, r4, s4, c4, ks4⟩ := clear_loop_spec (me.mem.length + 1) me t hrep havl
    (by omega)
  exact ⟨{ me4 with size := 0 }, by simp [multiset_clear, h4],
    Represents_congr me4 _ _ rfl rfl r4, rfl, c4, ks4⟩

/-! ## The comparator as a total order -/

theorem TotalOrder.eq_symm {K : Type} {cmp : K → K → Int} (h : TotalOrder cmp) (a b : K)
    (e : cmp a b = 0) : cmp b a = 0 := by
  have h1 := h.swap a b
  have h2 := h.swap b a
  omega

theorem TotalOrder.cmp_self {K : Type} {cmp : K → K → Int} (h : TotalOrder cmp) (a : K) :
    cmp a a = 0 := by
  have h1 := h.swap a a
  omega

theorem TotalOrder.le_lt {K : Type} {cmp : K → K → Int} (h : TotalOrder cmp) (a b c : K)
    (h1 : cmp a b ≤ 0) (h2 : cmp b c < 0) : cmp a c < 0 := by
  have h3 := h.trans a b c h1 (by omega)
  by_contra hn
  have e : cmp a c = 0 := by omega
  have h4 := h.trans c a b (by have := h.eq_symm a c e; omega) h1
  have h5 := h.swap b c
  omega

theorem TotalOrder.lt_le {K : Type} {cmp : K → K → Int} (h : TotalOrder cmp) (a b c : K)
    (h1 : cmp a b < 0) (h2 : cmp b c ≤ 0) : cmp a c < 0 := by
  have h3 := h.trans a b c (by omega) h2
  by_contra hn
  have e : cmp a c = 0 := by omega
  have h4 := h.trans b c a h2 (by have := h.eq_symm a c e; omega)
  have h5 := h.swap a b
  omega

theorem TotalOrder.gt_iff {K : Type} {cmp : K → K → Int} (h : TotalOrder cmp) (a b : K) :
    0 < cmp a b ↔ cmp b a < 0 := (h.swap b a).symm

theorem TotalOrder.eq_trans {K : Type} {cmp : K → K → Int} (h : TotalOrder cmp) (a b c : K)
    (h1 : cmp a b = 0) (h2 : cmp b c = 0) : cmp a c = 0 := by
  have h3 := h.trans a b c (by omega) (by omega)
  have h4 := h.trans c b a (by have := h.eq_symm b c h2; omega)
    (by have := h.eq_symm a b h1; omega)
  have h5 := h.swap a c
  omega

/-! ## BST ordering is the keys being in increasing order -/

theorem keys_nil {K : Type} : (Tree.nil : Tree K).keys = [] := rfl

theorem keys_node {K : Type} (l r : Tree K) (a : Nat) (k : K) (c b : Int) :
    (Tree.node l a k c b r).keys = l.keys ++ k :: r.keys := rfl

theorem BST_node {K : Type} (cmp : K → K → Int) (l r : Tree K) (a : Nat) (k : K) (c b : Int) :
    BST cmp (.node l a k c b r) =
      ((∀ x ∈ l.keys, cmp x k < 0) ∧ (∀ x ∈ r.keys, 0 < cmp x k) ∧ BST cmp l ∧ BST cmp r) :=
  rfl

theorem BST_iff_ordered {K : Type} {cmp : K → K → Int} (h : TotalOrder cmp) (t : Tree K) :
    BST cmp t ↔ Ordered cmp t.keys := by
  induction t with
  | nil => simp [BST, Ordered, keys_nil]
  | node l a k c b r ihl ihr =>
    rw [BST_node, keys_node, ihl, ihr]
    unfold Ordered
    rw [List.pairwise_append, List.pairwise_cons]
    constructor
    · rintro ⟨h1, h2, h3, h4⟩
      refine ⟨h3, ⟨fun x hx => (h.gt_iff x k).mp (h2 x hx), h4⟩, ?_⟩
      intro x hx y hy
      rcases List.mem_cons.mp hy with e | hy
      · subst e; exact h1 x hx
      · exact h.lt_le x k y (h1 x hx) (by have := (h.gt_iff y k).mp (h2 y hy); omega)
    · rintro ⟨h3, ⟨h2, h4⟩, h5⟩
      exact ⟨fun x hx => h5 x hx k (List.mem_cons_self _ _),
        fun x hx => (h.gt_iff x k).mpr (h2 x hx), h3, h4⟩

/-- Where the descent stops: everything before is smaller than the key, everything after is
greater. -/
theorem zoom_bounds {K : Type} {cmp : K → K → Int} (h : TotalOrder cmp) (key : K)
    (t : Tree K) :
    ∀ (fs0 fs : List (Step K)) (u : Tree K), BST cmp t →
      (∀ e ∈ pathBefore fs0, cmp e.2.1 key < 0) → (∀ e ∈ pathAfter fs0, cmp key e.2.1 < 0) →
      zoom cmp key fs0 t = (fs, u) →
      (∀ e ∈ pathBefore fs, cmp e.2.1 key < 0) ∧ (∀ e ∈ pathAfter fs, cmp key e.2.1 < 0) := by
  induction t with
  | nil =>
    intro fs0 fs u _ hb ha hz
    simp only [zoom_nil, Prod.mk.injEq] at hz
    rw [← hz.1]; exact ⟨hb, ha⟩
  | node l a k c b r ihl ihr =>
    intro fs0 fs u hbst hb ha hz
    rw [BST_node] at hbst
    obtain ⟨h1, h2, h3, h4⟩ := hbst
    by_cases hlt : cmp key k < 0
    · rw [zoom_lt _ _ _ _ _ _ _ _ _ hlt] at hz
      refine ihl (.L a k c b r :: fs0) fs u h3 hb ?_ hz
      intro e he
      simp only [pathAfter, List.mem_append, List.mem_cons] at he
      rcases he with (e1 | he) | he
      · subst e1; exact hlt
      · have hk : e.2.1 ∈ r.keys := by
          rw [keys_eq_entries]; exact List.mem_map_of_mem _ he
        have := (h.gt_iff _ k).mp (h2 _ hk)
        exact h.lt_le key k _ hlt (by omega)
      · exact ha e he
    · by_cases hgt : cmp key k > 0
      · rw [zoom_gt _ _ _ _ _ _ _ _ _ hlt hgt] at hz
        have hk : cmp k key < 0 := (h.gt_iff key k).mp hgt
        refine ihr (.R l a k c b :: fs0) fs u h4 ?_ ha hz
        intro e he
        simp only [pathBefore, List.mem_append, List.mem_singleton] at he
        rcases he with he | he | e1
        · exact hb e he
        · have hk1 : e.2.1 ∈ l.keys := by
            rw [keys_eq_entries]; exact List.mem_map_of_mem _ he
          exact h.lt_le _ k key (h1 _ hk1) (by omega)
        · subst e1; exact hk
      · rw [zoom_eq _ _ _ _ _ _ _ _ _ hlt hgt] at hz
        simp only [Prod.mk.injEq] at hz
        rw [← hz.1]; exact ⟨hb, ha⟩

theorem zoom_found_eq {K : Type} (cmp : K → K → Int) (key : K) (t : Tree K) :
    ∀ (fs0 fs : List (Step K)) (l r : Tree K) (a : Nat) (k : K) (c b : Int),
      zoom cmp key fs0 t = (fs, .node l a k c b r) → cmp key k = 0 := by
  induction t with
  | nil => intro fs0 fs l r a k c b hz; simp at hz
  | node l1 a1 k1 c1 b1 r1 ihl ihr =>
    intro fs0 fs l r a k c b hz
    by_cases hlt : cmp key k1 < 0
    · rw [zoom_lt _ _ _ _ _ _ _ _ _ hlt] at hz
      exact ihl _ _ _ _ _ _ _ _ hz
    · by_cases hgt : cmp key k1 > 0
      · rw [zoom_gt _ _ _ _ _ _ _ _ _ hlt hgt] at hz
        exact ihr _ _ _ _ _ _ _ _ hz
      · rw [zoom_eq _ _ _ _ _ _ _ _ _ hlt hgt] at hz
        simp only [Prod.mk.injEq, Tree.node.injEq] at hz
        obtain ⟨-, -, -, e, -⟩ := hz
        subst e
        omega

theorem entries_zoom {K : Type} (cmp : K → K → Int) (key : K) (t : Tree K)
    (fs : List (Step K)) (u : Tree K) (hz : zoom cmp key [] t = (fs, u)) :
    t.entries = pathBefore fs ++ u.entries ++ pathAfter fs := by
  have h := zoom_plug cmp key t []
  rw [hz] at h
  simp only [plug_nil] at h
  rw [← h, entries_plug]

/-! ## Counting occurrences in the in-order sequence -/

theorem keys_eq_inorder {K : Type} (t : Tree K) : t.keys = t.inorder.map Prod.fst := by
  rw [keys_eq_entries, inorder_eq_entries, List.map_map]; rfl

theorem lookup_nil {K : Type} (cmp : K → K → Int) (j : K) : lookup cmp j [] = 0 := rfl

theorem lookup_cons {K : Type} (cmp : K → K → Int) (j : K) (e : K × Int)
    (es : List (K × Int)) :
    lookup cmp j (e :: es) = if cmp j e.1 = 0 then e.2 else lookup cmp j es := rfl

theorem present_nil {K : Type} (cmp : K → K → Int) (j : K) : present cmp j [] = false := rfl

theorem present_cons {K : Type} (cmp : K → K → Int) (j : K) (e : K × Int)
    (es : List (K × Int)) :
    present cmp j (e :: es) = if cmp j e.1 = 0 then true else present cmp j es := rfl

theorem lookup_skip {K : Type} (cmp : K → K → Int) (j : K) (pre post : List (K × Int))
    (h : ∀ e ∈ pre, cmp j e.1 ≠ 0) : lookup cmp j (pre ++ post) = lookup cmp j post := by
  induction pre with
  | nil => rfl
  | cons e pre ih =>
    rw [List.cons_append, lookup_cons, if_neg (h e (List.mem_cons_self _ _))]
    exact ih (fun x hx => h x (List.mem_cons_of_mem _ hx))

theorem present_skip {K : Type} (cmp : K → K → Int) (j : K) (pre post : List (K × Int))
    (h : ∀ e ∈ pre, cmp j e.1 ≠ 0) : present cmp j (pre ++ post) = present cmp j post := by
  induction pre with
  | nil => rfl
  | cons e pre ih =>
    rw [List.cons_append, present_cons, if_neg (h e (List.mem_cons_self _ _))]
    exact ih (fun x hx => h x (List.mem_cons_of_mem _ hx))

theorem lookup_none {K : Type} (cmp : K → K → Int) (j : K) (es : List (K × Int))
    (h : ∀ e ∈ es, cmp j e.1 ≠ 0) : lookup cmp j es = 0 := by
  have := lookup_skip cmp j es [] h
  rw [List.append_nil] at this
  rw [this]; rfl

theorem present_none {K : Type} (cmp : K → K → Int) (j : K) (es : List (K × Int))
    (h : ∀ e ∈ es, cmp j e.1 ≠ 0) : present cmp j es = false := by
  have := present_skip cmp j es [] h
  rw [List.append_nil] at this
  rw [this]; rfl

theorem present_iff {K : Type} (cmp : K → K → Int) (j : K) (es : List (K × Int)) :
    present cmp j es = true ↔ ∃ e ∈ es, cmp j e.1 = 0 := by
  induction es with
  | nil => simp [present_nil]
  | cons e es ih =>
    rw [present_cons]
    by_cases he : cmp j e.1 = 0
    · simp [he]
    · simp [he, ih]

/-- An entry whose key does not compare equal does not matter. -/
theorem lookup_mid_ne {K : Type} (cmp : K → K → Int) (j : K) (pre post : List (K × Int))
    (e : K × Int) (hne : cmp j e.1 ≠ 0) :
    lookup cmp j (pre ++ e :: post) = lookup cmp j (pre ++ post) ∧
      present cmp j (pre ++ e :: post) = present cmp j (pre ++ post) := by
  induction pre with
  | nil => simp [lookup_cons, present_cons, hne]
  | cons x pre ih =>
    simp only [List.cons_append, lookup_cons, present_cons, ih.1, ih.2]
    exact ⟨trivial, trivial⟩

/-- In an increasing sequence the entry whose key compares equal is the only one. -/
theorem lookup_mid_eq {K : Type} {cmp : K → K → Int} (h : TotalOrder cmp) (j : K)
    (pre post : List (K × Int)) (k : K) (c c1 : Int)
    (hord : Ordered cmp ((pre ++ (k, c) :: post).map Prod.fst)) (e : cmp j k = 0) :
    lookup cmp j (pre ++ (k, c1) :: post) = c1 ∧ lookup cmp j (pre ++ post) = 0 ∧
      present cmp j (pre ++ (k, c1) :: post) = true ∧
      present cmp j (pre ++ post) = false := by
  unfold Ordered at hord
  rw [List.map_append, List.map_cons, List.pairwise_append, List.pairwise_cons] at hord
  obtain ⟨-, ⟨hpost, -⟩, hpre⟩ := hord
  have h1 : ∀ x ∈ pre, cmp j x.1 ≠ 0 := by
    intro x hx e1
    have h2 : cmp x.1 k < 0 := hpre x.1 (List.mem_map_of_mem _ hx) k (List.mem_cons_self _ _)
    have h3 := h.eq_trans x.1 j k (h.eq_symm j x.1 e1) e
    omega
  have h2 : ∀ y ∈ post, cmp j y.1 ≠ 0 := by
    intro y hy e1
    have h2 : cmp k y.1 < 0 := hpost y.1 (List.mem_map_of_mem _ hy)
    have h3 := h.eq_trans k j y.1 (h.eq_symm j k e) e1
    omega
  have h3 : ∀ y ∈ pre ++ post, cmp j y.1 ≠ 0 := by
    intro y hy
    rcases List.mem_append.mp hy with hy | hy
    · exact h1 y hy
    · exact h2 y hy
  refine ⟨?_, lookup_none cmp j _ h3, ?_, present_none cmp j _ h3⟩
  · rw [lookup_skip cmp j pre _ h1, lookup_cons, if_pos e]
  · rw [present_skip cmp j pre _ h1, present_cons, if_pos e]

theorem ordered_recount {K : Type} (cmp : K → K → Int) (pre post : List (K × Int)) (k : K)
    (c c1 : Int) (h : Ordered cmp ((pre ++ (k, c) :: post).map Prod.fst)) :
    Ordered cmp ((pre ++ (k, c1) :: post).map Prod.fst) := by
  simp only [List.map_append, List.map_cons] at h ⊢
  exact h

theorem ordered_drop {K : Type} (cmp : K → K → Int) (pre post : List (K × Int))
    (e : K × Int) (h : Ordered cmp ((pre ++ e :: post).map Prod.fst)) :
    Ordered cmp ((pre ++ post).map Prod.fst) := by
  unfold Ordered at h ⊢
  refine List.Pairwise.sublist ?_ h
  exact List.Sublist.map _ (List.Sublist.append (List.Sublist.refl _) (List.sublist_cons_self _ _))

theorem ordered_insert {K : Type} (cmp : K → K → Int)
    (pre post : List (K × Int)) (e : K × Int)
    (hord : Ordered cmp ((pre ++ post).map Prod.fst))
    (hb : ∀ x ∈ pre, cmp x.1 e.1 < 0) (ha : ∀ x ∈ post, cmp e.1 x.1 < 0) :
    Ordered cmp ((pre ++ e :: post).map Prod.fst) := by
  unfold Ordered at hord ⊢
  rw [List.map_append, List.pairwise_append] at hord
  rw [List.map_append, List.map_cons, List.pairwise_append, List.pairwise_cons]
  obtain ⟨h1, h2, h3⟩ := hord
  refine ⟨h1, ⟨?_, h2⟩, ?_⟩
  · intro y hy
    obtain ⟨x, hx, rfl⟩ := List.mem_map.mp hy
    exact ha x hx
  · intro x hx y hy
    rcases List.mem_cons.mp hy with e1 | hy
    · subst e1
      obtain ⟨x1, hx1, rfl⟩ := List.mem_map.mp hx
      exact hb x1 hx1
    · exact h3 x hx y hy

/-- Under BST ordering the lookup functions read the in-order sequence. -/
theorem count_eq_lookup {K : Type} (me : internal_multiset K) (key : K) (t : Tree K)
    (hrep : Represents me t) (hbst : BST me.comparator t) (h : TotalOrder me.comparator) :
    multiset_count me key = some (lookup me.comparator key t.inorder) ∧
      multiset_contains me key =
        some (if present me.comparator key t.inorder = true then 1 else 0) := by
  rcases hz : zoom me.comparator key [] t with ⟨fs, u⟩
  have hent := entries_zoom me.comparator key t fs u hz
  obtain ⟨hb, ha⟩ := zoom_bounds h key t [] fs u hbst (by simp [pathBefore])
    (by simp [pathAfter]) hz
  have hin : t.inorder = (pathBefore fs).map (fun e => e.2) ++
      (u.inorder ++ (pathAfter fs).map (fun e => e.2)) := by
    rw [inorder_eq_entries, hent, inorder_eq_entries]
    simp only [List.map_append, List.append_assoc]
  cases u with
  | nil =>
    obtain ⟨-, h1, h2⟩ := lookup_absent_spec me key t fs hrep hz
    have h3 : ∀ e ∈ t.inorder, me.comparator key e.1 ≠ 0 := by
      intro e he
      rw [hin] at he
      simp only [Tree.inorder, List.nil_append, List.mem_append, List.mem_map] at he
      rcases he with ⟨x, hx, rfl⟩ | ⟨x, hx, rfl⟩
      · have := hb x hx
        have := h.swap x.2.1 key
        show me.comparator key x.2.1 ≠ 0
        omega
      · have := ha x hx
        show me.comparator key x.2.1 ≠ 0
        omega
    rw [h1, h2, lookup_none _ _ _ h3, present_none _ _ _ h3]
    simp
  | node l a k c b r =>
    obtain ⟨-, h1, h2⟩ := lookup_present_spec me key t fs l r a k c b hrep hz
    have e := zoom_found_eq me.comparator key t [] fs l r a k c b hz
    have hord := (BST_iff_ordered h t).mp hbst
    rw [keys_eq_inorder, hin] at hord
    simp only [Tree.inorder, List.append_assoc, List.cons_append] at hord hin
    rw [← List.append_assoc] at hord hin
    obtain ⟨h3, -, h4, -⟩ := lookup_mid_eq h key _ _ k c c hord e
    rw [h1, h2, hin, h3, h4]
    simp

/-! ## What the operations do to the in-order sequence -/

theorem total_eq_inorder {K : Type} (t : Tree K) :
    t.total = (t.inorder.map Prod.snd).sum := by
  rw [total_eq_entries, inorder_eq_entries, List.map_map]; rfl

theorem inorder_zoom {K : Type} (cmp : K → K → Int) (key : K) (t : Tree K)
    (fs : List (Step K)) (u : Tree K) (hz : zoom cmp key [] t = (fs, u)) :
    t.inorder = (pathBefore fs).map (fun e => e.2) ++
      (u.inorder ++ (pathAfter fs).map (fun e => e.2)) := by
  rw [inorder_eq_entries, entries_zoom cmp key t fs u hz, inorder_eq_entries]
  simp only [List.map_append, List.append_assoc]

/-- A `multiset_put` of an absent key adds the entry `(key, 1)` where the descent stops. -/
theorem put_t_absent_inorder {K : Type} (cmp : K → K → Int) (key : K) (new : Nat)
    (t T : Tree K) (fs : List (Step K)) (hz : zoom cmp key [] t = (fs, .nil))
    (hT : put_t cmp key new t = some T) :
    T.inorder = (pathBefore fs).map (fun e => e.2) ++
      (key, 1) :: (pathAfter fs).map (fun e => e.2) := by
  simp only [put_t, put_at, hz] at hT
  rw [inorder_eq_entries, ins_bal_entries fs _ T hT, entries_plug]
  simp [leaf]

/-- A `multiset_put` of a present key adds one to the count of its entry. -/
theorem put_t_present_inorder {K : Type} (cmp : K → K → Int) (key : K) (new : Nat)
    (t T : Tree K) (fs : List (Step K)) (l r : Tree K) (a : Nat) (k : K) (c b : Int)
    (hz : zoom cmp key [] t = (fs, .node l a k c b r))
    (hT : put_t cmp key new t = some T) :
    T.inorder = ((pathBefore fs).map (fun e => e.2) ++ l.inorder) ++
      (k, c + 1) :: (r.inorder ++ (pathAfter fs).map (fun e => e.2)) := by
  simp only [put_t, put_at, hz, Option.some.injEq] at hT
  subst hT
  rw [inorder_eq_entries, entries_plug, inorder_eq_entries, inorder_eq_entries]
  simp

theorem present_inorder {K : Type} (cmp : K → K → Int) (key : K)
    (t : Tree K) (fs : List (Step K)) (l r : Tree K) (a : Nat) (k : K) (c b : Int)
    (hz : zoom cmp key [] t = (fs, .node l a k c b r)) :
    t.inorder = ((pathBefore fs).map (fun e => e.2) ++ l.inorder) ++
      (k, c) :: (r.inorder ++ (pathAfter fs).map (fun e => e.2)) := by
  rw [inorder_zoom cmp key t fs _ hz]
  simp [Tree.inorder]

theorem remove_element_t_inorder {K : Type} (fs : List (Step K)) (l r : Tree K) (a : Nat)
    (k : K) (c b : Int) (T : Tree K)
    (h : remove_element_t fs (.node l a k c b r) = some T) :
    T.inorder = ((pathBefore fs).map (fun e => e.2) ++ l.inorder) ++
      (r.inorder ++ (pathAfter fs).map (fun e => e.2)) := by
  rw [inorder_eq_entries, remove_element_t_entries fs l r a k c b T h, inorder_eq_entries,
    inorder_eq_entries]
  simp

theorem remove_t_inorder {K : Type} (cmp : K → K → Int) (key : K)
    (t T : Tree K) (fs : List (Step K)) (l r : Tree K) (a : Nat) (k : K) (c b : Int)
    (hz : zoom cmp key [] t = (fs, .node l a k c b r))
    (hT : remove_t cmp key t = some T) :
    T.inorder = if c - 1 = 0 then
        ((pathBefore fs).map (fun e => e.2) ++ l.inorder) ++
          (r.inorder ++ (pathAfter fs).map (fun e => e.2))
      else ((pathBefore fs).map (fun e => e.2) ++ l.inorder) ++
          (k, c - 1) :: (r.inorder ++ (pathAfter fs).map (fun e => e.2)) := by
  simp only [remove_t, hz] at hT
  by_cases hc : c - 1 = 0
  · simp only [hc, if_true] at hT ⊢
    exact remove_element_t_inorder fs l r a k 0 b T hT
  · simp only [hc, if_false, Option.some.injEq] at hT ⊢
    subst hT
    rw [inorder_eq_entries, entries_plug, inorder_eq_entries, inorder_eq_entries]
    simp

theorem remove_all_t_inorder {K : Type} (cmp : K → K → Int) (key : K)
    (t T : Tree K) (fs : List (Step K)) (l r : Tree K) (a : Nat) (k : K) (c b : Int)
    (hz : zoom cmp key [] t = (fs, .node l a k c b r))
    (hT : remove_all_t cmp key t = some T) :
    T.inorder = ((pathBefore fs).map (fun e => e.2) ++ l.inorder) ++
      (r.inorder ++ (pathAfter fs).map (fun e => e.2)) := by
  simp only [remove_all_t, hz] at hT
  exact remove_element_t_inorder fs l r a k c b T hT

/-! ## Consequences for the ordering, the total and the counts -/

theorem eq_key_iff {K : Type} {cmp : K → K → Int} (h : TotalOrder cmp) (j key k : K)
    (e : cmp key k = 0) : cmp j key = 0 ↔ cmp j k = 0 :=
  ⟨fun e1 => h.eq_trans j key k e1 e, fun e1 => h.eq_trans j k key e1 (h.eq_symm key k e)⟩

theorem put_t_facts {K : Type} {cmp : K → K → Int} (h : TotalOrder cmp) (key : K) (new : Nat)
    (t T : Tree K) (hbst : BST cmp t) (hT : put_t cmp key new t = some T) :
    BST cmp T ∧ T.total = t.total + 1 ∧
      ∀ j, lookup cmp j T.inorder =
        if cmp j key = 0 then lookup cmp j t.inorder + 1 else lookup cmp j t.inorder := by
  have hord := (BST_iff_ordered h t).mp hbst
  rw [keys_eq_inorder] at hord
  rw [BST_iff_ordered h T, keys_eq_inorder, total_eq_inorder, total_eq_inorder]
  rcases hz : zoom cmp key [] t with ⟨fs, u⟩
  cases u with
  | nil =>
    have hin := inorder_zoom cmp key t fs _ hz
    simp only [Tree.inorder, List.nil_append] at hin
    have hTin := put_t_absent_inorder cmp key new t T fs hz hT
    obtain ⟨hb, ha⟩ := zoom_bounds h key t [] fs _ hbst (by simp [pathBefore])
      (by simp [pathAfter]) hz
    rw [hin] at hord ⊢
    rw [hTin]
    have hoT := ordered_insert cmp _ _ (key, 1) hord
      (by
        intro x hx
        obtain ⟨y, hy, rfl⟩ := List.mem_map.mp hx
        exact hb y hy)
      (by
        intro x hx
        obtain ⟨y, hy, rfl⟩ := List.mem_map.mp hx
        exact ha y hy)
    refine ⟨hoT, ?_, ?_⟩
    · simp only [List.map_append, List.map_cons, List.sum_append, List.sum_cons]; omega
    · intro j
      by_cases e : cmp j key = 0
      · obtain ⟨h1, h2, -, -⟩ := lookup_mid_eq h j _ _ key 1 1 hoT e
        rw [h1, h2, if_pos e]; rfl
      · rw [(lookup_mid_ne cmp j _ _ (key, 1) e).1, if_neg e]
  | node l a k c b r =>
    have hin := present_inorder cmp key t fs l r a k c b hz
    have hTin := put_t_present_inorder cmp key new t T fs l r a k c b hz hT
    have ek := zoom_found_eq cmp key t [] fs l r a k c b hz
    rw [hin] at hord ⊢
    rw [hTin]
    refine ⟨ordered_recount cmp _ _ k c (c + 1) hord, ?_, ?_⟩
    · simp only [List.map_append, List.map_cons, List.sum_append, List.sum_cons]; omega
    · intro j
      by_cases e : cmp j key = 0
      · have e1 := (eq_key_iff h j key k ek).mp e
        rw [(lookup_mid_eq h j _ _ k c (c + 1) hord e1).1,
          (lookup_mid_eq h j _ _ k c c hord e1).1, if_pos e]
      · have e1 : cmp j k ≠ 0 := fun e2 => e ((eq_key_iff h j key k ek).mpr e2)
        rw [(lookup_mid_ne cmp j _ _ (k, c + 1) e1).1, (lookup_mid_ne cmp j _ _ (k, c) e1).1,
          if_neg e]

theorem remove_t_facts {K : Type} {cmp : K → K → Int} (h : TotalOrder cmp) (key : K)
    (t T : Tree K) (fs : List (Step K)) (l r : Tree K) (a : Nat) (k : K) (c b : Int)
    (hbst : BST cmp t) (hz : zoom cmp key [] t = (fs, .node l a k c b r))
    (hT : remove_t cmp key t = some T) :
    BST cmp T ∧ T.total = t.total - 1 ∧ lookup cmp key t.inorder = c ∧
      ∀ j, lookup cmp j T.inorder =
        if cmp j key = 0 then lookup cmp j t.inorder - 1 else lookup cmp j t.inorder := by
  have hord := (BST_iff_ordered h t).mp hbst
  rw [keys_eq_inorder] at hord
  rw [BST_iff_ordered h T, keys_eq_inorder, total_eq_inorder, total_eq_inorder]
  have hin := present_inorder cmp key t fs l r a k c b hz
  have hTin := remove_t_inorder cmp key t T fs l r a k c b hz hT
  have ek := zoom_found_eq cmp key t [] fs l r a k c b hz
  rw [hin] at hord ⊢
  rw [hTin]
  by_cases hc : c - 1 = 0
  · simp only [hc, if_true]
    refine ⟨ordered_drop cmp _ _ (k, c) hord, ?_, (lookup_mid_eq h key _ _ k c c hord ek).1, ?_⟩
    · simp only [List.map_append, List.map_cons, List.sum_append, List.sum_cons]; omega
    · intro j
      by_cases e : cmp j key = 0
      · have e1 := (eq_key_iff h j key k ek).mp e
        obtain ⟨h1, h2, -, -⟩ := lookup_mid_eq h j _ _ k c c hord e1
        rw [h1, h2, if_pos e]; omega
      · have e1 : cmp j k ≠ 0 := fun e2 => e ((eq_key_iff h j key k ek).mpr e2)
        rw [(lookup_mid_ne cmp j _ _ (k, c) e1).1, if_neg e]
  · simp only [hc, if_false]
    refine ⟨ordered_recount cmp _ _ k c (c - 1) hord, ?_,
      (lookup_mid_eq h key _ _ k c c hord ek).1, ?_⟩
    · simp only [List.map_append, List.map_cons, List.sum_append, List.sum_cons]; omega
    · intro j
      by_cases e : cmp j key = 0
      · have e1 := (eq_key_iff h j key k ek).mp e
        rw [(lookup_mid_eq h j _ _ k c (c - 1) hord e1).1,
          (lookup_mid_eq h j _ _ k c c hord e1).1, if_pos e]
      · have e1 : cmp j k ≠ 0 := fun e2 => e ((eq_key_iff h j key k ek).mpr e2)
        rw [(lookup_mid_ne cmp j _ _ (k, c - 1) e1).1, (lookup_mid_ne cmp j _ _ (k, c) e1).1,
          if_neg e]

theorem remove_all_t_facts {K : Type} {cmp : K → K → Int} (h : TotalOrder cmp) (key : K)
    (t T : Tree K) (fs : List (Step K)) (l r : Tree K) (a : Nat) (k : K) (c b : Int)
    (hbst : BST cmp t) (hz : zoom cmp key [] t = (fs, .node l a k c b r))
    (hT : remove_all_t cmp key t = some T) :
    BST cmp T ∧ T.total = t.total - c ∧ lookup cmp key t.inorder = c ∧
      ∀ j, (lookup cmp j T.inorder =
          if cmp j key = 0 then 0 else lookup cmp j t.inorder) ∧
        (present cmp j T.inorder =
          if cmp j key = 0 then false else present cmp j t.inorder) := by
  have hord := (BST_iff_ordered h t).mp hbst
  rw [keys_eq_inorder] at hord
  rw [BST_iff_ordered h T, keys_eq_inorder, total_eq_inorder, total_eq_inorder]
  have hin := present_inorder cmp key t fs l r a k c b hz
  have hTin := remove_all_t_inorder cmp key t T fs l r a k c b hz hT
  have ek := zoom_found_eq cmp key t [] fs l r a k c b hz
  rw [hin] at hord ⊢
  rw [hTin]
  refine ⟨ordered_drop cmp _ _ (k, c) hord, ?_, (lookup_mid_eq h key _ _ k c c hord ek).1, ?_⟩
  · simp only [List.map_append, List.map_cons, List.sum_append, List.sum_cons]; omega
  · intro j
    by_cases e : cmp j key = 0
    · have e1 := (eq_key_iff h j key k ek).mp e
      obtain ⟨-, h2, -, h4⟩ := lookup_mid_eq h j _ _ k c c hord e1
      rw [h2, h4, if_pos e, if_pos e]
      exact ⟨rfl, rfl⟩
    · have e1 : cmp j k ≠ 0 := fun e2 => e ((eq_key_iff h j key k ek).mpr e2)
      rw [(lookup_mid_ne cmp j _ _ (k, c) e1).1, (lookup_mid_ne cmp j _ _ (k, c) e1).2,
        if_neg e, if_neg e]
      exact ⟨rfl, rfl⟩

/-! ## The operations as total functions on consistent containers -/

theorem put_t_total {K : Type} (cmp : K → K → Int) (key : K) (new : Nat) (t T : Tree K)
    (hT : put_t cmp key new t = some T) : T.total = t.total + 1 := by
  rw [total_eq_inorder, total_eq_inorder]
  rcases hz : zoom cmp key [] t with ⟨fs, u⟩
  cases u with
  | nil =>
    have hin := inorder_zoom cmp key t fs _ hz
    simp only [Tree.inorder, List.nil_append] at hin
    rw [hin, put_t_absent_inorder cmp key new t T fs hz hT]
    simp only [List.map_append, List.map_cons, List.sum_append, List.sum_cons]; omega
  | node l a k c b r =>
    rw [present_inorder cmp key t fs l r a k c b hz,
      put_t_present_inorder cmp key new t T fs l r a k c b hz hT]
    simp only [List.map_append, List.map_cons, List.sum_append, List.sum_cons]; omega

theorem remove_t_total {K : Type} (cmp : K → K → Int) (key : K)
    (t T : Tree K) (fs : List (Step K)) (l r : Tree K) (a : Nat) (k : K) (c b : Int)
    (hz : zoom cmp key [] t = (fs, .node l a k c b r))
    (hT : remove_t cmp key t = some T) : T.total = t.total - 1 := by
  rw [total_eq_inorder, total_eq_inorder, present_inorder cmp key t fs l r a k c b hz,
    remove_t_inorder cmp key t T fs l r a k c b hz hT]
  by_cases hc : c - 1 = 0
  · simp only [hc, if_true, List.map_append, List.map_cons, List.sum_append, List.sum_cons]
    omega
  · simp only [hc, if_false, List.map_append, List.map_cons, List.sum_append, List.sum_cons]
    omega

theorem remove_all_t_total {K : Type} (cmp : K → K → Int) (key : K)
    (t T : Tree K) (fs : List (Step K)) (l r : Tree K) (a : Nat) (k : K) (c b : Int)
    (hz : zoom cmp key [] t = (fs, .node l a k c b r))
    (hT : remove_all_t cmp key t = some T) : T.total = t.total - c := by
  rw [total_eq_inorder, total_eq_inorder, present_inorder cmp key t fs l r a k c b hz,
    remove_all_t_inorder cmp key t T fs l r a k c b hz hT]
  simp only [List.map_append, List.map_cons, List.sum_append, List.sum_cons]
  omega

theorem remove_t_bst {K : Type} {cmp : K → K → Int} (h : TotalOrder cmp) (key : K)
    (t T : Tree K) (hbst : BST cmp t) (hT : remove_t cmp key t = some T) : BST cmp T := by
  rcases hz : zoom cmp key [] t with ⟨fs, u⟩
  cases u with
  | nil =>
    simp only [remove_t, hz, Option.some.injEq] at hT
    subst hT; exact hbst
  | node l a k c b r => exact (remove_t_facts h key t T fs l r a k c b hbst hz hT).1

theorem remove_all_t_bst {K : Type} {cmp : K → K → Int} (h : TotalOrder cmp) (key : K)
    (t T : Tree K) (hbst : BST cmp t) (hT : remove_all_t cmp key t = some T) : BST cmp T := by
  rcases hz : zoom cmp key [] t with ⟨fs, u⟩
  cases u with
  | nil =>
    simp only [remove_all_t, hz, Option.some.injEq] at hT
    subst hT; exact hbst
  | node l a k c b r => exact (remove_all_t_facts h key t T fs l r a k c b hbst hz hT).1

/-- The function `multiset_put` with any outcome of its allocations: it returns, either with
0 and the tree of `put_t`, or with `-ENOMEM` and the container as it was. -/
theorem put_any_spec {K : Type} (me : internal_multiset K) (key : K) (t : Tree K)
    (node_ok key_ok : Bool) (hrep : Represents me t) (havl : AVL t) :
    ∃ r me1 T, multiset_put me key node_ok key_ok = some (r, me1) ∧ Represents me1 T ∧
      AVL T ∧ me1.comparator = me.comparator ∧ me1.key_size = me.key_size ∧
      ((r = 0 ∧ put_t me.comparator key me.mem.length t = some T ∧
          me1.size = me.size + 1) ∨
        (r = -ENOMEM ∧ me1 = me ∧ T = t)) := by
  obtain ⟨me1, T, h1, r1, a1, t1, s1, c1, k1⟩ := put_avl me key t hrep havl
  by_cases hz : (zoom me.comparator key [] t).2 = .nil
  · by_cases hfl : (node_ok && key_ok) = false
    · exact ⟨-ENOMEM, me, t, put_absent_fail me key t _ _ hrep hz hfl, hrep, havl, rfl, rfl,
        Or.inr ⟨rfl, rfl, rfl⟩⟩
    · simp only [Bool.and_eq_false_imp, Bool.not_eq_false, not_forall, Classical.not_imp,
        Bool.not_eq_true] at hfl
      have e1 : node_ok = true := by cases node_ok <;> simp_all
      have e2 : key_ok = true := by cases key_ok <;> simp_all
      subst e1; subst e2
      exact ⟨0, me1, T, h1, r1, a1, c1, k1, Or.inl ⟨rfl, t1, s1⟩⟩
  · rw [put_present me key t _ _ hrep hz]
    exact ⟨0, me1, T, h1, r1, a1, c1, k1, Or.inl ⟨rfl, t1, s1⟩⟩

/-- The function `multiset_remove` returns on every consistent container. -/
theorem remove_any_spec {K : Type} (me : internal_multiset K) (key : K) (t : Tree K)
    (hrep : Represents me t) (havl : AVL t) :
    ∃ r me1 T, multiset_remove me key = some (r, me1) ∧ Represents me1 T ∧ AVL T ∧
      remove_t me.comparator key t = some T ∧
      me1.comparator = me.comparator ∧ me1.key_size = me.key_size ∧
      me1.size + t.total = me.size + T.total ∧ (r = 0 ∨ r = 1) := by
  rcases hz : zoom me.comparator key [] t with ⟨fs, u⟩
  cases u with
  | nil =>
    obtain ⟨hm, -, -⟩ := lookup_absent_spec me key t fs hrep hz
    exact ⟨0, me, t, (remove_absent_spec me key hm).1, hrep, havl, by simp [remove_t, hz],
      rfl, rfl, rfl, Or.inl rfl⟩
  | node l a k c b r =>
    obtain ⟨me1, T, h1, r1, a1, t1, s1, c1, k1⟩ :=
      remove_present_spec me key t fs l r a k c b hrep havl hz
    have := remove_t_total me.comparator key t T fs l r a k c b hz t1
    exact ⟨1, me1, T, h1, r1, a1, t1, c1, k1, by omega, Or.inr rfl⟩

/-- The function `multiset_remove_all` returns on every consistent container. -/
theorem remove_all_any_spec {K : Type} (me : internal_multiset K) (key : K) (t : Tree K)
    (hrep : Represents me t) (havl : AVL t) :
    ∃ r me1 T, multiset_remove_all me key = some (r, me1) ∧ Represents me1 T ∧ AVL T ∧
      remove_all_t me.comparator key t = some T ∧
      me1.comparator = me.comparator ∧ me1.key_size = me.key_size ∧
      me1.size + t.total = me.size + T.total ∧ (r = 0 ∨ r = 1) := by
  rcases hz : zoom me.comparator key [] t with ⟨fs, u⟩
  cases u with
  | nil =>
    obtain ⟨hm, -, -⟩ := lookup_absent_spec me key t fs hrep hz
    exact ⟨0, me, t, (remove_absent_spec me key hm).2, hrep, havl, by simp [remove_all_t, hz],
      rfl, rfl, rfl, Or.inl rfl⟩
  | node l a k c b r =>
    obtain ⟨me1, T, h1, r1, a1, t1, s1, c1, k1⟩ :=
      remove_all_present_spec me key t fs l r a k c b hrep havl hz
    have := remove_all_t_total me.comparator key t T fs l r a k c b hz t1
    exact ⟨1, me1, T, h1, r1, a1, t1, c1, k1, by omega, Or.inr rfl⟩

/-- Every reachable container holds an AVL tree whose counts add up to its size. -/
theorem reachable_inv {K : Type} (me : internal_multiset K) (h : Reachable me) :
    ∃ t, Represents me t ∧ AVL t ∧ me.size = t.total := by
  induction h with
  | init key_size cmp me h =>
    refine ⟨.nil, ?_⟩
    simp only [multiset_init] at h
    split at h
    · cases h
    · simp only [if_true, Option.some.injEq] at h
      subst h
      exact ⟨⟨rfl, trivial, List.nodup_nil⟩, trivial, rfl⟩
  | put me key node_ok key_ok r me1 _ hp ih =>
    obtain ⟨t, hrep, havl, hs⟩ := ih
    obtain ⟨r2, me2, T, h2, r2rep, a2, -, -, hcase⟩ := put_any_spec me key t node_ok key_ok
      hrep havl
    rw [hp] at h2
    simp only [Option.some.injEq, Prod.mk.injEq] at h2
    obtain ⟨rfl, rfl⟩ := h2
    refine ⟨T, r2rep, a2, ?_⟩
    rcases hcase with ⟨-, hT, hsz⟩ | ⟨-, e1, e2⟩
    · rw [hsz, put_t_total _ _ _ _ _ hT, hs]
    · rw [e1, e2, hs]
  | remove me key r me1 _ hp ih =>
    obtain ⟨t, hrep, havl, hs⟩ := ih
    obtain ⟨r2, me2, T, h2, r2rep, a2, -, -, -, hsz, -⟩ := remove_any_spec me key t hrep havl
    rw [hp] at h2
    simp only [Option.some.injEq, Prod.mk.injEq] at h2
    obtain ⟨rfl, rfl⟩ := h2
    exact ⟨T, r2rep, a2, by omega⟩
  | remove_all me key r me1 _ hp ih =>
    obtain ⟨t, hrep, havl, hs⟩ := ih
    obtain ⟨r2, me2, T, h2, r2rep, a2, -, -, -, hsz, -⟩ :=
      remove_all_any_spec me key t hrep havl
    rw [hp] at h2
    simp only [Option.some.injEq, Prod.mk.injEq] at h2
    obtain ⟨rfl, rfl⟩ := h2
    exact ⟨T, r2rep, a2, by omega⟩
  | clear me me1 _ hp ih =>
    obtain ⟨t, hrep, havl, hs⟩ := ih
    obtain ⟨me2, h2, r2, s2, -, -⟩ := clear_spec me t hrep havl
    rw [hp] at h2
    simp only [Option.some.injEq] at h2
    subst h2
    exact ⟨.nil, r2, trivial, by rw [s2]; rfl⟩

/-! ## Facts used by the statements about the interface -/

/-- In an increasing sequence, an entry whose key compares equal gives the count. -/
theorem lookup_mem {K : Type} {cmp : K → K → Int} (h : TotalOrder cmp) (j : K)
    (es : List (K × Int)) (hord : Ordered cmp (es.map Prod.fst)) (e : K × Int) (he : e ∈ es)
    (heq : cmp j e.1 = 0) : lookup cmp j es = e.2 := by
  obtain ⟨pre, post, rfl⟩ := List.append_of_mem he
  exact (lookup_mid_eq h j pre post e.1 e.2 e.2 hord heq).1

/-- The lookup functions on a container with BST ordering, in terms of the nodes. -/
theorem lookup_nodes {K : Type} (me : internal_multiset K) (key : K) (t : Tree K)
    (hrep : Represents me t) (hbst : BST me.comparator t) (hord : TotalOrder me.comparator) :
    ∃ n c, multiset_contains me key = some n ∧ multiset_count me key = some c ∧
      (n = 1 ↔ ∃ e ∈ t.inorder, me.comparator key e.1 = 0) ∧ (n = 0 ∨ n = 1) ∧
      (∀ e ∈ t.inorder, me.comparator key e.1 = 0 → c = e.2) ∧
      ((∀ e ∈ t.inorder, me.comparator key e.1 ≠ 0) → c = 0) := by
  obtain ⟨h1, h2⟩ := count_eq_lookup me key t hrep hbst hord
  have ho := (BST_iff_ordered hord t).mp hbst
  rw [keys_eq_inorder] at ho
  refine ⟨_, _, h2, h1, ?_, ?_, ?_, ?_⟩
  · rw [← present_iff]
    by_cases hp : present me.comparator key t.inorder = true
    · simp [hp]
    · simp [hp]
  · by_cases hp : present me.comparator key t.inorder = true
    · simp [hp]
    · simp [hp]
  · intro e he heq
    exact lookup_mem hord key _ ho e he heq
  · intro hne
    exact lookup_none _ _ _ hne

theorem compare_int_total : TotalOrder compare_int :=
  ⟨fun a b => by simp only [compare_int]; omega,
   fun a b c => by simp only [compare_int]; omega⟩

theorem example_one_represents : Represents example_one (leaf 0 3) := by
  simp [Represents, example_one, leaf, Rep_node, rd]

theorem example_one_avl : AVL (leaf 0 3 : Tree Int) := by simp [leaf, AVL_node]

theorem example_one_bst : BST example_one.comparator (leaf 0 3) := by
  simp [leaf, BST_node, keys_nil, BST]

theorem example_three_represents : Represents example_three tree_three := by
  simp [Represents, example_three, tree_three, leaf, Rep_node, rd]

theorem example_three_avl : AVL tree_three := by
  simp [tree_three, leaf, AVL_node]

theorem example_three_bst : BST example_three.comparator tree_three := by
  simp [tree_three, leaf, BST_node, keys_nil, keys_node, BST, example_three, compare_int]

theorem example_one_reachable : Reachable example_one :=
  Reachable.put example_empty 3 true true 0 example_one
    (Reachable.init 4 compare_int example_empty rfl) rfl

/-! ## Occurrence counts stay positive -/

theorem mem_mid {α : Type} (pre post : List α) (x e : α) :
    e ∈ pre ++ x :: post ↔ e = x ∨ e ∈ pre ++ post := by
  simp only [List.mem_append, List.mem_cons]
  tauto

theorem put_t_pos {K : Type} (cmp : K → K → Int) (key : K) (new : Nat) (t T : Tree K)
    (hpos : ∀ e ∈ t.inorder, 1 ≤ e.2) (hT : put_t cmp key new t = some T) :
    ∀ e ∈ T.inorder, 1 ≤ e.2 := by
  rcases hz : zoom cmp key [] t with ⟨fs, u⟩
  cases u with
  | nil =>
    have hin := inorder_zoom cmp key t fs _ hz
    simp only [Tree.inorder, List.nil_append] at hin
    rw [put_t_absent_inorder cmp key new t T fs hz hT]
    rw [hin] at hpos
    intro e he
    rcases (mem_mid _ _ _ _).mp he with e1 | he
    · subst e1; exact le_refl _
    · exact hpos e he
  | node l a k c b r =>
    rw [put_t_present_inorder cmp key new t T fs l r a k c b hz hT]
    rw [present_inorder cmp key t fs l r a k c b hz] at hpos
    intro e he
    rcases (mem_mid _ _ _ _).mp he with e1 | he
    · subst e1
      have := hpos (k, c) ((mem_mid _ _ _ _).mpr (Or.inl rfl))
      show 1 ≤ c + 1
      have h2 : 1 ≤ c := this
      omega
    · exact hpos e ((mem_mid _ _ _ _).mpr (Or.inr he))

theorem remove_t_pos {K : Type} (cmp : K → K → Int) (key : K) (t T : Tree K)
    (hpos : ∀ e ∈ t.inorder, 1 ≤ e.2) (hT : remove_t cmp key t = some T) :
    ∀ e ∈ T.inorder, 1 ≤ e.2 := by
  rcases hz : zoom cmp key [] t with ⟨fs, u⟩
  cases u with
  | nil =>
    simp only [remove_t, hz, Option.some.injEq] at hT
    subst hT; exact hpos
  | node l a k c b r =>
    rw [remove_t_inorder cmp key t T fs l r a k c b hz hT]
    rw [present_inorder cmp key t fs l r a k c b hz] at hpos
    have hc : 1 ≤ c := hpos (k, c) ((mem_mid _ _ _ _).mpr (Or.inl rfl))
    by_cases h0 : c - 1 = 0
    · simp only [h0, if_true]
      intro e he
      exact hpos e ((mem_mid _ _ _ _).mpr (Or.inr he))
    · simp only [h0, if_false]
      intro e he
      rcases (mem_mid _ _ _ _).mp he with e1 | he
      · subst e1
        show 1 ≤ c - 1
        omega
      · exact hpos e ((mem_mid _ _ _ _).mpr (Or.inr he))

theorem remove_all_t_pos {K : Type} (cmp : K → K → Int) (key : K) (t T : Tree K)
    (hpos : ∀ e ∈ t.inorder, 1 ≤ e.2) (hT : remove_all_t cmp key t = some T) :
    ∀ e ∈ T.inorder, 1 ≤ e.2 := by
  rcases hz : zoom cmp key [] t with ⟨fs, u⟩
  cases u with
  | nil =>
    simp only [remove_all_t, hz, Option.some.injEq] at hT
    subst hT; exact hpos
  | node l a k c b r =>
    rw [remove_all_t_inorder cmp key t T fs l r a k c b hz hT]
    rw [present_inorder cmp key t fs l r a k c b hz] at hpos
    intro e he
    exact hpos e ((mem_mid _ _ _ _).mpr (Or.inr he))

/-- Every reachable container holds an AVL tree whose counts are positive and add up to its
size. -/
theorem reachable_inv_pos {K : Type} (me : internal_multiset K) (h : Reachable me) :
    ∃ t, Represents me t ∧ AVL t ∧ me.size = t.total ∧ ∀ e ∈ t.inorder, 1 ≤ e.2 := by
  induction h with
  | init key_size cmp me h =>
    refine ⟨.nil, ?_⟩
    simp only [multiset_init] at h
    split at h
    · cases h
    · simp only [if_true, Option.some.injEq] at h
      subst h
      exact ⟨⟨rfl, trivial, List.nodup_nil⟩, trivial, rfl, fun e he => by simp [Tree.inorder] at he⟩
  | put me key node_ok key_ok r me1 _ hp ih =>
    obtain ⟨t, hrep, havl, hs, hpos⟩ := ih
    obtain ⟨r2, me2, T, h2, r2rep, a2, -, -, hcase⟩ := put_any_spec me key t node_ok key_ok
      hrep havl
    rw [hp] at h2
    simp only [Option.some.injEq, Prod.mk.injEq] at h2
    obtain ⟨rfl, rfl⟩ := h2
    refine ⟨T, r2rep, a2, ?_⟩
    rcases hcase with ⟨-, hT, hsz⟩ | ⟨-, e1, e2⟩
    · exact ⟨by rw [hsz, put_t_total _ _ _ _ _ hT, hs], put_t_pos _ _ _ _ _ hpos hT⟩
    · exact ⟨by rw [e1, e2, hs], by rw [e2]; exact hpos⟩
  | remove me key r me1 _ hp ih =>
    obtain ⟨t, hrep, havl, hs, hpos⟩ := ih
    obtain ⟨r2, me2, T, h2, r2rep, a2, hT, -, -, hsz, -⟩ := remove_any_spec me key t hrep havl
    rw [hp] at h2
    simp only [Option.some.injEq, Prod.mk.injEq] at h2
    obtain ⟨rfl, rfl⟩ := h2
    exact ⟨T, r2rep, a2, by omega, remove_t_pos _ _ _ _ hpos hT⟩
  | remove_all me key r me1 _ hp ih =>
    obtain ⟨t, hrep, havl, hs, hpos⟩ := ih
    obtain ⟨r2, me2, T, h2, r2rep, a2, hT, -, -, hsz, -⟩ :=
      remove_all_any_spec me key t hrep havl
    rw [hp] at h2
    simp only [Option.some.injEq, Prod.mk.injEq] at h2
    obtain ⟨rfl, rfl⟩ := h2
    exact ⟨T, r2rep, a2, by omega, remove_all_t_pos _ _ _ _ hpos hT⟩
  | clear me me1 _ hp ih =>
    obtain ⟨t, hrep, havl, hs, hpos⟩ := ih
    obtain ⟨me2, h2, r2, s2, -, -⟩ := clear_spec me t hrep havl
    rw [hp] at h2
    simp only [Option.some.injEq] at h2
    subst h2
    exact ⟨.nil, r2, trivial, by rw [s2]; rfl, fun e he => by simp [Tree.inorder] at he⟩

/-- Every entry of the tree is a node of the memory with that key and count. -/
theorem rep_entry {K : Type} (h : List (Option (node K))) (t : Tree K) :
    ∀ par, Rep h par t → ∀ e ∈ t.entries,
      ∃ n, rd h e.1 = some n ∧ n.key = e.2.1 ∧ n.count = e.2.2 := by
  induction t with
  | nil => intro _ _ e he; simp at he
  | node l a k c b r ihl ihr =>
    intro par hrep e he
    rw [Rep_node] at hrep
    simp only [entries_node, List.mem_append, List.mem_cons] at he
    rcases he with he | e1 | he
    · exact ihl _ hrep.2.1 e he
    · subst e1; exact ⟨_, hrep.1, rfl, rfl⟩
    · exact ihr _ hrep.2.2 e he

theorem lookup_nonneg {K : Type} (cmp : K → K → Int) (j : K) (es : List (K × Int))
    (hpos : ∀ e ∈ es, 1 ≤ e.2) : 0 ≤ lookup cmp j es := by
  induction es with
  | nil => simp [lookup_nil]
  | cons e es ih =>
    rw [lookup_cons]
    split
    · have := hpos e (List.mem_cons_self _ _); omega
    · exact ih (fun x hx => hpos x (List.mem_cons_of_mem _ hx))

/-- With positive counts, a key is present exactly when its count is positive. -/
theorem lookup_pos_iff {K : Type} (cmp : K → K → Int) (j : K) (es : List (K × Int))
    (hpos : ∀ e ∈ es, 1 ≤ e.2) : 0 < lookup cmp j es ↔ present cmp j es = true := by
  induction es with
  | nil => simp [lookup_nil, present_nil]
  | cons e es ih =>
    rw [lookup_cons, present_cons]
    by_cases he : cmp j e.1 = 0
    · have := hpos e (List.mem_cons_self _ _)
      simp only [he, if_true, iff_true]
      omega
    · simp only [he, if_false]
      exact ih (fun x hx => hpos x (List.mem_cons_of_mem _ hx))

/-- On a container without nodes every lookup answers 0. -/
theorem lookup_empty {K : Type} (me : internal_multiset K) (key : K) (h : me.root = none) :
    multiset_contains me key = some 0 ∧ multiset_count me key = some 0 := by
  simp [multiset_contains, multiset_count, multiset_equal_match, h]

/-! ## Sequences of calls agree with the reference multiset -/

theorem count_lookup_eq {K : Type} (me : internal_multiset K) (t : Tree K) (j : K) (c : Int)
    (hrep : Represents me t) (hbst : BST me.comparator t) (hord : TotalOrder me.comparator)
    (h : multiset_count me j = some c) : lookup me.comparator j t.inorder = c := by
  have := (count_eq_lookup me j t hrep hbst hord).1
  rw [h] at this
  exact (Option.some.inj this).symm

/-- A sequence of calls on a consistent container whose counts agree with the reference
map: every call returns what the reference run expects, and the size and the counts follow
the reference. -/
theorem run_ops_spec {K : Type} (ops : List (Op K)) :
    ∀ (me : internal_multiset K) (t : Tree K) (m : K → Nat),
      Represents me t → AVL t → BST me.comparator t → TotalOrder me.comparator →
      (∀ e ∈ t.inorder, 1 ≤ e.2) →
      (∀ j, lookup me.comparator j t.inorder = (m j : Int)) →
      ∃ rs me1, run_ops ops me = some (rs, me1) ∧
        rs = (reference_run me.comparator ops m).1 ∧
        me1.size = me.size + count_puts ops - count_removed ops rs ∧
        (∀ j, multiset_count me1 j = some ((reference_run me.comparator ops m).2 j : Int)) := by
  induction ops with
  | nil =>
    intro me t m hrep _ hbst hord _ hm
    refine ⟨[], me, rfl, rfl, by simp [count_puts, count_removed], ?_⟩
    intro j
    rw [(count_eq_lookup me j t hrep hbst hord).1, hm j]
    rfl
  | cons op ops ih =>
    intro me t m hrep havl hbst hord hpos hm
    cases op with
    | put key =>
      obtain ⟨me1, T, h1, r1, a1, hT, s1, c1, -⟩ := put_avl me key t hrep havl
      obtain ⟨hb, -, hl⟩ := put_t_facts hord key _ t T hbst hT
      have hpos1 := put_t_pos _ _ _ _ _ hpos hT
      have hm1 : ∀ j, lookup me1.comparator j T.inorder =
          (reference_put me.comparator m key j : Int) := by
        intro j
        rw [c1, hl j, hm j]
        unfold reference_put
        split <;> simp
      obtain ⟨rs, me2, h2, hrs, hs2, hc2⟩ := ih me1 T (reference_put me.comparator m key) r1 a1
        (by rw [c1]; exact hb) (by rw [c1]; exact hord) hpos1 hm1
      rw [c1] at hrs hc2
      refine ⟨0 :: rs, me2, ?_, ?_, ?_, ?_⟩
      · simp [run_ops, h1, h2]
      · simp only [reference_run]; rw [hrs]
      · simp only [count_puts, count_removed]; omega
      · intro j; simp only [reference_run]; exact hc2 j
    | remove key =>
      rcases hz : zoom me.comparator key [] t with ⟨fs, u⟩
      cases u with
      | nil =>
        obtain ⟨hmt, hcnt, -⟩ := lookup_absent_spec me key t fs hrep hz
        have hk : lookup me.comparator key t.inorder = 0 :=
          count_lookup_eq me t key 0 hrep hbst hord hcnt
        have hmk : m key = 0 := by have := hm key; rw [hk] at this; omega
        have href : reference_remove me.comparator m key = (0, m) := by
          simp [reference_remove, hmk]
        obtain ⟨rs, me2, h2, hrs, hs2, hc2⟩ := ih me t m hrep havl hbst hord hpos hm
        refine ⟨0 :: rs, me2, ?_, ?_, ?_, ?_⟩
        · simp [run_ops, (remove_absent_spec me key hmt).1, h2]
        · simp only [reference_run, href]; rw [hrs]
        · simp only [count_puts, count_removed]
          rw [if_neg (by decide)]; omega
        · intro j; simp only [reference_run, href]; exact hc2 j
      | node l a k c b r =>
        obtain ⟨me1, T, h1, r1, a1, hT, s1, c1, -⟩ :=
          remove_present_spec me key t fs l r a k c b hrep havl hz
        obtain ⟨hb, -, hk, hl⟩ := remove_t_facts hord key t T fs l r a k c b hbst hz hT
        have hpos1 := remove_t_pos _ _ _ _ hpos hT
        have hc : 1 ≤ c := by
          have := hpos (k, c) (by
            rw [present_inorder me.comparator key t fs l r a k c b hz]
            exact (mem_mid _ _ _ _).mpr (Or.inl rfl))
          exact this
        have hmk : 0 < m key := by have := hm key; rw [hk] at this; omega
        have href : reference_remove me.comparator m key =
            (1, fun j => if me.comparator j key = 0 then m j - 1 else m j) := by
          simp [reference_remove, hmk]
        have hm1 : ∀ j, lookup me1.comparator j T.inorder =
            ((fun j => if me.comparator j key = 0 then m j - 1 else m j) j : Int) := by
          intro j
          have h0 := lookup_nonneg me.comparator j T.inorder hpos1
          rw [c1]
          rw [hl j, hm j] at h0 ⊢
          show _ = ((if me.comparator j key = 0 then m j - 1 else m j : Nat) : Int)
          by_cases e : me.comparator j key = 0
          · simp only [e, if_true] at h0 ⊢
            omega
          · simp only [e, if_false]
        obtain ⟨rs, me2, h2, hrs, hs2, hc2⟩ := ih me1 T _ r1 a1
          (by rw [c1]; exact hb) (by rw [c1]; exact hord) hpos1 hm1
        rw [c1] at hrs hc2
        refine ⟨1 :: rs, me2, ?_, ?_, ?_, ?_⟩
        · simp [run_ops, h1, h2]
        · simp only [reference_run, href]; rw [hrs]
        · simp only [count_puts, count_removed, if_true]; omega
        · intro j; simp only [reference_run, href]; exact hc2 j

/-! ## Calls that only change a count -/

/-- The descent loop of `multiset_put` on a key that is present: the count of the matching
node is incremented, and so is the size. -/
theorem put_loop_found {K : Type} (key : K) (t : Tree K) :
    ∀ (me : internal_multiset K) (fs : List (Step K)) (x fuel : Nat) (node_ok key_ok : Bool)
      (fs1 : List (Step K)) (l r : Tree K) (a : Nat) (k : K) (c b : Int),
      Represents me (plug fs t) → t.ptr = some x → t.size ≤ fuel →
      zoom me.comparator key fs t = (fs1, .node l a k c b r) →
      multiset_put_loop key node_ok key_ok fuel me x =
        (wr me a fun (n : node K) => { n with count := n.count + 1 }).andThen fun m =>
          some (0, { m with size := m.size + 1 }) := by
  induction t with
  | nil => intro me fs x fuel _ _ _ _ _ _ _ _ _ _ ht; simp at ht
  | node l0 a0 k0 c0 b0 r0 ihl ihr =>
    intro me fs x fuel node_ok key_ok fs1 l r a k c b hrep ht hfuel hz
    simp only [ptr_node, Option.some.injEq] at ht
    subst ht
    rw [size_node_pos] at hfuel
    cases fuel with
    | zero => omega
    | succ fuel =>
      have hp := rd_focus me fs l0 r0 a0 k0 c0 b0 hrep
      simp only [multiset_put_loop, hp, andThen_some]
      by_cases hlt : me.comparator key k0 < 0
      · simp only [hlt, if_true]
        rw [zoom_lt _ _ _ _ _ _ _ _ _ hlt] at hz
        cases l0 with
        | nil => simp at hz
        | node ll la lk lc lb lr =>
          simp only [ptr_node]
          rw [size_node_pos] at hfuel
          exact ihl me (.L a0 k0 c0 b0 r0 :: fs) la fuel _ _ _ _ _ _ _ _ _ hrep rfl
            (by rw [size_node_pos]; omega) hz
      · simp only [hlt, if_false]
        by_cases hgt : me.comparator key k0 > 0
        · simp only [hgt, if_true]
          rw [zoom_gt _ _ _ _ _ _ _ _ _ hlt hgt] at hz
          cases r0 with
          | nil => simp at hz
          | node rl ra rk rc rb rr =>
            simp only [ptr_node]
            rw [size_node_pos] at hfuel
            exact ihr me (.R l0 a0 k0 c0 b0 :: fs) ra fuel _ _ _ _ _ _ _ _ _ hrep rfl
              (by rw [size_node_pos]; omega) hz
        · simp only [hgt, if_false]
          rw [zoom_eq _ _ _ _ _ _ _ _ _ hlt hgt] at hz
          simp only [Prod.mk.injEq, Tree.node.injEq] at hz
          obtain ⟨-, -, e, -⟩ := hz
          subst e
          rfl

/-- When `multiset_contains` answers 1 the descent stops at a node. -/
theorem contains_one_zoom {K : Type} (me : internal_multiset K) (key : K) (t : Tree K)
    (hrep : Represents me t) (hc : multiset_contains me key = some 1) :
    ∃ fs l a k c b r, zoom me.comparator key [] t = (fs, .node l a k c b r) := by
  rcases hz : zoom me.comparator key [] t with ⟨fs, u⟩
  cases u with
  | nil =>
    have := (lookup_absent_spec me key t fs hrep hz).2.2
    rw [hc] at this
    simp at this
  | node l a k c b r => exact ⟨fs, l, a, k, c, b, r, rfl⟩

/-- A `multiset_put` of a present key: the whole state afterwards. -/
theorem put_present_exact {K : Type} (me : internal_multiset K) (key : K) (t : Tree K)
    (node_ok key_ok : Bool) (hrep : Represents me t)
    (hc : multiset_contains me key = some 1) :
    ∃ a n, multiset_equal_match me key = some (some a) ∧ rd me.mem a = some n ∧
      me.comparator key n.key = 0 ∧
      multiset_put me key node_ok key_ok =
        some (0, { me with mem := upd me.mem a (some { n with count := n.count + 1 })
                           size := me.size + 1 }) := by
  obtain ⟨fs, l, a, k, c, b, r, hz⟩ := contains_one_zoom me key t hrep hc
  obtain ⟨hm, -, -⟩ := lookup_present_spec me key t fs l r a k c b hrep hz
  have hp := rd_focus me fs l r a k c b (represents_zoom me key t fs _ hrep hz)
  have ek := zoom_found_eq me.comparator key t [] fs l r a k c b hz
  refine ⟨a, _, hm, hp, ek, ?_⟩
  cases t with
  | nil => simp at hz
  | node l0 a0 k0 c0 b0 r0 =>
    have hroot : me.root = some a0 := hrep.1
    have hsz := represents_size_le me _ hrep
    simp only [multiset_put, hroot]
    rw [put_loop_found key _ me [] a0 (me.mem.length + 1) _ _ fs l r a k c b hrep rfl
      (by omega) hz, wr_some me a _ _ hp]
    simp [hroot]

theorem rd_upd_length {K : Type} (h : List (Option (node K))) (p : Nat) (n : node K)
    (v : Option (node K)) (hp : rd h p = some n) : (upd h p v).length = h.length := by
  have := lt_length_of_rd h p n hp
  simp [upd, this]

/-! ## The record of the calls of `multiset_repair` -/

theorem log_wr2 {K : Type} {me me1 : internal_multiset K} {p q : Nat}
    {f g : node K → node K}
    (h : ((wr me p f).andThen fun m => wr m q g) = some me1) : me1.repairs = me.repairs := by
  simp only [andThen_eq_some] at h
  obtain ⟨m, h1, h2⟩ := h
  exact (log_wr h2).trans (log_wr h1)

theorem log_reference_parent {K : Type} {me me1 : internal_multiset K} {p c : Nat}
    (h : multiset_reference_parent me p c = some me1) : me1.repairs = me.repairs := by
  simp only [multiset_reference_parent, andThen_eq_some] at h
  obtain ⟨pn, -, me2, h2, pn2, -, h3⟩ := h
  have k2 := log_wr h2
  split at h3
  · simp only [Option.some.injEq] at h3
    subst h3
    exact k2
  · simp only [andThen_eq_some] at h3
    obtain ⟨gn, -, h3⟩ := h3
    split at h3
    · exact (log_wr h3).trans k2
    · exact (log_wr h3).trans k2

theorem log_rotate_left {K : Type} {me me1 : internal_multiset K} {p c : Nat}
    (h : multiset_rotate_left me p c = some me1) : me1.repairs = me.repairs := by
  simp only [multiset_rotate_left, andThen_eq_some] at h
  obtain ⟨m1, h1, cn, -, m2, h2, m3, h3, m4, h4, h5⟩ := h
  exact (log_wr h5).trans ((log_wr h4).trans ((log_wr h3).trans ((log_wr_if h2).trans
    (log_reference_parent h1))))

theorem log_rotate_right {K : Type} {me me1 : internal_multiset K} {p c : Nat}
    (h : multiset_rotate_right me p c = some me1) : me1.repairs = me.repairs := by
  simp only [multiset_rotate_right, andThen_eq_some] at h
  obtain ⟨m1, h1, cn, -, m2, h2, m3, h3, m4, h4, h5⟩ := h
  exact (log_wr h5).trans ((log_wr h4).trans ((log_wr h3).trans ((log_wr_if h2).trans
    (log_reference_parent h1))))

theorem log_repair_left {K : Type} {me : internal_multiset K} {p c : Nat}
    {r : Nat × internal_multiset K} (h : multiset_repair_left me p c = some r) :
    r.2.repairs = me.repairs := by
  simp only [multiset_repair_left, andThen_eq_some] at h
  obtain ⟨m1, h1, cn, -, m2, h2, h3⟩ := h
  simp only [Option.some.injEq] at h3
  subst h3
  refine Eq.trans ?_ (log_rotate_left h1)
  split at h2
  · exact log_wr2 h2
  · exact log_wr2 h2

theorem log_repair_right {K : Type} {me : internal_multiset K} {p c : Nat}
    {r : Nat × internal_multiset K} (h : multiset_repair_right me p c = some r) :
    r.2.repairs = me.repairs := by
  simp only [multiset_repair_right, andThen_eq_some] at h
  obtain ⟨m1, h1, cn, -, m2, h2, h3⟩ := h
  simp only [Option.some.injEq] at h3
  subst h3
  refine Eq.trans ?_ (log_rotate_right h1)
  split at h2
  · exact log_wr2 h2
  · exact log_wr2 h2

theorem log_repair_left_right {K : Type} {me : internal_multiset K} {p c g : Nat}
    {r : Nat × internal_multiset K} (h : multiset_repair_left_right me p c g = some r) :
    r.2.repairs = me.repairs := by
  simp only [multiset_repair_left_right, andThen_eq_some] at h
  obtain ⟨m1, h1, m2, h2, gn, -, m3, h3, m4, h4, h5⟩ := h
  simp only [Option.some.injEq] at h5
  subst h5
  refine (log_wr h4).trans (Eq.trans ?_ ((log_rotate_right h2).trans (log_rotate_left h1)))
  split at h3
  · exact log_wr2 h3
  · split at h3
    · exact log_wr2 h3
    · exact log_wr2 h3

theorem log_repair_right_left {K : Type} {me : internal_multiset K} {p c g : Nat}
    {r : Nat × internal_multiset K} (h : multiset_repair_right_left me p c g = some r) :
    r.2.repairs = me.repairs := by
  simp only [multiset_repair_right_left, andThen_eq_some] at h
  obtain ⟨m1, h1, m2, h2, gn, -, m3, h3, m4, h4, h5⟩ := h
  simp only [Option.some.injEq] at h5
  subst h5
  refine (log_wr h4).trans (Eq.trans ?_ ((log_rotate_left h2).trans (log_rotate_right h1)))
  split at h3
  · exact log_wr2 h3
  · split at h3
    · exact log_wr2 h3
    · exact log_wr2 h3

/-- Every call of `multiset_repair` adds exactly one entry to the record. -/
theorem log_repair {K : Type} {me : internal_multiset K} {p c : Nat} {g : Option Nat}
    {r : Nat × internal_multiset K} (h : multiset_repair me p c g = some r) :
    ∃ e, r.2.repairs = me.repairs ++ [e] := by
  simp only [multiset_repair, andThen_eq_some] at h
  obtain ⟨pn, -, cn, -, h⟩ := h
  refine ⟨(pn.balance, cn.balance), ?_⟩
  split at h
  · split at h
    · simp only [andThen_eq_some] at h
      obtain ⟨g1, -, h⟩ := h
      exact log_repair_right_left h
    · exact log_repair_left h
  · split at h
    · simp only [andThen_eq_some] at h
      obtain ⟨g1, -, h⟩ := h
      exact log_repair_left_right h
    · exact log_repair_right h

/-- The loop of `multiset_insert_balance` either makes no call of `multiset_repair`, or it
returns the very state that its first call of `multiset_repair` returns. -/
theorem log_insert_balance_loop {K : Type} (fuel : Nat) :
    ∀ (me me1 : internal_multiset K) (gc : Option Nat) (child : Nat) (parent : Option Nat),
      multiset_insert_balance_loop fuel me gc child parent = some me1 →
      me1.repairs = me.repairs ∨
        ∃ m p c g r, m.repairs = me.repairs ∧ multiset_repair m p c g = some r ∧
          me1 = r.2 := by
  induction fuel with
  | zero =>
    intro me me1 gc child parent h
    cases parent with
    | none =>
      simp only [multiset_insert_balance_loop, Option.some.injEq] at h
      subst h; exact Or.inl rfl
    | some p => simp [multiset_insert_balance_loop] at h
  | succ fuel ih =>
    intro me me1 gc child parent h
    cases parent with
    | none =>
      simp only [multiset_insert_balance_loop, Option.some.injEq] at h
      subst h; exact Or.inl rfl
    | some p =>
      simp only [multiset_insert_balance_loop, andThen_eq_some] at h
      obtain ⟨pn, -, m1, h1, pn1, -, h2⟩ := h
      have k1 : m1.repairs = me.repairs := by
        split at h1
        · exact log_wr h1
        · exact log_wr h1
      split at h2
      · simp only [Option.some.injEq] at h2
        subst h2; exact Or.inl k1
      · split at h2
        · simp only [andThen_eq_some, Option.some.injEq] at h2
          obtain ⟨r, hr, h2⟩ := h2
          exact Or.inr ⟨m1, p, child, gc, r, k1, hr, h2.symm⟩
        · rcases ih _ _ _ _ _ h2 with e | ⟨m, p2, c, g, r, hm, hr, e⟩
          · exact Or.inl (e.trans k1)
          · exact Or.inr ⟨m, p2, c, g, r, hm.trans k1, hr, e⟩

theorem log_put_loop {K : Type} (key : K) (node_ok key_ok : Bool) (fuel : Nat) :
    ∀ (me me1 : internal_multiset K) (x : Nat) (res : Int),
      multiset_put_loop key node_ok key_ok fuel me x = some (res, me1) →
      me1.repairs = me.repairs ∨
        ∃ m p c g r, m.repairs = me.repairs ∧ multiset_repair m p c g = some r ∧
          me1 = r.2 := by
  induction fuel with
  | zero => intro me me1 x res h; simp [multiset_put_loop] at h
  | succ fuel ih =>
    intro me me1 x res h
    have hcreate : ∀ (par : Option Nat) (ins : Nat) (m : internal_multiset K),
        multiset_create_node me key par node_ok key_ok = (some ins, m) →
        m.repairs = me.repairs := by
      intro par ins m hc
      simp only [multiset_create_node] at hc
      split at hc
      · split at hc
        · simp only [Prod.mk.injEq] at hc
          rw [← hc.2]
        · simp at hc
      · simp at hc
    have hlink : ∀ (par : Option Nat) (f : Nat → node K → node K),
        (match multiset_create_node me key par node_ok key_ok with
          | (none, me) => some (-ENOMEM, me)
          | (some insert, me) =>
            (wr me x (f insert)).andThen fun me =>
            (multiset_insert_balance me insert).andThen fun me => some (0, me)) =
          some (res, me1) →
        me1.repairs = me.repairs ∨
          ∃ m p c g r, m.repairs = me.repairs ∧ multiset_repair m p c g = some r ∧
            me1 = r.2 := by
      intro par f hh
      split at hh
      next m0 hc =>
        simp only [Option.some.injEq, Prod.mk.injEq] at hh
        simp only [multiset_create_node] at hc
        left
        rw [← hh.2]
        split at hc
        · split at hc
          · simp at hc
          · simp only [Prod.mk.injEq, true_and] at hc; rw [← hc]
        · simp only [Prod.mk.injEq, true_and] at hc; rw [← hc]
      next ins m0 hc =>
        have k0 := hcreate par ins m0 hc
        simp only [andThen_eq_some, Option.some.injEq, Prod.mk.injEq] at hh
        obtain ⟨m1, h1, m2, h2, -, e⟩ := hh
        subst e
        have k1 := (log_wr h1).trans k0
        simp only [multiset_insert_balance, andThen_eq_some] at h2
        obtain ⟨it, -, h2⟩ := h2
        rcases log_insert_balance_loop _ _ _ _ _ _ h2 with e | ⟨m, p2, c, g, r, hm, hr, e⟩
        · exact Or.inl (e.trans k1)
        · exact Or.inr ⟨m, p2, c, g, r, hm.trans k1, hr, e⟩
    simp only [multiset_put_loop, andThen_eq_some] at h
    obtain ⟨t, -, h⟩ := h
    split at h
    · split at h
      · exact ih _ _ _ _ h
      · exact hlink (some x) (fun insert (n : node K) => { n with left := some insert }) h
    · split at h
      · split at h
        · exact ih _ _ _ _ h
        · exact hlink (some x) (fun insert (n : node K) => { n with right := some insert }) h
      · simp only [andThen_eq_some, Option.some.injEq, Prod.mk.injEq] at h
        obtain ⟨m1, h1, -, e⟩ := h
        subst e
        exact Or.inl (show m1.repairs = me.repairs from log_wr h1)

/-- A single `multiset_put` either makes no call of `multiset_repair`, or it returns the
very state that its first call of `multiset_repair` returns: nothing is modified after that
call, and there is no second one. -/
theorem log_put {K : Type} (me me1 : internal_multiset K) (key : K) (node_ok key_ok : Bool)
    (res : Int) (h : multiset_put me key node_ok key_ok = some (res, me1)) :
    me1.repairs = me.repairs ∨
      ∃ m p c g r e, m.repairs = me.repairs ∧ multiset_repair m p c g = some r ∧
        me1 = r.2 ∧ me1.repairs = me.repairs ++ [e] := by
  have hmain : me1.repairs = me.repairs ∨
      ∃ m p c g r, m.repairs = me.repairs ∧ multiset_repair m p c g = some r ∧
        me1 = r.2 := by
    simp only [multiset_put] at h
    split at h
    · left
      cases node_ok <;> cases key_ok <;> simp [multiset_create_node] at h <;> rw [← h.2]
    · exact log_put_loop key node_ok key_ok _ _ _ _ _ h
  rcases hmain with e | ⟨m, p, c, g, r, hm, hr, e⟩
  · exact Or.inl e
  · obtain ⟨x, hx⟩ := log_repair hr
    exact Or.inr ⟨m, p, c, g, r, x, hm, hr, e, by rw [e, hx, hm]⟩

/-! ## Promotion of the in-order successor -/

/-- The first part of `multiset_remove_two_children` on a node with two children: the
leftmost node of the right subtree takes the place of the node, keeps the left subtree,
gets the right subtree without itself, and gets the balance of the node. -/
theorem two_children_promote_spec {K : Type} (me : internal_multiset K) (fs : List (Step K))
    (l r : Tree K) (a : Nat) (k : K) (c b : Int)
    (hrep : Represents me (plug fs (.node l a k c b r))) (hl : l ≠ .nil) (hr : r ≠ .nil) :
    ∃ ma mk mc mb mr p flag S,
      min_node r = .node .nil ma mk mc mb mr ∧
      multiset_remove_two_children_promote me a = some (p, flag, S) ∧
      Represents S (plug fs (.node l ma mk mc b (plug (min_path r) mr))) ∧
      multiset_remove_two_children me a = multiset_delete_balance S p flag := by
  cases l with
  | nil => exact absurd rfl hl
  | node ll la lk lc lb lr =>
    cases r with
    | nil => exact absurd rfl hr
    | node rl ra rk rc rb rr =>
      cases rl with
      | nil =>
        obtain ⟨S2, hp, hfinal⟩ := two_children_near_promote me fs ll lr rr a la ra k lk rk
          c b lc lb rc rb hrep
        exact ⟨ra, rk, rc, rb, rr, ra, false, S2, rfl, hp, hfinal,
          by rw [remove_two_children_eq, hp]; rfl⟩
      | node r1 ta tk tc tb r2 =>
        obtain ⟨ma, mk, mc, mb, mr, hm⟩ :=
          min_node_node (.node r1 ta tk tc tb r2) rr ra rk rc rb
        obtain ⟨q, qk, qc, qb, qr, ps, hps⟩ := min_path_cons r1 r2 rr ta ra tk rk tc tb rc rb
        obtain ⟨S9, hp, hfinal⟩ := two_children_far_promote me fs ps ll lr r1 r2 rr qr mr
          a la ra ta q ma k lk rk tk qk mk c b lc lb rc rb tc tb qc qb mc mb hrep hm hps
        refine ⟨ma, mk, mc, mb, mr, q, true, S9, hm, hp, ?_,
          by rw [remove_two_children_eq, hp]; rfl⟩
        rw [hps]; exact hfinal

/-- Under BST ordering the leftmost node of a subtree holds its smallest key. -/
theorem min_node_smallest {K : Type} {cmp : K → K → Int} (h : TotalOrder cmp)
    (fs : List (Step K)) (l r mr : Tree K) (a ma : Nat) (k mk : K) (c b mc mb : Int)
    (hbst : BST cmp (plug fs (.node l a k c b r)))
    (hm : min_node r = .node .nil ma mk mc mb mr) :
    ∀ x ∈ (plug (min_path r) mr).keys, cmp mk x < 0 := by
  have hord := (BST_iff_ordered h _).mp hbst
  rw [keys_eq_entries, entries_plug, entries_node, min_entries r mr ma mk mc mb hm] at hord
  unfold Ordered at hord
  simp only [List.map_append, List.map_cons, List.pairwise_append, List.pairwise_cons] at hord
  intro x hx
  rw [keys_eq_entries] at hx
  exact hord.1.2.1.2.1.2.1 x hx

/-! ## Parent consistency -/

theorem rep_root_parent {K : Type} (h : List (Option (node K))) (t : Tree K)
    (par : Option Nat) (c : Nat) (hrep : Rep h par t) (hc : t.ptr = some c) :
    ∃ cn, rd h c = some cn ∧ cn.parent = par := by
  cases t with
  | nil => simp at hc
  | node l a k c1 b r =>
    simp only [ptr_node, Option.some.injEq] at hc
    subst hc
    rw [Rep_node] at hrep
    exact ⟨_, hrep.1, rfl⟩

theorem rep_parent_consistent {K : Type} (h : List (Option (node K))) (t : Tree K) :
    ∀ par, Rep h par t → ∀ a ∈ t.addrs, ∀ n, rd h a = some n →
      ∀ c, n.left = some c ∨ n.right = some c →
        ∃ cn, rd h c = some cn ∧ cn.parent = some a := by
  induction t with
  | nil => intro _ _ a ha; simp at ha
  | node l a k c b r ihl ihr =>
    intro par hrep x hx n hn ch hch
    rw [Rep_node] at hrep
    simp only [addrs_node, List.mem_append, List.mem_cons] at hx
    rcases hx with hx | e | hx
    · exact ihl _ hrep.2.1 x hx n hn ch hch
    · subst e
      rw [hrep.1] at hn
      simp only [Option.some.injEq] at hn
      subst hn
      rcases hch with hch | hch
      · exact rep_root_parent h l _ ch hrep.2.1 hch
      · exact rep_root_parent h r _ ch hrep.2.2 hch
    · exact ihr _ hrep.2.2 x hx n hn ch hch

/-- A container that holds a tree has consistent parent pointers. -/
theorem represents_parent_consistent {K : Type} (me : internal_multiset K) (t : Tree K)
    (hrep : Represents me t) : ParentConsistent me t := by
  refine ⟨?_, rep_parent_consistent me.mem t none hrep.2.1⟩
  intro r hr
  exact rep_root_parent me.mem t none r hrep.2.1 (by rw [← hrep.1, hr])

/-! ## Facts about the example containers -/

theorem example_skew_represents : Represents example_skew tree_skew := by
  simp [Represents, example_skew, tree_skew, Rep_node, rd]

theorem example_fib_represents : Represents example_fib tree_fib := by
  simp [Represents, example_fib, tree_fib, leaf, Rep_node, rd]

theorem example_fib_avl : AVL tree_fib := by
  simp [tree_fib, leaf, AVL_node]

theorem example_fib_bst : BST example_fib.comparator tree_fib := by
  simp [tree_fib, leaf, BST_node, keys_nil, keys_node, BST, example_fib, compare_int]

/-! ## The removal of the last occurrence of a key -/

theorem avl_bal_range {K : Type} (t : Tree K) (h : AVL t) : -1 ≤ t.bal ∧ t.bal ≤ 1 := by
  cases t with
  | nil => simp [Tree.bal]
  | node l a k c b r =>
    rw [AVL_node] at h
    simp only [bal_node]
    exact ⟨h.2.1, h.2.2.1⟩

/-- In the rebalancing after an insertion, every call of `multiset_repair` has a parent
balance of 2 or -2 and a child balance of 1 or -1. -/
theorem ins_rep_good {K : Type} (fs : List (Step K)) :
    ∀ t t0 : Tree K, AVL (plug fs t0) → AVL t → t.height = t0.height + 1 →
      (t.bal = 0 → t0.height = 0) →
      ∀ e ∈ ins_rep fs t, (e.1 = 2 ∨ e.1 = -2) ∧ (e.2 = 1 ∨ e.2 = -1) := by
  induction fs with
  | nil => intro t t0 _ _ _ _ e he; simp [ins_rep] at he
  | cons s fs ih =>
    intro t t0 h0 ht hh hbal e he
    have ht0 := height_nonneg t0
    have htb := avl_bal_range t ht
    cases s with
    | L a k c b r =>
      have hn := AVL_plug_sub fs _ h0
      rw [AVL_node] at hn
      obtain ⟨hb, hb1, hb2, -, hr⟩ := hn
      have hr0 := height_nonneg r
      simp only [ins_rep] at he
      by_cases e0 : b - 1 = 0
      · simp [e0] at he
      · simp only [e0, if_false] at he
        by_cases e2 : b - 1 > 1 ∨ b - 1 < -1
        · simp only [e2, if_true, List.mem_singleton] at he
          subst he
          have hb' : b - 1 = -2 := by omega
          have hne : ¬ (b - 1 = 2) := by omega
          simp only [hne, if_false]
          refine ⟨Or.inr hb', ?_⟩
          by_cases hz : t.bal = 0
          · have := hbal hz; omega
          · omega
        · simp only [e2, if_false] at he
          refine ih _ (.node t0 a k c b r) h0 ?_ ?_ ?_ e he
          · rw [AVL_node]; exact ⟨by omega, by omega, by omega, ht, hr⟩
          · simp only [height_node]; omega
          · intro h; simp only [bal_node] at h; omega
    | R l a k c b =>
      have hn := AVL_plug_sub fs _ h0
      rw [AVL_node] at hn
      obtain ⟨hb, hb1, hb2, hl, -⟩ := hn
      have hl0 := height_nonneg l
      simp only [ins_rep] at he
      by_cases e0 : b + 1 = 0
      · simp [e0] at he
      · simp only [e0, if_false] at he
        by_cases e2 : b + 1 > 1 ∨ b + 1 < -1
        · simp only [e2, if_true, List.mem_singleton] at he
          subst he
          have hb' : b + 1 = 2 := by omega
          simp only [hb', if_true]
          refine ⟨Or.inl trivial, ?_⟩
          by_cases hz : t.bal = 0
          · have := hbal hz; omega
          · omega
        · simp only [e2, if_false] at he
          refine ih _ (.node l a k c b t0) h0 ?_ ?_ ?_ e he
          · rw [AVL_node]; exact ⟨by omega, by omega, by omega, hl, ht⟩
          · simp only [height_node]; omega
          · intro h; simp only [bal_node] at h; omega

/-- In the rebalancing after a deletion, every call of `multiset_repair` has a parent
balance of 2 or -2 and a child balance of -1, 0 or 1. -/
theorem del_rep_good {K : Type} (fs : List (Step K)) :
    ∀ t t0 : Tree K, AVL (plug fs t0) → AVL t → t.height = t0.height - 1 →
      ∀ e ∈ del_rep fs t, (e.1 = 2 ∨ e.1 = -2) ∧ -1 ≤ e.2 ∧ e.2 ≤ 1 := by
  induction fs with
  | nil => intro t t0 _ _ _ e he; simp [del_rep] at he
  | cons s fs ih =>
    intro t t0 h0 ht hh e he
    have ht0 := height_nonneg t
    cases s with
    | L a k c b r =>
      have hn := AVL_plug_sub fs _ h0
      rw [AVL_node] at hn
      obtain ⟨hb, hb1, hb2, -, hr⟩ := hn
      have hr0 := height_nonneg r
      have hrb := avl_bal_range r hr
      simp only [del_rep] at he
      by_cases e0 : b + 1 = -1 ∨ b + 1 = 1
      · simp only [e0, if_true] at he
        exact absurd he (List.not_mem_nil _)
      · simp only [e0, if_false] at he
        by_cases e2 : b + 1 > 1 ∨ b + 1 < -1
        · simp only [e2, if_true] at he
          have hb' : b + 1 = 2 := by omega
          obtain ⟨u, hu, hua, huh⟩ := repair_avl t r a k c (b + 1) (by omega) (Or.inl hb') ht hr
          rw [hu] at he
          simp only [hb', if_true, height_node] at huh he
          rcases List.mem_cons.mp he with he | he
          · subst he; exact ⟨Or.inl rfl, hrb.1, hrb.2⟩
          · rcases huh with ⟨-, hh2, hub⟩ | ⟨-, hh2, hub⟩
            · have e3 : u.bal = -1 ∨ u.bal = 1 := by omega
              simp only [e3, if_true] at he
              exact absurd he (List.not_mem_nil _)
            · have e3 : ¬ (u.bal = -1 ∨ u.bal = 1) := by omega
              simp only [e3, if_false] at he
              refine ih _ (.node t0 a k c b r) h0 hua ?_ e he
              simp only [height_node]; omega
        · simp only [e2, if_false] at he
          refine ih _ (.node t0 a k c b r) h0 ?_ ?_ e he
          · rw [AVL_node]; exact ⟨by omega, by omega, by omega, ht, hr⟩
          · simp only [height_node]; omega
    | R l a k c b =>
      have hn := AVL_plug_sub fs _ h0
      rw [AVL_node] at hn
      obtain ⟨hb, hb1, hb2, hl, -⟩ := hn
      have hl0 := height_nonneg l
      have hlb := avl_bal_range l hl
      simp only [del_rep] at he
      by_cases e0 : b - 1 = -1 ∨ b - 1 = 1
      · simp only [e0, if_true] at he
        exact absurd he (List.not_mem_nil _)
      · simp only [e0, if_false] at he
        by_cases e2 : b - 1 > 1 ∨ b - 1 < -1
        · simp only [e2, if_true] at he
          have hb' : b - 1 = -2 := by omega
          obtain ⟨u, hu, hua, huh⟩ := repair_avl l t a k c (b - 1) (by omega) (Or.inr hb') hl ht
          rw [hu] at he
          have hne : ¬ (b - 1 = 2) := by omega
          simp only [hne, if_false, height_node] at huh he
          rcases List.mem_cons.mp he with he | he
          · subst he; exact ⟨Or.inr hb', hlb.1, hlb.2⟩
          · rcases huh with ⟨-, hh2, hub⟩ | ⟨-, hh2, hub⟩
            · have e3 : u.bal = -1 ∨ u.bal = 1 := by omega
              simp only [e3, if_true] at he
              exact absurd he (List.not_mem_nil _)
            · have e3 : ¬ (u.bal = -1 ∨ u.bal = 1) := by omega
              simp only [e3, if_false] at he
              refine ih _ (.node l a k c b t0) h0 hua ?_ e he
              simp only [height_node]; omega
        · simp only [e2, if_false] at he
          refine ih _ (.node l a k c b t0) h0 ?_ ?_ e he
          · rw [AVL_node]; exact ⟨by omega, by omega, by omega, hl, ht⟩
          · simp only [height_node]; omega

/-- In the removal of a node, every call of `multiset_repair` has a parent balance of 2 or
-2 and a child balance of -1, 0 or 1. -/
theorem remove_element_rep_good {K : Type} (fs : List (Step K)) (l r : Tree K) (a : Nat)
    (k : K) (c b : Int) (h : AVL (plug fs (.node l a k c b r))) :
    ∀ e ∈ remove_element_rep fs (.node l a k c b r),
      (e.1 = 2 ∨ e.1 = -2) ∧ -1 ≤ e.2 ∧ e.2 ≤ 1 := by
  have hn := AVL_plug_sub fs _ h
  rw [AVL_node] at hn
  obtain ⟨hb, hb1, hb2, hl, hr⟩ := hn
  cases l with
  | nil =>
    cases r with
    | nil =>
      simp only [remove_element_rep]
      exact del_rep_good fs .nil _ h (by simp) (by simp)
    | node rl ra rk rc rb rr =>
      simp only [remove_element_rep]
      refine del_rep_good fs _ _ h hr ?_
      have := height_nonneg (.node rl ra rk rc rb rr)
      simp only [height_nil] at hb
      rw [height_node (l := .nil)]
      simp only [height_nil]
      omega
  | node ll la lk lc lb lr =>
    cases r with
    | nil =>
      simp only [remove_element_rep]
      refine del_rep_good fs _ _ h hl ?_
      have := height_nonneg (.node ll la lk lc lb lr)
      simp only [height_nil] at hb
      rw [height_node (r := .nil)]
      simp only [height_nil]
      omega
    | node rl ra rk rc rb rr =>
      obtain ⟨ma, mk, mc, mb, mr, hm⟩ := min_node_node rl rr ra rk rc rb
      simp only [remove_element_rep, hm]
      have hpm := plug_min (.node rl ra rk rc rb rr)
      rw [hm] at hpm
      have hmavl : AVL (.node .nil ma mk mc mb mr) := by
        refine AVL_plug_sub (min_path (.node rl ra rk rc rb rr)) _ ?_
        rw [hpm]; exact hr
      have h1 : AVL (plug (min_path (.node rl ra rk rc rb rr) ++
          Step.R (.node ll la lk lc lb lr) ma mk mc b :: fs) (.node .nil ma mk mc mb mr)) := by
        rw [plug_append, hpm, plug_R]
        refine AVL_plug_replace fs _ _ h ?_ ?_
        · rw [AVL_node]; exact ⟨hb, hb1, hb2, hl, hr⟩
        · simp only [height_node]
      rw [AVL_node] at hmavl
      refine del_rep_good _ mr _ h1 hmavl.2.2.2.2 ?_
      have := height_nonneg mr
      simp only [height_node, height_nil]
      omega

/-- In `multiset_put`, every call of `multiset_repair` has a parent balance of 2 or -2 and a
child balance of 1 or -1. -/
theorem put_rep_good {K : Type} (cmp : K → K → Int) (key : K) (new : Nat) (t : Tree K)
    (havl : AVL t) :
    ∀ e ∈ put_rep cmp key new [] t, (e.1 = 2 ∨ e.1 = -2) ∧ (e.2 = 1 ∨ e.2 = -1) := by
  intro e he
  rcases hz : zoom cmp key [] t with ⟨fs, u⟩
  have ha := avl_zoom cmp key t fs u havl hz
  simp only [put_rep, hz] at he
  cases u with
  | nil =>
    simp only at he
    exact ins_rep_good fs (leaf new key) .nil ha (by simp [leaf, AVL_node]) (by simp [leaf])
      (fun _ => rfl) e he
  | node l a k c b r => simp at he

/-! ## The calls of `multiset_repair` made by the operations -/

/-- The function `multiset_put` returns on every consistent container, whatever the outcome
of its allocations, and each of its calls of `multiset_repair` has a parent balance of 2 or
-2 and a child balance of 1 or -1. -/
theorem put_any_log {K : Type} (me : internal_multiset K) (key : K) (t : Tree K)
    (node_ok key_ok : Bool) (hrep : Represents me t) (havl : AVL t) :
    ∃ r L, multiset_put me key node_ok key_ok = some r ∧ r.2.repairs = me.repairs ++ L ∧
      ∀ e ∈ L, (e.1 = 2 ∨ e.1 = -2) ∧ (e.2 = 1 ∨ e.2 = -1) := by
  obtain ⟨T, hT, -⟩ := put_at_avl me.comparator key me.mem.length t [] havl
  obtain ⟨me1, h1, -, -, -, -, g1⟩ := put_log me key t T hrep
    (zoom_path_bal me.comparator key t [] havl) hT
  have hgood := put_rep_good me.comparator key me.mem.length t havl
  by_cases hz : (zoom me.comparator key [] t).2 = .nil
  · by_cases hfl : (node_ok && key_ok) = false
    · exact ⟨(-ENOMEM, me), [], put_absent_fail me key t _ _ hrep hz hfl, by simp,
        fun e he => absurd he (List.not_mem_nil _)⟩
    · simp only [Bool.and_eq_false_imp, Bool.not_eq_false, not_forall, Classical.not_imp,
        Bool.not_eq_true] at hfl
      have e1 : node_ok = true := by cases node_ok <;> simp_all
      have e2 : key_ok = true := by cases key_ok <;> simp_all
      subst e1; subst e2
      exact ⟨(0, me1), _, h1, g1, hgood⟩
  · rw [put_present me key t _ _ hrep hz]
    exact ⟨(0, me1), _, h1, g1, hgood⟩

/-- The function `multiset_remove` returns on every consistent container, and each of its
calls of `multiset_repair` has a parent balance of 2 or -2 and a child balance of -1, 0
or 1. -/
theorem remove_any_log {K : Type} (me : internal_multiset K) (key : K) (t : Tree K)
    (hrep : Represents me t) (havl : AVL t) :
    ∃ r L, multiset_remove me key = some r ∧ r.2.repairs = me.repairs ++ L ∧
      ∀ e ∈ L, (e.1 = 2 ∨ e.1 = -2) ∧ -1 ≤ e.2 ∧ e.2 ≤ 1 := by
  rcases hz : zoom me.comparator key [] t with ⟨fs, u⟩
  cases u with
  | nil =>
    obtain ⟨hm, -, -⟩ := lookup_absent_spec me key t fs hrep hz
    exact ⟨(0, me), [], (remove_absent_spec me key hm).1, by simp,
      fun e he => absurd he (List.not_mem_nil _)⟩
  | node l a k c b r =>
    obtain ⟨me1, T, h1, -, -, -, -, -, -, g1⟩ :=
      remove_present_log me key t fs l r a k c b hrep havl hz
    refine ⟨(1, me1), _, h1, g1, ?_⟩
    intro e he
    by_cases hc : c - 1 = 0
    · rw [if_pos hc] at he
      exact remove_element_rep_good fs l r a k (c - 1) b
        (avl_recount fs l r a k c (c - 1) b (avl_zoom me.comparator key t fs _ havl hz)) e he
    · rw [if_neg hc] at he
      exact absurd he (List.not_mem_nil _)

/-- The function `multiset_remove_all` returns on every consistent container, and each of
its calls of `multiset_repair` has a parent balance of 2 or -2 and a child balance of -1, 0
or 1. -/
theorem remove_all_any_log {K : Type} (me : internal_multiset K) (key : K) (t : Tree K)
    (hrep : Represents me t) (havl : AVL t) :
    ∃ r L, multiset_remove_all me key = some r ∧ r.2.repairs = me.repairs ++ L ∧
      ∀ e ∈ L, (e.1 = 2 ∨ e.1 = -2) ∧ -1 ≤ e.2 ∧ e.2 ≤ 1 := by
  rcases hz : zoom me.comparator key [] t with ⟨fs, u⟩
  cases u with
  | nil =>
    obtain ⟨hm, -, -⟩ := lookup_absent_spec me key t fs hrep hz
    exact ⟨(0, me), [], (remove_absent_spec me key hm).2, by simp,
      fun e he => absurd he (List.not_mem_nil _)⟩
  | node l a k c b r =>
    obtain ⟨me1, T, h1, -, -, -, -, -, -, g1⟩ :=
      remove_all_present_log me key t fs l r a k c b hrep havl hz
    exact ⟨(1, me1), _, h1, g1,
      remove_element_rep_good fs l r a k c b (avl_zoom me.comparator key t fs _ havl hz)⟩

/-- The loop of `multiset_clear` empties the tree, and each of its calls of
`multiset_repair` has a parent balance of 2 or -2 and a child balance of -1, 0 or 1. -/
theorem clear_loop_log {K : Type} (fuel : Nat) :
    ∀ (me : internal_multiset K) (t : Tree K), Represents me t → AVL t → t.size ≤ fuel →
      ∃ me1 L, multiset_clear_loop fuel me = some me1 ∧ Represents me1 .nil ∧
        me1.repairs = me.repairs ++ L ∧
        ∀ e ∈ L, (e.1 = 2 ∨ e.1 = -2) ∧ -1 ≤ e.2 ∧ e.2 ≤ 1 := by
  induction fuel with
  | zero =>
    intro me t hrep _ hsz
    cases t with
    | nil =>
      have hroot : me.root = none := hrep.1
      exact ⟨me, [], by rw [multiset_clear_loop]; simp [hroot], hrep, by simp,
        fun e he => absurd he (List.not_mem_nil _)⟩
    | node l a k c b r => rw [size_node_pos] at hsz; omega
  | succ fuel ih =>
    intro me t hrep havl hsz
    cases t with
    | nil =>
      have hroot : me.root = none := hrep.1
      exact ⟨me, [], by rw [multiset_clear_loop]; simp [hroot], hrep, by simp,
        fun e he => absurd he (List.not_mem_nil _)⟩
    | node l a k c b r =>
      have hroot : me.root = some a := hrep.1
      obtain ⟨me3, T, h3, r3, a3, t3, -, -, -, g3⟩ :=
        remove_element_log me [] l r a k c b hrep havl
      have hs := remove_element_t_size [] l r a k c b T t3
      simp only [plug_nil] at hs
      obtain ⟨me4, L, h4, r4, g4, hL⟩ := ih me3 T r3 a3 (by omega)
      refine ⟨me4, remove_element_rep [] (.node l a k c b r) ++ L, ?_, r4,
        by rw [g4, g3, List.append_assoc], ?_⟩
      · rw [multiset_clear_loop]
        simp [hroot, h3, h4]
      · intro e he
        rcases List.mem_append.mp he with he | he
        · exact remove_element_rep_good [] l r a k c b havl e he
        · exact hL e he

/-- The function `multiset_clear` returns on every consistent container, and each of its
calls of `multiset_repair` has a parent balance of 2 or -2 and a child balance of -1, 0
or 1. -/
theorem clear_log {K : Type} (me : internal_multiset K) (t : Tree K)
    (hrep : Represents me t) (havl : AVL t) :
    ∃ me1 L, multiset_clear me = some me1 ∧ me1.repairs = me.repairs ++ L ∧
      ∀ e ∈ L, (e.1 = 2 ∨ e.1 = -2) ∧ -1 ≤ e.2 ∧ e.2 ≤ 1 := by
  have hsz := represents_size_le me _ hrep
  obtain ⟨me4, L, h4, -, g4, hL⟩ := clear_loop_log (me.mem.length + 1) me t hrep havl (by omega)
  exact ⟨{ me4 with size := 0 }, L, by simp [multiset_clear, h4], g4, hL⟩

/-! ## Mirror images -/

theorem rd_mirror {K : Type} (h : List (Option (node K))) (a : Nat) :
    rd (h.map (Option.map mirror_node)) a = (rd h a).map mirror_node := by
  simp only [rd, List.get?_eq_getElem?, List.getElem?_map]
  cases h[a]? with
  | none => rfl
  | some x => cases x <;> rfl

@[simp] theorem mirror_nil {K : Type} : (Tree.nil : Tree K).mirror = .nil := rfl

@[simp] theorem mirror_tree_node {K : Type} (l r : Tree K) (a : Nat) (k : K) (c b : Int) :
    (Tree.node l a k c b r).mirror = .node r.mirror a k c (-b) l.mirror := rfl

@[simp] theorem ptr_mirror {K : Type} (t : Tree K) : t.mirror.ptr = t.ptr := by
  cases t <;> rfl

theorem bal_mirror {K : Type} (t : Tree K) : t.mirror.bal = -t.bal := by
  cases t <;> simp [Tree.bal]

theorem left_mirror {K : Type} (t : Tree K) : t.mirror.left = t.right.mirror := by
  cases t <;> rfl

theorem right_mirror {K : Type} (t : Tree K) : t.mirror.right = t.left.mirror := by
  cases t <;> rfl

theorem mirror_mirror {K : Type} (t : Tree K) : t.mirror.mirror = t := by
  induction t with
  | nil => rfl
  | node l a k c b r ihl ihr => simp [ihl, ihr]

theorem addrs_mirror {K : Type} (t : Tree K) : t.mirror.addrs = t.addrs.reverse := by
  induction t with
  | nil => rfl
  | node l a k c b r ihl ihr => simp [ihl, ihr]

theorem entries_mirror {K : Type} (t : Tree K) : t.mirror.entries = t.entries.reverse := by
  induction t with
  | nil => rfl
  | node l a k c b r ihl ihr => simp [Tree.entries, ihl, ihr]

theorem height_mirror {K : Type} (t : Tree K) : t.mirror.height = t.height := by
  induction t with
  | nil => rfl
  | node l a k c b r ihl ihr => simp only [mirror_tree_node, height_node, ihl, ihr, max_comm]

theorem rep_mirror {K : Type} (h : List (Option (node K))) (t : Tree K) :
    ∀ par, Rep h par t → Rep (h.map (Option.map mirror_node)) par t.mirror := by
  induction t with
  | nil => intro par _; trivial
  | node l a k c b r ihl ihr =>
    intro par hrep
    rw [Rep_node] at hrep
    rw [mirror_tree_node, Rep_node]
    refine ⟨?_, ihr _ hrep.2.2, ihl _ hrep.2.1⟩
    rw [rd_mirror, hrep.1]
    simp [mirror_node]

/-- The mirrored container holds the mirror image of the tree. -/
theorem represents_mirror {K : Type} (me : internal_multiset K) (t : Tree K)
    (h : Represents me t) : Represents (mirror me) t.mirror := by
  refine ⟨?_, rep_mirror me.mem t none h.2.1, ?_⟩
  · rw [ptr_mirror]; exact h.1
  · rw [addrs_mirror]; exact List.nodup_reverse.mpr h.2.2

theorem mirror_plug {K : Type} (fs : List (Step K)) :
    ∀ t : Tree K, (plug fs t).mirror = plug (fs.map Step.mirror) t.mirror := by
  induction fs with
  | nil => intro t; rfl
  | cons s fs ih =>
    intro t
    cases s with
    | L a k c b r => simp only [plug_L, List.map_cons, Step.mirror, plug_R, ih, mirror_tree_node]
    | R l a k c b => simp only [plug_L, List.map_cons, Step.mirror, plug_R, ih, mirror_tree_node]

/-- The effect of `multiset_repair` on the mirror image of a subtree is the mirror image of
its effect on the subtree, when the balance of the root is 2 or -2 and the balance of the
grandchild that a double rotation lifts is -1, 0 or 1. -/
theorem repair_t_mirror {K : Type} (l r : Tree K) (p : Nat) (kp : K) (cp bp : Int)
    (h2 : bp = 2 ∨ bp = -2)
    (hg : (bp = 2 → r.bal = -1 → -1 ≤ r.left.bal ∧ r.left.bal ≤ 1) ∧
      (bp = -2 → l.bal = 1 → -1 ≤ l.right.bal ∧ l.right.bal ≤ 1)) :
    repair_t (Tree.node l p kp cp bp r).mirror =
      (repair_t (.node l p kp cp bp r)).map Tree.mirror := by
  rcases h2 with h2 | h2
  · subst h2
    have hne : ¬ ((-2 : Int) = 2) := by omega
    simp only [mirror_tree_node, repair_t, hne, if_false, if_true, bal_mirror]
    by_cases hb : r.bal = -1
    · have hb' : -r.bal = 1 := by omega
      simp only [hb, hb', if_true]
      have hgr := hg.1 rfl hb
      cases r with
      | nil => rfl
      | node rl c kc cc bc rr =>
        cases rl with
        | nil => rfl
        | node gl g kg cg bg gr =>
          simp only [Tree.left, bal_node] at hgr
          simp only [mirror_tree_node, repair_left_right_t, repair_right_left_t]
          by_cases e1 : bg = 1
          · subst e1; simp
          · by_cases e0 : bg = 0
            · subst e0; simp
            · have em : bg = -1 := by omega
              subst em; simp
    · have hb' : ¬ (-r.bal = 1) := by omega
      simp only [hb, hb', if_false]
      cases r with
      | nil => rfl
      | node rl c kc cc bc rr =>
        simp only [mirror_tree_node, repair_right_t, repair_left_t]
        by_cases e0 : bc = 0
        · subst e0; simp
        · have e0' : ¬ (-bc = 0) := by omega
          simp [e0, e0']
  · subst h2
    have hne : ¬ ((-2 : Int) = 2) := by omega
    have hpos : -(-2 : Int) = 2 := by omega
    simp only [mirror_tree_node, repair_t, hne, hpos, if_false, if_true, bal_mirror]
    by_cases hb : l.bal = 1
    · have hb' : -l.bal = -1 := by omega
      simp only [hb, hb', if_true]
      have hgr := hg.2 rfl hb
      cases l with
      | nil => rfl
      | node ll c kc cc bc lr =>
        cases lr with
        | nil => rfl
        | node gl g kg cg bg gr =>
          simp only [Tree.right, bal_node] at hgr
          simp only [mirror_tree_node, repair_left_right_t, repair_right_left_t]
          by_cases e1 : bg = 1
          · subst e1; simp
          · by_cases e0 : bg = 0
            · subst e0; simp
            · have em : bg = -1 := by omega
              subst em; simp
    · have hb' : ¬ (-l.bal = -1) := by omega
      simp only [hb, hb', if_false]
      cases l with
      | nil => rfl
      | node ll c kc cc bc lr =>
        simp only [mirror_tree_node, repair_right_t, repair_left_t]
        by_cases e0 : bc = 0
        · subst e0; simp
        · have e0' : ¬ (-bc = 0) := by omega
          simp [e0, e0']

/-- The function `multiset_rotate_right` on the mirrored container does what
`multiset_rotate_left` does on the container, mirrored. -/
theorem rotate_mirror_spec {K : Type} (me : internal_multiset K) (fs : List (Step K))
    (l rl rr : Tree K) (p c : Nat) (kp kc : K) (cp bp cc bc : Int)
    (hrep : Represents me (plug fs (.node l p kp cp bp (.node rl c kc cc bc rr)))) :
    ∃ me1 me2, multiset_rotate_left me p c = some me1 ∧
      multiset_rotate_right (mirror me) p c = some me2 ∧
      Represents me1 (plug fs (.node (.node l p kp cp bp rl) c kc cc bc rr)) ∧
      Represents me2 (plug fs (.node (.node l p kp cp bp rl) c kc cc bc rr)).mirror := by
  obtain ⟨me1, h1, r1, -⟩ := rotate_left_spec me fs l rl rr p c kp kc cp bp cc bc hrep
  have hm := represents_mirror me _ hrep
  rw [mirror_plug, mirror_tree_node, mirror_tree_node] at hm
  obtain ⟨me2, h2, r2, -⟩ := rotate_right_spec (mirror me) (fs.map Step.mirror) rr.mirror
    rl.mirror l.mirror p c kp kc cp (-bp) cc (-bc) hm
  refine ⟨me1, me2, h1, h2, r1, ?_⟩
  rw [mirror_plug, mirror_tree_node, mirror_tree_node]
  exact r2

/-- The function `multiset_rotate_left` on the mirrored container does what
`multiset_rotate_right` does on the container, mirrored. -/
theorem rotate_right_mirror_spec {K : Type} (me : internal_multiset K) (fs : List (Step K))
    (ll lr r : Tree K) (p c : Nat) (kp kc : K) (cp bp cc bc : Int)
    (hrep : Represents me (plug fs (.node (.node ll c kc cc bc lr) p kp cp bp r))) :
    ∃ me1 me2, multiset_rotate_right me p c = some me1 ∧
      multiset_rotate_left (mirror me) p c = some me2 ∧
      Represents me1 (plug fs (.node ll c kc cc bc (.node lr p kp cp bp r))) ∧
      Represents me2 (plug fs (.node ll c kc cc bc (.node lr p kp cp bp r))).mirror := by
  obtain ⟨me1, h1, r1, -⟩ := rotate_right_spec me fs ll lr r p c kp kc cp bp cc bc hrep
  have hm := represents_mirror me _ hrep
  rw [mirror_plug, mirror_tree_node, mirror_tree_node] at hm
  obtain ⟨me2, h2, r2, -⟩ := rotate_left_spec (mirror me) (fs.map Step.mirror) r.mirror
    lr.mirror ll.mirror p c kp kc cp (-bp) cc (-bc) hm
  refine ⟨me1, me2, h1, h2, r1, ?_⟩
  rw [mirror_plug, mirror_tree_node, mirror_tree_node]
  exact r2

/-- The function `multiset_repair` on the mirrored container does what it does on the
container, mirrored. -/
theorem repair_mirror_spec {K : Type} (me : internal_multiset K) (fs : List (Step K))
    (l r : Tree K) (p : Nat) (kp : K) (cp bp : Int) (child : Nat) (gc : Option Nat)
    (u : Tree K)
    (hrep : Represents me (plug fs (.node l p kp cp bp r)))
    (hu : repair_t (.node l p kp cp bp r) = some u)
    (hchild : if bp = 2 then r.ptr = some child ∧ (r.bal = -1 → gc = r.left.ptr)
      else l.ptr = some child ∧ (l.bal = 1 → gc = l.right.ptr))
    (h2 : bp = 2 ∨ bp = -2)
    (hg : (bp = 2 → r.bal = -1 → -1 ≤ r.left.bal ∧ r.left.bal ≤ 1) ∧
      (bp = -2 → l.bal = 1 → -1 ≤ l.right.bal ∧ l.right.bal ≤ 1)) :
    ∃ x me1 me2, multiset_repair me p child gc = some (x, me1) ∧
      multiset_repair (mirror me) p child gc = some (x, me2) ∧
      Represents me1 (plug fs u) ∧ Represents me2 (plug fs u).mirror := by
  obtain ⟨x, me1, h1, r1, e1, -⟩ := repair_spec me fs l r p kp cp bp child gc u hrep hu hchild
  have hm := represents_mirror me _ hrep
  rw [mirror_plug, mirror_tree_node] at hm
  have hu' : repair_t (.node r.mirror p kp cp (-bp) l.mirror) = some u.mirror := by
    have := repair_t_mirror l r p kp cp bp h2 hg
    rw [mirror_tree_node, hu] at this
    exact this
  have hchild' : if -bp = 2 then l.mirror.ptr = some child ∧
        (l.mirror.bal = -1 → gc = l.mirror.left.ptr)
      else r.mirror.ptr = some child ∧ (r.mirror.bal = 1 → gc = r.mirror.right.ptr) := by
    rcases h2 with h2 | h2
    · subst h2
      simp only [if_true] at hchild
      have hne : ¬ (-(2 : Int) = 2) := by omega
      simp only [hne, if_false, ptr_mirror, bal_mirror, right_mirror]
      exact ⟨hchild.1, fun hb => hchild.2 (by omega)⟩
    · subst h2
      have hne : ¬ ((-2 : Int) = 2) := by omega
      simp only [hne, if_false] at hchild
      have hpos : -(-2 : Int) = 2 := by omega
      simp only [hpos, if_true, ptr_mirror, bal_mirror, left_mirror]
      exact ⟨hchild.1, fun hb => hchild.2 (by omega)⟩
  obtain ⟨x', me2, h2', r2, e2, -⟩ := repair_spec (mirror me) (fs.map Step.mirror) r.mirror
    l.mirror p kp cp (-bp) child gc u.mirror hm hu' hchild'
  rw [ptr_mirror, e1] at e2
  simp only [Option.some.injEq] at e2
  subst e2
  refine ⟨x, me1, me2, h1, h2', r1, ?_⟩
  rw [mirror_plug]
  exact r2

/-! ## Rotations keep the sequence of the nodes -/

theorem example_zigzag_represents : Represents example_zigzag tree_zigzag := by
  simp [Represents, example_zigzag, tree_zigzag, leaf, Rep_node, rd]

theorem entries_inorder {K : Type} (t u : Tree K) (h : u.entries = t.entries) :
    u.inorder = t.inorder := by
  rw [inorder_eq_entries, inorder_eq_entries, h]

theorem entries_plug_congr {K : Type} (fs : List (Step K)) (t u : Tree K)
    (h : u.entries = t.entries) : (plug fs u).entries = (plug fs t).entries := by
  rw [entries_plug, entries_plug, h]

/-- The function `multiset_rotate_left` keeps the sequence of the nodes. -/
theorem rotate_left_entries {K : Type} (me : internal_multiset K) (fs : List (Step K))
    (l rl rr : Tree K) (p c : Nat) (kp kc : K) (cp bp cc bc : Int)
    (hrep : Represents me (plug fs (.node l p kp cp bp (.node rl c kc cc bc rr)))) :
    ∃ me1 T, multiset_rotate_left me p c = some me1 ∧ Represents me1 T ∧
      T.entries = (plug fs (.node l p kp cp bp (.node rl c kc cc bc rr))).entries ∧
      T.inorder = (plug fs (.node l p kp cp bp (.node rl c kc cc bc rr))).inorder := by
  obtain ⟨me1, h1, r1, -⟩ := rotate_left_spec me fs l rl rr p c kp kc cp bp cc bc hrep
  have he := entries_plug_congr fs (.node l p kp cp bp (.node rl c kc cc bc rr))
    (.node (.node l p kp cp bp rl) c kc cc bc rr) (by simp [Tree.entries])
  exact ⟨me1, _, h1, r1, he, entries_inorder _ _ he⟩

/-- The function `multiset_rotate_right` keeps the sequence of the nodes. -/
theorem rotate_right_entries {K : Type} (me : internal_multiset K) (fs : List (Step K))
    (ll lr r : Tree K) (p c : Nat) (kp kc : K) (cp bp cc bc : Int)
    (hrep : Represents me (plug fs (.node (.node ll c kc cc bc lr) p kp cp bp r))) :
    ∃ me1 T, multiset_rotate_right me p c = some me1 ∧ Represents me1 T ∧
      T.entries = (plug fs (.node (.node ll c kc cc bc lr) p kp cp bp r)).entries ∧
      T.inorder = (plug fs (.node (.node ll c kc cc bc lr) p kp cp bp r)).inorder := by
  obtain ⟨me1, h1, r1, -⟩ := rotate_right_spec me fs ll lr r p c kp kc cp bp cc bc hrep
  have he := entries_plug_congr fs (.node (.node ll c kc cc bc lr) p kp cp bp r)
    (.node ll c kc cc bc (.node lr p kp cp bp r)) (by simp [Tree.entries])
  exact ⟨me1, _, h1, r1, he, entries_inorder _ _ he⟩

/-- The function `multiset_repair_left` keeps the sequence of the nodes. -/
theorem repair_left_entries {K : Type} (me : internal_multiset K) (fs : List (Step K))
    (l rl rr : Tree K) (p c : Nat) (kp kc : K) (cp bp cc bc : Int)
    (hrep : Represents me (plug fs (.node l p kp cp bp (.node rl c kc cc bc rr)))) :
    ∃ me1 T, multiset_repair_left me p c = some (c, me1) ∧ Represents me1 T ∧
      T.entries = (plug fs (.node l p kp cp bp (.node rl c kc cc bc rr))).entries ∧
      T.inorder = (plug fs (.node l p kp cp bp (.node rl c kc cc bc rr))).inorder := by
  have hu : ∃ u, repair_left_t (.node l p kp cp bp (.node rl c kc cc bc rr)) = some u ∧
      u.entries = (Tree.node l p kp cp bp (.node rl c kc cc bc rr)).entries := by
    simp only [repair_left_t]
    split
    · exact ⟨_, rfl, by simp [Tree.entries]⟩
    · exact ⟨_, rfl, by simp [Tree.entries]⟩
  obtain ⟨u, hu, hue⟩ := hu
  obtain ⟨me1, h1, r1, -⟩ := repair_left_spec me fs l rl rr p c kp kc cp bp cc bc u hrep hu
  have he := entries_plug_congr fs _ u hue
  exact ⟨me1, _, h1, r1, he, entries_inorder _ _ he⟩

/-- The function `multiset_repair_right` keeps the sequence of the nodes. -/
theorem repair_right_entries {K : Type} (me : internal_multiset K) (fs : List (Step K))
    (ll lr r : Tree K) (p c : Nat) (kp kc : K) (cp bp cc bc : Int)
    (hrep : Represents me (plug fs (.node (.node ll c kc cc bc lr) p kp cp bp r))) :
    ∃ me1 T, multiset_repair_right me p c = some (c, me1) ∧ Represents me1 T ∧
      T.entries = (plug fs (.node (.node ll c kc cc bc lr) p kp cp bp r)).entries ∧
      T.inorder = (plug fs (.node (.node ll c kc cc bc lr) p kp cp bp r)).inorder := by
  have hu : ∃ u, repair_right_t (.node (.node ll c kc cc bc lr) p kp cp bp r) = some u ∧
      u.entries = (Tree.node (.node ll c kc cc bc lr) p kp cp bp r).entries := by
    simp only [repair_right_t]
    split
    · exact ⟨_, rfl, by simp [Tree.entries]⟩
    · exact ⟨_, rfl, by simp [Tree.entries]⟩
  obtain ⟨u, hu, hue⟩ := hu
  obtain ⟨me1, h1, r1, -⟩ := repair_right_spec me fs ll lr r p c kp kc cp bp cc bc u hrep hu
  have he := entries_plug_congr fs _ u hue
  exact ⟨me1, _, h1, r1, he, entries_inorder _ _ he⟩

/-- The function `multiset_repair_left_right` keeps the sequence of the nodes. -/
theorem repair_left_right_entries {K : Type} (me : internal_multiset K) (fs : List (Step K))
    (cl gl gr r : Tree K) (p c g : Nat) (kp kc kg : K) (cp bp cc bc cg bg : Int)
    (hrep : Represents me
      (plug fs (.node (.node cl c kc cc bc (.node gl g kg cg bg gr)) p kp cp bp r))) :
    ∃ me1 T, multiset_repair_left_right me p c g = some (g, me1) ∧ Represents me1 T ∧
      T.entries =
        (plug fs (.node (.node cl c kc cc bc (.node gl g kg cg bg gr)) p kp cp bp r)).entries ∧
      T.inorder =
        (plug fs (.node (.node cl c kc cc bc (.node gl g kg cg bg gr)) p kp cp bp r)).inorder := by
  have hu : ∃ u, repair_left_right_t
        (.node (.node cl c kc cc bc (.node gl g kg cg bg gr)) p kp cp bp r) = some u ∧
      u.entries =
        (Tree.node (.node cl c kc cc bc (.node gl g kg cg bg gr)) p kp cp bp r).entries := by
    simp only [repair_left_right_t]
    split
    · exact ⟨_, rfl, by simp [Tree.entries]⟩
    · split
      · exact ⟨_, rfl, by simp [Tree.entries]⟩
      · exact ⟨_, rfl, by simp [Tree.entries]⟩
  obtain ⟨u, hu, hue⟩ := hu
  obtain ⟨me1, h1, r1, -⟩ := repair_left_right_spec me fs cl gl gr r p c g kp kc kg cp bp cc bc
    cg bg u hrep hu
  have he := entries_plug_congr fs _ u hue
  exact ⟨me1, _, h1, r1, he, entries_inorder _ _ he⟩

/-- The function `multiset_repair_right_left` keeps the sequence of the nodes. -/
theorem repair_right_left_entries {K : Type} (me : internal_multiset K) (fs : List (Step K))
    (l gl gr cr : Tree K) (p c g : Nat) (kp kc kg : K) (cp bp cc bc cg bg : Int)
    (hrep : Represents me
      (plug fs (.node l p kp cp bp (.node (.node gl g kg cg bg gr) c kc cc bc cr)))) :
    ∃ me1 T, multiset_repair_right_left me p c g = some (g, me1) ∧ Represents me1 T ∧
      T.entries =
        (plug fs (.node l p kp cp bp (.node (.node gl g kg cg bg gr) c kc cc bc cr))).entries ∧
      T.inorder =
        (plug fs (.node l p kp cp bp (.node (.node gl g kg cg bg gr) c kc cc bc cr))).inorder := by
  have hu : ∃ u, repair_right_left_t
        (.node l p kp cp bp (.node (.node gl g kg cg bg gr) c kc cc bc cr)) = some u ∧
      u.entries =
        (Tree.node l p kp cp bp (.node (.node gl g kg cg bg gr) c kc cc bc cr)).entries := by
    simp only [repair_right_left_t]
    split
    · exact ⟨_, rfl, by simp [Tree.entries]⟩
    · split
      · exact ⟨_, rfl, by simp [Tree.entries]⟩
      · exact ⟨_, rfl, by simp [Tree.entries]⟩
  obtain ⟨u, hu, hue⟩ := hu
  obtain ⟨me1, h1, r1, -⟩ := repair_right_left_spec me fs l gl gr cr p c g kp kc kg cp bp cc bc
    cg bg u hrep hu
  have he := entries_plug_congr fs _ u hue
  exact ⟨me1, _, h1, r1, he, entries_inorder _ _ he⟩

/-! ## Where a two-children deletion starts to rebalance -/

/-- The node at which `multiset_remove_two_children` calls `multiset_delete_balance`: the
parent of the in-order successor when the right child of the removed node has a left child,
the successor itself when it is that right child. -/
theorem two_children_balance_point {K : Type} (me : internal_multiset K) (fs : List (Step K))
    (l r : Tree K) (a : Nat) (k : K) (c b : Int)
    (hrep : Represents me (plug fs (.node l a k c b r))) (hl : l ≠ .nil) (hr : r ≠ .nil) :
    ∃ ma mk mc mb mr sn p flag S,
      min_node r = .node .nil ma mk mc mb mr ∧ rd me.mem ma = some sn ∧
      multiset_remove_two_children_promote me a = some (p, flag, S) ∧
      multiset_remove_two_children me a = multiset_delete_balance S p flag ∧
      (r.left ≠ .nil → sn.parent = some p ∧ p ≠ ma ∧ flag = true) ∧
      (r.left = .nil → sn.parent = some a ∧ p = ma ∧ flag = false) := by
  cases l with
  | nil => exact absurd rfl hl
  | node ll la lk lc lb lr =>
    cases r with
    | nil => exact absurd rfl hr
    | node rl ra rk rc rb rr =>
      cases rl with
      | nil =>
        obtain ⟨S2, hp, -⟩ := two_children_near_promote me fs ll lr rr a la ra k lk rk
          c b lc lb rc rb hrep
        have hm := rd_focus me (.R (.node ll la lk lc lb lr) a k c b :: fs) .nil rr ra rk rc rb
          hrep
        refine ⟨ra, rk, rc, rb, rr, _, ra, false, S2, rfl, hm, hp,
          by rw [remove_two_children_eq, hp]; rfl, ?_, ?_⟩
        · intro h; exact absurd rfl h
        · intro _; exact ⟨rfl, rfl, rfl⟩
      | node r1 ta tk tc tb r2 =>
        obtain ⟨ma, mk, mc, mb, mr, hm⟩ :=
          min_node_node (.node r1 ta tk tc tb r2) rr ra rk rc rb
        obtain ⟨q, qk, qc, qb, qr, ps, hps⟩ := min_path_cons r1 r2 rr ta ra tk rk tc tb rc rb
        obtain ⟨S9, hp, -⟩ := two_children_far_promote me fs ps ll lr r1 r2 rr qr mr
          a la ra ta q ma k lk rk tk qk mk c b lc lb rc rb tc tb qc qb mc mb hrep hm hps
        have hplug := plug_min (.node (.node r1 ta tk tc tb r2) ra rk rc rb rr)
        rw [hm, hps] at hplug
        have hrep' : Represents me (plug (Step.L q qk qc qb qr :: (ps ++
            Step.R (.node ll la lk lc lb lr) a k c b :: fs)) (.node .nil ma mk mc mb mr)) := by
          rw [← List.cons_append, plug_append, hplug]; exact hrep
        have hmn := rd_focus me _ .nil mr ma mk mc mb hrep'
        obtain ⟨-, -, -, -, -, -, m_fs, -⟩ := focus_facts me _ .nil mr ma mk mc mb hrep'
        refine ⟨ma, mk, mc, mb, mr, _, q, true, S9, hm, hmn, hp,
          by rw [remove_two_children_eq, hp]; rfl, ?_, ?_⟩
        · intro _
          refine ⟨rfl, ?_, rfl⟩
          rintro rfl
          exact m_fs (by simp)
        · intro h; simp [Tree.left] at h

/-! ## The shape made by `multiset_rotate_left` -/

/-- After `multiset_rotate_left(me, parent, child)` the slot that held `parent` holds
`child`, `parent` is the left child of `child`, the former left subtree of `child` is the
right subtree of `parent`, and the parent pointers of the three nodes name their new
parents. -/
theorem rotate_left_shape {K : Type} (me : internal_multiset K) (fs : List (Step K))
    (l rl rr : Tree K) (p c : Nat) (kp kc : K) (cp bp cc bc : Int)
    (hrep : Represents me (plug fs (.node l p kp cp bp (.node rl c kc cc bc rr)))) :
    ∃ me1, multiset_rotate_left me p c = some me1 ∧
      (match fs with
        | [] => me1.root = some c
        | .L a k ca b r :: gs =>
          rd me1.mem a = some { count := ca, parent := parptr gs, balance := b, key := k,
                                left := some c, right := r.ptr }
        | .R l0 a k ca b :: gs =>
          rd me1.mem a = some { count := ca, parent := parptr gs, balance := b, key := k,
                                left := l0.ptr, right := some c }) ∧
      rd me1.mem c = some { count := cc, parent := parptr fs, balance := bc, key := kc,
                            left := some p, right := rr.ptr } ∧
      rd me1.mem p = some { count := cp, parent := some c, balance := bp, key := kp,
                            left := l.ptr, right := rl.ptr } ∧
      (∀ x n, rl.ptr = some x → rd me.mem x = some n →
        rd me1.mem x = some { n with parent := some p }) := by
  obtain ⟨me1, h1, r1, -⟩ := rotate_left_spec me fs l rl rr p c kp kc cp bp cc bc hrep
  have hc := rd_focus me1 fs (.node l p kp cp bp rl) rr c kc cc bc r1
  have hp := rd_focus me1 (.L c kc cc bc rr :: fs) l rl p kp cp bp r1
  simp only [ptr_node, parptr_cons, addr_L] at hc hp
  refine ⟨me1, h1, ?_, hc, hp, ?_⟩
  · cases fs with
    | nil => exact r1.1
    | cons s gs =>
      cases s with
      | L a k ca b r =>
        have := rd_focus me1 gs _ r a k ca b r1
        simpa only [ptr_node] using this
      | R l0 a k ca b =>
        have := rd_focus me1 gs l0 _ a k ca b r1
        simpa only [ptr_node] using this
  · intro x n hx hn
    cases rl with
    | nil => simp at hx
    | node g1 y ky cy by1 g2 =>
      simp only [ptr_node, Option.some.injEq] at hx
      subst hx
      have h0 := rd_focus me (.L c kc cc bc rr :: .R l p kp cp bp :: fs) g1 g2 y ky cy by1 hrep
      have h2 := rd_focus me1 (.R l p kp cp bp :: .L c kc cc bc rr :: fs) g1 g2 y ky cy by1 r1
      simp only [parptr_cons, addr_L, addr_R] at h0 h2
      rw [h0] at hn
      simp only [Option.some.injEq] at hn
      subst hn
      rw [h2]

/-! ## Absent nodes in the rebalancing -/

/-- The function `multiset_repair` has no result when it selects a double rotation and the
grandchild is absent. -/
theorem repair_absent_grand_child {K : Type} (me : internal_multiset K) (p c : Nat)
    (pn cn : node K) (hp : rd me.mem p = some pn) (hc : rd me.mem c = some cn)
    (h : (pn.balance = 2 ∧ cn.balance = -1) ∨ (pn.balance ≠ 2 ∧ cn.balance = 1)) :
    multiset_repair me p c none = none := by
  rcases h with ⟨h1, h2⟩ | ⟨h1, h2⟩
  · simp [multiset_repair, hp, hc, h1, h2]
  · simp [multiset_repair, hp, hc, h1, h2]

/-- The function `multiset_repair_pivot` has no result when the child on the side it pivots
to is absent. -/
theorem repair_pivot_absent_child {K : Type} (me : internal_multiset K) (item : Nat)
    (flag : Bool) (it : node K) (hi : rd me.mem item = some it)
    (h : (if flag = true then it.right else it.left) = none) :
    multiset_repair_pivot me item flag = none := by
  simp [multiset_repair_pivot, hi, h]

/-- The function `multiset_repair_pivot` has no result when it selects a double rotation and
the grandchild is absent. -/
theorem repair_pivot_absent_grand_child {K : Type} (me : internal_multiset K) (item : Nat)
    (flag : Bool) (it cn : node K) (child : Nat) (hi : rd me.mem item = some it)
    (hchild : (if flag = true then it.right else it.left) = some child)
    (hc : rd me.mem child = some cn)
    (hg : (if cn.balance = 1 then cn.right else cn.left) = none)
    (h : (it.balance = 2 ∧ cn.balance = -1) ∨ (it.balance ≠ 2 ∧ cn.balance = 1)) :
    multiset_repair_pivot me item flag = none := by
  simp only [multiset_repair_pivot, hi, andThen_some, hchild, hc, hg]
  exact repair_absent_grand_child me item child it cn hi hc h

/-! ## A key that was put is found -/

theorem put_t_present {K : Type} {cmp : K → K → Int} (h : TotalOrder cmp) (key : K) (new : Nat)
    (t T : Tree K) (hT : put_t cmp key new t = some T) :
    present cmp key T.inorder = true := by
  rw [present_iff]
  rcases hz : zoom cmp key [] t with ⟨fs, u⟩
  cases u with
  | nil =>
    rw [put_t_absent_inorder cmp key new t T fs hz hT]
    exact ⟨(key, 1), by simp, h.cmp_self key⟩
  | node l a k c b r =>
    rw [put_t_present_inorder cmp key new t T fs l r a k c b hz hT]
    exact ⟨(k, c + 1), by simp, zoom_found_eq cmp key t [] fs l r a k c b hz⟩

/-- After `multiset_put` of a key, `multiset_remove` of the same key returns 1 and the size
and every count are those before the put. -/
theorem put_remove_spec {K : Type} (me : internal_multiset K) (key : K) (t : Tree K)
    (hrep : Represents me t) (havl : AVL t) (hbst : BST me.comparator t)
    (hord : TotalOrder me.comparator) :
    ∃ me1 me2, multiset_put me key true true = some (0, me1) ∧
      multiset_remove me1 key = some (1, me2) ∧
      multiset_size me2 = multiset_size me ∧
      ∀ j, multiset_count me2 j = multiset_count me j := by
  obtain ⟨me1, T, h1, r1, a1, hT, s1, c1, -⟩ := put_avl me key t hrep havl
  obtain ⟨hb, -, hl⟩ := put_t_facts hord key _ t T hbst hT
  have hpres := put_t_present hord key _ t T hT
  have hb1 : BST me1.comparator T := by rw [c1]; exact hb
  have hord1 : TotalOrder me1.comparator := by rw [c1]; exact hord
  have hcont := (count_eq_lookup me1 key T r1 hb1 hord1).2
  rw [c1, hpres, if_pos rfl] at hcont
  obtain ⟨fs, l, a, k, c, b, r, hz⟩ := contains_one_zoom me1 key T r1 hcont
  obtain ⟨me2, T2, h2, r2, -, hT2, s2, c2, -⟩ :=
    remove_present_spec me1 key T fs l r a k c b r1 a1 hz
  obtain ⟨hb2, -, -, hl2⟩ := remove_t_facts hord1 key T T2 fs l r a k c b hb1 hz hT2
  refine ⟨me1, me2, h1, h2, ?_, ?_⟩
  · simp only [multiset_size, s2, s1]; omega
  · intro j
    have e2 := (count_eq_lookup me2 j T2 r2 (by rw [c2]; exact hb2)
      (by rw [c2]; exact hord1)).1
    have e0 := (count_eq_lookup me j t hrep hbst hord).1
    rw [e2, e0, c2, hl2 j, c1, hl j]
    by_cases hj : me.comparator j key = 0
    · simp only [hj, if_true]; congr 1; omega
    · simp only [hj, if_false]

/-! ## Two containers that hold the same tree -/

theorem rep_agree {K : Type} (h1 h2 : List (Option (node K))) (t : Tree K) :
    ∀ par, Rep h1 par t → Rep h2 par t → ∀ a ∈ t.addrs, rd h1 a = rd h2 a := by
  induction t with
  | nil => intro par _ _ a ha; simp at ha
  | node l x k c b r ihl ihr =>
    intro par r1 r2 a ha
    rw [Rep_node] at r1 r2
    simp only [addrs_node, List.mem_append, List.mem_cons] at ha
    rcases ha with ha | ha | ha
    · exact ihl _ r1.2.1 r2.2.1 a ha
    · subst ha; rw [r1.1, r2.1]
    · exact ihr _ r1.2.2 r2.2.2 a ha

/-- Two containers that hold the same tree have the same root pointer and the same record
at every node of the tree. -/
theorem represents_agree {K : Type} (m1 m2 : internal_multiset K) (t : Tree K)
    (h1 : Represents m1 t) (h2 : Represents m2 t) :
    m1.root = m2.root ∧ ∀ a ∈ t.addrs, rd m1.mem a = rd m2.mem a :=
  ⟨h1.1.trans h2.1.symm, rep_agree m1.mem m2.mem t none h1.2.1 h2.2.1⟩

/-- A container that holds the mirror image of a tree is, mirrored, equal on the nodes of
the tree to every container that holds the tree. -/
theorem mirror_agree {K : Type} (m1 m2 : internal_multiset K) (t : Tree K)
    (h1 : Represents m1 t) (h2 : Represents m2 t.mirror) :
    (mirror m2).root = m1.root ∧ ∀ a ∈ t.addrs, rd (mirror m2).mem a = rd m1.mem a := by
  have h3 := represents_mirror m2 _ h2
  rw [mirror_mirror] at h3
  exact represents_agree (mirror m2) m1 t h3 h1

/-! ## The comparator of the tests in 32-bit arithmetic -/

theorem wrap_int_range (x : Int) : INT_MIN ≤ wrap_int x ∧ wrap_int x ≤ INT_MAX := by
  simp only [INT_MIN, INT_MAX, wrap_int]; omega

theorem wrap_int_id (x : Int) (h1 : INT_MIN ≤ x) (h2 : x ≤ INT_MAX) : wrap_int x = x := by
  simp only [INT_MIN, INT_MAX, wrap_int] at *; omega

/-- The result of `compare_int` is the difference of its arguments when that fits an
`int`. -/
theorem compare_int32_eq (a b : Int) (h1 : INT_MIN ≤ a - b) (h2 : a - b ≤ INT_MAX) :
    compare_int32 a b = compare_int a b :=
  wrap_int_id (a - b) h1 h2

/-- The result of `compare_int` is zero exactly for equal arguments. -/
theorem compare_int32_zero_iff (a b : Int) (ha1 : INT_MIN ≤ a) (ha2 : a ≤ INT_MAX)
    (hb1 : INT_MIN ≤ b) (hb2 : b ≤ INT_MAX) : compare_int32 a b = 0 ↔ a = b := by
  simp only [INT_MIN, INT_MAX, compare_int32, wrap_int] at *; omega

/-- The sign of the result of `compare_int` tells the order of its arguments exactly when
their difference fits an `int`. -/
theorem compare_int32_sign_iff (a b : Int) (ha1 : INT_MIN ≤ a) (ha2 : a ≤ INT_MAX)
    (hb1 : INT_MIN ≤ b) (hb2 : b ≤ INT_MAX) :
    ((compare_int32 a b < 0 ↔ a < b) ∧ (0 < compare_int32 a b ↔ b < a)) ↔
      (INT_MIN ≤ a - b ∧ a - b ≤ INT_MAX) := by
  simp only [INT_MIN, INT_MAX, compare_int32, wrap_int] at *; omega

/-- The function `compare_int` in 32-bit arithmetic is not the comparison of a total order:
`INT_MIN` compares less than 0 and 0 compares less than `INT_MIN`. -/
theorem compare_int32_not_total : ¬ TotalOrder compare_int32 := by
  intro h
  have h1 := (h.swap (-2147483648) 0).mp (by decide)
  revert h1
  decide

/-- A multiset with the comparator in 32-bit arithmetic into which 1, `INT_MIN` and 0 are
put: all three calls return 0, the root holds 1, its left child holds 0 and its right child
holds `INT_MIN`. -/
theorem example_wrapping_run :
    (run_ops [.put 1, .put (-2147483648), .put 0] example_wrapping).map
      (fun x => (x.1, x.2.root)) = some ([0, 0, 0], some 0) ∧
    (run_ops [.put 1, .put (-2147483648), .put 0] example_wrapping).map
      (fun x => x.2.mem.map (Option.map (fun n => (n.key, n.left, n.right)))) =
      some [some (1, some 2, some 1), some (-2147483648, none, none),
        some (0, none, none)] := by
  decide

/-! ## The functions in machine arithmetic and on mathematical integers -/

/-- The descent loop of `multiset_put` in 32-bit arithmetic on a key that is present: the
count of the matching node and the size are incremented in 32-bit arithmetic. -/
theorem put_loop32_found {K : Type} (key : K) (t : Tree K) :
    ∀ (me : internal_multiset K) (fs : List (Step K)) (x fuel : Nat) (node_ok key_ok : Bool)
      (fs1 : List (Step K)) (l r : Tree K) (a : Nat) (k : K) (c b : Int),
      Represents me (plug fs t) → t.ptr = some x → t.size ≤ fuel →
      zoom me.comparator key fs t = (fs1, .node l a k c b r) →
      multiset_put_loop32 key node_ok key_ok fuel me x =
        (wr me a fun (n : node K) => { n with count := wrap_int (n.count + 1) }).andThen
          fun m => some (0, { m with size := wrap_int (m.size + 1) }) := by
  induction t with
  | nil => intro me fs x fuel _ _ _ _ _ _ _ _ _ _ ht; simp at ht
  | node l0 a0 k0 c0 b0 r0 ihl ihr =>
    intro me fs x fuel node_ok key_ok fs1 l r a k c b hrep ht hfuel hz
    simp only [ptr_node, Option.some.injEq] at ht
    subst ht
    rw [size_node_pos] at hfuel
    cases fuel with
    | zero => omega
    | succ fuel =>
      have hp := rd_focus me fs l0 r0 a0 k0 c0 b0 hrep
      simp only [multiset_put_loop32, hp, andThen_some]
      by_cases hlt : me.comparator key k0 < 0
      · simp only [hlt, if_true]
        rw [zoom_lt _ _ _ _ _ _ _ _ _ hlt] at hz
        cases l0 with
        | nil => simp at hz
        | node ll la lk lc lb lr =>
          simp only [ptr_node]
          rw [size_node_pos] at hfuel
          exact ihl me (.L a0 k0 c0 b0 r0 :: fs) la fuel _ _ _ _ _ _ _ _ _ hrep rfl
            (by rw [size_node_pos]; omega) hz
      · simp only [hlt, if_false]
        by_cases hgt : me.comparator key k0 > 0
        · simp only [hgt, if_true]
          rw [zoom_gt _ _ _ _ _ _ _ _ _ hlt hgt] at hz
          cases r0 with
          | nil => simp at hz
          | node rl ra rk rc rb rr =>
            simp only [ptr_node]
            rw [size_node_pos] at hfuel
            exact ihr me (.R l0 a0 k0 c0 b0 :: fs) ra fuel _ _ _ _ _ _ _ _ _ hrep rfl
              (by rw [size_node_pos]; omega) hz
        · simp only [hgt, if_false]
          rw [zoom_eq _ _ _ _ _ _ _ _ _ hlt hgt] at hz
          simp only [Prod.mk.injEq, Tree.node.injEq] at hz
          obtain ⟨-, -, e, -⟩ := hz
          subst e
          rfl

/-- The descent loop of `multiset_put` on a key that is absent: as long as the size can be
incremented without overflow, the loop in 32-bit arithmetic is the loop on mathematical
integers. -/
theorem put_loop32_absent {K : Type} (key : K) (t : Tree K) :
    ∀ (me : internal_multiset K) (fs : List (Step K)) (x fuel : Nat) (node_ok key_ok : Bool),
      Represents me (plug fs t) → t.ptr = some x → t.size ≤ fuel →
      (zoom me.comparator key fs t).2 = .nil → wrap_int (me.size + 1) = me.size + 1 →
      multiset_put_loop32 key node_ok key_ok fuel me x =
        multiset_put_loop key node_ok key_ok fuel me x := by
  induction t with
  | nil => intro me fs x fuel _ _ _ ht; simp at ht
  | node l a k c b r ihl ihr =>
    intro me fs x fuel node_ok key_ok hrep ht hfuel hz hs
    simp only [ptr_node, Option.some.injEq] at ht
    subst ht
    rw [size_node_pos] at hfuel
    have hcr : ∀ par, multiset_create_node32 me key par node_ok key_ok =
        multiset_create_node me key par node_ok key_ok := by
      intro par
      simp only [multiset_create_node32, multiset_create_node, hs]
    cases fuel with
    | zero => omega
    | succ fuel =>
      have hp := rd_focus me fs l r a k c b hrep
      simp only [multiset_put_loop32, multiset_put_loop, hp, andThen_some]
      by_cases hlt : me.comparator key k < 0
      · simp only [hlt, if_true]
        rw [zoom_lt _ _ _ _ _ _ _ _ _ hlt] at hz
        cases l with
        | nil => simp only [ptr_nil, hcr]
        | node ll la lk lc lb lr =>
          simp only [ptr_node]
          rw [size_node_pos] at hfuel
          exact ihl me (.L a k c b r :: fs) la fuel _ _ hrep rfl
            (by rw [size_node_pos]; omega) hz hs
      · simp only [hlt, if_false]
        by_cases hgt : me.comparator key k > 0
        · simp only [hgt, if_true]
          rw [zoom_gt _ _ _ _ _ _ _ _ _ hlt hgt] at hz
          cases r with
          | nil => simp only [ptr_nil, hcr]
          | node rl ra rk rc rb rr =>
            simp only [ptr_node]
            rw [size_node_pos] at hfuel
            exact ihr me (.R l a k c b :: fs) ra fuel _ _ hrep rfl
              (by rw [size_node_pos]; omega) hz hs
        · rw [zoom_eq _ _ _ _ _ _ _ _ _ hlt hgt] at hz
          simp at hz

/-- A `multiset_put` in 32-bit arithmetic of a present key: the whole state afterwards. -/
theorem put32_present_exact {K : Type} (me : internal_multiset K) (key : K) (t : Tree K)
    (node_ok key_ok : Bool) (fs : List (Step K)) (l r : Tree K) (a : Nat) (k : K) (c b : Int)
    (hrep : Represents me t) (hz : zoom me.comparator key [] t = (fs, .node l a k c b r)) :
    multiset_put32 me key node_ok key_ok =
      some (0, { me with
        mem := upd me.mem a (some { count := wrap_int (c + 1), parent := parptr fs,
                                    balance := b, key := k, left := l.ptr, right := r.ptr })
        size := wrap_int (me.size + 1) }) := by
  have hp := rd_focus me fs l r a k c b (represents_zoom me key t fs _ hrep hz)
  cases t with
  | nil => simp at hz
  | node l0 a0 k0 c0 b0 r0 =>
    have hroot : me.root = some a0 := hrep.1
    have hsz := represents_size_le me _ hrep
    simp only [multiset_put32, hroot]
    rw [put_loop32_found key _ me [] a0 (me.mem.length + 1) _ _ fs l r a k c b hrep rfl
      (by omega) hz, wr_some me a _ _ hp]
    simp [hroot]

/-- As long as neither the size nor the count of the key overflows, `multiset_put` in 32-bit
arithmetic is `multiset_put` on mathematical integers. -/
theorem put32_eq_put {K : Type} (me : internal_multiset K) (key : K) (t : Tree K)
    (node_ok key_ok : Bool) (hrep : Represents me t)
    (hs : wrap_int (me.size + 1) = me.size + 1)
    (hc : ∀ fs l a k c b r, zoom me.comparator key [] t = (fs, .node l a k c b r) →
      wrap_int (c + 1) = c + 1) :
    multiset_put32 me key node_ok key_ok = multiset_put me key node_ok key_ok := by
  rcases hz : zoom me.comparator key [] t with ⟨fs, u⟩
  cases u with
  | nil =>
    cases t with
    | nil =>
      have hroot : me.root = none := hrep.1
      cases node_ok <;> cases key_ok <;>
        simp [multiset_put32, multiset_put, hroot, multiset_create_node32,
          multiset_create_node, hs]
    | node l0 a0 k0 c0 b0 r0 =>
      have hroot : me.root = some a0 := hrep.1
      have hsz := represents_size_le me _ hrep
      simp only [multiset_put32, multiset_put, hroot]
      exact put_loop32_absent key _ me [] a0 (me.mem.length + 1) _ _ hrep rfl (by omega)
        (by rw [hz]) hs
  | node l a k c b r =>
    have hp := rd_focus me fs l r a k c b (represents_zoom me key t fs _ hrep hz)
    rw [put32_present_exact me key t node_ok key_ok fs l r a k c b hrep hz]
    cases t with
    | nil => simp at hz
    | node l0 a0 k0 c0 b0 r0 =>
      have hroot : me.root = some a0 := hrep.1
      have hsz := represents_size_le me _ hrep
      simp only [multiset_put, hroot]
      rw [put_loop_found key _ me [] a0 (me.mem.length + 1) _ _ fs l r a k c b hrep rfl
        (by omega) hz, wr_some me a _ _ hp]
      simp [hs, hc fs l a k c b r hz, hroot]

theorem size_remove_element {K : Type} (me me1 : internal_multiset K) (a : Nat)
    (h : multiset_remove_element me a = some me1) : me1.size = me.size := by
  simp only [multiset_remove_element, andThen_eq_some, Option.some.injEq] at h
  obtain ⟨t, -, m1, h1, n, -, h⟩ := h
  subst h
  show m1.size = me.size
  split at h1
  · exact (keeps_remove_no_children h1).1
  · split at h1
    · exact (keeps_remove_one_child h1).1
    · exact (keeps_remove_two_children h1).1

/-- As long as neither the count of the key nor the size leaves the range of `int`,
`multiset_remove` in 32-bit arithmetic is `multiset_remove` on mathematical integers. -/
theorem remove32_eq_remove {K : Type} (me : internal_multiset K) (key : K)
    (hc : ∀ a n, multiset_equal_match me key = some (some a) → rd me.mem a = some n →
      wrap_int (n.count - 1) = n.count - 1)
    (hs : wrap_int (me.size - 1) = me.size - 1) :
    multiset_remove32 me key = multiset_remove me key := by
  simp only [multiset_remove32, multiset_remove]
  cases hm : multiset_equal_match me key with
  | none => simp only [andThen_none]
  | some tr =>
    cases tr with
    | none => simp only [andThen_some]
    | some a =>
      simp only [andThen_some]
      cases hp : rd me.mem a with
      | none => simp only [wr, hp, andThen_none]
      | some n =>
        rw [wr_some me a _ n hp, wr_some me a _ n hp]
        simp only [hc a n hm hp, andThen_some]
        cases rd (upd me.mem a (some { n with count := n.count - 1 })) a with
        | none => simp only [andThen_none]
        | some t2 =>
          simp only [andThen_some]
          split
          · cases h3 : multiset_remove_element
              { me with mem := upd me.mem a (some { n with count := n.count - 1 }) } a with
            | none => simp only [andThen_none]
            | some me3 =>
              have h4 : me3.size = me.size := by
                have h5 := size_remove_element _ _ _ h3
                exact h5
              simp only [andThen_some, h4, hs]
          · simp only [andThen_some, hs]

/-- As long as the size less the count of the key is in the range of `int`,
`multiset_remove_all` in 32-bit arithmetic is `multiset_remove_all` on mathematical
integers. -/
theorem remove_all32_eq_remove_all {K : Type} (me : internal_multiset K) (key : K)
    (hc : ∀ a n, multiset_equal_match me key = some (some a) → rd me.mem a = some n →
      wrap_int (me.size - n.count) = me.size - n.count) :
    multiset_remove_all32 me key = multiset_remove_all me key := by
  simp only [multiset_remove_all32, multiset_remove_all]
  cases hm : multiset_equal_match me key with
  | none => simp only [andThen_none]
  | some tr =>
    cases tr with
    | none => simp only [andThen_some]
    | some a =>
      simp only [andThen_some]
      cases hp : rd me.mem a with
      | none => simp only [andThen_none]
      | some n => simp only [andThen_some, hc a n hm hp]

/-! ## Sequences of calls that stay in the range of `int` -/

theorem sum_counts_bounds {K : Type} (es : List (K × Int)) (hpos : ∀ e ∈ es, 1 ≤ e.2) :
    0 ≤ (es.map Prod.snd).sum ∧ ∀ e ∈ es, e.2 ≤ (es.map Prod.snd).sum := by
  induction es with
  | nil => exact ⟨by simp, fun e he => by simp at he⟩
  | cons x es ih =>
    obtain ⟨h0, hle⟩ := ih (fun e he => hpos e (List.mem_cons_of_mem _ he))
    have hx := hpos x (List.mem_cons_self _ _)
    simp only [List.map_cons, List.sum_cons]
    refine ⟨by omega, fun e he => ?_⟩
    rcases List.mem_cons.mp he with e1 | e1
    · subst e1; omega
    · have := hle e e1; omega

/-- In a tree whose counts are all at least 1, no count exceeds the sum of the counts. -/
theorem count_le_total {K : Type} (t : Tree K) (hpos : ∀ e ∈ t.inorder, 1 ≤ e.2) :
    0 ≤ t.total ∧ ∀ e ∈ t.inorder, e.2 ≤ t.total := by
  rw [total_eq_inorder]
  exact sum_counts_bounds t.inorder hpos

/-- The count of the node that a search ends at lies between 1 and the size. -/
theorem zoom_count_bounds {K : Type} (me : internal_multiset K) (key : K) (t : Tree K)
    (hs : me.size = t.total) (hpos : ∀ e ∈ t.inorder, 1 ≤ e.2)
    (fs : List (Step K)) (l r : Tree K) (a : Nat) (k : K) (c b : Int)
    (hz : zoom me.comparator key [] t = (fs, .node l a k c b r)) :
    1 ≤ c ∧ c ≤ me.size := by
  have hmem : (k, c) ∈ t.inorder := by
    rw [present_inorder me.comparator key t fs l r a k c b hz]
    simp
  rw [hs]
  exact ⟨hpos _ hmem, (count_le_total t hpos).2 _ hmem⟩

/-- The count of the node that `multiset_equal_match` returns lies between 1 and the
size. -/
theorem match_count_bounds {K : Type} (me : internal_multiset K) (key : K) (t : Tree K)
    (hrep : Represents me t) (hs : me.size = t.total) (hpos : ∀ e ∈ t.inorder, 1 ≤ e.2)
    (a : Nat) (n : node K) (hm : multiset_equal_match me key = some (some a))
    (hp : rd me.mem a = some n) : 1 ≤ n.count ∧ n.count ≤ me.size := by
  rcases hz : zoom me.comparator key [] t with ⟨fs, u⟩
  cases u with
  | nil =>
    obtain ⟨h1, -, -⟩ := lookup_absent_spec me key t fs hrep hz
    rw [hm] at h1
    simp at h1
  | node l a1 k c b r =>
    obtain ⟨h1, -, -⟩ := lookup_present_spec me key t fs l r a1 k c b hrep hz
    rw [hm] at h1
    simp only [Option.some.injEq] at h1
    subst h1
    have hf := rd_focus me fs l r a k c b (represents_zoom me key t fs _ hrep hz)
    rw [hp] at hf
    simp only [Option.some.injEq] at hf
    subst hf
    exact zoom_count_bounds me key t hs hpos fs l r a k c b hz

theorem count_puts_nonneg {K : Type} (ops : List (Op K)) : 0 ≤ count_puts ops := by
  induction ops with
  | nil => simp [count_puts]
  | cons o ops ih => cases o <;> simp only [count_puts] <;> omega

/-- On a container reachable on mathematical integers whose size is below `INT_MAX`,
`multiset_put` in 32-bit arithmetic is `multiset_put` on mathematical integers. -/
theorem reachable_put32_eq {K : Type} (me : internal_multiset K) (key : K)
    (node_ok key_ok : Bool) (h : Reachable me) (hlt : me.size < INT_MAX) :
    multiset_put32 me key node_ok key_ok = multiset_put me key node_ok key_ok := by
  obtain ⟨t, hrep, -, hs, hpos⟩ := reachable_inv_pos me h
  have h0 := (count_le_total t hpos).1
  rw [← hs] at h0
  refine put32_eq_put me key t node_ok key_ok hrep
    (wrap_int_id _ (by simp only [INT_MIN]; omega) (by simp only [INT_MAX] at hlt ⊢; omega)) ?_
  intro fs l a k c b r hz
  obtain ⟨h1, h2⟩ := zoom_count_bounds me key t hs hpos fs l r a k c b hz
  exact wrap_int_id _ (by simp only [INT_MIN]; omega) (by simp only [INT_MAX] at hlt ⊢; omega)

/-- On a container reachable on mathematical integers whose size is at most `INT_MAX`,
`multiset_remove` and `multiset_remove_all` in 32-bit arithmetic are the functions on
mathematical integers. -/
theorem reachable_remove32_eq {K : Type} (me : internal_multiset K) (key : K)
    (h : Reachable me) (hle : me.size ≤ INT_MAX) :
    multiset_remove32 me key = multiset_remove me key ∧
      multiset_remove_all32 me key = multiset_remove_all me key := by
  obtain ⟨t, hrep, -, hs, hpos⟩ := reachable_inv_pos me h
  have h0 := (count_le_total t hpos).1
  rw [← hs] at h0
  refine ⟨remove32_eq_remove me key ?_ ?_, remove_all32_eq_remove_all me key ?_⟩
  · intro a n hm hp
    obtain ⟨h1, h2⟩ := match_count_bounds me key t hrep hs hpos a n hm hp
    exact wrap_int_id _ (by simp only [INT_MIN]; omega) (by simp only [INT_MAX] at hle ⊢; omega)
  · exact wrap_int_id _ (by simp only [INT_MIN]; omega) (by simp only [INT_MAX] at hle ⊢; omega)
  · intro a n hm hp
    obtain ⟨h1, h2⟩ := match_count_bounds me key t hrep hs hpos a n hm hp
    exact wrap_int_id _ (by simp only [INT_MIN]; omega) (by simp only [INT_MAX] at hle ⊢; omega)

/-- The size after one call, on mathematical integers: a put adds at most 1, the other calls
add nothing. -/
theorem reachable_step_size {K : Type} (me : internal_multiset K) (h : Reachable me) :
    0 ≤ me.size ∧
    (∀ key node_ok key_ok r me1, multiset_put me key node_ok key_ok = some (r, me1) →
      me1.size ≤ me.size + 1) ∧
    (∀ key r me1, multiset_remove me key = some (r, me1) → me1.size ≤ me.size) ∧
    (∀ key r me1, multiset_remove_all me key = some (r, me1) → me1.size ≤ me.size) ∧
    (∀ me1, multiset_clear me = some me1 → me1.size ≤ me.size) := by
  obtain ⟨t, hrep, havl, hs, hpos⟩ := reachable_inv_pos me h
  have h0 := (count_le_total t hpos).1
  rw [← hs] at h0
  refine ⟨h0, ?_, ?_, ?_, ?_⟩
  · intro key node_ok key_ok r me1 hput
    obtain ⟨r2, me2, T, h2, -, -, -, -, hcase⟩ := put_any_spec me key t node_ok key_ok hrep havl
    rw [hput] at h2
    simp only [Option.some.injEq, Prod.mk.injEq] at h2
    obtain ⟨-, e2⟩ := h2
    subst e2
    rcases hcase with ⟨-, -, e⟩ | ⟨-, e, -⟩
    · omega
    · rw [e]; omega
  · intro key r me1 hrem
    rcases hz : zoom me.comparator key [] t with ⟨fs, u⟩
    cases u with
    | nil =>
      obtain ⟨hm, -, -⟩ := lookup_absent_spec me key t fs hrep hz
      rw [(remove_absent_spec me key hm).1] at hrem
      simp only [Option.some.injEq, Prod.mk.injEq] at hrem
      rw [← hrem.2]
    | node l a k c b r0 =>
      obtain ⟨me2, T, h2, -, -, -, s2, -⟩ :=
        remove_present_spec me key t fs l r0 a k c b hrep havl hz
      rw [hrem] at h2
      simp only [Option.some.injEq, Prod.mk.injEq] at h2
      rw [h2.2, s2]; omega
  · intro key r me1 hrem
    rcases hz : zoom me.comparator key [] t with ⟨fs, u⟩
    cases u with
    | nil =>
      obtain ⟨hm, -, -⟩ := lookup_absent_spec me key t fs hrep hz
      rw [(remove_absent_spec me key hm).2] at hrem
      simp only [Option.some.injEq, Prod.mk.injEq] at hrem
      rw [← hrem.2]
    | node l a k c b r0 =>
      obtain ⟨me2, T, h2, -, -, -, s2, -⟩ :=
        remove_all_present_spec me key t fs l r0 a k c b hrep havl hz
      have hc := (zoom_count_bounds me key t hs hpos fs l r0 a k c b hz).1
      rw [hrem] at h2
      simp only [Option.some.injEq, Prod.mk.injEq] at h2
      rw [h2.2, s2]; omega
  · intro me1 hcl
    obtain ⟨me2, h2, -, s2, -⟩ := clear_spec me t hrep havl
    rw [hcl] at h2
    simp only [Option.some.injEq] at h2
    rw [h2, s2]; exact h0

/-- A container reached in machine arithmetic by a sequence with at most `INT_MAX` calls of
`multiset_put` is reached by the same sequence on mathematical integers, and its size is at
most the number of those calls. -/
theorem reachable32_reachable {K : Type} (n : Nat) (me : internal_multiset K)
    (h : Reachable32 n me) : (n : Int) ≤ INT_MAX → Reachable me ∧ me.size ≤ n := by
  induction h with
  | init key_size cmp me hinit =>
    intro _
    refine ⟨Reachable.init key_size cmp me hinit, ?_⟩
    simp only [multiset_init] at hinit
    split at hinit
    · cases hinit
    · simp only [if_true, Option.some.injEq] at hinit
      subst hinit
      simp
  | put n me key node_ok key_ok r me1 _ hput ih =>
    intro hn
    push_cast at hn
    obtain ⟨hR, hle⟩ := ih (by omega)
    rw [reachable_put32_eq me key node_ok key_ok hR (by omega)] at hput
    have := (reachable_step_size me hR).2.1 key node_ok key_ok r me1 hput
    exact ⟨Reachable.put me key node_ok key_ok r me1 hR hput, by push_cast; omega⟩
  | remove n me key r me1 _ hrem ih =>
    intro hn
    obtain ⟨hR, hle⟩ := ih hn
    rw [(reachable_remove32_eq me key hR (by omega)).1] at hrem
    have := (reachable_step_size me hR).2.2.1 key r me1 hrem
    exact ⟨Reachable.remove me key r me1 hR hrem, by omega⟩
  | remove_all n me key r me1 _ hrem ih =>
    intro hn
    obtain ⟨hR, hle⟩ := ih hn
    rw [(reachable_remove32_eq me key hR (by omega)).2] at hrem
    have := (reachable_step_size me hR).2.2.2.1 key r me1 hrem
    exact ⟨Reachable.remove_all me key r me1 hR hrem, by omega⟩
  | clear n me me1 _ hcl ih =>
    intro hn
    obtain ⟨hR, hle⟩ := ih hn
    have := (reachable_step_size me hR).2.2.2.2 me1 hcl
    exact ⟨Reachable.clear me me1 hR hcl, by omega⟩

/-- A sequence of calls that cannot take the size past `INT_MAX` runs in machine arithmetic
as it does on mathematical integers. -/
theorem run_ops32_eq {K : Type} (ops : List (Op K)) :
    ∀ me : internal_multiset K, Reachable me → me.size + count_puts ops ≤ INT_MAX →
      run_ops32 ops me = run_ops ops me := by
  induction ops with
  | nil => intro me _ _; rfl
  | cons o ops ih =>
    intro me hR hb
    have hnn := count_puts_nonneg ops
    cases o with
    | put key =>
      simp only [count_puts] at hb
      simp only [run_ops32, run_ops]
      rw [reachable_put32_eq me key true true hR (by omega)]
      cases hput : multiset_put me key true true with
      | none => simp only [andThen_none]
      | some r =>
        have h1 := (reachable_step_size me hR).2.1 key true true r.1 r.2 hput
        simp only [andThen_some]
        rw [ih r.2 (Reachable.put me key true true r.1 r.2 hR hput) (by omega)]
    | remove key =>
      simp only [count_puts] at hb
      simp only [run_ops32, run_ops]
      rw [(reachable_remove32_eq me key hR (by omega)).1]
      cases hrem : multiset_remove me key with
      | none => simp only [andThen_none]
      | some r =>
        have h1 := (reachable_step_size me hR).2.2.1 key r.1 r.2 hrem
        simp only [andThen_some]
        rw [ih r.2 (Reachable.remove me key r.1 r.2 hR hrem) (by omega)]

/-! ## Counting one key up to the end of the range of `int` -/

theorem example_counting_represents (n : Int) :
    Represents (example_counting n) (tree_counting n) := by
  simp [Represents, example_counting, tree_counting, Rep_node, rd]

theorem tree_counting_avl (n : Int) : AVL (tree_counting n) := by
  simp [tree_counting, AVL_node]

theorem tree_counting_bst (n : Int) :
    BST (example_counting n).comparator (tree_counting n) := by
  simp [tree_counting, BST_node, keys_nil, BST]

theorem example_overflowed_represents : Represents example_overflowed tree_overflowed := by
  simp [Represents, example_overflowed, tree_overflowed, leaf, Rep_node, rd]

/-- One more `multiset_put` with key 3 on the container that holds it `n` times. -/
theorem example_counting_put (n : Int) (node_ok key_ok : Bool) :
    multiset_put32 (example_counting n) 3 node_ok key_ok =
      some (0, example_counting (wrap_int (n + 1))) := by
  simp [multiset_put32, multiset_put_loop32, example_counting, rd, wr, upd, compare_int]

theorem example_empty_put :
    multiset_put32 example_empty 3 true true = some (0, example_counting 1) := rfl

theorem example_counting_put_other :
    multiset_put32 (example_counting 2147483647) 5 true true = some (0, example_overflowed) :=
  rfl

theorem wrap_int_succ (x k : Int) : wrap_int (wrap_int x + k) = wrap_int (x + k) := by
  simp only [wrap_int]; omega

/-- The container reached by `k + 1` calls of `multiset_put` with key 3. -/
theorem reachable32_counting (k : Nat) :
    Reachable32 (k + 1) (example_counting (wrap_int ((k : Int) + 1))) := by
  induction k with
  | zero =>
    exact Reachable32.put 0 example_empty 3 true true 0 _
      (Reachable32.init 4 compare_int example_empty rfl) example_empty_put
  | succ k ih =>
    have h := Reachable32.put (k + 1) _ 3 true true 0 _ ih (example_counting_put _ true true)
    rw [wrap_int_succ] at h
    push_cast
    exact h

theorem count_puts_replicate {K : Type} (key : K) (k : Nat) :
    count_puts (List.replicate k (Op.put key)) = k := by
  induction k with
  | zero => rfl
  | succ k ih => simp only [List.replicate_succ, count_puts, ih]; push_cast; omega

theorem count_removed_replicate {K : Type} (key : K) (k : Nat) :
    ∀ rs : List Int, count_removed (List.replicate k (Op.put key)) rs = 0 := by
  induction k with
  | zero => intro rs; rfl
  | succ k ih =>
    intro rs
    cases rs with
    | nil => rfl
    | cons r rs => simp only [List.replicate_succ, count_removed, ih]

theorem run_ops32_put_cons {K : Type} (key : K) (ops : List (Op K)) (me : internal_multiset K) :
    run_ops32 (.put key :: ops) me =
      (multiset_put32 me key true true).andThen fun r =>
      (run_ops32 ops r.2).andThen fun rs => some (r.1 :: rs.1, rs.2) := rfl

/-- The run of `k + 1` calls of `multiset_put` with key 3 on the container that holds it `n`
times. -/
theorem run_ops32_counting (k : Nat) :
    ∀ n : Int, run_ops32 (List.replicate (k + 1) (Op.put 3)) (example_counting n) =
      some (List.replicate (k + 1) 0, example_counting (wrap_int (n + k + 1))) := by
  induction k with
  | zero =>
    intro n
    simp [run_ops32, example_counting_put]
  | succ k ih =>
    intro n
    have e1 : List.replicate (k + 1 + 1) (Op.put (3 : Int)) =
        Op.put 3 :: List.replicate (k + 1) (Op.put 3) := rfl
    have e2 : List.replicate (k + 1 + 1) (0 : Int) = 0 :: List.replicate (k + 1) 0 := rfl
    have e3 : wrap_int (n + 1 + (k : Int) + 1) = wrap_int (n + ((k + 1 : Nat) : Int) + 1) := by
      push_cast
      congr 1
      omega
    rw [e1, e2, run_ops32_put_cons, example_counting_put, andThen_some]
    simp only []
    rw [ih]
    simp only [andThen_some]
    rw [show wrap_int (wrap_int (n + 1) + (k : Int) + 1) = wrap_int (n + 1 + (k : Int) + 1) from by
      simp only [wrap_int]; omega, e3]

/-- The memory holds at most one tree under a pointer. -/
theorem rep_unique {K : Type} (h : List (Option (node K))) (t1 : Tree K) :
    ∀ (t2 : Tree K) (p1 p2 : Option Nat), Rep h p1 t1 → Rep h p2 t2 → t1.ptr = t2.ptr →
      t1 = t2 := by
  induction t1 with
  | nil =>
    intro t2 p1 p2 _ _ hp
    cases t2 with
    | nil => rfl
    | node l a k c b r => simp at hp
  | node l a k c b r ihl ihr =>
    intro t2 p1 p2 h1 h2 hp
    cases t2 with
    | nil => simp at hp
    | node l2 a2 k2 c2 b2 r2 =>
      simp only [ptr_node, Option.some.injEq] at hp
      subst hp
      rw [Rep_node] at h1 h2
      obtain ⟨e1, hl1, hr1⟩ := h1
      obtain ⟨e2, hl2, hr2⟩ := h2
      rw [e1] at e2
      simp only [Option.some.injEq, node.mk.injEq] at e2
      obtain ⟨ec, -, eb, ek, el, er⟩ := e2
      rw [ihl l2 _ _ hl1 hl2 el, ihr r2 _ _ hr1 hr2 er, ec, eb, ek]

/-- A container holds at most one tree. -/
theorem represents_unique {K : Type} (me : internal_multiset K) (t1 t2 : Tree K)
    (h1 : Represents me t1) (h2 : Represents me t2) : t1 = t2 :=
  rep_unique me.mem t1 t2 none none h1.2.1 h2.2.1 (h1.1.symm.trans h2.1)

/-- The container that holds the key 3 `INT_MAX` times is reached by `INT_MAX` calls of
`multiset_put`. -/
theorem reachable32_int_max : Reachable32 2147483647 (example_counting 2147483647) := by
  have h := reachable32_counting 2147483646
  have e : wrap_int (((2147483646 : Nat) : Int) + 1) = 2147483647 := by decide
  rw [e] at h
  exact h

/-- One more call of `multiset_put` with the key 3: the count and the size wrap around. -/
theorem reachable32_wrapped : Reachable32 2147483648 (example_counting (-2147483648)) := by
  have h := reachable32_counting 2147483647
  have e : wrap_int (((2147483647 : Nat) : Int) + 1) = -2147483648 := by decide
  rw [e] at h
  exact h

/-- One more call of `multiset_put` with the key 5 instead: the size wraps around. -/
theorem reachable32_overflowed : Reachable32 2147483648 example_overflowed :=
  Reachable32.put 2147483647 _ 5 true true 0 _ reachable32_int_max example_counting_put_other

/-- The run of `k + 2` calls of `multiset_put` with key 3 on the empty container. -/
theorem run_ops32_from_empty (k : Nat) :
    run_ops32 (List.replicate (k + 1 + 1) (Op.put 3)) example_empty =
      some (List.replicate (k + 1 + 1) 0, example_counting (wrap_int ((k : Int) + 2))) := by
  have e1 : List.replicate (k + 1 + 1) (Op.put (3 : Int)) =
      Op.put 3 :: List.replicate (k + 1) (Op.put 3) := rfl
  have e2 : List.replicate (k + 1 + 1) (0 : Int) = 0 :: List.replicate (k + 1) 0 := rfl
  rw [e1, e2, run_ops32_put_cons, example_empty_put, andThen_some]
  simp only []
  rw [run_ops32_counting, andThen_some]
  have e3 : (1 : Int) + (k : Int) + 1 = (k : Int) + 2 := by omega
  rw [e3]

/-- The run of `INT_MAX + 1` calls of `multiset_put` with key 3 on the empty container. -/
theorem run_ops32_wrapped :
    run_ops32 (List.replicate 2147483648 (Op.put 3)) example_empty =
      some (List.replicate 2147483648 0, example_counting (-2147483648)) := by
  have h := run_ops32_from_empty 2147483646
  have e : wrap_int (((2147483646 : Nat) : Int) + 2) = -2147483648 := by decide
  rw [e] at h
  exact h

/-! ## The claims about the interface -/

/-- C1: `multiset_put` preserves the AVL invariant. For every container whose memory holds a
tree `t` with consistent parent pointers in which every stored balance equals
height(right) - height(left) and lies in {-1, 0, 1}, and for every key, `multiset_put` (its
allocations succeeding) returns 0 and the container then holds a tree with the same
property. (BST ordering of `t` is not needed.) -/
theorem multiset_put_preserves_avl {K : Type} (me : internal_multiset K) (key : K)
    (t : Tree K) (hrep : Represents me t) (havl : AVL t) :
    ∃ me1 t1, multiset_put me key true true = some (0, me1) ∧ Represents me1 t1 ∧ AVL t1 := by
  obtain ⟨me1, T, h1, r1, a1, -⟩ := put_avl me key t hrep havl
  exact ⟨me1, T, h1, r1, a1⟩

theorem multiset_put_preserves_avl_witness :
    Represents example_one (leaf 0 3) ∧ AVL (leaf 0 3 : Tree Int) ∧
      ∃ me1 t1, multiset_put example_one 5 true true = some (0, me1) ∧
        Represents me1 t1 ∧ AVL t1 :=
  have h1 : Represents example_one (leaf 0 3) := by
    simp [Represents, example_one, leaf, Rep_node, rd]
  have h2 : AVL (leaf 0 3 : Tree Int) := by simp [leaf, AVL_node]
  ⟨h1, h2, multiset_put_preserves_avl example_one 5 (leaf 0 3) h1 h2⟩

/-- C2: `multiset_remove` and `multiset_remove_all` preserve the AVL invariant. For every
container whose memory holds a tree `t` with consistent parent pointers and the AVL
invariant, and for every key, each of the two functions returns, and the container then
holds a tree in which every stored balance equals height(right) - height(left) and lies in
{-1, 0, 1}; this covers an absent key and the three deletion shapes. (BST ordering of `t`
is not needed.) -/
theorem multiset_remove_preserves_avl {K : Type} (me : internal_multiset K) (key : K)
    (t : Tree K) (hrep : Represents me t) (havl : AVL t) :
    (∃ r me1 t1, multiset_remove me key = some (r, me1) ∧ Represents me1 t1 ∧ AVL t1) ∧
      (∃ r me1 t1, multiset_remove_all me key = some (r, me1) ∧ Represents me1 t1 ∧
        AVL t1) := by
  obtain ⟨r, me1, T, h1, r1, a1, -⟩ := remove_any_spec me key t hrep havl
  obtain ⟨r2, me2, T2, h2, r2rep, a2, -⟩ := remove_all_any_spec me key t hrep havl
  exact ⟨⟨r, me1, T, h1, r1, a1⟩, ⟨r2, me2, T2, h2, r2rep, a2⟩⟩

theorem multiset_remove_preserves_avl_witness :
    Represents example_three tree_three ∧ AVL tree_three ∧
      (∃ r me1 t1, multiset_remove example_three 3 = some (r, me1) ∧ Represents me1 t1 ∧
        AVL t1) ∧
      (∃ r me1 t1, multiset_remove_all example_three 3 = some (r, me1) ∧
        Represents me1 t1 ∧ AVL t1) :=
  have h1 : Represents example_three tree_three := by
    simp [Represents, example_three, tree_three, leaf, Rep_node, rd]
  have h2 : AVL tree_three := by simp [tree_three, leaf, AVL_node]
  ⟨h1, h2, multiset_remove_preserves_avl example_three 3 tree_three h1 h2⟩

/-- C3: BST ordering is preserved by every mutation. For every container holding a tree
that satisfies BST ordering under a comparator that is a strict total order, parent
consistency and the AVL invariant, and for every key: `multiset_put` (whatever the outcome
of its allocations), `multiset_remove` and `multiset_remove_all` return, and the container
then holds a tree in which at every node all keys of the left subtree compare less and all
keys of the right subtree compare greater; the keys in order are strictly increasing, so no
two nodes hold equal keys. -/
theorem mutations_preserve_bst {K : Type} (me : internal_multiset K) (key : K) (t : Tree K)
    (hrep : Represents me t) (havl : AVL t) (hbst : BST me.comparator t)
    (hord : TotalOrder me.comparator) :
    (∀ node_ok key_ok, ∃ r me1 t1, multiset_put me key node_ok key_ok = some (r, me1) ∧
        Represents me1 t1 ∧ BST me1.comparator t1 ∧ Ordered me1.comparator t1.keys) ∧
      (∃ r me1 t1, multiset_remove me key = some (r, me1) ∧ Represents me1 t1 ∧
        BST me1.comparator t1 ∧ Ordered me1.comparator t1.keys) ∧
      (∃ r me1 t1, multiset_remove_all me key = some (r, me1) ∧ Represents me1 t1 ∧
        BST me1.comparator t1 ∧ Ordered me1.comparator t1.keys) := by
  refine ⟨?_, ?_, ?_⟩
  · intro node_ok key_ok
    obtain ⟨r, me1, T, h1, r1, -, c1, -, hcase⟩ := put_any_spec me key t node_ok key_ok
      hrep havl
    have hb : BST me.comparator T := by
      rcases hcase with ⟨-, hT, -⟩ | ⟨-, -, e⟩
      · exact (put_t_facts hord key _ t T hbst hT).1
      · rw [e]; exact hbst
    rw [← c1] at hb hord
    exact ⟨r, me1, T, h1, r1, hb, (BST_iff_ordered hord T).mp hb⟩
  · obtain ⟨r, me1, T, h1, r1, -, hT, c1, -⟩ := remove_any_spec me key t hrep havl
    have hb := remove_t_bst hord key t T hbst hT
    rw [← c1] at hb hord
    exact ⟨r, me1, T, h1, r1, hb, (BST_iff_ordered hord T).mp hb⟩
  · obtain ⟨r, me1, T, h1, r1, -, hT, c1, -⟩ := remove_all_any_spec me key t hrep havl
    have hb := remove_all_t_bst hord key t T hbst hT
    rw [← c1] at hb hord
    exact ⟨r, me1, T, h1, r1, hb, (BST_iff_ordered hord T).mp hb⟩

theorem mutations_preserve_bst_witness :
    Represents example_three tree_three ∧ AVL tree_three ∧
      BST example_three.comparator tree_three ∧ TotalOrder example_three.comparator ∧
      (∀ node_ok key_ok, ∃ r me1 t1,
        multiset_put example_three 4 node_ok key_ok = some (r, me1) ∧
        Represents me1 t1 ∧ BST me1.comparator t1 ∧ Ordered me1.comparator t1.keys) ∧
      (∃ r me1 t1, multiset_remove example_three 4 = some (r, me1) ∧ Represents me1 t1 ∧
        BST me1.comparator t1 ∧ Ordered me1.comparator t1.keys) ∧
      (∃ r me1 t1, multiset_remove_all example_three 4 = some (r, me1) ∧
        Represents me1 t1 ∧ BST me1.comparator t1 ∧ Ordered me1.comparator t1.keys) :=
  ⟨example_three_represents, example_three_avl, example_three_bst, compare_int_total,
    mutations_preserve_bst example_three 4 tree_three example_three_represents
      example_three_avl example_three_bst compare_int_total⟩

/-- C4, counterexample: the size does not stay the sum of the occurrence counts. `INT_MAX`
calls of `multiset_put` with the key 3 and then one with the key 5, made on the container of
`multiset_init`, lead to `example_overflowed`. Its tree holds the key 3 2147483647 times and
the key 5 once, 2147483648 occurrences in all, which is no value of an `int`: the last
`me->size++` took `size` from `INT_MAX` to -2147483648. -/
theorem size_accounting_fails_at_overflow :
    Reachable32 2147483648 example_overflowed ∧
      Represents example_overflowed tree_overflowed ∧
      multiset_size example_overflowed = -2147483648 ∧
      tree_overflowed.total = 2147483648 ∧
      ¬ ∃ t, Represents example_overflowed t ∧ multiset_size example_overflowed = t.total := by
  refine ⟨reachable32_overflowed, example_overflowed_represents, rfl, by decide, ?_⟩
  rintro ⟨t, hrep, hs⟩
  rw [represents_unique _ _ _ hrep example_overflowed_represents] at hs
  revert hs
  decide

/-- C4, amended: size accounting within the range of `int`. In every container reached, the
counters in 32-bit arithmetic, from `multiset_init` by a sequence of `multiset_put` (whatever
the outcome of its allocations), `multiset_remove`, `multiset_remove_all` and
`multiset_clear` with at most `INT_MAX` calls of `multiset_put`, the memory holds a tree and
`multiset_size` equals the sum over all its nodes of the occurrence count. -/
theorem size_accounting {K : Type} (n : Nat) (me : internal_multiset K)
    (h : Reachable32 n me) (hn : (n : Int) ≤ INT_MAX) :
    ∃ t, Represents me t ∧ multiset_size me = t.total := by
  obtain ⟨t, hrep, -, hs⟩ := reachable_inv me (reachable32_reachable n me h hn).1
  exact ⟨t, hrep, hs⟩

theorem size_accounting_witness :
    Reachable32 2147483647 (example_counting 2147483647) ∧
      ((2147483647 : Nat) : Int) ≤ INT_MAX ∧
      ∃ t, Represents (example_counting 2147483647) t ∧
        multiset_size (example_counting 2147483647) = t.total :=
  ⟨reachable32_int_max, by decide,
    size_accounting 2147483647 (example_counting 2147483647) reachable32_int_max (by decide)⟩

/-- C5, counterexample: a successful `multiset_put` that does not increase the size and the
count by 1. The container `example_counting 2147483647` is consistent and holds the key 3
`INT_MAX` times; `multiset_put` of the key 3 returns 0 and both `traverse->count++` and
`me->size++` overflow: `multiset_size` and `multiset_count` of the key go from 2147483647 to
-2147483648. -/
theorem put_postcondition_fails_at_int_max :
    Represents (example_counting 2147483647) (tree_counting 2147483647) ∧
      AVL (tree_counting 2147483647) ∧
      BST (example_counting 2147483647).comparator (tree_counting 2147483647) ∧
      TotalOrder (example_counting 2147483647).comparator ∧
      multiset_put32 (example_counting 2147483647) 3 true true =
        some (0, example_counting (-2147483648)) ∧
      multiset_size (example_counting 2147483647) = 2147483647 ∧
      multiset_size (example_counting (-2147483648)) = -2147483648 ∧
      multiset_count (example_counting 2147483647) 3 = some 2147483647 ∧
      multiset_count (example_counting (-2147483648)) 3 = some (-2147483648) ∧
      ¬ ∃ me1 c, multiset_put32 (example_counting 2147483647) 3 true true = some (0, me1) ∧
        multiset_size me1 = multiset_size (example_counting 2147483647) + 1 ∧
        multiset_count (example_counting 2147483647) 3 = some c ∧
        multiset_count me1 3 = some (c + 1) := by
  have hput : multiset_put32 (example_counting 2147483647) 3 true true =
      some (0, example_counting (-2147483648)) := by
    rw [example_counting_put]
    rfl
  refine ⟨example_counting_represents _, tree_counting_avl _, tree_counting_bst _,
    compare_int_total, hput, rfl, rfl, by decide, by decide, ?_⟩
  rintro ⟨me1, c, h1, h2, -, -⟩
  rw [hput] at h1
  simp only [Option.some.injEq, Prod.mk.injEq, true_and] at h1
  subst h1
  revert h2
  decide

/-- C5, amended: postcondition of a successful `multiset_put` below `INT_MAX`. For every
consistent container (its tree BST ordered under a total-order comparator, AVL balanced,
parent consistent) and every key `key` such that `multiset_size` and `multiset_count key`
are values of an `int` below `INT_MAX`, when no allocation fails `multiset_put`, the counters
in 32-bit arithmetic, returns 0, `multiset_size` increases by exactly 1, `multiset_count key`
increases by exactly 1, and `multiset_count j` is unchanged for every key `j` that does not
compare equal to `key`. -/
theorem multiset_put_postcondition {K : Type} (me : internal_multiset K) (key : K)
    (t : Tree K) (hrep : Represents me t) (havl : AVL t) (hbst : BST me.comparator t)
    (hord : TotalOrder me.comparator)
    (hs : INT_MIN ≤ multiset_size me ∧ multiset_size me < INT_MAX)
    (hk : ∀ c, multiset_count me key = some c → INT_MIN ≤ c ∧ c < INT_MAX) :
    ∃ me1 c, multiset_put32 me key true true = some (0, me1) ∧
      multiset_size me1 = multiset_size me + 1 ∧
      multiset_count me key = some c ∧ multiset_count me1 key = some (c + 1) ∧
      ∀ j, me.comparator j key ≠ 0 → multiset_count me1 j = multiset_count me j := by
  have e32 : multiset_put32 me key true true = multiset_put me key true true := by
    refine put32_eq_put me key t true true hrep ?_ ?_
    · have h1 := hs.1
      have h2 := hs.2
      simp only [multiset_size, INT_MIN, INT_MAX] at h1 h2
      exact wrap_int_id _ (by simp only [INT_MIN]; omega) (by simp only [INT_MAX]; omega)
    · intro fs l a k c b r hz
      obtain ⟨h1, h2⟩ := hk c (lookup_present_spec me key t fs l r a k c b hrep hz).2.1
      simp only [INT_MIN, INT_MAX] at h1 h2
      exact wrap_int_id _ (by simp only [INT_MIN]; omega) (by simp only [INT_MAX]; omega)
  rw [e32]
  obtain ⟨me1, T, h1, r1, -, hT, s1, c1, -⟩ := put_avl me key t hrep havl
  obtain ⟨hb, -, hl⟩ := put_t_facts hord key _ t T hbst hT
  have hcount := fun j => (count_eq_lookup me j t hrep hbst hord).1
  have hcount1 : ∀ j, multiset_count me1 j = some (lookup me.comparator j T.inorder) := by
    intro j
    have := (count_eq_lookup me1 j T r1 (by rw [c1]; exact hb) (by rw [c1]; exact hord)).1
    rw [c1] at this
    exact this
  refine ⟨me1, _, h1, s1, hcount key, ?_, ?_⟩
  · rw [hcount1 key, hl key, if_pos (hord.cmp_self key)]
  · intro j hj
    rw [hcount1 j, hl j, if_neg hj, hcount j]

theorem multiset_put_postcondition_witness :
    Represents (example_counting 2147483646) (tree_counting 2147483646) ∧
      AVL (tree_counting 2147483646) ∧
      BST (example_counting 2147483646).comparator (tree_counting 2147483646) ∧
      TotalOrder (example_counting 2147483646).comparator ∧
      (INT_MIN ≤ multiset_size (example_counting 2147483646) ∧
        multiset_size (example_counting 2147483646) < INT_MAX) ∧
      (∀ c, multiset_count (example_counting 2147483646) 3 = some c →
        INT_MIN ≤ c ∧ c < INT_MAX) ∧
      ∃ me1 c, multiset_put32 (example_counting 2147483646) 3 true true = some (0, me1) ∧
        multiset_size me1 = multiset_size (example_counting 2147483646) + 1 ∧
        multiset_count (example_counting 2147483646) 3 = some c ∧
        multiset_count me1 3 = some (c + 1) ∧
        ∀ j, (example_counting 2147483646).comparator j 3 ≠ 0 →
          multiset_count me1 j = multiset_count (example_counting 2147483646) j :=
  have hs : INT_MIN ≤ multiset_size (example_counting 2147483646) ∧
      multiset_size (example_counting 2147483646) < INT_MAX := by decide
  have hk : ∀ c, multiset_count (example_counting 2147483646) 3 = some c →
      INT_MIN ≤ c ∧ c < INT_MAX := by
    intro c h
    have e : multiset_count (example_counting 2147483646) 3 = some 2147483646 := by decide
    rw [e] at h
    cases h
    decide
  ⟨example_counting_represents _, tree_counting_avl _, tree_counting_bst _, compare_int_total,
    hs, hk,
    multiset_put_postcondition (example_counting 2147483646) 3 (tree_counting 2147483646)
      (example_counting_represents _) (tree_counting_avl _) (tree_counting_bst _)
      compare_int_total hs hk⟩

/-- C8: removing an absent key is a no-op. For every container and every key `key` with
`multiset_contains key` = 0, both `multiset_remove` and `multiset_remove_all` return 0 and
leave the whole container state (size, root, and every memory cell, hence every node's
links, balance, key and count) unchanged. -/
theorem remove_absent_noop {K : Type} (me : internal_multiset K) (key : K)
    (h : multiset_contains me key = some 0) :
    multiset_remove me key = some (0, me) ∧ multiset_remove_all me key = some (0, me) := by
  have hm : multiset_equal_match me key = some none := by
    simp only [multiset_contains, andThen_eq_some] at h
    obtain ⟨item, h1, h2⟩ := h
    cases item with
    | none => exact h1
    | some i => simp at h2
  exact remove_absent_spec me key hm

theorem remove_absent_noop_witness :
    multiset_contains example_three 4 = some 0 ∧
      multiset_remove example_three 4 = some (0, example_three) ∧
      multiset_remove_all example_three 4 = some (0, example_three) :=
  have h : multiset_contains example_three 4 = some 0 := by decide
  ⟨h, remove_absent_noop example_three 4 h⟩

/-- C9: lookup correctness. For every container holding a tree that satisfies BST ordering
under a comparator that is a strict total order, and every key `key`: `multiset_contains`
returns 0 or 1, and 1 if and only if some node of the tree holds a key comparing equal to
`key`; `multiset_count` returns that node's occurrence count when such a node exists and 0
otherwise; in particular the count is 0 on the empty container. -/
theorem lookup_correct {K : Type} (me : internal_multiset K) (key : K) (t : Tree K)
    (hrep : Represents me t) (hbst : BST me.comparator t) (hord : TotalOrder me.comparator) :
    ∃ n c, multiset_contains me key = some n ∧ multiset_count me key = some c ∧
      (n = 1 ↔ ∃ e ∈ t.inorder, me.comparator key e.1 = 0) ∧ (n = 0 ∨ n = 1) ∧
      (∀ e ∈ t.inorder, me.comparator key e.1 = 0 → c = e.2) ∧
      ((∀ e ∈ t.inorder, me.comparator key e.1 ≠ 0) → c = 0) ∧
      (t = .nil → c = 0) := by
  obtain ⟨n, c, h1, h2, h3, h4, h5, h6⟩ := lookup_nodes me key t hrep hbst hord
  refine ⟨n, c, h1, h2, h3, h4, h5, h6, ?_⟩
  intro e
  subst e
  exact h6 (fun e he => by simp [Tree.inorder] at he)

theorem lookup_correct_witness :
    Represents example_three tree_three ∧ BST example_three.comparator tree_three ∧
      TotalOrder example_three.comparator ∧
      ∃ n c, multiset_contains example_three 3 = some n ∧
        multiset_count example_three 3 = some c ∧
        (n = 1 ↔ ∃ e ∈ tree_three.inorder, example_three.comparator 3 e.1 = 0) ∧
        (n = 0 ∨ n = 1) ∧
        (∀ e ∈ tree_three.inorder, example_three.comparator 3 e.1 = 0 → c = e.2) ∧
        ((∀ e ∈ tree_three.inorder, example_three.comparator 3 e.1 ≠ 0) → c = 0) ∧
        (tree_three = .nil → c = 0) :=
  ⟨example_three_represents, example_three_bst, compare_int_total,
    lookup_correct example_three 3 tree_three example_three_represents example_three_bst
      compare_int_total⟩

/-- C10: allocation-failure atomicity of `multiset_put`. Each `malloc` of `multiset_put` is
modelled as possibly failing (`node_ok`, `key_ok`). For every container holding a tree with
consistent parent pointers and every key that is absent (so that `multiset_put` reaches its
allocation, at the root, at a left slot or at a right slot): if the node allocation or the
key-copy allocation fails, `multiset_put` returns `-ENOMEM` and the container is exactly as
before the call. -/
theorem multiset_put_alloc_failure_atomic {K : Type} (me : internal_multiset K) (key : K)
    (t : Tree K) (node_ok key_ok : Bool) (hrep : Represents me t)
    (habs : multiset_contains me key = some 0)
    (hfail : node_ok = false ∨ key_ok = false) :
    multiset_put me key node_ok key_ok = some (-ENOMEM, me) := by
  have hm := equal_match_spec me key t hrep
  have hz : (zoom me.comparator key [] t).2 = .nil := by
    cases hu : (zoom me.comparator key [] t).2 with
    | nil => rfl
    | node l a k c b r =>
      rw [hu] at hm
      simp [multiset_contains, hm] at habs
  refine put_absent_fail me key t node_ok key_ok hrep hz ?_
  rcases hfail with e | e
  · rw [e]; rfl
  · rw [e]; cases node_ok <;> rfl

theorem multiset_put_alloc_failure_atomic_witness :
    Represents example_three tree_three ∧ multiset_contains example_three 4 = some 0 ∧
      multiset_put example_three 4 true false = some (-ENOMEM, example_three) :=
  have h : multiset_contains example_three 4 = some 0 := by decide
  ⟨example_three_represents, h,
    multiset_put_alloc_failure_atomic example_three 4 tree_three true false
      example_three_represents h (Or.inr rfl)⟩

/-- C11: `multiset_clear` terminates and empties the container. For every consistent
container (parent consistent, AVL balanced): removing the root node returns and leaves a
consistent container with exactly one node less, so the loop of `multiset_clear` ends;
`multiset_clear` returns, and afterwards the root is absent, `multiset_size` is 0,
`multiset_is_empty` is 1 and `multiset_contains k` is 0 for every key `k`. -/
theorem multiset_clear_empties {K : Type} (me : internal_multiset K) (t : Tree K)
    (hrep : Represents me t) (havl : AVL t) :
    (∀ l a k c b r, t = .node l a k c b r →
        ∃ m t1, multiset_remove_element me a = some m ∧ Represents m t1 ∧ AVL t1 ∧
          t1.size + 1 = t.size) ∧
      ∃ me1, multiset_clear me = some me1 ∧ me1.root = none ∧ multiset_size me1 = 0 ∧
        multiset_is_empty me1 = 1 ∧ ∀ k, multiset_contains me1 k = some 0 := by
  constructor
  · intro l a k c b r e
    subst e
    obtain ⟨m, T, h1, r1, a1, hT, -⟩ := remove_element_spec me [] l r a k c b hrep havl
    exact ⟨m, T, h1, r1, a1, remove_element_t_size [] l r a k c b T hT⟩
  · obtain ⟨me1, h1, r1, s1, -⟩ := clear_spec me t hrep havl
    have hroot : me1.root = none := r1.1
    refine ⟨me1, h1, hroot, s1, ?_, fun k => (lookup_empty me1 k hroot).1⟩
    simp [multiset_is_empty, multiset_size, s1]

theorem multiset_clear_empties_witness :
    Represents example_three tree_three ∧ AVL tree_three ∧
      (∀ l a k c b r, tree_three = .node l a k c b r →
        ∃ m t1, multiset_remove_element example_three a = some m ∧ Represents m t1 ∧
          AVL t1 ∧ t1.size + 1 = tree_three.size) ∧
      ∃ me1, multiset_clear example_three = some me1 ∧ me1.root = none ∧
        multiset_size me1 = 0 ∧ multiset_is_empty me1 = 1 ∧
        ∀ k, multiset_contains me1 k = some 0 :=
  ⟨example_three_represents, example_three_avl,
    multiset_clear_empties example_three tree_three example_three_represents
      example_three_avl⟩

/-- C12: `multiset_init` validates its configuration. With the allocation succeeding,
`multiset_init key_size comparator` returns the invalid handle (`none`) if and only if
`key_size` is 0 or the comparator is absent; otherwise it returns a container with size 0,
no root, the given key size and comparator, for which `multiset_is_empty` is 1. -/
theorem multiset_init_validates {K : Type} (key_size : Nat)
    (comparator : Option (K → K → Int)) :
    (multiset_init key_size comparator true = none ↔ key_size = 0 ∨ comparator = none) ∧
      ∀ cmp, key_size ≠ 0 → comparator = some cmp →
        ∃ me, multiset_init key_size comparator true = some me ∧ multiset_size me = 0 ∧
          me.root = none ∧ me.key_size = key_size ∧ me.comparator = cmp ∧
          multiset_is_empty me = 1 := by
  constructor
  · cases comparator with
    | none => simp [multiset_init]
    | some cmp =>
      by_cases h : key_size = 0
      · simp [multiset_init, h]
      · simp [multiset_init, h]
  · intro cmp h e
    subst e
    exact ⟨{ key_size := key_size, comparator := cmp, size := 0, root := none, mem := [],
             repairs := [] }, by simp [multiset_init, h], rfl, rfl, rfl, rfl, rfl⟩

theorem multiset_init_validates_witness :
    (4 : Nat) ≠ 0 ∧ ∃ me, multiset_init 4 (some compare_int) true = some me ∧
      multiset_size me = 0 ∧ me.root = none ∧ me.key_size = 4 ∧
      me.comparator = compare_int ∧ multiset_is_empty me = 1 :=
  ⟨by decide, (multiset_init_validates 4 (some compare_int)).2 compare_int (by decide) rfl⟩

/-- C13, counterexample: a sequence after which the size is not the reference count.
`INT_MAX + 1` calls of `multiset_put` with the key 3 on the container of `multiset_init`
all return 0 and leave `multiset_size` at -2147483648, the last `me->size++` having
overflowed, while the number of put calls minus the number of remove calls that returned 1
is 2147483648. -/
theorem mutation_sequence_overflows :
    TotalOrder compare_int ∧ multiset_init 4 (some compare_int) true = some example_empty ∧
      run_ops32 (List.replicate 2147483648 (Op.put 3)) example_empty =
        some (List.replicate 2147483648 0, example_counting (-2147483648)) ∧
      multiset_size (example_counting (-2147483648)) = -2147483648 ∧
      count_puts (List.replicate 2147483648 (Op.put (3 : Int))) -
        count_removed (List.replicate 2147483648 (Op.put (3 : Int)))
          (List.replicate 2147483648 0) = 2147483648 ∧
      ¬ ∃ rs me1, run_ops32 (List.replicate 2147483648 (Op.put 3)) example_empty =
          some (rs, me1) ∧
        multiset_size me1 = count_puts (List.replicate 2147483648 (Op.put (3 : Int))) -
          count_removed (List.replicate 2147483648 (Op.put (3 : Int))) rs := by
  refine ⟨compare_int_total, rfl, run_ops32_wrapped, rfl, ?_, ?_⟩
  · rw [count_puts_replicate, count_removed_replicate]
    norm_num
  · rintro ⟨rs, me1, h1, h2⟩
    rw [run_ops32_wrapped] at h1
    simp only [Option.some.injEq, Prod.mk.injEq] at h1
    obtain ⟨-, h1⟩ := h1
    subst h1
    rw [count_puts_replicate, count_removed_replicate] at h2
    simp only [multiset_size, example_counting] at h2
    norm_num at h2

/-- C13, amended: agreement with a reference count for at most `INT_MAX` put calls. For every
finite sequence of `multiset_put` and `multiset_remove` calls with at most `INT_MAX` calls of
`multiset_put`, made with the counters in 32-bit arithmetic on a freshly initialised
container (no allocation failing, the comparator a strict total order): every call returns,
each call returns what the reference multiset run on the same sequence expects (a remove
returns 1 exactly when the count of its key in the reference map is positive), the final
`multiset_size` is the number of put calls minus the number of remove calls that returned 1,
and the final counts are those of the reference map. -/
theorem mutation_sequence_agrees {K : Type} (key_size : Nat) (cmp : K → K → Int)
    (me0 : internal_multiset K) (hord : TotalOrder cmp)
    (hinit : multiset_init key_size (some cmp) true = some me0) (ops : List (Op K))
    (hn : count_puts ops ≤ INT_MAX) :
    ∃ rs me1, run_ops32 ops me0 = some (rs, me1) ∧
      rs = (reference_run cmp ops (fun _ => 0)).1 ∧
      multiset_size me1 = count_puts ops - count_removed ops rs ∧
      ∀ j, multiset_count me1 j = some ((reference_run cmp ops (fun _ => 0)).2 j : Int) := by
  have hR : Reachable me0 := Reachable.init key_size cmp me0 hinit
  simp only [multiset_init] at hinit
  split at hinit
  · cases hinit
  · simp only [if_true, Option.some.injEq] at hinit
    subst hinit
    rw [run_ops32_eq ops _ hR (by simpa using hn)]
    obtain ⟨rs, me1, h1, h2, h3, h4⟩ := run_ops_spec ops
      { key_size := key_size, comparator := cmp, size := 0, root := none, mem := [],
        repairs := [] } .nil (fun _ => 0)
      ⟨rfl, trivial, List.nodup_nil⟩ trivial trivial hord
      (fun e he => by simp [Tree.inorder] at he) (fun j => rfl)
    refine ⟨rs, me1, h1, h2, ?_, h4⟩
    rw [multiset_size, h3]
    simp

theorem mutation_sequence_agrees_witness :
    TotalOrder compare_int ∧ multiset_init 4 (some compare_int) true = some example_empty ∧
      count_puts [Op.put (3 : Int), Op.put 3, Op.remove 3, Op.remove 7, Op.put 5] ≤ INT_MAX ∧
      ∃ rs me1,
        run_ops32 [Op.put 3, Op.put 3, Op.remove 3, Op.remove 7, Op.put 5] example_empty =
          some (rs, me1) ∧
        rs = (reference_run compare_int
          [Op.put 3, Op.put 3, Op.remove 3, Op.remove 7, Op.put 5] (fun _ => 0)).1 ∧
        multiset_size me1 =
          count_puts [Op.put (3 : Int), Op.put 3, Op.remove 3, Op.remove 7, Op.put 5] -
            count_removed [Op.put (3 : Int), Op.put 3, Op.remove 3, Op.remove 7, Op.put 5] rs ∧
        ∀ j, multiset_count me1 j = some ((reference_run compare_int
          [Op.put 3, Op.put 3, Op.remove 3, Op.remove 7, Op.put 5] (fun _ => 0)).2 j : Int) :=
  ⟨compare_int_total, rfl, by decide,
    mutation_sequence_agrees 4 compare_int example_empty compare_int_total rfl
      [Op.put 3, Op.put 3, Op.remove 3, Op.remove 7, Op.put 5] (by decide)⟩

/-- C14, counterexample: parent consistency alone is not preserved. The container
`example_skew` holds a single node (key 5) with consistent parent pointers but a stored
balance of 3. `multiset_put` of key 2 returns 0, and afterwards the root is node 1, its left
child is node 0, and the left child of node 0 is node 1, whose parent is not node 0: the
memory no longer holds a tree with consistent parent pointers. -/
theorem put_breaks_parent_consistency :
    Represents example_skew tree_skew ∧ ParentConsistent example_skew tree_skew ∧
      ∃ me1, multiset_put example_skew 2 true true = some (0, me1) ∧ me1.root = some 1 ∧
        (∃ n c, rd me1.mem 1 = some c ∧ c.left = some 0 ∧ rd me1.mem 0 = some n ∧
          n.left = some 1 ∧ c.parent ≠ some 0) ∧
        ∀ t1, ¬ Represents me1 t1 := by
  refine ⟨example_skew_represents,
    represents_parent_consistent _ _ example_skew_represents, ?_⟩
  have hsome : ∃ x, multiset_put example_skew 2 true true = some x :=
    Option.isSome_iff_exists.mp (by decide)
  obtain ⟨⟨r, me1⟩, h⟩ := hsome
  have hev : (multiset_put example_skew 2 true true).map (fun x => (x.1, x.2.root, x.2.mem)) =
      some (0, some 1,
        [some { count := 1, parent := some 1, balance := 1, key := 5, left := some 1, right := none },
         some { count := 1, parent := none, balance := -1, key := 2, left := some 0, right := none }]) := by
    decide
  rw [h] at hev
  simp only [Option.map_some', Option.some.injEq, Prod.mk.injEq] at hev
  obtain ⟨hr, hroot, hmem⟩ := hev
  subst hr
  refine ⟨me1, h, hroot, ?_, ?_⟩
  · rw [hmem]
    exact ⟨_, _, rfl, rfl, rfl, rfl, by decide⟩
  · intro t1 hrep
    obtain ⟨h1, h2, -⟩ := hrep
    rw [hroot] at h1
    rw [hmem] at h2
    cases t1 with
    | nil => simp at h1
    | node l a k c b r =>
      simp only [ptr_node, Option.some.injEq] at h1
      subst h1
      rw [Rep_node] at h2
      obtain ⟨e1, hl, -⟩ := h2
      have e2 := congrArg (Option.map node.left) e1
      simp only [rd, List.get?_cons_succ, List.get?_cons_zero, Option.join, Option.bind,
        Option.map_some', id, Option.some.injEq] at e2
      cases l with
      | nil => simp at e2
      | node l2 a2 k2 c2 b2 r2 =>
        simp only [ptr_node, Option.some.injEq] at e2
        subst e2
        rw [Rep_node] at hl
        obtain ⟨e3, hl2, -⟩ := hl
        have e4 := congrArg (Option.map node.left) e3
        simp only [rd, List.get?_cons_succ, List.get?_cons_zero, Option.join, Option.bind,
          Option.map_some', id, Option.some.injEq] at e4
        cases l2 with
        | nil => simp at e4
        | node l3 a3 k3 c3 b3 r3 =>
          simp only [ptr_node, Option.some.injEq] at e4
          subst e4
          rw [Rep_node] at hl2
          have e5 := congrArg (Option.map node.parent) hl2.1
          simp [rd] at e5

/-- C14, amended: parent consistency is preserved by every mutation of a container that also
satisfies the AVL invariant. For every container holding a tree in which each node's left
and right child have that node as their parent, the root has no parent, and every stored
balance is the height difference in {-1, 0, 1}: `multiset_put` (whatever the outcome of its
allocations), `multiset_remove` and `multiset_remove_all` with any key return, and the
container again holds a tree with consistent parent pointers. -/
theorem mutations_preserve_parent_consistency {K : Type} (me : internal_multiset K)
    (key : K) (t : Tree K) (hrep : Represents me t) (havl : AVL t) :
    ParentConsistent me t ∧
      (∀ node_ok key_ok, ∃ r me1 t1, multiset_put me key node_ok key_ok = some (r, me1) ∧
        Represents me1 t1 ∧ ParentConsistent me1 t1) ∧
      (∃ r me1 t1, multiset_remove me key = some (r, me1) ∧ Represents me1 t1 ∧
        ParentConsistent me1 t1) ∧
      (∃ r me1 t1, multiset_remove_all me key = some (r, me1) ∧ Represents me1 t1 ∧
        ParentConsistent me1 t1) := by
  refine ⟨represents_parent_consistent me t hrep, ?_, ?_, ?_⟩
  · intro node_ok key_ok
    obtain ⟨r, me1, T, h1, r1, -⟩ := put_any_spec me key t node_ok key_ok hrep havl
    exact ⟨r, me1, T, h1, r1, represents_parent_consistent me1 T r1⟩
  · obtain ⟨r, me1, T, h1, r1, -⟩ := remove_any_spec me key t hrep havl
    exact ⟨r, me1, T, h1, r1, represents_parent_consistent me1 T r1⟩
  · obtain ⟨r, me1, T, h1, r1, -⟩ := remove_all_any_spec me key t hrep havl
    exact ⟨r, me1, T, h1, r1, represents_parent_consistent me1 T r1⟩

theorem mutations_preserve_parent_consistency_witness :
    Represents example_fib tree_fib ∧ AVL tree_fib ∧ ParentConsistent example_fib tree_fib ∧
      (∀ node_ok key_ok, ∃ r me1 t1,
        multiset_put example_fib 10 node_ok key_ok = some (r, me1) ∧
        Represents me1 t1 ∧ ParentConsistent me1 t1) ∧
      (∃ r me1 t1, multiset_remove example_fib 10 = some (r, me1) ∧ Represents me1 t1 ∧
        ParentConsistent me1 t1) ∧
      (∃ r me1 t1, multiset_remove_all example_fib 10 = some (r, me1) ∧
        Represents me1 t1 ∧ ParentConsistent me1 t1) :=
  ⟨example_fib_represents, example_fib_avl,
    mutations_preserve_parent_consistency example_fib 10 tree_fib example_fib_represents
      example_fib_avl⟩

/-- C15, counterexample: an occurrence count below 1. `INT_MAX + 1` calls of `multiset_put`
with the key 3, made on the container of `multiset_init`, lead to a container whose only
node has the count -2147483648: the last `traverse->count++` overflowed. -/
theorem count_wraps_negative :
    Reachable32 2147483648 (example_counting (-2147483648)) ∧
      Represents (example_counting (-2147483648)) (tree_counting (-2147483648)) ∧
      (∃ n, rd (example_counting (-2147483648)).mem 0 = some n ∧ n.count = -2147483648) ∧
      ¬ ∃ t, Represents (example_counting (-2147483648)) t ∧
        ∀ e ∈ t.entries, ∃ n, rd (example_counting (-2147483648)).mem e.1 = some n ∧
          n.key = e.2.1 ∧ n.count = e.2.2 ∧ 1 ≤ n.count := by
  refine ⟨reachable32_wrapped, example_counting_represents _, ⟨_, rfl, rfl⟩, ?_⟩
  rintro ⟨t, hrep, h⟩
  rw [represents_unique _ _ _ hrep (example_counting_represents _)] at h
  obtain ⟨n, h1, -, -, h2⟩ := h (0, (3, -2147483648)) (by simp [tree_counting, Tree.entries])
  have e : rd (example_counting (-2147483648)).mem 0 =
      some { count := -2147483648, parent := none, balance := 0, key := 3,
             left := none, right := none } := rfl
  change rd (example_counting (-2147483648)).mem 0 = some n at h1
  rw [e] at h1
  cases h1
  revert h2
  decide

/-- C15, amended: occurrence counts stay positive within the range of `int`. In every
container reached, the counters in 32-bit arithmetic, from `multiset_init` by a sequence of
`multiset_put` (whatever the outcome of its allocations), `multiset_remove`,
`multiset_remove_all` and `multiset_clear` with at most `INT_MAX` calls of `multiset_put`,
the memory holds a tree and every node of it has occurrence count at least 1. -/
theorem counts_stay_positive {K : Type} (n : Nat) (me : internal_multiset K)
    (h : Reachable32 n me) (hn : (n : Int) ≤ INT_MAX) :
    ∃ t, Represents me t ∧
      ∀ e ∈ t.entries, ∃ n, rd me.mem e.1 = some n ∧ n.key = e.2.1 ∧ n.count = e.2.2 ∧
        1 ≤ n.count := by
  obtain ⟨t, hrep, -, -, hpos⟩ := reachable_inv_pos me (reachable32_reachable n me h hn).1
  refine ⟨t, hrep, ?_⟩
  intro e he
  obtain ⟨n, h1, h2, h3⟩ := rep_entry me.mem t none hrep.2.1 e he
  refine ⟨n, h1, h2, h3, ?_⟩
  rw [h3]
  exact hpos e.2 (by rw [inorder_eq_entries]; exact List.mem_map_of_mem _ he)

theorem counts_stay_positive_witness :
    Reachable32 2147483647 (example_counting 2147483647) ∧
      ((2147483647 : Nat) : Int) ≤ INT_MAX ∧
      ∃ t, Represents (example_counting 2147483647) t ∧
        ∀ e ∈ t.entries, ∃ n, rd (example_counting 2147483647).mem e.1 = some n ∧
          n.key = e.2.1 ∧ n.count = e.2.2 ∧ 1 ≤ n.count :=
  ⟨reachable32_int_max, by decide,
    counts_stay_positive 2147483647 (example_counting 2147483647) reachable32_int_max
      (by decide)⟩

/-- C16, counterexample: a `multiset_put` of a present key after which the count and the
size are not larger by 1. In `example_counting 2147483647` the key 3 is present with the
count `INT_MAX`; `multiset_put` of the key 3 returns 0 and leaves the count of the node and
the size at -2147483648, both increments having overflowed. -/
theorem put_present_wraps_count :
    Represents (example_counting 2147483647) (tree_counting 2147483647) ∧
      multiset_contains (example_counting 2147483647) 3 = some 1 ∧
      multiset_equal_match (example_counting 2147483647) 3 = some (some 0) ∧
      multiset_put32 (example_counting 2147483647) 3 true true =
        some (0, example_counting (-2147483648)) ∧
      (rd (example_counting 2147483647).mem 0).map (fun n => n.count) = some 2147483647 ∧
      (rd (example_counting (-2147483648)).mem 0).map (fun n => n.count) =
        some (-2147483648) ∧
      (example_counting 2147483647).size = 2147483647 ∧
      (example_counting (-2147483648)).size = -2147483648 ∧
      ¬ ∃ a n me1, multiset_equal_match (example_counting 2147483647) 3 = some (some a) ∧
        rd (example_counting 2147483647).mem a = some n ∧
        multiset_put32 (example_counting 2147483647) 3 true true = some (0, me1) ∧
        rd me1.mem a = some { n with count := n.count + 1 } ∧
        multiset_size me1 = multiset_size (example_counting 2147483647) + 1 := by
  have hput : multiset_put32 (example_counting 2147483647) 3 true true =
      some (0, example_counting (-2147483648)) := by
    rw [example_counting_put]
    rfl
  refine ⟨example_counting_represents _, by decide, by decide, hput, rfl, rfl, rfl, rfl, ?_⟩
  rintro ⟨a, n, me1, -, -, h1, -, h2⟩
  rw [hput] at h1
  simp only [Option.some.injEq, Prod.mk.injEq, true_and] at h1
  subst h1
  revert h2
  decide

/-- C16, amended: `multiset_put` of an already-present key leaves the tree shape untouched
and increments the two counters as `int`s. For every container holding a tree with
consistent parent pointers and every key with `multiset_contains key` = 1, `multiset_put`
(whatever its allocations would do) returns 0 and the state afterwards is the state before
with the count of the matching node and the size each incremented in 32-bit arithmetic: the
root and every other memory cell are the same, the matching node keeps its parent, left,
right, balance and key, no node is created, and the count of the node and the size are
larger by 1 whenever the value before was a value of an `int` below `INT_MAX`. -/
theorem put_present_changes_only_count {K : Type} (me : internal_multiset K) (key : K)
    (t : Tree K) (node_ok key_ok : Bool) (hrep : Represents me t)
    (hc : multiset_contains me key = some 1) :
    ∃ a n me1, multiset_equal_match me key = some (some a) ∧ rd me.mem a = some n ∧
      multiset_put32 me key node_ok key_ok = some (0, me1) ∧
      me1 = { me with mem := upd me.mem a (some { n with count := wrap_int (n.count + 1) })
                      size := wrap_int (me.size + 1) } ∧
      me1.root = me.root ∧ me1.mem.length = me.mem.length ∧
      rd me1.mem a = some { n with count := wrap_int (n.count + 1) } ∧
      (∀ x, x ≠ a → rd me1.mem x = rd me.mem x) ∧
      (INT_MIN ≤ n.count → n.count < INT_MAX →
        rd me1.mem a = some { n with count := n.count + 1 }) ∧
      (INT_MIN ≤ multiset_size me → multiset_size me < INT_MAX →
        multiset_size me1 = multiset_size me + 1) := by
  obtain ⟨fs, l, a, k, c, b, r, hz⟩ := contains_one_zoom me key t hrep hc
  obtain ⟨hm, -, -⟩ := lookup_present_spec me key t fs l r a k c b hrep hz
  have hp := rd_focus me fs l r a k c b (represents_zoom me key t fs _ hrep hz)
  have hput := put32_present_exact me key t node_ok key_ok fs l r a k c b hrep hz
  refine ⟨a, _, _, hm, hp, hput, rfl, rfl, rd_upd_length me.mem a _ _ hp, ?_, ?_, ?_, ?_⟩
  · simp
  · intro x hx
    simp [hx]
  · intro h1 h2
    simp only [INT_MIN, INT_MAX] at h1 h2
    have e := wrap_int_id (c + 1) (by simp only [INT_MIN]; omega)
      (by simp only [INT_MAX]; omega)
    simp [e]
  · intro h1 h2
    simp only [multiset_size, INT_MIN, INT_MAX] at h1 h2
    simp only [multiset_size]
    exact wrap_int_id _ (by simp only [INT_MIN]; omega) (by simp only [INT_MAX]; omega)

theorem put_present_changes_only_count_witness :
    Represents example_three tree_three ∧ multiset_contains example_three 3 = some 1 ∧
      ∃ a n me1, multiset_equal_match example_three 3 = some (some a) ∧
        rd example_three.mem a = some n ∧
        multiset_put32 example_three 3 true true = some (0, me1) ∧
        me1 = { example_three with
                mem := upd example_three.mem a
                  (some { n with count := wrap_int (n.count + 1) })
                size := wrap_int (example_three.size + 1) } ∧
        me1.root = example_three.root ∧
        me1.mem.length = example_three.mem.length ∧
        rd me1.mem a = some { n with count := wrap_int (n.count + 1) } ∧
        (∀ x, x ≠ a → rd me1.mem x = rd example_three.mem x) ∧
        (INT_MIN ≤ n.count → n.count < INT_MAX →
          rd me1.mem a = some { n with count := n.count + 1 }) ∧
        (INT_MIN ≤ multiset_size example_three → multiset_size example_three < INT_MAX →
          multiset_size me1 = multiset_size example_three + 1) :=
  have h : multiset_contains example_three 3 = some 1 := by decide
  ⟨example_three_represents, h,
    put_present_changes_only_count example_three 3 tree_three true true
      example_three_represents h⟩

/-- C18: insertion needs at most one repair. For every consistent container and every key,
a single `multiset_put` returns 0 with the AVL property holding at every node, and it calls
`multiset_repair` at most once: either the record of the calls is unchanged, or it has one
more entry and the final state is the very state returned by that call, so that nothing (no
balance factor in particular) is modified after the repair. -/
theorem insertion_needs_at_most_one_repair {K : Type} (me : internal_multiset K) (key : K)
    (t : Tree K) (hrep : Represents me t) (havl : AVL t) :
    ∃ me1 t1, multiset_put me key true true = some (0, me1) ∧ Represents me1 t1 ∧ AVL t1 ∧
      me1.repairs.length ≤ me.repairs.length + 1 ∧
      (me1.repairs = me.repairs ∨
        ∃ m p c g r e, m.repairs = me.repairs ∧ multiset_repair m p c g = some r ∧
          me1 = r.2 ∧ me1.repairs = me.repairs ++ [e]) := by
  obtain ⟨me1, T, h1, r1, a1, -⟩ := put_avl me key t hrep havl
  have hlog := log_put me me1 key true true 0 h1
  refine ⟨me1, T, h1, r1, a1, ?_, hlog⟩
  rcases hlog with e | ⟨m, p, c, g, r, e, -, -, -, he⟩
  · rw [e]; omega
  · rw [he]; simp

theorem insertion_needs_at_most_one_repair_witness :
    Represents example_fib tree_fib ∧ AVL tree_fib ∧
      ∃ me1 t1, multiset_put example_fib 130 true true = some (0, me1) ∧
        Represents me1 t1 ∧ AVL t1 ∧
        me1.repairs.length ≤ example_fib.repairs.length + 1 ∧
        (me1.repairs = example_fib.repairs ∨
          ∃ m p c g r e, m.repairs = example_fib.repairs ∧
            multiset_repair m p c g = some r ∧ me1 = r.2 ∧
            me1.repairs = example_fib.repairs ++ [e]) :=
  ⟨example_fib_represents, example_fib_avl,
    insertion_needs_at_most_one_repair example_fib 130 tree_fib example_fib_represents
      example_fib_avl⟩

/-- C19: deletion can require several repairs. There is a consistent AVL tree (`tree_fib`,
held by `example_fib`) and a contained key with count 1 (the key 10) for which a single
`multiset_remove` calls `multiset_repair` twice: once from `multiset_delete_balance` at the
parent of the removed node, and again from `multiset_trace_ancestors` at the root. -/
theorem deletion_can_need_several_repairs :
    ∃ (me : internal_multiset Int) (t : Tree Int) (key : Int),
      Represents me t ∧ AVL t ∧ BST me.comparator t ∧ TotalOrder me.comparator ∧
      multiset_count me key = some 1 ∧
      ∃ me1 t1, multiset_remove me key = some (1, me1) ∧ Represents me1 t1 ∧ AVL t1 ∧
        me1.repairs = me.repairs ++ [(2, 1), (2, 1)] ∧
        me1.repairs.length = me.repairs.length + 2 := by
  refine ⟨example_fib, tree_fib, 10, example_fib_represents, example_fib_avl,
    example_fib_bst, compare_int_total, by decide, ?_⟩
  obtain ⟨r, me1, T, h1, r1, a1, -⟩ :=
    remove_any_spec example_fib 10 tree_fib example_fib_represents example_fib_avl
  have hev : (multiset_remove example_fib 10).map (fun x => (x.1, x.2.repairs)) =
      some (1, [(2, 1), (2, 1)]) := by decide
  rw [h1] at hev
  simp only [Option.map_some', Option.some.injEq, Prod.mk.injEq] at hev
  obtain ⟨hr, hlog⟩ := hev
  subst hr
  exact ⟨me1, T, h1, r1, a1, by rw [hlog]; rfl, by rw [hlog]; rfl⟩

/-- C20: two-children deletion promotes the in-order successor. For every container holding
a BST-ordered tree with consistent parent pointers and every node `a` of it with both
children, the statements of `multiset_remove_two_children` before its call of
`multiset_delete_balance` return, and then the position of `a` (same path from the root) is
taken by the leftmost node of the right subtree of `a`, which held the smallest key of that
subtree; its left subtree is the former left subtree of `a`, its right subtree is the former
right subtree with the successor taken out and the successor's own right subtree in its
place, and its balance is the balance of `a`. The call of `multiset_delete_balance` is made
on that state. -/
theorem two_children_promotes_successor {K : Type} (me : internal_multiset K)
    (fs : List (Step K)) (l r : Tree K) (a : Nat) (k : K) (c b : Int)
    (hrep : Represents me (plug fs (.node l a k c b r)))
    (hbst : BST me.comparator (plug fs (.node l a k c b r)))
    (hord : TotalOrder me.comparator) (hl : l ≠ .nil) (hr : r ≠ .nil) :
    ∃ ma mk mc mb mr p flag S,
      min_node r = .node .nil ma mk mc mb mr ∧
      plug (min_path r) (.node .nil ma mk mc mb mr) = r ∧
      (∀ x ∈ (plug (min_path r) mr).keys, me.comparator mk x < 0) ∧
      multiset_remove_two_children_promote me a = some (p, flag, S) ∧
      Represents S (plug fs (.node l ma mk mc b (plug (min_path r) mr))) ∧
      multiset_remove_two_children me a = multiset_delete_balance S p flag := by
  obtain ⟨ma, mk, mc, mb, mr, p, flag, S, hm, hp, hS, he⟩ :=
    two_children_promote_spec me fs l r a k c b hrep hl hr
  refine ⟨ma, mk, mc, mb, mr, p, flag, S, hm, ?_, ?_, hp, hS, he⟩
  · rw [← hm]; exact plug_min r
  · exact min_node_smallest hord fs l r mr a ma k mk c b mc mb hbst hm

theorem two_children_promotes_successor_witness :
    Represents example_fib tree_fib ∧ BST example_fib.comparator tree_fib ∧
      TotalOrder example_fib.comparator ∧
      ∃ ma mk mc mb mr p flag S,
        min_node tree_fib.right = .node .nil ma mk mc mb mr ∧
        plug (min_path tree_fib.right) (.node .nil ma mk mc mb mr) = tree_fib.right ∧
        (∀ x ∈ (plug (min_path tree_fib.right) mr).keys, example_fib.comparator mk x < 0) ∧
        multiset_remove_two_children_promote example_fib 0 = some (p, flag, S) ∧
        Represents S (plug [] (.node tree_fib.left ma mk mc 1
          (plug (min_path tree_fib.right) mr))) ∧
        multiset_remove_two_children example_fib 0 = multiset_delete_balance S p flag :=
  ⟨example_fib_represents, example_fib_bst, compare_int_total,
    two_children_promotes_successor example_fib [] tree_fib.left tree_fib.right 0 50 1 1
      example_fib_represents example_fib_bst compare_int_total
      (by simp [tree_fib, Tree.left]) (by simp [tree_fib, Tree.right])⟩

/-! ## The claims about the rebalancing -/

/-- C21, as stated, fails: in a two-children deletion whose in-order successor is the right
child of the removed node, `multiset_delete_balance` is invoked at the promoted node and not
at the successor's original parent. In `example_three` (keys 2, 3, 5 with 3 at the root,
node 0) the successor of the root is node 2, whose parent before the promotion is node 0,
the removed node; the statements of `multiset_remove_two_children` before the call of
`multiset_delete_balance` return `parent = 2`, the successor itself, and that is where the
call is made. -/
theorem two_children_near_balances_at_promoted_node :
    ∃ p flag S sn, multiset_remove_two_children_promote example_three 0 = some (p, flag, S) ∧
      multiset_remove_two_children example_three 0 = multiset_delete_balance S p flag ∧
      min_node tree_three.right = .node .nil 2 5 1 0 .nil ∧
      rd example_three.mem 2 = some sn ∧ sn.parent = some 0 ∧ p = 2 ∧ some p ≠ sn.parent := by
  obtain ⟨ma, mk, mc, mb, mr, sn, p, flag, S, hm, hsn, hp, he, -, hnear⟩ :=
    two_children_balance_point example_three [] tree_three.left tree_three.right 0 3 2 0
      example_three_represents (by simp [tree_three, Tree.left, leaf])
      (by simp [tree_three, Tree.right, leaf])
  have hmin : min_node tree_three.right = .node .nil 2 5 1 0 .nil := rfl
  rw [hmin] at hm
  simp only [Tree.node.injEq, true_and] at hm
  obtain ⟨hma, -⟩ := hm
  subst hma
  obtain ⟨h1, h2, -⟩ := hnear rfl
  exact ⟨p, flag, S, sn, hp, he, rfl, hsn, h1, h2, by rw [h1, h2]; decide⟩

/-- C21, amended: in every two-children deletion whose removed node has a right child with
a left child, `multiset_delete_balance` is invoked at the in-order successor's original
parent (its parent before promotion), which is not the promoted node, with the flag for a
shrunk left side; when the successor is the removed node's right child itself, its original
parent is the removed node and `multiset_delete_balance` is invoked at the promoted node,
with the flag for a shrunk right side. Here `ma` is the successor (the leftmost node of the
right subtree `r`), `sn` its record before the call, and `p`, `flag` the arguments of the
call of `multiset_delete_balance`. -/
theorem two_children_balances_at_successor_parent {K : Type} (me : internal_multiset K)
    (fs : List (Step K)) (l r : Tree K) (a : Nat) (k : K) (c b : Int)
    (hrep : Represents me (plug fs (.node l a k c b r))) (hl : l ≠ .nil) (hr : r ≠ .nil) :
    ∃ ma mk mc mb mr sn p flag S,
      min_node r = .node .nil ma mk mc mb mr ∧ rd me.mem ma = some sn ∧
      multiset_remove_two_children_promote me a = some (p, flag, S) ∧
      multiset_remove_two_children me a = multiset_delete_balance S p flag ∧
      (r.left ≠ .nil → sn.parent = some p ∧ p ≠ ma ∧ flag = true) ∧
      (r.left = .nil → sn.parent = some a ∧ p = ma ∧ flag = false) :=
  two_children_balance_point me fs l r a k c b hrep hl hr

theorem two_children_balances_at_successor_parent_witness :
    Represents example_fib tree_fib ∧
      ∃ ma mk mc mb mr sn p flag S,
        min_node tree_fib.right = .node .nil ma mk mc mb mr ∧
        rd example_fib.mem ma = some sn ∧
        multiset_remove_two_children_promote example_fib 0 = some (p, flag, S) ∧
        multiset_remove_two_children example_fib 0 = multiset_delete_balance S p flag ∧
        (tree_fib.right.left ≠ .nil → sn.parent = some p ∧ p ≠ ma ∧ flag = true) ∧
        (tree_fib.right.left = .nil → sn.parent = some 0 ∧ p = ma ∧ flag = false) :=
  ⟨example_fib_represents,
    two_children_balances_at_successor_parent example_fib [] tree_fib.left tree_fib.right
      0 50 1 1 example_fib_represents
      (by simp [tree_fib, Tree.left]) (by simp [tree_fib, Tree.right])⟩

/-- C22: the repair routines set correct balance factors. For every subtree, anywhere in the
tree held by the container, in which every node other than the root `p` has a stored balance
equal to height(right) - height(left) and in {-1, 0, 1}, whose root has a true height
difference and a stored balance `bp` both equal to 2 or both equal to -2, `child` being the
child of the root on the heavy side and `gc` the child of `child` on the side facing the
root when the balance of `child` has the opposite sign, `multiset_repair` returns the root
of a subtree that takes the place of the former one, holds the same nodes in the same
order, and in which every stored balance equals height(right) - height(left) and lies in
{-1, 0, 1}. -/
theorem multiset_repair_sets_correct_balances {K : Type} (me : internal_multiset K)
    (fs : List (Step K)) (l r : Tree K) (p : Nat) (kp : K) (cp bp : Int) (child : Nat)
    (gc : Option Nat)
    (hrep : Represents me (plug fs (.node l p kp cp bp r)))
    (hl : AVL l) (hr : AVL r) (hb : bp = r.height - l.height) (h2 : bp = 2 ∨ bp = -2)
    (hchild : if bp = 2 then r.ptr = some child ∧ (r.bal = -1 → gc = r.left.ptr)
      else l.ptr = some child ∧ (l.bal = 1 → gc = l.right.ptr)) :
    ∃ x me1 u, multiset_repair me p child gc = some (x, me1) ∧ Represents me1 (plug fs u) ∧
      u.ptr = some x ∧ AVL u ∧ u.entries = (Tree.node l p kp cp bp r).entries := by
  obtain ⟨u, hu, hua, -⟩ := repair_avl l r p kp cp bp hb h2 hl hr
  obtain ⟨x, me1, h1, r1, e1, -⟩ := repair_spec me fs l r p kp cp bp child gc u hrep hu hchild
  exact ⟨x, me1, u, h1, r1, e1, hua, repair_t_entries _ _ hu⟩

theorem multiset_repair_sets_correct_balances_witness :
    Represents example_zigzag tree_zigzag ∧ AVL tree_zigzag.left ∧ AVL tree_zigzag.right ∧
      (2 : Int) = tree_zigzag.right.height - tree_zigzag.left.height ∧
      ∃ x me1 u, multiset_repair example_zigzag 0 1 (some 2) = some (x, me1) ∧
        Represents me1 (plug [] u) ∧ u.ptr = some x ∧ AVL u ∧
        u.entries = tree_zigzag.entries :=
  ⟨example_zigzag_represents, by simp [tree_zigzag, Tree.left, AVL],
    by simp [tree_zigzag, Tree.right, leaf, AVL_node],
    by simp [tree_zigzag, Tree.right, Tree.left, leaf, height_node],
    multiset_repair_sets_correct_balances example_zigzag [] .nil
      (.node (leaf 2 30) 1 40 1 (-1) .nil) 0 20 1 2 1 (some 2) example_zigzag_represents
      (by simp [AVL]) (by simp [leaf, AVL_node]) (by simp [leaf, height_node])
      (Or.inl rfl) (by simp [leaf, Tree.left])⟩

/-- C23: the repair dispatch rule. For every parent with balance 2 or -2 and child with
balance in {-1, 0, 1}, `multiset_repair` (after recording the call) performs a double
rotation exactly when the balance of the child has the opposite sign of the balance of the
parent: `multiset_repair_right_left` when the parent is at 2 and the child at -1,
`multiset_repair_left_right` when the parent is at -2 and the child at 1; otherwise it
performs the single rotation, `multiset_repair_left` for 2 and `multiset_repair_right` for
-2. The function `multiset_repair_pivot` used by the deletion is the same call of
`multiset_repair`, on the child of `item` on the side it pivots to and the child of that
child selected by its balance. -/
theorem repair_dispatch_rule {K : Type} (me : internal_multiset K) (parent child : Nat)
    (gc : Option Nat) (pn cn : node K)
    (hp : rd me.mem parent = some pn) (hc : rd me.mem child = some cn)
    (h2 : pn.balance = 2 ∨ pn.balance = -2) (hcb : -1 ≤ cn.balance ∧ cn.balance ≤ 1) :
    (pn.balance * cn.balance < 0 ↔
      (pn.balance = 2 ∧ cn.balance = -1) ∨ (pn.balance = -2 ∧ cn.balance = 1)) ∧
    (pn.balance = 2 ∧ cn.balance = -1 →
      multiset_repair me parent child gc = gc.andThen fun g =>
        multiset_repair_right_left
          { me with repairs := me.repairs ++ [(pn.balance, cn.balance)] } parent child g) ∧
    (pn.balance = -2 ∧ cn.balance = 1 →
      multiset_repair me parent child gc = gc.andThen fun g =>
        multiset_repair_left_right
          { me with repairs := me.repairs ++ [(pn.balance, cn.balance)] } parent child g) ∧
    (pn.balance = 2 ∧ cn.balance ≠ -1 →
      multiset_repair me parent child gc =
        multiset_repair_left
          { me with repairs := me.repairs ++ [(pn.balance, cn.balance)] } parent child) ∧
    (pn.balance = -2 ∧ cn.balance ≠ 1 →
      multiset_repair me parent child gc =
        multiset_repair_right
          { me with repairs := me.repairs ++ [(pn.balance, cn.balance)] } parent child) ∧
    (∀ (flag : Bool), (if flag = true then pn.right else pn.left) = some child →
      multiset_repair_pivot me parent flag =
        multiset_repair me parent child (if cn.balance = 1 then cn.right else cn.left)) := by
  refine ⟨?_, ?_, ?_, ?_, ?_, ?_⟩
  · have hcases : cn.balance = -1 ∨ cn.balance = 0 ∨ cn.balance = 1 := by omega
    rcases h2 with h2 | h2 <;> rcases hcases with h3 | h3 | h3 <;> rw [h2, h3] <;> decide
  · rintro ⟨h1, h3⟩
    simp [multiset_repair, hp, hc, h1, h3]
  · rintro ⟨h1, h3⟩
    simp [multiset_repair, hp, hc, h1, h3]
  · rintro ⟨h1, h3⟩
    simp [multiset_repair, hp, hc, h1, h3]
  · rintro ⟨h1, h3⟩
    simp [multiset_repair, hp, hc, h1, h3]
  · intro flag hf
    simp only [multiset_repair_pivot, hp, andThen_some, hf, hc]

theorem repair_dispatch_rule_witness :
    ((2 : Int) * -1 < 0 ↔ ((2 : Int) = 2 ∧ (-1 : Int) = -1) ∨ ((2 : Int) = -2 ∧ (-1 : Int) = 1)) ∧
    multiset_repair example_zigzag 0 1 (some 2) =
      multiset_repair_right_left
        { example_zigzag with repairs := example_zigzag.repairs ++ [(2, -1)] } 0 1 2 ∧
    multiset_repair_pivot example_zigzag 0 true = multiset_repair example_zigzag 0 1 (some 2) :=
  have h := repair_dispatch_rule example_zigzag 0 1 (some 2)
    { count := 1, parent := none, balance := 2, key := 20, left := none, right := some 1 }
    { count := 1, parent := some 0, balance := -1, key := 40, left := some 2, right := none }
    rfl rfl (Or.inl rfl) (by decide)
  ⟨h.1, h.2.1 ⟨rfl, rfl⟩, h.2.2.2.2.2 true rfl⟩

/-- C24: rotations preserve the in-order sequence. For every container and every path `fs`
in its tree, each of `multiset_rotate_left`, `multiset_rotate_right`,
`multiset_repair_left`, `multiset_repair_right`, `multiset_repair_left_right` and
`multiset_repair_right_left`, called on a parent at the end of the path with its child (and
grandchild) on the side the function expects, returns, and the container then holds a tree
with the same sequence of nodes (address, key, count) in order as before: the in-order
sequence of (key, count) pairs is unchanged, and no node is added or dropped. -/
theorem rotations_preserve_inorder {K : Type} (me : internal_multiset K)
    (fs : List (Step K)) :
    (∀ (l rl rr : Tree K) (p c : Nat) (kp kc : K) (cp bp cc bc : Int),
      Represents me (plug fs (.node l p kp cp bp (.node rl c kc cc bc rr))) →
      ∃ me1 T, multiset_rotate_left me p c = some me1 ∧ Represents me1 T ∧
        T.entries = (plug fs (.node l p kp cp bp (.node rl c kc cc bc rr))).entries ∧
        T.inorder = (plug fs (.node l p kp cp bp (.node rl c kc cc bc rr))).inorder) ∧
    (∀ (ll lr r : Tree K) (p c : Nat) (kp kc : K) (cp bp cc bc : Int),
      Represents me (plug fs (.node (.node ll c kc cc bc lr) p kp cp bp r)) →
      ∃ me1 T, multiset_rotate_right me p c = some me1 ∧ Represents me1 T ∧
        T.entries = (plug fs (.node (.node ll c kc cc bc lr) p kp cp bp r)).entries ∧
        T.inorder = (plug fs (.node (.node ll c kc cc bc lr) p kp cp bp r)).inorder) ∧
    (∀ (l rl rr : Tree K) (p c : Nat) (kp kc : K) (cp bp cc bc : Int),
      Represents me (plug fs (.node l p kp cp bp (.node rl c kc cc bc rr))) →
      ∃ me1 T, multiset_repair_left me p c = some (c, me1) ∧ Represents me1 T ∧
        T.entries = (plug fs (.node l p kp cp bp (.node rl c kc cc bc rr))).entries ∧
        T.inorder = (plug fs (.node l p kp cp bp (.node rl c kc cc bc rr))).inorder) ∧
    (∀ (ll lr r : Tree K) (p c : Nat) (kp kc : K) (cp bp cc bc : Int),
      Represents me (plug fs (.node (.node ll c kc cc bc lr) p kp cp bp r)) →
      ∃ me1 T, multiset_repair_right me p c = some (c, me1) ∧ Represents me1 T ∧
        T.entries = (plug fs (.node (.node ll c kc cc bc lr) p kp cp bp r)).entries ∧
        T.inorder = (plug fs (.node (.node ll c kc cc bc lr) p kp cp bp r)).inorder) ∧
    (∀ (cl gl gr r : Tree K) (p c g : Nat) (kp kc kg : K) (cp bp cc bc cg bg : Int),
      Represents me
        (plug fs (.node (.node cl c kc cc bc (.node gl g kg cg bg gr)) p kp cp bp r)) →
      ∃ me1 T, multiset_repair_left_right me p c g = some (g, me1) ∧ Represents me1 T ∧
        T.entries = (plug fs
          (.node (.node cl c kc cc bc (.node gl g kg cg bg gr)) p kp cp bp r)).entries ∧
        T.inorder = (plug fs
          (.node (.node cl c kc cc bc (.node gl g kg cg bg gr)) p kp cp bp r)).inorder) ∧
    (∀ (l gl gr cr : Tree K) (p c g : Nat) (kp kc kg : K) (cp bp cc bc cg bg : Int),
      Represents me
        (plug fs (.node l p kp cp bp (.node (.node gl g kg cg bg gr) c kc cc bc cr))) →
      ∃ me1 T, multiset_repair_right_left me p c g = some (g, me1) ∧ Represents me1 T ∧
        T.entries = (plug fs
          (.node l p kp cp bp (.node (.node gl g kg cg bg gr) c kc cc bc cr))).entries ∧
        T.inorder = (plug fs
          (.node l p kp cp bp (.node (.node gl g kg cg bg gr) c kc cc bc cr))).inorder) :=
  ⟨rotate_left_entries me fs, rotate_right_entries me fs, repair_left_entries me fs,
    repair_right_entries me fs, repair_left_right_entries me fs,
    repair_right_left_entries me fs⟩

theorem rotations_preserve_inorder_witness :
    Represents example_fib tree_fib ∧
    (∃ me1 T, multiset_rotate_left example_fib 0 5 = some me1 ∧ Represents me1 T ∧
      T.entries = tree_fib.entries ∧ T.inorder = tree_fib.inorder) ∧
    (∃ me1 T, multiset_rotate_right example_fib 0 1 = some me1 ∧ Represents me1 T ∧
      T.entries = tree_fib.entries ∧ T.inorder = tree_fib.inorder) ∧
    (∃ me1 T, multiset_repair_left example_fib 0 5 = some (5, me1) ∧ Represents me1 T ∧
      T.entries = tree_fib.entries ∧ T.inorder = tree_fib.inorder) ∧
    (∃ me1 T, multiset_repair_right example_fib 0 1 = some (1, me1) ∧ Represents me1 T ∧
      T.entries = tree_fib.entries ∧ T.inorder = tree_fib.inorder) ∧
    (∃ me1 T, multiset_repair_left_right example_fib 0 1 3 = some (3, me1) ∧
      Represents me1 T ∧ T.entries = tree_fib.entries ∧ T.inorder = tree_fib.inorder) ∧
    (∃ me1 T, multiset_repair_right_left example_fib 0 5 6 = some (6, me1) ∧
      Represents me1 T ∧ T.entries = tree_fib.entries ∧ T.inorder = tree_fib.inorder) :=
  have h := rotations_preserve_inorder example_fib []
  ⟨example_fib_represents,
    h.1 _ _ _ 0 5 50 80 1 1 1 1 example_fib_represents,
    h.2.1 _ _ _ 0 1 50 20 1 1 1 1 example_fib_represents,
    h.2.2.1 _ _ _ 0 5 50 80 1 1 1 1 example_fib_represents,
    h.2.2.2.1 _ _ _ 0 1 50 20 1 1 1 1 example_fib_represents,
    h.2.2.2.2.1 _ _ _ _ 0 1 3 50 20 30 1 1 1 1 1 1 example_fib_represents,
    h.2.2.2.2.2 _ _ _ _ 0 5 6 50 80 60 1 1 1 1 1 1 example_fib_represents⟩

/-- C25: the shape produced by `multiset_rotate_left`. For every container holding a tree
with consistent parent pointers and every node `p` of it (at the end of the path `fs`) whose
right child is `c`: before the call `p` has the parent given by the path, the left subtree
`l` and the right child `c`, and `c` has the subtrees `rl` and `rr`; the call
`multiset_rotate_left(me, p, c)` returns, and afterwards the slot that held `p` (the root
pointer when `p` had no parent, else the left or the right link of its former parent, whose
other fields are unchanged) holds `c`; `c` has that former parent as its parent, `p` as its
left child and still `rr` on its right; `p` has `c` as its parent, still `l` on its left and
the former left subtree `rl` of `c` on its right; and the root of `rl`, when there is one,
has `p` as its parent and is otherwise unchanged. -/
theorem rotate_left_produces_shape {K : Type} (me : internal_multiset K) (fs : List (Step K))
    (l rl rr : Tree K) (p c : Nat) (kp kc : K) (cp bp cc bc : Int)
    (hrep : Represents me (plug fs (.node l p kp cp bp (.node rl c kc cc bc rr)))) :
    rd me.mem p = some { count := cp, parent := parptr fs, balance := bp, key := kp,
                         left := l.ptr, right := some c } ∧
    rd me.mem c = some { count := cc, parent := some p, balance := bc, key := kc,
                         left := rl.ptr, right := rr.ptr } ∧
    ∃ me1, multiset_rotate_left me p c = some me1 ∧
      (match fs with
        | [] => me1.root = some c
        | .L a k ca b r :: gs =>
          rd me1.mem a = some { count := ca, parent := parptr gs, balance := b, key := k,
                                left := some c, right := r.ptr }
        | .R l0 a k ca b :: gs =>
          rd me1.mem a = some { count := ca, parent := parptr gs, balance := b, key := k,
                                left := l0.ptr, right := some c }) ∧
      rd me1.mem c = some { count := cc, parent := parptr fs, balance := bc, key := kc,
                            left := some p, right := rr.ptr } ∧
      rd me1.mem p = some { count := cp, parent := some c, balance := bp, key := kp,
                            left := l.ptr, right := rl.ptr } ∧
      (∀ x n, rl.ptr = some x → rd me.mem x = some n →
        rd me1.mem x = some { n with parent := some p }) := by
  have hp := rd_focus me fs l _ p kp cp bp hrep
  have hc := rd_focus me (.R l p kp cp bp :: fs) rl rr c kc cc bc hrep
  simp only [ptr_node, parptr_cons, addr_R] at hp hc
  exact ⟨hp, hc, rotate_left_shape me fs l rl rr p c kp kc cp bp cc bc hrep⟩

theorem rotate_left_produces_shape_witness :
    Represents example_fib tree_fib ∧
    rd example_fib.mem 5 = some { count := 1, parent := some 0, balance := 1, key := 80,
                                  left := some 6, right := some 8 } ∧
    rd example_fib.mem 8 = some { count := 1, parent := some 5, balance := 1, key := 100,
                                  left := some 9, right := some 10 } ∧
    ∃ me1, multiset_rotate_left example_fib 5 8 = some me1 ∧
      rd me1.mem 0 = some { count := 1, parent := none, balance := 1, key := 50,
                            left := some 1, right := some 8 } ∧
      rd me1.mem 8 = some { count := 1, parent := some 0, balance := 1, key := 100,
                            left := some 5, right := some 10 } ∧
      rd me1.mem 5 = some { count := 1, parent := some 8, balance := 1, key := 80,
                            left := some 6, right := some 9 } ∧
      (∀ x n, some 9 = some x → rd example_fib.mem x = some n →
        rd me1.mem x = some { n with parent := some 5 }) :=
  ⟨example_fib_represents,
    rotate_left_produces_shape example_fib [.R tree_fib.left 0 50 1 1]
      (.node .nil 6 60 1 1 (leaf 7 70)) (leaf 9 90) (.node .nil 10 110 1 1 (leaf 11 120))
      5 8 80 100 1 1 1 1 example_fib_represents⟩

/-- C26: left/right mirror symmetry of the rotation primitives. Writing `mirror` for the
operation that swaps left and right at every node and negates every balance factor: for
every container holding a tree in which `c` is the right child of `p`,
`multiset_rotate_left` on the container and `multiset_rotate_right` on the mirrored container
both return, the tree that the second leaves is the mirror image of the tree that the first
leaves, and the mirror image of the second result has the root pointer and, at every node of
the tree, the record of the first result (and likewise with left and right exchanged); and
for every parent `p` with balance 2 or -2, `child` its child on the heavy side, `gc` the
grandchild facing `p` when the balance of `child` has the opposite sign, that grandchild
having a balance in {-1, 0, 1}, `multiset_repair` on the container and on the mirrored
container both return the same node, and the results are mirror images of each other in the
same sense, balance factors included. -/
theorem rotation_mirror_symmetry {K : Type} (me : internal_multiset K) (fs : List (Step K)) :
    (∀ (l rl rr : Tree K) (p c : Nat) (kp kc : K) (cp bp cc bc : Int),
      Represents me (plug fs (.node l p kp cp bp (.node rl c kc cc bc rr))) →
      ∃ me1 me2 T, multiset_rotate_left me p c = some me1 ∧
        multiset_rotate_right (mirror me) p c = some me2 ∧
        Represents me1 T ∧ Represents me2 T.mirror ∧
        (mirror me2).root = me1.root ∧ ∀ a ∈ T.addrs, rd (mirror me2).mem a = rd me1.mem a) ∧
    (∀ (ll lr r : Tree K) (p c : Nat) (kp kc : K) (cp bp cc bc : Int),
      Represents me (plug fs (.node (.node ll c kc cc bc lr) p kp cp bp r)) →
      ∃ me1 me2 T, multiset_rotate_right me p c = some me1 ∧
        multiset_rotate_left (mirror me) p c = some me2 ∧
        Represents me1 T ∧ Represents me2 T.mirror ∧
        (mirror me2).root = me1.root ∧ ∀ a ∈ T.addrs, rd (mirror me2).mem a = rd me1.mem a) ∧
    (∀ (l r : Tree K) (p : Nat) (kp : K) (cp bp : Int) (child : Nat) (gc : Option Nat)
      (u : Tree K),
      Represents me (plug fs (.node l p kp cp bp r)) →
      repair_t (.node l p kp cp bp r) = some u →
      (if bp = 2 then r.ptr = some child ∧ (r.bal = -1 → gc = r.left.ptr)
        else l.ptr = some child ∧ (l.bal = 1 → gc = l.right.ptr)) →
      (bp = 2 ∨ bp = -2) →
      ((bp = 2 → r.bal = -1 → -1 ≤ r.left.bal ∧ r.left.bal ≤ 1) ∧
        (bp = -2 → l.bal = 1 → -1 ≤ l.right.bal ∧ l.right.bal ≤ 1)) →
      ∃ x me1 me2 T, multiset_repair me p child gc = some (x, me1) ∧
        multiset_repair (mirror me) p child gc = some (x, me2) ∧
        Represents me1 T ∧ Represents me2 T.mirror ∧
        (mirror me2).root = me1.root ∧ ∀ a ∈ T.addrs, rd (mirror me2).mem a = rd me1.mem a) := by
  refine ⟨?_, ?_, ?_⟩
  · intro l rl rr p c kp kc cp bp cc bc hrep
    obtain ⟨me1, me2, h1, h2, r1, r2⟩ :=
      rotate_mirror_spec me fs l rl rr p c kp kc cp bp cc bc hrep
    exact ⟨me1, me2, _, h1, h2, r1, r2, mirror_agree me1 me2 _ r1 r2⟩
  · intro ll lr r p c kp kc cp bp cc bc hrep
    obtain ⟨me1, me2, h1, h2, r1, r2⟩ :=
      rotate_right_mirror_spec me fs ll lr r p c kp kc cp bp cc bc hrep
    exact ⟨me1, me2, _, h1, h2, r1, r2, mirror_agree me1 me2 _ r1 r2⟩
  · intro l r p kp cp bp child gc u hrep hu hchild h2 hg
    obtain ⟨x, me1, me2, h1, h2, r1, r2⟩ :=
      repair_mirror_spec me fs l r p kp cp bp child gc u hrep hu hchild h2 hg
    exact ⟨x, me1, me2, _, h1, h2, r1, r2, mirror_agree me1 me2 _ r1 r2⟩

theorem rotation_mirror_symmetry_witness :
    Represents example_fib tree_fib ∧ Represents example_zigzag tree_zigzag ∧
    (∃ me1 me2 T, multiset_rotate_left example_fib 0 5 = some me1 ∧
      multiset_rotate_right (mirror example_fib) 0 5 = some me2 ∧
      Represents me1 T ∧ Represents me2 T.mirror ∧
        (mirror me2).root = me1.root ∧ ∀ a ∈ T.addrs, rd (mirror me2).mem a = rd me1.mem a) ∧
    (∃ me1 me2 T, multiset_rotate_right example_fib 0 1 = some me1 ∧
      multiset_rotate_left (mirror example_fib) 0 1 = some me2 ∧
      Represents me1 T ∧ Represents me2 T.mirror ∧
        (mirror me2).root = me1.root ∧ ∀ a ∈ T.addrs, rd (mirror me2).mem a = rd me1.mem a) ∧
    (∃ x me1 me2 T, multiset_repair example_zigzag 0 1 (some 2) = some (x, me1) ∧
      multiset_repair (mirror example_zigzag) 0 1 (some 2) = some (x, me2) ∧
      Represents me1 T ∧ Represents me2 T.mirror ∧
        (mirror me2).root = me1.root ∧ ∀ a ∈ T.addrs, rd (mirror me2).mem a = rd me1.mem a) :=
  ⟨example_fib_represents, example_zigzag_represents,
    (rotation_mirror_symmetry example_fib []).1 _ _ _ 0 5 50 80 1 1 1 1
      example_fib_represents,
    (rotation_mirror_symmetry example_fib []).2.1 _ _ _ 0 1 50 20 1 1 1 1
      example_fib_represents,
    (rotation_mirror_symmetry example_zigzag []).2.2 .nil
      (.node (leaf 2 30) 1 40 1 (-1) .nil) 0 20 1 2 1 (some 2)
      (.node (.node .nil 0 20 1 0 .nil) 2 30 1 0 (.node .nil 1 40 1 0 .nil))
      example_zigzag_represents rfl (by simp [leaf, Tree.left]) (Or.inl rfl)
      (by simp [leaf, Tree.left, Tree.bal])⟩

/-- C27: the documented precondition of `multiset_repair` holds at every call. On every
container holding a tree with consistent parent pointers and correct balance factors, each
of `multiset_put` (whatever the outcome of its allocations), `multiset_remove`,
`multiset_remove_all` and `multiset_clear` returns, and every call of `multiset_repair` made
on the way (the entries `L` added to the record of the calls, each the balance of the parent
and the balance of the child at the time of the call) has a parent balance of 2 or -2 and a
child balance in {-1, 0, 1}. -/
theorem repair_precondition_holds {K : Type} (me : internal_multiset K) (key : K)
    (t : Tree K) (node_ok key_ok : Bool) (hrep : Represents me t) (havl : AVL t) :
    (∃ r L, multiset_put me key node_ok key_ok = some r ∧ r.2.repairs = me.repairs ++ L ∧
      ∀ e ∈ L, (e.1 = 2 ∨ e.1 = -2) ∧ -1 ≤ e.2 ∧ e.2 ≤ 1) ∧
    (∃ r L, multiset_remove me key = some r ∧ r.2.repairs = me.repairs ++ L ∧
      ∀ e ∈ L, (e.1 = 2 ∨ e.1 = -2) ∧ -1 ≤ e.2 ∧ e.2 ≤ 1) ∧
    (∃ r L, multiset_remove_all me key = some r ∧ r.2.repairs = me.repairs ++ L ∧
      ∀ e ∈ L, (e.1 = 2 ∨ e.1 = -2) ∧ -1 ≤ e.2 ∧ e.2 ≤ 1) ∧
    (∃ me1 L, multiset_clear me = some me1 ∧ me1.repairs = me.repairs ++ L ∧
      ∀ e ∈ L, (e.1 = 2 ∨ e.1 = -2) ∧ -1 ≤ e.2 ∧ e.2 ≤ 1) := by
  refine ⟨?_, remove_any_log me key t hrep havl, remove_all_any_log me key t hrep havl,
    clear_log me t hrep havl⟩
  obtain ⟨r, L, h1, g1, hL⟩ := put_any_log me key t node_ok key_ok hrep havl
  refine ⟨r, L, h1, g1, fun e he => ⟨(hL e he).1, ?_⟩⟩
  rcases (hL e he).2 with h | h <;> omega

theorem repair_precondition_holds_witness :
    Represents example_fib tree_fib ∧ AVL tree_fib ∧
    (∃ r L, multiset_put example_fib 130 true true = some r ∧
      r.2.repairs = example_fib.repairs ++ L ∧
      ∀ e ∈ L, (e.1 = 2 ∨ e.1 = -2) ∧ -1 ≤ e.2 ∧ e.2 ≤ 1) ∧
    (∃ r L, multiset_remove example_fib 130 = some r ∧
      r.2.repairs = example_fib.repairs ++ L ∧
      ∀ e ∈ L, (e.1 = 2 ∨ e.1 = -2) ∧ -1 ≤ e.2 ∧ e.2 ≤ 1) ∧
    (∃ r L, multiset_remove_all example_fib 130 = some r ∧
      r.2.repairs = example_fib.repairs ++ L ∧
      ∀ e ∈ L, (e.1 = 2 ∨ e.1 = -2) ∧ -1 ≤ e.2 ∧ e.2 ≤ 1) ∧
    (∃ me1 L, multiset_clear example_fib = some me1 ∧
      me1.repairs = example_fib.repairs ++ L ∧
      ∀ e ∈ L, (e.1 = 2 ∨ e.1 = -2) ∧ -1 ≤ e.2 ∧ e.2 ≤ 1) :=
  ⟨example_fib_represents, example_fib_avl,
    repair_precondition_holds example_fib 130 tree_fib true true example_fib_represents
      example_fib_avl⟩

/-- C28: no absent node is dereferenced during rebalancing. In the embedding a dereference
of an absent node leaves a function without result: `multiset_repair` has none when it
selects a double rotation and its `grand_child` is `NULL`, and `multiset_repair_pivot` has
none when the child it selects (the right child of `item` when the left side shrank, else
the left child) is absent, or when it selects a double rotation and the grandchild it picks
is absent. On every container holding a tree with consistent parent pointers and correct
balance factors and for every key, `multiset_put` (whatever the outcome of its allocations),
`multiset_remove` and `multiset_remove_all` nevertheless return, so none of these cases
arises in them. -/
theorem rebalancing_dereferences_no_absent_node {K : Type} (me : internal_multiset K)
    (key : K) (t : Tree K) (node_ok key_ok : Bool) (hrep : Represents me t) (havl : AVL t) :
    (∀ (m : internal_multiset K) (p c : Nat) (pn cn : node K),
      rd m.mem p = some pn → rd m.mem c = some cn →
      (pn.balance = 2 ∧ cn.balance = -1) ∨ (pn.balance ≠ 2 ∧ cn.balance = 1) →
      multiset_repair m p c none = none) ∧
    (∀ (m : internal_multiset K) (item : Nat) (flag : Bool) (it : node K),
      rd m.mem item = some it → (if flag = true then it.right else it.left) = none →
      multiset_repair_pivot m item flag = none) ∧
    (∀ (m : internal_multiset K) (item : Nat) (flag : Bool) (it cn : node K) (child : Nat),
      rd m.mem item = some it → (if flag = true then it.right else it.left) = some child →
      rd m.mem child = some cn → (if cn.balance = 1 then cn.right else cn.left) = none →
      (it.balance = 2 ∧ cn.balance = -1) ∨ (it.balance ≠ 2 ∧ cn.balance = 1) →
      multiset_repair_pivot m item flag = none) ∧
    (∃ r, multiset_put me key node_ok key_ok = some r) ∧
    (∃ r, multiset_remove me key = some r) ∧
    (∃ r, multiset_remove_all me key = some r) := by
  refine ⟨repair_absent_grand_child, repair_pivot_absent_child,
    repair_pivot_absent_grand_child, ?_, ?_, ?_⟩
  · obtain ⟨r, -, h, -⟩ := put_any_log me key t node_ok key_ok hrep havl
    exact ⟨r, h⟩
  · obtain ⟨r, -, h, -⟩ := remove_any_log me key t hrep havl
    exact ⟨r, h⟩
  · obtain ⟨r, -, h, -⟩ := remove_all_any_log me key t hrep havl
    exact ⟨r, h⟩

theorem rebalancing_dereferences_no_absent_node_witness :
    Represents example_fib tree_fib ∧ AVL tree_fib ∧
    (∃ r, multiset_put example_fib 130 true true = some r) ∧
    (∃ r, multiset_remove example_fib 10 = some r) ∧
    (∃ r, multiset_remove_all example_fib 10 = some r) :=
  ⟨example_fib_represents, example_fib_avl,
    (rebalancing_dereferences_no_absent_node example_fib 130 tree_fib true true
      example_fib_represents example_fib_avl).2.2.2.1,
    (rebalancing_dereferences_no_absent_node example_fib 10 tree_fib true true
      example_fib_represents example_fib_avl).2.2.2.2⟩

/-- C29: the balanced-child single-rotation case does not arise from insertion. On every
container holding a tree with consistent parent pointers and correct balance factors and for
every key, `multiset_put` returns (whatever the outcome of its allocations), and at every
call of `multiset_repair` that it makes the balance of the child is 1 or -1, never 0; so the
`child->balance == 0` branch of `multiset_repair_left` and `multiset_repair_right`, which
`multiset_repair` reaches with that child, is not taken during an insertion. A deletion does
take it: after the keys 2, 1, 4, 3, 5 were put into the empty container, without any call of
`multiset_repair`, the removal of 1 calls it once, with a parent balance of 2 and a child
balance of 0. -/
theorem put_never_repairs_balanced_child {K : Type} (me : internal_multiset K) (key : K)
    (t : Tree K) (node_ok key_ok : Bool) (hrep : Represents me t) (havl : AVL t) :
    (∃ r L, multiset_put me key node_ok key_ok = some r ∧ r.2.repairs = me.repairs ++ L ∧
      ∀ e ∈ L, (e.2 = 1 ∨ e.2 = -1) ∧ e.2 ≠ 0) ∧
    (run_ops [.put 2, .put 1, .put 4, .put 3, .put 5] example_empty).map
      (fun x => (x.1, x.2.repairs)) = some ([0, 0, 0, 0, 0], []) ∧
    (run_ops [.put 2, .put 1, .put 4, .put 3, .put 5, .remove 1] example_empty).map
      (fun x => (x.1, x.2.repairs)) = some ([0, 0, 0, 0, 0, 1], [(2, 0)]) := by
  refine ⟨?_, by decide, by decide⟩
  obtain ⟨r, L, h1, g1, hL⟩ := put_any_log me key t node_ok key_ok hrep havl
  refine ⟨r, L, h1, g1, fun e he => ⟨(hL e he).2, ?_⟩⟩
  rcases (hL e he).2 with h | h <;> omega

theorem put_never_repairs_balanced_child_witness :
    Represents example_fib tree_fib ∧ AVL tree_fib ∧
    ∃ r L, multiset_put example_fib 130 true true = some r ∧
      r.2.repairs = example_fib.repairs ++ L ∧ ∀ e ∈ L, (e.2 = 1 ∨ e.2 = -1) ∧ e.2 ≠ 0 :=
  ⟨example_fib_represents, example_fib_avl,
    (put_never_repairs_balanced_child example_fib 130 tree_fib true true
      example_fib_represents example_fib_avl).1⟩

/-- C30: put followed by remove restores the abstract contents. For every consistent
container (its tree BST ordered under a total-order comparator, AVL balanced, parent
consistent) and every key `key`, when no allocation fails `multiset_put` of `key` returns 0,
the following `multiset_remove` of `key` returns 1, and then `multiset_size` and
`multiset_count j` for every key `j` have the values they had before the put. -/
theorem put_then_remove_restores_contents {K : Type} (me : internal_multiset K) (key : K)
    (t : Tree K) (hrep : Represents me t) (havl : AVL t) (hbst : BST me.comparator t)
    (hord : TotalOrder me.comparator) :
    ∃ me1 me2, multiset_put me key true true = some (0, me1) ∧
      multiset_remove me1 key = some (1, me2) ∧
      multiset_size me2 = multiset_size me ∧
      ∀ j, multiset_count me2 j = multiset_count me j :=
  put_remove_spec me key t hrep havl hbst hord

theorem put_then_remove_restores_contents_witness :
    Represents example_fib tree_fib ∧ AVL tree_fib ∧
      BST example_fib.comparator tree_fib ∧ TotalOrder example_fib.comparator ∧
      ∃ me1 me2, multiset_put example_fib 130 true true = some (0, me1) ∧
        multiset_remove me1 130 = some (1, me2) ∧
        multiset_size me2 = multiset_size example_fib ∧
        ∀ j, multiset_count me2 j = multiset_count example_fib j :=
  ⟨example_fib_represents, example_fib_avl, example_fib_bst, compare_int_total,
    put_then_remove_restores_contents example_fib 130 tree_fib example_fib_represents
      example_fib_avl example_fib_bst compare_int_total⟩

/-! ## The claim about the comparator of the tests -/

/-- C31 does not hold of the code: `compare_int`, its `return a - b;` computed in 32-bit
two's-complement arithmetic, is not a valid ordering of all values of type `int`. For
`a = INT_MIN` and `b = 1`, `a < b` but the result is `INT_MAX`, which is positive; for
`a = INT_MAX` and `b = -1`, `a > b` but the result is `INT_MIN`, which is negative. So the
statement that for all 32-bit `a` and `b` the result is negative if and only if `a < b`,
zero if and only if `a = b`, and positive if and only if `a > b` is false. -/
theorem compare_int_overflows :
    INT_MIN ≤ INT_MIN ∧ INT_MIN ≤ INT_MAX ∧ INT_MIN ≤ 1 ∧ 1 ≤ INT_MAX ∧ INT_MIN ≤ -1 ∧
    -1 ≤ INT_MAX ∧
    INT_MIN < 1 ∧ compare_int32 INT_MIN 1 = INT_MAX ∧ 0 < compare_int32 INT_MIN 1 ∧
    INT_MAX > -1 ∧ compare_int32 INT_MAX (-1) = INT_MIN ∧ compare_int32 INT_MAX (-1) < 0 ∧
    ¬ (∀ a b : Int, INT_MIN ≤ a → a ≤ INT_MAX → INT_MIN ≤ b → b ≤ INT_MAX →
        (compare_int32 a b < 0 ↔ a < b) ∧ (compare_int32 a b = 0 ↔ a = b) ∧
        (0 < compare_int32 a b ↔ a > b)) := by
  refine ⟨by decide, by decide, by decide, by decide, by decide, by decide, by decide,
    by decide, by decide, by decide, by decide, by decide, ?_⟩
  intro h
  have h1 := (h INT_MIN 1 (by decide) (by decide) (by decide) (by decide)).1
  revert h1
  decide

end Containers
